import Mathlib

/-!
# Consistency checker (`fsck`) of the pfs driver

A shallow embedding of `src/server/pfs/server/driver_fsck.go`.

* Go maps are association lists (`GoMap`); the order of the list is the order in which one
  particular run of `range` visits the entries.
* The callback handed to `fsck` (the sink) is a function of the violations delivered so far and
  of the violation being delivered; `none` is a nil return.
* A field selection through a nil pointer stops the scan with `Stop.nilDeref`.
* The pointers the checker tests against nil (`Head`, `ParentCommit`) are options; the identity
  of a record and the entries of its lists are values, as the key derivations dereference them.
* The record types of package `pfs` carry the fields the checker reads; the key derivations of
  package `pfsdb` are parameters (`Keys`).
* Definitions come first, then the lemmas about them, then the statements about `fsck`.

Two more sources are embedded after the definitions of the checker, each in a namespace of its
own: `serviceenv/logging_transport.go` (`Serviceenv`) and the generated code of
`fileset/index/index.pb.go` (`IndexPb`), where byte slices are lists of numbers, the machine
integers are taken modulo their width, and an index out of range ends a call in `Result.panic`.
-/

namespace Fsck

/-! ## Data model -/

/-- Modelled from the spec: `pfs.Repo`, whose identity is its name. -/
structure Repo where
  Name : String
deriving DecidableEq, Repr

/-- Modelled from the spec: `pfs.Branch`, whose identity is (Repo, Name). -/
structure Branch where
  Repo : Repo
  Name : String
deriving DecidableEq, Repr

/-- Modelled from the spec: `pfs.Commit`, whose identity is (Repo, ID). -/
structure Commit where
  Repo : Repo
  ID : String
deriving DecidableEq, Repr

/-- Modelled from the spec: `pfs.BranchInfo`, with the fields `fsck` reads. `Head` is a pointer
that may be nil. -/
structure BranchInfo where
  Branch : Branch
  Head : Option Commit
  Provenance : List Fsck.Branch
  Subvenance : List Fsck.Branch
  DirectProvenance : List Fsck.Branch
deriving DecidableEq, Repr

/-- Modelled from the spec: `pfs.CommitInfo`, with the fields `fsck` reads. `ParentCommit` is a
pointer that may be nil. -/
structure CommitInfo where
  Commit : Commit
  ParentCommit : Option Fsck.Commit
  ChildCommits : List Fsck.Commit
deriving DecidableEq, Repr

/-- The functions of `pfsdb` and of the generated `pfs` code that `fsck` calls and that are not
among the sources: the two key derivations and the `%s` rendering of a commit. -/
structure Keys where
  BranchKey : Branch → String
  CommitKey : Commit → String
  CommitString : Commit → String

/-! ## Go maps -/

/-- A Go `map[string]V`: an association list, in the order a `range` loop visits it. -/
abbrev GoMap (V : Type) := List (String × V)

/-- The lookup `m[k]`, `none` when the key is absent (`ok = false`, nil for pointer values). -/
def GoMap.get? {V : Type} (m : GoMap V) (k : String) : Option V :=
  List.lookup k m

/-- The assignment `m[k] = v`. -/
def GoMap.set {V : Type} : GoMap V → String → V → GoMap V
  | [], k, v => [(k, v)]
  | (k', v') :: m, k, v => if k' = k then (k', v) :: m else (k', v') :: GoMap.set m k v

/-- The number of entries, `len(m)`. -/
def GoMap.len {V : Type} (m : GoMap V) : Nat := m.length

/-! ## Helper predicates of the source -/

/-- The key map built by `for _, branch := range a { aMap[BranchKey(branch)] = true }`. -/
def keyMap (K : Keys) (a : List Branch) : GoMap Bool :=
  a.foldl (fun m branch => GoMap.set m (K.BranchKey branch) true) []

/-- The source function `equalBranches` (lines 18-37). -/
def equalBranches (K : Keys) (a b : List Branch) : Bool :=
  let aMap := keyMap K a
  let bMap := keyMap K b
  if GoMap.len aMap ≠ GoMap.len bMap then false
  else aMap.all (fun e => (GoMap.get? bMap e.1).getD false)

/-- The source function `branchInSet` (lines 39-46); `proto.Equal` is equality of values. -/
def branchInSet (branch : Branch) : List Branch → Bool
  | [] => false
  | b :: set => if branch = b then true else branchInSet branch set

/-! ## Violations -/

/-- The error values handed to `onError` (lines 48-127). -/
inductive Violation where
  | ErrBranchProvenanceTransitivity (BranchInfo : BranchInfo) (FullProvenance : List Branch)
  | ErrBranchSubvenanceTransitivity (BranchInfo : BranchInfo) (MissingSubvenance : Branch)
  | ErrBranchInfoNotFound (Branch : Branch)
  | ErrCommitInfoNotFound (Location : String) (Commit : Commit)
  | ErrCommitAncestryBroken (Parent : Commit) (Child : Commit)
  | ErrMissingBranchHead (Branch : Branch)
deriving DecidableEq, Repr

/-! ## The scan as a state-passing program -/

/-- Why a scan stopped early: the sink returned an error, or a nil pointer was dereferenced. -/
inductive Stop where
  | sinkError (err : String)
  | nilDeref
deriving DecidableEq, Repr

/-- The sink `cb`, seen through `onError`: given the violations delivered so far and the one being
delivered, its return value (`none` is nil). -/
abbrev Sink := List Violation → Violation → Option String

/-- A piece of the scan: from the violations delivered so far to the violations delivered after it
and, if the scan has to stop there, the reason. -/
abbrev Act := List Violation → List Violation × Option Stop

/-- Falling through to the next statement. -/
def Act.skip : Act := fun log => (log, none)

/-- Sequencing: the second piece runs only if the first did not stop the scan. -/
def Act.seq (a b : Act) : Act := fun log =>
  match a log with
  | (log', none) => b log'
  | (log', some stop) => (log', some stop)

/-- A nil pointer dereference. -/
def Act.crash : Act := fun log => (log, some Stop.nilDeref)

/-- The statement `if err := onError(v); err != nil { return err }` (line 134 and its uses). -/
def onError (cb : Sink) (v : Violation) : Act := fun log =>
  (log ++ [v], (cb log v).map Stop.sinkError)

/-- A `for _, x := range xs` loop over a slice whose body may return from `fsck`. -/
def forEach {α : Type} (body : α → Act) : List α → Act
  | [] => Act.skip
  | x :: xs => Act.seq (body x) (forEach body xs)

/-- The snapshot: the maps `branchInfos` and `commitInfos` (lines 140-141). -/
structure Snapshot where
  branchInfos : GoMap BranchInfo
  commitInfos : GoMap CommitInfo
deriving DecidableEq, Repr

/-- The list `union` of lines 166-174. -/
def unionOf (K : Keys) (s : Snapshot) (bi : BranchInfo) : List Branch :=
  bi.DirectProvenance.foldl
    (fun union directProvenance =>
      let directProvenanceInfo := GoMap.get? s.branchInfos (K.BranchKey directProvenance)
      let union := union ++ [directProvenance]
      match directProvenanceInfo with
      | some info => union ++ info.Provenance
      | none => union)
    [bi.Branch]

/-- The provenance check of lines 176-183. -/
def checkProvenance (K : Keys) (s : Snapshot) (cb : Sink) (bi : BranchInfo) : Act :=
  let union := unionOf K s bi
  if ¬ equalBranches K (bi.Provenance ++ [bi.Branch]) union then
    onError cb (Violation.ErrBranchProvenanceTransitivity bi union)
  else Act.skip

/-- The subvenance loop of lines 185-196. The lookup result is dereferenced without a nil
check (`provBranchInfo.Subvenance`). -/
def checkSubvenance (K : Keys) (s : Snapshot) (cb : Sink) (bi : BranchInfo) : Act :=
  forEach
    (fun provBranch =>
      match GoMap.get? s.branchInfos (K.BranchKey provBranch) with
      | none => Act.crash
      | some provBranchInfo =>
        if ¬ branchInSet bi.Branch provBranchInfo.Subvenance then
          onError cb (Violation.ErrBranchSubvenanceTransitivity provBranchInfo bi.Branch)
        else Act.skip)
    bi.Provenance

/-- The head check of lines 198-229. -/
def checkHead (K : Keys) (s : Snapshot) (cb : Sink) (bi : BranchInfo) : Act :=
  match bi.Head with
  | none => onError cb (Violation.ErrMissingBranchHead bi.Branch)
  | some head =>
    forEach
      (fun provBranch =>
        match GoMap.get? s.branchInfos (K.BranchKey provBranch) with
        | none => onError cb (Violation.ErrBranchInfoNotFound provBranch)
        | some provBranchInfo =>
          if provBranchInfo.Head ≠ none then
            match GoMap.get? s.commitInfos (K.CommitKey head) with
            | none => onError cb (Violation.ErrCommitInfoNotFound "head commit provenance (=>)" head)
            | some _ => Act.skip
          else Act.skip)
      bi.Provenance

/-- The body of the branch loop (lines 163-230). -/
def checkBranch (K : Keys) (s : Snapshot) (cb : Sink) (bi : BranchInfo) : Act :=
  Act.seq (checkProvenance K s cb bi) (Act.seq (checkSubvenance K s cb bi) (checkHead K s cb bi))

/-- The search of lines 245-251: is some element of `children` equal to `commit`? -/
def foundIn (commit : Commit) : List Commit → Bool
  | [] => false
  | child :: children => if child = commit then true else foundIn commit children

/-- The parent check of lines 234-262. -/
def checkParent (K : Keys) (s : Snapshot) (cb : Sink) (commitInfo : CommitInfo) : Act :=
  match commitInfo.ParentCommit with
  | none => Act.skip
  | some parentCommit =>
    match GoMap.get? s.commitInfos (K.CommitKey parentCommit) with
    | none =>
      onError cb (Violation.ErrCommitInfoNotFound
        ("parent commit of " ++ K.CommitString commitInfo.Commit) parentCommit)
    | some parentCommitInfo =>
      if ¬ foundIn commitInfo.Commit parentCommitInfo.ChildCommits then
        onError cb (Violation.ErrCommitAncestryBroken parentCommitInfo.Commit commitInfo.Commit)
      else Act.skip

/-- The child loop of lines 264-285. -/
def checkChildren (K : Keys) (s : Snapshot) (cb : Sink) (commitInfo : CommitInfo) : Act :=
  forEach
    (fun child =>
      match GoMap.get? s.commitInfos (K.CommitKey child) with
      | none =>
        onError cb (Violation.ErrCommitInfoNotFound
          ("child commit of " ++ K.CommitString commitInfo.Commit) child)
      | some childCommitInfo =>
        if childCommitInfo.ParentCommit = none ∨
            childCommitInfo.ParentCommit ≠ some commitInfo.Commit then
          onError cb (Violation.ErrCommitAncestryBroken commitInfo.Commit childCommitInfo.Commit)
        else Act.skip)
    commitInfo.ChildCommits

/-- The body of the commit loop (lines 233-286). -/
def checkCommit (K : Keys) (s : Snapshot) (cb : Sink) (commitInfo : CommitInfo) : Act :=
  Act.seq (checkParent K s cb commitInfo) (checkChildren K s cb commitInfo)

/-- The two loops of lines 162-286, over the entries of the two maps in their visiting order. -/
def scan (K : Keys) (s : Snapshot) (cb : Sink) : Act :=
  Act.seq (forEach (fun e => checkBranch K s cb e.2) s.branchInfos)
    (forEach (fun e => checkCommit K s cb e.2) s.commitInfos)

/-- How a call of `fsck` ends: it returns (nil or an error), or it panics on a nil pointer. -/
inductive Outcome where
  | returned (err : Option String)
  | nilDereference
deriving DecidableEq, Repr

/-- What a call of `fsck` did: the violations handed to `onError`, in order, the commit records
created by the repair transaction, and how the call ended. -/
structure Run where
  calls : List Violation
  writes : List CommitInfo
  outcome : Outcome
deriving DecidableEq, Repr

/-- The function `fsck` from the collected snapshot on (lines 162-304). `newCommitInfos` is never
assigned to, so the loop of the repair transaction runs over an empty map; `txErr` is what
`dbutil.WithTx` returns around a body that returns nil. -/
def fsck (K : Keys) (s : Snapshot) (fix : Bool) (txErr : Option String) (cb : Sink) : Run :=
  match scan K s cb [] with
  | (log, some (Stop.sinkError err)) => ⟨log, [], Outcome.returned (some err)⟩
  | (log, some Stop.nilDeref) => ⟨log, [], Outcome.nilDereference⟩
  | (log, none) =>
    if fix then ⟨log, [], Outcome.returned txErr⟩ else ⟨log, [], Outcome.returned none⟩

/-! ## Properties used to state the checker's behaviour -/

/-- The keys of a Go map, in visiting order. -/
def GoMap.keys {V : Type} (m : GoMap V) : List String := m.map Prod.fst

/-- What the snapshot phase (lines 144-160) guarantees of the two maps: a key occurs once, and
every record is stored under the key of its own identity. -/
def Snapshot.Valid (K : Keys) (s : Snapshot) : Prop :=
  (GoMap.keys s.branchInfos).Nodup ∧ (GoMap.keys s.commitInfos).Nodup ∧
  (∀ e ∈ s.branchInfos, e.1 = K.BranchKey e.2.Branch) ∧
  (∀ e ∈ s.commitInfos, e.1 = K.CommitKey e.2.Commit)

instance (K : Keys) (s : Snapshot) : Decidable (s.Valid K) := by
  unfold Snapshot.Valid; infer_instance

/-- Every entry of every branch's `Provenance` has a record in `branchInfos`. -/
def Snapshot.ProvenanceRecorded (K : Keys) (s : Snapshot) : Prop :=
  ∀ e ∈ s.branchInfos, ∀ p ∈ e.2.Provenance, GoMap.get? s.branchInfos (K.BranchKey p) ≠ none

instance (K : Keys) (s : Snapshot) : Decidable (s.ProvenanceRecorded K) := by
  unfold Snapshot.ProvenanceRecorded; infer_instance

/-- A sink that never returns an error. -/
def Sink.NeverErrs (cb : Sink) : Prop := ∀ log v, cb log v = none

/-- The two branch lists have the same set of canonical keys. -/
def SameKeys (K : Keys) (a b : List Branch) : Prop :=
  (∀ k ∈ a.map K.BranchKey, k ∈ b.map K.BranchKey) ∧
  (∀ k ∈ b.map K.BranchKey, k ∈ a.map K.BranchKey)

instance (K : Keys) (a b : List Branch) : Decidable (SameKeys K a b) := by
  unfold SameKeys; infer_instance

/-- The `Provenance` recorded for branch `d`, empty when `d` has no record. -/
def recordedProvenance (K : Keys) (s : Snapshot) (d : Branch) : List Branch :=
  match GoMap.get? s.branchInfos (K.BranchKey d) with
  | some info => info.Provenance
  | none => []

/-- The list the claims call `union`, written as they word it: the branch, followed, for each
direct provenance `d` in order, by `d` and then the `Provenance` recorded for `d`. -/
def oneStepProvenance (K : Keys) (s : Snapshot) (bi : BranchInfo) : List Branch :=
  bi.Branch :: bi.DirectProvenance.flatMap (fun d => d :: recordedProvenance K s d)

/-- The `DirectProvenance` recorded for branch `d`, empty when `d` has no record. -/
def recordedDirect (K : Keys) (s : Snapshot) (d : Branch) : List Branch :=
  match GoMap.get? s.branchInfos (K.BranchKey d) with
  | some info => info.DirectProvenance
  | none => []

/-- One round of the repeated union: add the direct provenance of everything found so far. -/
def closureStep (K : Keys) (s : Snapshot) (acc : List Branch) : List Branch :=
  (acc ++ acc.flatMap (recordedDirect K s)).dedup

/-- The transitive closure of `DirectProvenance` from a branch, by repeated union over the
`DirectProvenance` lists of the snapshot: one round per branch of the snapshot. -/
def directClosure (K : Keys) (s : Snapshot) (bi : BranchInfo) : List Branch :=
  (closureStep K s)^[s.branchInfos.length] bi.DirectProvenance

/-- Ancestry duality as the spec words it: the parent's `ChildCommits` contains the commit, and
every declared child's `ParentCommit` is the commit. -/
def AncestryDual (K : Keys) (s : Snapshot) : Prop :=
  ∀ e ∈ s.commitInfos,
    (∀ pr, e.2.ParentCommit = some pr →
      ∃ prInfo, GoMap.get? s.commitInfos (K.CommitKey pr) = some prInfo ∧
        e.2.Commit ∈ prInfo.ChildCommits) ∧
    (∀ ch ∈ e.2.ChildCommits,
      ∃ chInfo, GoMap.get? s.commitInfos (K.CommitKey ch) = some chInfo ∧
        chInfo.ParentCommit = some e.2.Commit)

/-- Ancestry duality restricted to the links whose other end has a record. -/
def AncestryDualWhereRecorded (K : Keys) (s : Snapshot) : Prop :=
  ∀ e ∈ s.commitInfos,
    (∀ pr prInfo, e.2.ParentCommit = some pr →
      GoMap.get? s.commitInfos (K.CommitKey pr) = some prInfo →
        e.2.Commit ∈ prInfo.ChildCommits) ∧
    (∀ ch ∈ e.2.ChildCommits, ∀ chInfo,
      GoMap.get? s.commitInfos (K.CommitKey ch) = some chInfo →
        chInfo.ParentCommit = some e.2.Commit)

/-! ## The violations of one record, as lists -/

/-- What `checkProvenance` hands to `onError` when nothing stops it. -/
def provenanceViolations (K : Keys) (s : Snapshot) (bi : BranchInfo) : List Violation :=
  if ¬ equalBranches K (bi.Provenance ++ [bi.Branch]) (unionOf K s bi) then
    [Violation.ErrBranchProvenanceTransitivity bi (unionOf K s bi)]
  else []

/-- What `checkSubvenance` hands to `onError` when nothing stops it. -/
def subvenanceViolations (K : Keys) (s : Snapshot) (bi : BranchInfo) : List Violation :=
  bi.Provenance.flatMap (fun provBranch =>
    match GoMap.get? s.branchInfos (K.BranchKey provBranch) with
    | none => []
    | some provBranchInfo =>
      if ¬ branchInSet bi.Branch provBranchInfo.Subvenance then
        [Violation.ErrBranchSubvenanceTransitivity provBranchInfo bi.Branch]
      else [])

/-- What `checkHead` hands to `onError` when nothing stops it. -/
def headViolations (K : Keys) (s : Snapshot) (bi : BranchInfo) : List Violation :=
  match bi.Head with
  | none => [Violation.ErrMissingBranchHead bi.Branch]
  | some head =>
    bi.Provenance.flatMap (fun provBranch =>
      match GoMap.get? s.branchInfos (K.BranchKey provBranch) with
      | none => [Violation.ErrBranchInfoNotFound provBranch]
      | some provBranchInfo =>
        if provBranchInfo.Head ≠ none then
          match GoMap.get? s.commitInfos (K.CommitKey head) with
          | none => [Violation.ErrCommitInfoNotFound "head commit provenance (=>)" head]
          | some _ => []
        else [])

/-- What `checkBranch` hands to `onError` when nothing stops it. -/
def branchViolations (K : Keys) (s : Snapshot) (bi : BranchInfo) : List Violation :=
  provenanceViolations K s bi ++ (subvenanceViolations K s bi ++ headViolations K s bi)

/-- What `checkParent` hands to `onError` when nothing stops it. -/
def parentViolations (K : Keys) (s : Snapshot) (commitInfo : CommitInfo) : List Violation :=
  match commitInfo.ParentCommit with
  | none => []
  | some parentCommit =>
    match GoMap.get? s.commitInfos (K.CommitKey parentCommit) with
    | none =>
      [Violation.ErrCommitInfoNotFound
        ("parent commit of " ++ K.CommitString commitInfo.Commit) parentCommit]
    | some parentCommitInfo =>
      if ¬ foundIn commitInfo.Commit parentCommitInfo.ChildCommits then
        [Violation.ErrCommitAncestryBroken parentCommitInfo.Commit commitInfo.Commit]
      else []

/-- What `checkChildren` hands to `onError` when nothing stops it. -/
def childViolations (K : Keys) (s : Snapshot) (commitInfo : CommitInfo) : List Violation :=
  commitInfo.ChildCommits.flatMap (fun child =>
    match GoMap.get? s.commitInfos (K.CommitKey child) with
    | none =>
      [Violation.ErrCommitInfoNotFound
        ("child commit of " ++ K.CommitString commitInfo.Commit) child]
    | some childCommitInfo =>
      if childCommitInfo.ParentCommit = none ∨
          childCommitInfo.ParentCommit ≠ some commitInfo.Commit then
        [Violation.ErrCommitAncestryBroken commitInfo.Commit childCommitInfo.Commit]
      else [])

/-- What `checkCommit` hands to `onError` when nothing stops it. -/
def commitViolations (K : Keys) (s : Snapshot) (commitInfo : CommitInfo) : List Violation :=
  parentViolations K s commitInfo ++ childViolations K s commitInfo

/-- What `scan` hands to `onError` when nothing stops it. -/
def allViolations (K : Keys) (s : Snapshot) : List Violation :=
  s.branchInfos.flatMap (fun e => branchViolations K s e.2) ++
    s.commitInfos.flatMap (fun e => commitViolations K s e.2)

/-- The piece of the scan hands exactly the violations `vs` to the sink and does not stop. -/
def Act.Emits (a : Act) (vs : List Violation) : Prop := ∀ log, a log = (log ++ vs, none)

/-- The piece of the scan never hands the violation `v` to the sink. -/
def Act.Avoids (a : Act) (v : Violation) : Prop := ∀ log, v ∉ log → v ∉ (a log).1

/-! ## The snapshot phase -/

/-- What the store lists for one repo: its commit records and its branch records. -/
structure RepoListing where
  commits : List CommitInfo
  branches : List BranchInfo
deriving DecidableEq, Repr

/-- The snapshot phase (lines 140-160) when no listing fails: every listed record is stored under
the key of its identity, a later record replacing an earlier one with the same key. -/
def collectSnapshot (K : Keys) (repos : List RepoListing) : Snapshot :=
  repos.foldl
    (fun s repo =>
      { commitInfos :=
          repo.commits.foldl (fun m commitInfo => GoMap.set m (K.CommitKey commitInfo.Commit) commitInfo)
            s.commitInfos,
        branchInfos :=
          repo.branches.foldl (fun m branchInfo => GoMap.set m (K.BranchKey branchInfo.Branch) branchInfo)
            s.branchInfos })
    { branchInfos := [], commitInfos := [] }

/-! ## Sample inputs -/

/-- A sample key derivation: repo name, a separator, and the branch name or commit id. -/
def sampleKeys : Keys where
  BranchKey := fun b => b.Repo.Name ++ "@" ++ b.Name
  CommitKey := fun c => c.Repo.Name ++ "=" ++ c.ID
  CommitString := fun c => c.Repo.Name ++ "=" ++ c.ID

/-- The sink that collects and always returns nil. -/
def Sink.silent : Sink := fun _ _ => none

/-- Branch `n` of repo `data`. -/
def dataBranch (n : String) : Branch := ⟨⟨"data"⟩, n⟩

/-- Commit `id` of repo `data`. -/
def dataCommit (id : String) : Commit := ⟨⟨"data"⟩, id⟩

/-- A branch record of repo `data`, its head, provenance, subvenance and direct provenance given by
name. -/
def branchRecord (n : String) (head : Option String) (prov subv direct : List String) :
    BranchInfo :=
  { Branch := dataBranch n, Head := head.map dataCommit, Provenance := prov.map dataBranch,
    Subvenance := subv.map dataBranch, DirectProvenance := direct.map dataBranch }

/-- A commit record of repo `data`, its parent and children given by id. -/
def commitRecord (id : String) (parent : Option String) (children : List String) : CommitInfo :=
  { Commit := dataCommit id, ParentCommit := parent.map dataCommit,
    ChildCommits := children.map dataCommit }

/-- Two branches whose stored provenance names a branch `ghost` that has no record; `a` is
visited first. -/
def twoDanglingAB : Snapshot :=
  { branchInfos := [("data@a", branchRecord "a" (some "h") ["ghost"] [] []),
                    ("data@b", branchRecord "b" (some "h") ["ghost"] [] [])],
    commitInfos := [("data=h", commitRecord "h" none [])] }

/-- The same two branches, `b` visited first. -/
def twoDanglingBA : Snapshot :=
  { branchInfos := [("data@b", branchRecord "b" (some "h") ["ghost"] [] []),
                    ("data@a", branchRecord "a" (some "h") ["ghost"] [] [])],
    commitInfos := [("data=h", commitRecord "h" none [])] }

/-- Branch `p` lists `ghost` (no record) and then `q` in its provenance; the subvenance of `q`
omits `p`. -/
def subvenanceAfterGhost : Snapshot :=
  { branchInfos := [("data@p", branchRecord "p" (some "h") ["ghost", "q"] [] ["ghost", "q"]),
                    ("data@q", branchRecord "q" (some "h") [] [] [])],
    commitInfos := [("data=h", commitRecord "h" none [])] }

/-- The same snapshot with `q` visited first. -/
def subvenanceAfterGhostQP : Snapshot :=
  { branchInfos := [("data@q", branchRecord "q" (some "h") [] [] []),
                    ("data@p", branchRecord "p" (some "h") ["ghost", "q"] [] ["ghost", "q"])],
    commitInfos := [("data=h", commitRecord "h" none [])] }

/-- Commit `c2` names `c1` as its parent while `c1` lists no child; a branch of the snapshot lists
`ghost` (no record) in its provenance. -/
def brokenParentBehindGhost : Snapshot :=
  { branchInfos := [("data@b", branchRecord "b" (some "h") ["ghost"] [] ["ghost"])],
    commitInfos := [("data=h", commitRecord "h" none []), ("data=c1", commitRecord "c1" none []),
                    ("data=c2", commitRecord "c2" (some "c1") [])] }

/-- Commit `c1` lists `c2` as a child while `c2` has no parent; a branch of the snapshot lists
`ghost` (no record) in its provenance. -/
def brokenChildBehindGhost : Snapshot :=
  { branchInfos := [("data@b", branchRecord "b" (some "h") ["ghost"] [] ["ghost"])],
    commitInfos := [("data=h", commitRecord "h" none []), ("data=c1", commitRecord "c1" none ["c2"]),
                    ("data=c2", commitRecord "c2" none [])] }

/-- Branch `b` has no head and lists `ghost` (no record) in its provenance. -/
def headlessGhost : Snapshot :=
  { branchInfos := [("data@b", branchRecord "b" none ["ghost"] [] ["ghost"])],
    commitInfos := [] }

/-- Branch `b` has a head and lists `ghost` (no record) in its provenance. -/
def ghostProvenance : Snapshot :=
  { branchInfos := [("data@b", branchRecord "b" (some "h") ["ghost"] [] ["ghost"])],
    commitInfos := [("data=h", commitRecord "h" none [])] }

/-- Branch `b` has a head `lost` without a commit record and lists `ghost` (no record) and then
`p`, which has a head, in its provenance. -/
def lostHeadGhost : Snapshot :=
  { branchInfos := [("data@b", branchRecord "b" (some "lost") ["ghost", "p"] [] ["ghost", "p"]),
                    ("data@p", branchRecord "p" (some "h") [] ["b"] [])],
    commitInfos := [("data=h", commitRecord "h" none [])] }

/-- The same snapshot with `p` visited first. -/
def lostHeadGhostPB : Snapshot :=
  { branchInfos := [("data@p", branchRecord "p" (some "h") [] ["b"] []),
                    ("data@b", branchRecord "b" (some "lost") ["ghost", "p"] [] ["ghost", "p"])],
    commitInfos := [("data=h", commitRecord "h" none [])] }

/-- A chain `a` → `b` → `c` of direct provenance in which `b` stores an empty provenance and `a`
stores `[b]`. -/
def staleChain : Snapshot :=
  { branchInfos := [("data@a", branchRecord "a" (some "h") ["b"] [] ["b"]),
                    ("data@b", branchRecord "b" (some "h") [] ["a"] ["c"]),
                    ("data@c", branchRecord "c" (some "h") [] [] [])],
    commitInfos := [("data=h", commitRecord "h" none [])] }

/-- Branch `p` stores `b` in its subvenance while `b` stores an empty provenance. -/
def oneWaySubvenance : Snapshot :=
  { branchInfos := [("data@b", branchRecord "b" (some "h") [] [] []),
                    ("data@p", branchRecord "p" (some "h") [] ["b"] [])],
    commitInfos := [("data=h", commitRecord "h" none [])] }

/-- Branch `out` depends on `in`, and both records say so. -/
def linkedPair : Snapshot :=
  { branchInfos := [("data@out", branchRecord "out" (some "h") ["in"] [] ["in"]),
                    ("data@in", branchRecord "in" (some "h") [] ["out"] [])],
    commitInfos := [("data=h", commitRecord "h" none [])] }

/-- Commit `c2` names a parent `c1` that has no record. -/
def orphanCommit : Snapshot :=
  { branchInfos := [],
    commitInfos := [("data=c2", commitRecord "c2" (some "c1") [])] }

/-- Commit `c1` and its child `c2`, and both records say so. -/
def linkedCommits : Snapshot :=
  { branchInfos := [],
    commitInfos := [("data=c1", commitRecord "c1" none ["c2"]),
                    ("data=c2", commitRecord "c2" (some "c1") [])] }

/-- The provenance entry `p` has a record whose head is non-nil. -/
def hasRecordedHead (K : Keys) (s : Snapshot) (p : Branch) : Bool :=
  match GoMap.get? s.branchInfos (K.BranchKey p) with
  | some info => info.Head.isSome
  | none => false

/-- The commits the commit records of the snapshot mention: their own, their parents and their
children. -/
def Snapshot.mentionedCommits (s : Snapshot) : List Commit :=
  s.commitInfos.flatMap (fun e => e.2.Commit :: (e.2.ParentCommit.toList ++ e.2.ChildCommits))

/-- The key derivation is collision-free on the commits the snapshot mentions. -/
def Snapshot.CommitKeysDistinct (K : Keys) (s : Snapshot) : Prop :=
  ∀ a ∈ s.mentionedCommits, ∀ b ∈ s.mentionedCommits, K.CommitKey a = K.CommitKey b → a = b

instance (K : Keys) (s : Snapshot) : Decidable (s.CommitKeysDistinct K) := by
  unfold Snapshot.CommitKeysDistinct; infer_instance

/-- The rendering of commits is collision-free on the commit records of the snapshot. -/
def Snapshot.CommitStringsDistinct (K : Keys) (s : Snapshot) : Prop :=
  ∀ a ∈ s.commitInfos, ∀ b ∈ s.commitInfos,
    K.CommitString a.2.Commit = K.CommitString b.2.Commit → a.2.Commit = b.2.Commit

instance (K : Keys) (s : Snapshot) : Decidable (s.CommitStringsDistinct K) := by
  unfold Snapshot.CommitStringsDistinct; infer_instance

/-- The sink that returns an error on every call. -/
def Sink.failing : Sink := fun _ _ => some "sink closed"

/-- Branch `b` stores `p` in its provenance but not in its direct provenance, the subvenance of
`p` omits `b`, and the head `lost` of `b` has no commit record. -/
def brokenSubvenance : Snapshot :=
  { branchInfos := [("data@b", branchRecord "b" (some "lost") ["p"] [] []),
                    ("data@p", branchRecord "p" (some "h") [] [] [])],
    commitInfos := [("data=h", commitRecord "h" none [])] }

/-- Branch `b` has no head and a direct provenance `in` that its stored provenance omits. -/
def headlessBranch : Snapshot :=
  { branchInfos := [("data@b", branchRecord "b" none [] [] ["in"]),
                    ("data@in", branchRecord "in" (some "h") [] [] [])],
    commitInfos := [("data=h", commitRecord "h" none [])] }

/-- Commit `c2` names `c1` as its parent while `c1` lists no child; a branch has no head. -/
def brokenParentLink : Snapshot :=
  { branchInfos := [("data@b", branchRecord "b" none [] [] [])],
    commitInfos := [("data=c1", commitRecord "c1" none []),
                    ("data=c2", commitRecord "c2" (some "c1") [])] }

/-- Commit `c1` lists `c2` as a child while `c2` has no parent; a branch has no head. -/
def brokenChildLink : Snapshot :=
  { branchInfos := [("data@b", branchRecord "b" none [] [] [])],
    commitInfos := [("data=c1", commitRecord "c1" none ["c2"]),
                    ("data=c2", commitRecord "c2" none [])] }

/-! ## Delivery to the sink -/

/-- Handing the violations `vs` to the sink one after the other, until it returns an error. -/
def deliver (cb : Sink) (vs : List Violation) : Act := forEach (onError cb) vs

/-- The piece of the scan hands the violations `vs` to the sink until the sink returns an error. -/
def Act.Delivers (cb : Sink) (a : Act) (vs : List Violation) : Prop :=
  ∀ log, a log = deliver cb vs log

/-- Every call recorded in the log got a nil return from the sink. -/
def Sink.Quiet (cb : Sink) (log : List Violation) : Prop :=
  ∀ pre v post, log = pre ++ v :: post → cb pre v = none

/-- The log and the stop reason fit the sink: after a sink error the log ends with the call that
returned this error and every call before it returned nil; otherwise every call returned nil. -/
def Sink.Ends (cb : Sink) (log : List Violation) : Option Stop → Prop
  | some (Stop.sinkError err) =>
    ∃ pre v, log = pre ++ [v] ∧ cb.Quiet pre ∧ cb pre v = some err
  | _ => cb.Quiet log

/-- The piece of the scan calls the sink in sequence and stops at its first error. -/
def Act.Disciplined (cb : Sink) (a : Act) : Prop :=
  ∀ log, cb.Quiet log → cb.Ends (a log).1 (a log).2

/-- A clean graph, as the claims word it: every branch has a head, the key set of its provenance
plus itself is that of the computed union, every provenance branch has it in its subvenance, its
head has a commit record whenever some provenance branch has a head, and the commits satisfy
ancestry duality. -/
def Snapshot.Clean (K : Keys) (s : Snapshot) : Prop :=
  (∀ e ∈ s.branchInfos,
    e.2.Head ≠ none ∧
    SameKeys K (e.2.Provenance ++ [e.2.Branch]) (oneStepProvenance K s e.2) ∧
    (∀ p ∈ e.2.Provenance, ∃ info,
      GoMap.get? s.branchInfos (K.BranchKey p) = some info ∧ e.2.Branch ∈ info.Subvenance) ∧
    ((∃ p ∈ e.2.Provenance, hasRecordedHead K s p = true) →
      ∀ head, e.2.Head = some head → GoMap.get? s.commitInfos (K.CommitKey head) ≠ none)) ∧
  AncestryDual K s

/-! ## The snapshot phase with failing listings -/

/-- Modelled from the spec: a listing of the store (`List`, `GetByIndex`), which is not among the
sources: the records it hands to its visitor, in order, and the error it ends with when the read
fails. A visitor that returns an error aborts the listing, which returns that error. -/
structure Listing (α : Type) where
  items : List α
  err : Option String

/-- Modelled from the spec: one repo of the store, with the listing of its commits and the
listing of its branches. -/
structure RepoScan where
  commits : Listing CommitInfo
  branches : Listing BranchInfo

/-- The visitor of the repo listing (lines 144-157): the commits of the repo go into
`commitInfos`, then its branches into `branchInfos`; a failed listing is returned through
`errors.EnsureStack`. -/
def visitRepo (K : Keys) (ensureStack : String → String) (repo : RepoScan) (s : Snapshot) :
    Snapshot × Option String :=
  let commitInfos :=
    repo.commits.items.foldl
      (fun m commitInfo => GoMap.set m (K.CommitKey commitInfo.Commit) commitInfo) s.commitInfos
  match repo.commits.err with
  | some err => ({ branchInfos := s.branchInfos, commitInfos := commitInfos }, some (ensureStack err))
  | none =>
    let branchInfos :=
      repo.branches.items.foldl
        (fun m branchInfo => GoMap.set m (K.BranchKey branchInfo.Branch) branchInfo) s.branchInfos
    ({ branchInfos := branchInfos, commitInfos := commitInfos }, repo.branches.err.map ensureStack)

/-- The repo listing of line 144: the visitor runs on each repo until it returns an error; when
all repos are visited the listing returns its own error, if any. -/
def listRepos (K : Keys) (ensureStack : String → String) :
    List RepoScan → Option String → Snapshot → Snapshot × Option String
  | [], err, s => (s, err)
  | repo :: repos, err, s =>
    match visitRepo K ensureStack repo s with
    | (s', some e) => (s', some e)
    | (s', none) => listRepos K ensureStack repos err s'

/-- The whole function `fsck` (lines 133-304): the snapshot phase, which returns at once when a
listing fails (lines 158-160), and then the scan of the collected maps. -/
def driverFsck (K : Keys) (ensureStack : String → String) (repos : Listing RepoScan) (fix : Bool)
    (txErr : Option String) (cb : Sink) : Run :=
  match listRepos K ensureStack repos.items repos.err { branchInfos := [], commitInfos := [] } with
  | (_, some err) => ⟨[], [], Outcome.returned (some (ensureStack err))⟩
  | (s, none) => fsck K s fix txErr cb

/-- A sink that returns an error on a subvenance violation and nil on every other call. -/
def Sink.failsOnSubvenance : Sink := fun _ v =>
  match v with
  | Violation.ErrBranchSubvenanceTransitivity _ _ => some "sink closed"
  | _ => none

/-- One commit whose parent and whose declared child both have no record. -/
def twoFaultsCommit : Snapshot :=
  { branchInfos := [],
    commitInfos := [("data=c", commitRecord "c" (some "gone") ["lost"])] }

/-- A clean snapshot: repo `data`, branch `master` with empty provenance and head `c1`. -/
def cleanMaster : Snapshot :=
  { branchInfos := [("data@master", branchRecord "master" (some "c1") [] [] [])],
    commitInfos := [("data=c1", commitRecord "c1" none [])] }

/-- A store whose second repo fails while listing its branches. -/
def failingStore : Listing RepoScan :=
  { items := [{ commits := ⟨[commitRecord "c1" none []], none⟩,
                branches := ⟨[branchRecord "master" none [] [] []], none⟩ },
              { commits := ⟨[], none⟩,
                branches := ⟨[branchRecord "b" none [] [] []], some "connection reset"⟩ }],
    err := none }

/-- A store of one repo whose listings all succeed. -/
def healthyStore : Listing RepoScan :=
  { items := [{ commits := ⟨[commitRecord "c1" none []], none⟩,
                branches := ⟨[branchRecord "master" (some "c1") [] [] []], none⟩ }],
    err := none }

/-! ## Reachability through direct provenance -/

/-- One `DirectProvenance` step between keys: the record stored under `k` lists a branch whose
key is `d` in its `DirectProvenance`. -/
def DirectStep (K : Keys) (s : Snapshot) (k d : String) : Prop :=
  ∃ info, GoMap.get? s.branchInfos k = some info ∧ d ∈ info.DirectProvenance.map K.BranchKey

/-- The branch with key `k'` is reachable from the branch with key `k` by zero or more
`DirectProvenance` steps. -/
def Reaches (K : Keys) (s : Snapshot) (k k' : String) : Prop :=
  Relation.ReflTransGen (DirectStep K s) k k'

/-- Every entry of every branch's `DirectProvenance` has a record in `branchInfos`. -/
def Snapshot.DirectRecorded (K : Keys) (s : Snapshot) : Prop :=
  ∀ e ∈ s.branchInfos, ∀ d ∈ e.2.DirectProvenance, GoMap.get? s.branchInfos (K.BranchKey d) ≠ none

instance (K : Keys) (s : Snapshot) : Decidable (s.DirectRecorded K) := by
  unfold Snapshot.DirectRecorded; infer_instance

/-- The `DirectProvenance` relation has no cycle: no branch is reachable from itself by one or
more steps. -/
def Snapshot.DirectAcyclic (K : Keys) (s : Snapshot) : Prop :=
  ∀ k, ¬ Relation.TransGen (DirectStep K s) k k

/-- The piece of the scan hands the sink a prefix of `vs`, and all of `vs` when it does not
stop. -/
def Act.Within (a : Act) (vs : List Violation) : Prop :=
  ∀ log, ∃ pre, pre <+: vs ∧ (a log).1 = log ++ pre ∧ ((a log).2 = none → pre = vs)

/-- The provenance a store records for a commit. The commit records of the snapshot carry no
such field: `fsck` reads only `Commit`, `ParentCommit` and `ChildCommits` of a commit record. -/
abbrev CommitProvenance := Commit → List Commit

/-- The property the doc comment of `fsck` names (lines 129-132, and the comment of line 207):
the provenance of the head commit of a branch contains the head of every branch of its
provenance that has one. -/
def HeadProvenanceLinked (K : Keys) (s : Snapshot) (commitProvenance : CommitProvenance) : Prop :=
  ∀ e ∈ s.branchInfos, ∀ head, e.2.Head = some head →
    ∀ p ∈ e.2.Provenance, ∀ info, GoMap.get? s.branchInfos (K.BranchKey p) = some info →
      ∀ provHead, info.Head = some provHead → provHead ∈ commitProvenance head

/-! ## More sample inputs -/

/-- Branch `out` with head `co` depends on branch `in` with head `ci`; both commits have a
record and every record agrees with the others. -/
def headsApart : Snapshot :=
  { branchInfos := [("data@out", branchRecord "out" (some "co") ["in"] [] ["in"]),
                    ("data@in", branchRecord "in" (some "ci") [] ["out"] [])],
    commitInfos := [("data=co", commitRecord "co" none []),
                    ("data=ci", commitRecord "ci" none [])] }

/-- The chain of `staleChain` behind a branch `z` that has no head and is visited first. -/
def staleChainBehindHeadless : Snapshot :=
  { branchInfos := [("data@z", branchRecord "z" none [] [] []),
                    ("data@a", branchRecord "a" (some "h") ["b"] [] ["b"]),
                    ("data@b", branchRecord "b" (some "h") [] ["a"] ["c"]),
                    ("data@c", branchRecord "c" (some "h") [] [] [])],
    commitInfos := [("data=h", commitRecord "h" none [])] }

/-- Branch `g` has direct provenance `d`; `d` stores `ghost` (no record) in its provenance, and
so does `g`. Every `DirectProvenance` entry has a record. -/
def ghostBehindDirect : Snapshot :=
  { branchInfos := [("data@g", branchRecord "g" (some "h") ["d", "ghost"] [] ["d"]),
                    ("data@d", branchRecord "d" (some "h") ["ghost"] ["g"] [])],
    commitInfos := [("data=h", commitRecord "h" none [])] }

/-- Branches `a` and `b` list each other as direct provenance and both store the provenance
`[a, b, x]`; `x` has a record and no provenance. -/
def cyclicPair : Snapshot :=
  { branchInfos := [("data@a", branchRecord "a" (some "h") ["a", "b", "x"] ["a", "b"] ["b"]),
                    ("data@b", branchRecord "b" (some "h") ["a", "b", "x"] ["a", "b"] ["a"]),
                    ("data@x", branchRecord "x" (some "h") [] ["a", "b"] [])],
    commitInfos := [("data=h", commitRecord "h" none [])] }

/-- Every provenance entry has a record, while a direct provenance entry, a head, a parent and
a child have none. -/
def danglingElsewhere : Snapshot :=
  { branchInfos := [("data@b", branchRecord "b" (some "lost") ["p"] [] ["nowhere"]),
                    ("data@p", branchRecord "p" (some "h") [] ["b"] [])],
    commitInfos := [("data=h", commitRecord "h" (some "gone") ["missing"])] }

/-- Branch `b` has an empty provenance and a head `lost` without a commit record; commit `c2`
names `lost` as its parent. -/
def danglingHeadNamedAsParent : Snapshot :=
  { branchInfos := [("data@b", branchRecord "b" (some "lost") [] [] [])],
    commitInfos := [("data=c2", commitRecord "c2" (some "lost") [])] }

/-- Branches `b` and `b2` share the head `lost`, which has no commit record; `b` has an empty
provenance, `b2` depends on `p`, which has a head. -/
def sharedDanglingHead : Snapshot :=
  { branchInfos := [("data@b", branchRecord "b" (some "lost") [] [] []),
                    ("data@b2", branchRecord "b2" (some "lost") ["p"] [] ["p"]),
                    ("data@p", branchRecord "p" (some "h") [] ["b2"] [])],
    commitInfos := [("data=h", commitRecord "h" none [])] }

/-- Branch `b` has an empty provenance and a head `lost` without a commit record. -/
def danglingHeadAlone : Snapshot :=
  { branchInfos := [("data@b", branchRecord "b" (some "lost") [] [] [])],
    commitInfos := [] }

/-! ## The messages of the violations -/

/-- The `String` methods of `pfs.Branch` and `pfs.Repo`, which `fmt` and the `Error` methods
call and which are not among the sources. The rendering of a commit is `Keys.CommitString`. -/
structure Stringers where
  BranchString : Branch → String
  RepoString : Repo → String

/-- The map `fullMap` of `ErrBranchProvenanceTransitivity.Error` (lines 59 and 61-63): a later
branch replaces an earlier one with the same key. -/
def ErrBranchProvenanceTransitivity.fullMap (K : Keys) (FullProvenance : List Branch) :
    GoMap Branch :=
  FullProvenance.foldl (fun fullMap branch => GoMap.set fullMap (K.BranchKey branch) branch) []

/-- The map `provMap` of `ErrBranchProvenanceTransitivity.Error` (lines 60 and 64-67). -/
def ErrBranchProvenanceTransitivity.provMap (K : Keys) (BranchInfo : BranchInfo) :
    GoMap Branch :=
  BranchInfo.Provenance.foldl
    (fun provMap branch => GoMap.set provMap (K.BranchKey branch) branch)
    (GoMap.set [] (K.BranchKey BranchInfo.Branch) BranchInfo.Branch)

/-- The method `ErrBranchProvenanceTransitivity.Error` (lines 55-75). `visited` is `fullMap`
in the order in which the `range` loop of line 69 visits it, which Go does not fix; each
`WriteString` appends to the message. -/
def ErrBranchProvenanceTransitivity.Error (K : Keys) (S : Stringers) (BranchInfo : BranchInfo)
    (visited : GoMap Branch) : String :=
  let msg := ""
  let msg := msg ++ "consistency error: branch provenance was not transitive\n"
  let msg := msg ++ ("on branch " ++ S.BranchString BranchInfo.Branch ++ "\n")
  let provMap := ErrBranchProvenanceTransitivity.provMap K BranchInfo
  let msg := msg ++ "the following branches are missing from the provenance:\n"
  visited.foldl
    (fun msg e =>
      match GoMap.get? provMap e.1 with
      | none => msg ++ (e.2.Name ++ " in repo " ++ S.RepoString e.2.Repo ++ "\n")
      | some _ => msg)
    msg

/-- The `Error` methods of the six violations (lines 55-127); `visit` is the order in which
`range` visits a map. -/
def Violation.Error (K : Keys) (S : Stringers) (visit : GoMap Branch → GoMap Branch) :
    Violation → String
  | Violation.ErrBranchProvenanceTransitivity BranchInfo FullProvenance =>
    ErrBranchProvenanceTransitivity.Error K S BranchInfo
      (visit (ErrBranchProvenanceTransitivity.fullMap K FullProvenance))
  | Violation.ErrBranchSubvenanceTransitivity BranchInfo MissingSubvenance =>
    "consistency error: branch " ++ S.BranchString BranchInfo.Branch ++ " is missing branch " ++
      S.BranchString MissingSubvenance ++ " in its subvenance\n"
  | Violation.ErrBranchInfoNotFound Branch =>
    "consistency error: the branch " ++ Branch.Name ++ " on repo " ++ S.RepoString Branch.Repo ++
      " could not be found\n"
  | Violation.ErrCommitInfoNotFound Location Commit =>
    "consistency error: the commit " ++ K.CommitString Commit ++
      " could not be found while checking " ++ Location
  | Violation.ErrCommitAncestryBroken Parent Child =>
    "consistency error: parent commit " ++ K.CommitString Parent ++ " and child commit " ++
      K.CommitString Child ++ " disagree about their parent/child relationship"
  | Violation.ErrMissingBranchHead Branch =>
    "consistency error: branch " ++ S.BranchString Branch ++ " does not have a head commit"

/-- Modelled from the spec: `pfs.FsckResponse`, the message streamed for a violation, with its
diagnostic string and the description of an applied fix. The type is not among the sources. -/
structure FsckResponse where
  Fix : String
  Error : String
deriving DecidableEq, Repr

/-- The response built by `onError` (line 134): `&pfs.FsckResponse{Error: err.Error()}`. -/
def onErrorResponse (K : Keys) (S : Stringers) (visit : GoMap Branch → GoMap Branch)
    (err : Violation) : FsckResponse :=
  { Fix := "", Error := err.Error K S visit }

/-- The callback `cb` handed to `fsck`: given the responses it got so far and the one it gets
now, its return value (`none` is nil). -/
abbrev Callback := List FsckResponse → FsckResponse → Option String

/-- The closure `onError` of line 134 around the callback `cb`, as a sink of violations. -/
def Callback.sink (K : Keys) (S : Stringers) (visit : GoMap Branch → GoMap Branch)
    (cb : Callback) : Sink :=
  fun log err => cb (log.map (onErrorResponse K S visit)) (onErrorResponse K S visit err)

/-- Sample renderings: `repo@branch` for a branch and the name for a repo. -/
def sampleStringers : Stringers where
  BranchString := fun b => b.Repo.Name ++ "@" ++ b.Name
  RepoString := fun r => r.Name

/-- A callback that collects and always returns nil. -/
def Callback.silent : Callback := fun _ _ => none

/-- The piece of the scan does the same for every sink: it hands the violations `vs` to the
sink until the sink returns an error and, if the sink never does, goes on to the next statement
or, with `crash` set, ends in a nil pointer dereference. -/
def Act.Uniform (a : Sink → Act) : Prop :=
  ∃ (vs : List Violation) (crash : Bool), ∀ cb log,
    a cb log = Act.seq (deliver cb vs) (if crash then Act.crash else Act.skip) log

end Fsck

/-! # The logging transport (`serviceenv/logging_transport.go`) -/

namespace Serviceenv

/-- The fields of `*http.Request` that `RoundTrip` reads: the method and the rendering of the
URL. -/
structure Request where
  Method : String
  URL : String
deriving DecidableEq, Repr

/-- The body of a response, as `ioutil.ReadAll` sees it: the text that can still be read, and the
error the reading ends with (`none` when it ends at the end of the body). -/
structure Body where
  text : String
  readErr : Option String
deriving DecidableEq, Repr

/-- The fields of `http.Response` that `RoundTrip` reads. -/
structure Response where
  Status : String
  StatusCode : Int
  Body : Body
deriving DecidableEq, Repr

/-- What `underlying.RoundTrip` returns: a response pointer that may be nil and an error that may
be nil. -/
structure Reply where
  res : Option Response
  err : Option String
deriving DecidableEq, Repr

/-- The call `ioutil.ReadAll(body)`: the text read, the error, and the body left behind, with
nothing more to read. -/
def ReadAll (body : Body) : String × Option String × Body :=
  (body.text, body.readErr, { text := "", readErr := body.readErr })

/-- A value of the `fields` map handed to `log.WithFields`. -/
inductive FieldValue where
  | text (s : String)
  | error (err : Option String)
  | duration (d : Nat)
deriving DecidableEq, Repr

/-- One `Debug` entry of the log: its message and its fields. -/
structure LogEntry where
  message : String
  fields : List (String × FieldValue)
deriving DecidableEq, Repr

/-- How a call of `RoundTrip` ends: it returns a response and an error, or it panics on a nil
pointer. -/
inductive Ending where
  | returned (res : Option Response) (retErr : Option String)
  | nilDereference
deriving DecidableEq, Repr

/-- What a call of `RoundTrip` did: the entries it logged, the requests it handed to the
underlying transport, and how it ended. -/
structure Trip where
  logged : List LogEntry
  underlyingCalls : List Request
  ending : Ending
deriving DecidableEq, Repr

/-- The type `loggingRoundTripper` (lines 11-16): the wrapped transport, as the function from a
request to what its `RoundTrip` returns. -/
structure loggingRoundTripper where
  underlying : Request → Reply

/-- The method `RoundTrip` (lines 18-46); `elapsed` is what `time.Since(start)` returns in the
deferred function. The deferred function reads `res.Status` whether or not `res` is nil, and for
a status code of 400 or more it calls `err.Error()` in the branch where `err` is nil. -/
def loggingRoundTripper.RoundTrip (t : loggingRoundTripper) (elapsed : Nat) (req : Request) :
    Trip :=
  let request : LogEntry :=
    ⟨"kube/APIServer request",
      [("method", FieldValue.text req.Method), ("url", FieldValue.text req.URL)]⟩
  let reply := t.underlying req
  match reply.res with
  | none => ⟨[request], [req], Ending.nilDereference⟩
  | some res =>
    let fields : List (String × FieldValue) :=
      [("duration", FieldValue.duration elapsed), ("method", FieldValue.text req.Method),
        ("url", FieldValue.text req.URL), ("status", FieldValue.text res.Status),
        ("err", FieldValue.error reply.err)]
    if res.StatusCode ≥ 400 then
      match ReadAll res.Body with
      | (bodytext, some _, body) =>
        ⟨[request,
            ⟨"kube/APIServer response", fields ++ [("body", FieldValue.text bodytext)]⟩],
          [req], Ending.returned (some { res with Body := body }) reply.err⟩
      | (_, none, _) => ⟨[request], [req], Ending.nilDereference⟩
    else
      ⟨[request, ⟨"kube/APIServer response", fields⟩], [req],
        Ending.returned (some res) reply.err⟩

/-- The function `wrapWithLoggingTransport` (lines 48-55). -/
def wrapWithLoggingTransport (rt : Request → Reply) : loggingRoundTripper :=
  { underlying := rt }

/-- A transport that fails to connect: a nil response and an error. -/
def refusing : Request → Reply := fun _ => ⟨none, some "connection refused"⟩

/-- A transport that answers 404 with a readable body. -/
def notFound : Request → Reply :=
  fun _ => ⟨some ⟨"404 Not Found", 404, ⟨"no such pod", none⟩⟩, none⟩

/-- A transport that answers 200. -/
def healthy : Request → Reply :=
  fun _ => ⟨some ⟨"200 OK", 200, ⟨"pods", none⟩⟩, none⟩

/-- A request to list pods. -/
def listPods : Request := ⟨"GET", "https://kube/api/v1/pods"⟩

/-- A transport that answers 500 with a body whose reading breaks off after `upstream` with the
error `connection reset`. -/
def resetMidBody : Request → Reply :=
  fun _ => ⟨some ⟨"500 Internal Server Error", 500, ⟨"upstream", some "connection reset"⟩⟩, none⟩

/-- The value of the field `name` in a log entry, if the entry has the field. -/
def LogEntry.field (e : LogEntry) (name : String) : Option FieldValue :=
  (e.fields.find? (fun f => f.1 == name)).map Prod.snd

/-- The entries of a trip with the message `kube/APIServer response`. -/
def Trip.responses (t : Trip) : List LogEntry :=
  t.logged.filter (fun e => e.message == "kube/APIServer response")

end Serviceenv

/-! # The file-index messages (`fileset/index/index.pb.go`) -/

namespace IndexPb

/-- A `[]byte`, and the bytes of a Go `string`: each element is a byte, a number below 256. -/
abbrev Bytes := List Nat

/-- The errors the generated code returns: the three package variables (lines 973-977),
`io.ErrUnexpectedEOF`, the `fmt.Errorf` values with their arguments, and what the methods of
`chunk.DataRef` return. -/
inductive Error where
  | ErrInvalidLengthIndex
  | ErrIntOverflowIndex
  | ErrUnexpectedEndOfGroupIndex
  | ErrUnexpectedEOF
  | endGroupForNonGroup (message : String)
  | illegalTag (message : String) (fieldNum : Int) (wire : Nat)
  | wrongWireType (wireType : Nat) (field : String)
  | illegalWireType (wireType : Nat)
  | dataRef (text : String)
deriving DecidableEq, Repr

/-- How a call ends: with a value, with an error, with an index or slice bound out of range (a
run-time panic), or, for the model only, with a loop cut short by its iteration bound. -/
inductive Result (α : Type) where
  | ok (a : α)
  | error (e : Error)
  | panic
  | unfinished
deriving DecidableEq, Repr

/-- Sequencing: the next statement runs on the value of the previous one. -/
def Result.bind {α β : Type} (r : Result α) (f : α → Result β) : Result β :=
  match r with
  | Result.ok a => f a
  | Result.error e => Result.error e
  | Result.panic => Result.panic
  | Result.unfinished => Result.unfinished

/-! ## Machine integers -/

/-- The conversion `uint64(x)` of an `int` or `int64`. -/
def uint64 (x : Int) : Nat := (x % 2 ^ 64).toNat

/-- The `int64` (and, on a 64-bit platform, the `int`) with the bits of the `uint64` `x`. -/
def int64 (x : Nat) : Int :=
  if x % 2 ^ 64 < 2 ^ 63 then ((x % 2 ^ 64 : Nat) : Int) else ((x % 2 ^ 64 : Nat) : Int) - 2 ^ 64

/-- The conversion `int32(x)` of a `uint64`. -/
def int32 (x : Nat) : Int :=
  if x % 2 ^ 32 < 2 ^ 31 then ((x % 2 ^ 32 : Nat) : Int) else ((x % 2 ^ 32 : Nat) : Int) - 2 ^ 32

/-- The number of binary digits of `x`, by at most `fuel` halvings. -/
def lenBits : Nat → Nat → Nat
  | 0, _ => 0
  | fuel + 1, x => if x = 0 then 0 else lenBits fuel (x / 2) + 1

/-- The library function `bits.Len64`: the number of bits needed to write a `uint64`. -/
def Len64 (x : Nat) : Nat := lenBits 64 (x % 2 ^ 64)

/-- The function `sovIndex` (lines 478-480). -/
def sovIndex (x : Nat) : Nat := (Len64 (x ||| 1) + 6) / 7

/-! ## The messages -/

/-- The generated methods of `chunk.DataRef` that this file calls; the type is not among the
sources and is taken as a parameter: `fresh` is `&chunk.DataRef{}`, `MarshalToSizedBuffer` gets
the buffer and returns it with the number of bytes written at its end, `Unmarshal` gets the
message it is called on and returns it filled. -/
structure DataRefCodec (D : Type) where
  fresh : D
  Size : D → Nat
  MarshalToSizedBuffer : D → Bytes → Result (Bytes × Int)
  Unmarshal : D → Bytes → Result D

/-- The message `Range` (lines 90-97). `XXX_unrecognized` is nil when empty. -/
structure Range (D : Type) where
  Offset : Int
  LastPath : Bytes
  ChunkRef : Option D
  XXX_unrecognized : Bytes
deriving DecidableEq, Repr

/-- The message `File` (lines 153-159). -/
structure File (D : Type) where
  Datum : Bytes
  DataRefs : List D
  XXX_unrecognized : Bytes
deriving DecidableEq, Repr

/-- The message `Index` (lines 26-34). `Range` and `File` are pointers that may be nil. -/
structure Index (D : Type) where
  Path : Bytes
  Range : Option (IndexPb.Range D)
  File : Option (IndexPb.File D)
  XXX_unrecognized : Bytes
deriving DecidableEq, Repr

/-! ## Writing into a sized buffer -/

/-- The assignment `dAtA[i] = b`; an index out of range panics. -/
def setAt (dAtA : Bytes) (i : Int) (b : Nat) : Result Bytes :=
  if 0 ≤ i ∧ i < dAtA.length then Result.ok (dAtA.set i.toNat b) else Result.panic

/-- The statement `copy(dAtA[i:], src)`: the slice expression panics when `i` is out of range,
and `copy` stops at the end of the shorter slice. -/
def copyAt (dAtA : Bytes) (i : Int) (src : Bytes) : Result Bytes :=
  if 0 ≤ i ∧ i ≤ dAtA.length then
    Result.ok (dAtA.take i.toNat ++ (src.take (dAtA.length - i.toNat) ++
      dAtA.drop (i.toNat + src.length)))
  else Result.panic

/-- The loop of `encodeVarintIndex` (lines 401-405) and the write after it (line 406); a
`uint64` leaves the loop after at most nine rounds. -/
def encodeVarintLoop : Nat → Bytes → Int → Nat → Result Bytes
  | 0, _, _, _ => Result.unfinished
  | fuel + 1, dAtA, offset, v =>
    if v ≥ 1 <<< 7 then
      (setAt dAtA offset ((v &&& 0x7f ||| 0x80) % 256)).bind fun dAtA =>
        encodeVarintLoop fuel dAtA (offset + 1) (v >>> 7)
    else setAt dAtA offset (v % 256)

/-- The function `encodeVarintIndex` (lines 398-408): the buffer after the writes, and `base`. -/
def encodeVarintIndex (dAtA : Bytes) (offset : Int) (v : Nat) : Result (Bytes × Int) :=
  let offset := offset - sovIndex v
  let base := offset
  (encodeVarintLoop 10 dAtA offset v).bind fun dAtA => Result.ok (dAtA, base)

/-- The buffer and the index `i` of a `MarshalToSizedBuffer` in progress. -/
abbrev Cursor := Bytes × Int

/-- The statements `i -= len(src); copy(dAtA[i:], src)`. -/
def putBytes (src : Bytes) (st : Cursor) : Result Cursor :=
  (copyAt st.1 (st.2 - src.length) src).bind fun dAtA => Result.ok (dAtA, st.2 - src.length)

/-- The statement `i = encodeVarintIndex(dAtA, i, v)`. -/
def putVarint (v : Nat) (st : Cursor) : Result Cursor :=
  encodeVarintIndex st.1 st.2 v

/-- The statements `i--; dAtA[i] = b`. -/
def putByte (b : Nat) (st : Cursor) : Result Cursor :=
  (setAt st.1 (st.2 - 1) b).bind fun dAtA => Result.ok (dAtA, st.2 - 1)

/-- The block `size, err := sub.MarshalToSizedBuffer(dAtA[:i]); if err != nil { return 0, err };
i -= size; i = encodeVarintIndex(dAtA, i, uint64(size))`. -/
def putMessage (sub : Bytes → Result (Bytes × Int)) (st : Cursor) : Result Cursor :=
  if 0 ≤ st.2 ∧ st.2 ≤ st.1.length then
    (sub (st.1.take st.2.toNat)).bind fun r =>
      encodeVarintIndex (r.1 ++ st.1.drop st.2.toNat) (st.2 - r.2) (uint64 r.2)
  else Result.panic

/-- The method `Range.MarshalToSizedBuffer` (lines 314-348). -/
def Range.MarshalToSizedBuffer {D : Type} (C : DataRefCodec D) (m : Range D) (dAtA : Bytes) :
    Result (Bytes × Int) :=
  (if m.XXX_unrecognized ≠ [] then putBytes m.XXX_unrecognized (dAtA, (dAtA.length : Int))
    else Result.ok (dAtA, (dAtA.length : Int))).bind fun st =>
  (match m.ChunkRef with
    | some ref =>
      (putMessage (C.MarshalToSizedBuffer ref) st).bind fun st => putByte 0x1a st
    | none => Result.ok st).bind fun st =>
  (if m.LastPath.length > 0 then
      (putBytes m.LastPath st).bind fun st =>
        (putVarint (uint64 (m.LastPath.length : Int)) st).bind fun st => putByte 0x12 st
    else Result.ok st).bind fun st =>
  (if m.Offset ≠ 0 then
      (putVarint (uint64 m.Offset) st).bind fun st => putByte 0x8 st
    else Result.ok st).bind fun st =>
  Result.ok (st.1, (dAtA.length : Int) - st.2)

/-- The loop over `DataRefs` of `File.MarshalToSizedBuffer` (lines 374-387), on the elements in
the order the loop visits them. -/
def putDataRefs {D : Type} (C : DataRefCodec D) : List D → Cursor → Result Cursor
  | [], st => Result.ok st
  | ref :: refs, st =>
    ((putMessage (C.MarshalToSizedBuffer ref) st).bind fun st => putByte 0x12 st).bind fun st =>
      putDataRefs C refs st

/-- The method `File.MarshalToSizedBuffer` (lines 365-396); the loop over `DataRefs` runs from
the last element to the first. -/
def File.MarshalToSizedBuffer {D : Type} (C : DataRefCodec D) (m : File D) (dAtA : Bytes) :
    Result (Bytes × Int) :=
  (if m.XXX_unrecognized ≠ [] then putBytes m.XXX_unrecognized (dAtA, (dAtA.length : Int))
    else Result.ok (dAtA, (dAtA.length : Int))).bind fun st =>
  (putDataRefs C m.DataRefs.reverse st).bind fun st =>
  (if m.Datum.length > 0 then
      (putBytes m.Datum st).bind fun st =>
        (putVarint (uint64 (m.Datum.length : Int)) st).bind fun st => putByte 0xa st
    else Result.ok st).bind fun st =>
  Result.ok (st.1, (dAtA.length : Int) - st.2)

/-- The method `Index.MarshalToSizedBuffer` (lines 256-297). -/
def Index.MarshalToSizedBuffer {D : Type} (C : DataRefCodec D) (m : Index D) (dAtA : Bytes) :
    Result (Bytes × Int) :=
  (if m.XXX_unrecognized ≠ [] then putBytes m.XXX_unrecognized (dAtA, (dAtA.length : Int))
    else Result.ok (dAtA, (dAtA.length : Int))).bind fun st =>
  (match m.File with
    | some file =>
      (putMessage (File.MarshalToSizedBuffer C file) st).bind fun st => putByte 0x1a st
    | none => Result.ok st).bind fun st =>
  (match m.Range with
    | some range =>
      (putMessage (Range.MarshalToSizedBuffer C range) st).bind fun st => putByte 0x12 st
    | none => Result.ok st).bind fun st =>
  (if m.Path.length > 0 then
      (putBytes m.Path st).bind fun st =>
        (putVarint (uint64 (m.Path.length : Int)) st).bind fun st => putByte 0xa st
    else Result.ok st).bind fun st =>
  Result.ok (st.1, (dAtA.length : Int) - st.2)

/-- The method `Range.Size` (lines 433-454), on a non-nil receiver. The sizes are Go `int`s; a
message whose size does not fit an `int` cannot be held in memory, and the sums are taken in
the natural numbers. -/
def Range.Size {D : Type} (C : DataRefCodec D) (m : Range D) : Nat :=
  (if m.Offset ≠ 0 then 1 + sovIndex (uint64 m.Offset) else 0) +
  (if m.LastPath.length > 0 then
    1 + m.LastPath.length + sovIndex (uint64 (m.LastPath.length : Int)) else 0) +
  (match m.ChunkRef with
    | some ref => 1 + C.Size ref + sovIndex (uint64 (C.Size ref : Int))
    | none => 0) +
  (if m.XXX_unrecognized ≠ [] then m.XXX_unrecognized.length else 0)

/-- The method `File.Size` (lines 456-476), on a non-nil receiver. -/
def File.Size {D : Type} (C : DataRefCodec D) (m : File D) : Nat :=
  (if m.Datum.length > 0 then 1 + m.Datum.length + sovIndex (uint64 (m.Datum.length : Int)) else 0) +
  (m.DataRefs.foldl (fun n e => n + (1 + C.Size e + sovIndex (uint64 (C.Size e : Int)))) 0) +
  (if m.XXX_unrecognized ≠ [] then m.XXX_unrecognized.length else 0)

/-- The method `Index.Size` (lines 409-431), on a non-nil receiver. -/
def Index.Size {D : Type} (C : DataRefCodec D) (m : Index D) : Nat :=
  (if m.Path.length > 0 then 1 + m.Path.length + sovIndex (uint64 (m.Path.length : Int)) else 0) +
  (match m.Range with
    | some range => 1 + Range.Size C range + sovIndex (uint64 (Range.Size C range : Int))
    | none => 0) +
  (match m.File with
    | some file => 1 + File.Size C file + sovIndex (uint64 (File.Size C file : Int))
    | none => 0) +
  (if m.XXX_unrecognized ≠ [] then m.XXX_unrecognized.length else 0)

/-- The slice expression `dAtA[:n]` on a slice whose capacity is its length. -/
def sliceTo (dAtA : Bytes) (n : Int) : Result Bytes :=
  if 0 ≤ n ∧ n ≤ dAtA.length then Result.ok (dAtA.take n.toNat) else Result.panic

/-- The shared body of the three `Marshal` methods: `dAtA = make([]byte, size)`, then
`MarshalToSizedBuffer(dAtA[:size])`, then `dAtA[:n]`. -/
def marshalWith (size : Nat) (marshalToSizedBuffer : Bytes → Result (Bytes × Int)) :
    Result Bytes :=
  (marshalToSizedBuffer ((List.replicate size 0).take size)).bind fun r => sliceTo r.1 r.2

/-- The method `Range.Marshal` (lines 299-307). -/
def Range.Marshal {D : Type} (C : DataRefCodec D) (m : Range D) : Result Bytes :=
  marshalWith (Range.Size C m) (Range.MarshalToSizedBuffer C m)

/-- The method `File.Marshal` (lines 350-358). -/
def File.Marshal {D : Type} (C : DataRefCodec D) (m : File D) : Result Bytes :=
  marshalWith (File.Size C m) (File.MarshalToSizedBuffer C m)

/-- The method `Index.Marshal` (lines 241-249). -/
def Index.Marshal {D : Type} (C : DataRefCodec D) (m : Index D) : Result Bytes :=
  marshalWith (Index.Size C m) (Index.MarshalToSizedBuffer C m)

/-! ## Reading -/

/-- The loop `for shift := uint(0); ; shift += 7` that reads a varint into a 64-bit variable:
the bits read and the index after the varint. The check `shift >= 64` ends it after at most ten
bytes. The signed variables (`msglen`, `length`, `m.Offset`) get the same bits. -/
def readVarint (dAtA : Bytes) : Nat → Nat → Nat → Nat → Result (Nat × Nat)
  | 0, _, _, _ => Result.unfinished
  | fuel + 1, shift, iNdEx, x =>
    if shift ≥ 64 then Result.error Error.ErrIntOverflowIndex
    else if iNdEx ≥ dAtA.length then Result.error Error.ErrUnexpectedEOF
    else
      match dAtA[iNdEx]? with
      | none => Result.panic
      | some b =>
        let x := x ||| (((b &&& 0x7F) <<< shift) % 2 ^ 64)
        if b < 0x80 then Result.ok (x, iNdEx + 1)
        else readVarint dAtA fuel (shift + 7) (iNdEx + 1) x

/-- The slice expression `dAtA[iNdEx:postIndex]`; bounds out of range panic. -/
def slice (dAtA : Bytes) (iNdEx postIndex : Nat) : Result Bytes :=
  if iNdEx ≤ postIndex ∧ postIndex ≤ dAtA.length then
    Result.ok ((dAtA.take postIndex).drop iNdEx)
  else Result.panic

/-- The length of a string or of an embedded message and the checks that follow it: the varint,
`if intStringLen < 0`, `postIndex := iNdEx + intStringLen`, `if postIndex < 0`,
`if postIndex > l`. The result is the index after the varint and `postIndex`. -/
def lengthDelimited (dAtA : Bytes) (iNdEx : Nat) : Result (Nat × Nat) :=
  (readVarint dAtA 11 0 iNdEx 0).bind fun r =>
    if int64 r.1 < 0 then Result.error Error.ErrInvalidLengthIndex
    else if int64 (r.2 + r.1) < 0 then Result.error Error.ErrInvalidLengthIndex
    else if int64 (r.2 + r.1) > dAtA.length then Result.error Error.ErrUnexpectedEOF
    else Result.ok (r.2, (int64 (r.2 + r.1)).toNat)

/-- The loop of case 0 of `skipIndex` (lines 917-928), which steps over a varint. -/
def skipVarint (dAtA : Bytes) : Nat → Nat → Nat → Result Nat
  | 0, _, _ => Result.unfinished
  | fuel + 1, shift, iNdEx =>
    if shift ≥ 64 then Result.error Error.ErrIntOverflowIndex
    else if iNdEx ≥ dAtA.length then Result.error Error.ErrUnexpectedEOF
    else
      match dAtA[iNdEx]? with
      | none => Result.panic
      | some b =>
        if b < 0x80 then Result.ok (iNdEx + 1) else skipVarint dAtA fuel (shift + 7) (iNdEx + 1)

/-- The loop of `skipIndex` (lines 898-969) from the index `iNdEx` and the nesting `depth`; each
round reads at least one byte. -/
def skipLoop (dAtA : Bytes) : Nat → Nat → Nat → Result Nat
  | 0, _, _ => Result.unfinished
  | fuel + 1, iNdEx, depth =>
    if iNdEx < dAtA.length then
      (readVarint dAtA 11 0 iNdEx 0).bind fun r =>
        let wireType := r.1 &&& 0x7
        let next : Result (Nat × Nat) :=
          if wireType = 0 then
            (skipVarint dAtA 11 0 r.2).bind fun iNdEx => Result.ok (iNdEx, depth)
          else if wireType = 1 then Result.ok (r.2 + 8, depth)
          else if wireType = 2 then
            (readVarint dAtA 11 0 r.2 0).bind fun len =>
              if int64 len.1 < 0 then Result.error Error.ErrInvalidLengthIndex
              else Result.ok (len.2 + len.1, depth)
          else if wireType = 3 then Result.ok (r.2, depth + 1)
          else if wireType = 4 then
            if depth = 0 then Result.error Error.ErrUnexpectedEndOfGroupIndex
            else Result.ok (r.2, depth - 1)
          else if wireType = 5 then Result.ok (r.2 + 4, depth)
          else Result.error (Error.illegalWireType wireType)
        next.bind fun s =>
          if int64 s.1 < 0 then Result.error Error.ErrInvalidLengthIndex
          else if s.2 = 0 then Result.ok s.1
          else skipLoop dAtA fuel s.1 s.2
    else Result.error Error.ErrUnexpectedEOF

/-- The function `skipIndex` (lines 894-971): the number of bytes of the first field of
`dAtA`. -/
def skipIndex (dAtA : Bytes) : Result Nat :=
  skipLoop dAtA (dAtA.length + 1) 0 0

/-- The default case of the three `Unmarshal` methods: the field that starts at `preIndex` is
skipped, and its bytes are returned with the index after it. -/
def skipUnknown (dAtA : Bytes) (preIndex : Nat) : Result (Bytes × Nat) :=
  (skipIndex (dAtA.drop preIndex)).bind fun skippy =>
    if int64 (preIndex + skippy) < 0 then Result.error Error.ErrInvalidLengthIndex
    else if preIndex + skippy > dAtA.length then Result.error Error.ErrUnexpectedEOF
    else (slice dAtA preIndex (preIndex + skippy)).bind fun skipped =>
      Result.ok (skipped, preIndex + skippy)

/-- The loop `for iNdEx < l` of an `Unmarshal` method and the check after it; `field` is one
round of the loop, which reads at least one byte. -/
def unmarshalLoop {M : Type} (field : Nat → M → Result (M × Nat)) (l : Nat) :
    Nat → Nat → M → Result M
  | 0, _, _ => Result.unfinished
  | fuel + 1, iNdEx, m =>
    if iNdEx < l then
      (field iNdEx m).bind fun r => unmarshalLoop field l fuel r.2 r.1
    else if iNdEx > l then Result.error Error.ErrUnexpectedEOF
    else Result.ok m

/-- One round of the loop of `Range.Unmarshal` (lines 642-770). -/
def Range.unmarshalField {D : Type} (C : DataRefCodec D) (dAtA : Bytes) (preIndex : Nat)
    (m : Range D) : Result (Range D × Nat) :=
  (readVarint dAtA 11 0 preIndex 0).bind fun r =>
    let wire := r.1
    let iNdEx := r.2
    let fieldNum := int32 (wire >>> 3)
    let wireType := wire &&& 0x7
    if wireType = 4 then Result.error (Error.endGroupForNonGroup "Range")
    else if fieldNum ≤ 0 then Result.error (Error.illegalTag "Range" fieldNum wire)
    else if fieldNum = 1 then
      if wireType ≠ 0 then Result.error (Error.wrongWireType wireType "Offset")
      else
        (readVarint dAtA 11 0 iNdEx 0).bind fun v =>
          Result.ok ({ m with Offset := int64 v.1 }, v.2)
    else if fieldNum = 2 then
      if wireType ≠ 2 then Result.error (Error.wrongWireType wireType "LastPath")
      else
        (lengthDelimited dAtA iNdEx).bind fun p =>
          (slice dAtA p.1 p.2).bind fun s => Result.ok ({ m with LastPath := s }, p.2)
    else if fieldNum = 3 then
      if wireType ≠ 2 then Result.error (Error.wrongWireType wireType "ChunkRef")
      else
        (lengthDelimited dAtA iNdEx).bind fun p =>
          (slice dAtA p.1 p.2).bind fun s =>
            (C.Unmarshal (m.ChunkRef.getD C.fresh) s).bind fun ref =>
              Result.ok ({ m with ChunkRef := some ref }, p.2)
    else
      (skipUnknown dAtA preIndex).bind fun k =>
        Result.ok ({ m with XXX_unrecognized := m.XXX_unrecognized ++ k.1 }, k.2)

/-- The method `Range.Unmarshal` (lines 639-776), called on the message `m`. -/
def Range.Unmarshal {D : Type} (C : DataRefCodec D) (m : Range D) (dAtA : Bytes) :
    Result (Range D) :=
  unmarshalLoop (Range.unmarshalField C dAtA) dAtA.length (dAtA.length + 1) 0 m

/-- One round of the loop of `File.Unmarshal` (lines 780-887). -/
def File.unmarshalField {D : Type} (C : DataRefCodec D) (dAtA : Bytes) (preIndex : Nat)
    (m : File D) : Result (File D × Nat) :=
  (readVarint dAtA 11 0 preIndex 0).bind fun r =>
    let wire := r.1
    let iNdEx := r.2
    let fieldNum := int32 (wire >>> 3)
    let wireType := wire &&& 0x7
    if wireType = 4 then Result.error (Error.endGroupForNonGroup "File")
    else if fieldNum ≤ 0 then Result.error (Error.illegalTag "File" fieldNum wire)
    else if fieldNum = 1 then
      if wireType ≠ 2 then Result.error (Error.wrongWireType wireType "Datum")
      else
        (lengthDelimited dAtA iNdEx).bind fun p =>
          (slice dAtA p.1 p.2).bind fun s => Result.ok ({ m with Datum := s }, p.2)
    else if fieldNum = 2 then
      if wireType ≠ 2 then Result.error (Error.wrongWireType wireType "DataRefs")
      else
        (lengthDelimited dAtA iNdEx).bind fun p =>
          (slice dAtA p.1 p.2).bind fun s =>
            (C.Unmarshal C.fresh s).bind fun ref =>
              Result.ok ({ m with DataRefs := m.DataRefs ++ [ref] }, p.2)
    else
      (skipUnknown dAtA preIndex).bind fun k =>
        Result.ok ({ m with XXX_unrecognized := m.XXX_unrecognized ++ k.1 }, k.2)

/-- The method `File.Unmarshal` (lines 777-893), called on the message `m`. -/
def File.Unmarshal {D : Type} (C : DataRefCodec D) (m : File D) (dAtA : Bytes) :
    Result (File D) :=
  unmarshalLoop (File.unmarshalField C dAtA) dAtA.length (dAtA.length + 1) 0 m

/-- One round of the loop of `Index.Unmarshal` (lines 487-632). A nil `Range` or `File` is
replaced by an empty message before the embedded bytes are read into it. -/
def Index.unmarshalField {D : Type} (C : DataRefCodec D) (dAtA : Bytes) (preIndex : Nat)
    (m : Index D) : Result (Index D × Nat) :=
  (readVarint dAtA 11 0 preIndex 0).bind fun r =>
    let wire := r.1
    let iNdEx := r.2
    let fieldNum := int32 (wire >>> 3)
    let wireType := wire &&& 0x7
    if wireType = 4 then Result.error (Error.endGroupForNonGroup "Index")
    else if fieldNum ≤ 0 then Result.error (Error.illegalTag "Index" fieldNum wire)
    else if fieldNum = 1 then
      if wireType ≠ 2 then Result.error (Error.wrongWireType wireType "Path")
      else
        (lengthDelimited dAtA iNdEx).bind fun p =>
          (slice dAtA p.1 p.2).bind fun s => Result.ok ({ m with Path := s }, p.2)
    else if fieldNum = 2 then
      if wireType ≠ 2 then Result.error (Error.wrongWireType wireType "Range")
      else
        (lengthDelimited dAtA iNdEx).bind fun p =>
          (slice dAtA p.1 p.2).bind fun s =>
            (Range.Unmarshal C (m.Range.getD ⟨0, [], none, []⟩) s).bind fun range =>
              Result.ok ({ m with Range := some range }, p.2)
    else if fieldNum = 3 then
      if wireType ≠ 2 then Result.error (Error.wrongWireType wireType "File")
      else
        (lengthDelimited dAtA iNdEx).bind fun p =>
          (slice dAtA p.1 p.2).bind fun s =>
            (File.Unmarshal C (m.File.getD ⟨[], [], []⟩) s).bind fun file =>
              Result.ok ({ m with File := some file }, p.2)
    else
      (skipUnknown dAtA preIndex).bind fun k =>
        Result.ok ({ m with XXX_unrecognized := m.XXX_unrecognized ++ k.1 }, k.2)

/-- The method `Index.Unmarshal` (lines 484-638), called on the message `m`. -/
def Index.Unmarshal {D : Type} (C : DataRefCodec D) (m : Index D) (dAtA : Bytes) :
    Result (Index D) :=
  unmarshalLoop (Index.unmarshalField C dAtA) dAtA.length (dAtA.length + 1) 0 m

/-- A fresh `Index`, as `&Index{}`. -/
def Index.fresh {D : Type} : Index D := ⟨[], none, none, []⟩

/-! ## The wire format, as a function of the message -/

/-- The base-128 varint of `v`, low group first. -/
def varint (v : Nat) : Bytes :=
  if h : v ≥ 128 then (v % 128 + 128) :: varint (v / 128) else [v]
termination_by v
decreasing_by omega

/-- A length-delimited field: the tag byte, the length as a `uint64` and the payload. -/
def delimited (tag : Nat) (payload : Bytes) : Bytes :=
  tag :: (varint (uint64 (payload.length : Int)) ++ payload)

/-- The bytes of a `Range` without a `ChunkRef`. -/
def Range.wire {D : Type} (m : Range D) : Bytes :=
  (if m.Offset ≠ 0 then 0x8 :: varint (uint64 m.Offset) else []) ++
  ((if m.LastPath.length > 0 then delimited 0x12 m.LastPath else []) ++ m.XXX_unrecognized)

/-- The bytes of a `File` without `DataRefs`. -/
def File.wire {D : Type} (m : File D) : Bytes :=
  (if m.Datum.length > 0 then delimited 0xa m.Datum else []) ++ m.XXX_unrecognized

/-- The bytes of an `Index` whose `Range` has no `ChunkRef` and whose `File` has no
`DataRefs`. -/
def Index.wire {D : Type} (m : Index D) : Bytes :=
  (if m.Path.length > 0 then delimited 0xa m.Path else []) ++
  ((match m.Range with
    | some range => delimited 0x12 (Range.wire range)
    | none => []) ++
  ((match m.File with
    | some file => delimited 0x1a (File.wire file)
    | none => []) ++ m.XXX_unrecognized))

/-- The cursor of a `MarshalToSizedBuffer` that has written the bytes `out` at the end of the
buffer `B`: the index stands before them, and the bytes before it are those of `B`. -/
def Cursor.after (B out : Bytes) : Cursor :=
  (B.take (B.length - out.length) ++ out, ((B.length - out.length : Nat) : Int))

/-- The messages the claims are about: no `ChunkRef` in the `Range`, no `DataRefs` in the
`File`. -/
def Index.NoRefs {D : Type} (m : Index D) : Prop :=
  (∀ range, m.Range = some range → range.ChunkRef = none) ∧
  (∀ file, m.File = some file → file.DataRefs = [])

/-- No unrecognized bytes at any level of the message. -/
def Index.NoUnrecognized {D : Type} (m : Index D) : Prop :=
  m.XXX_unrecognized = [] ∧
  (∀ range, m.Range = some range → range.XXX_unrecognized = []) ∧
  (∀ file, m.File = some file → file.XXX_unrecognized = [])

/-- The values of the message fit their Go types: `Offset` is an `int64`, and the size of the
message is an `int`. -/
def Index.Representable {D : Type} (C : DataRefCodec D) (m : Index D) : Prop :=
  Index.Size C m < 2 ^ 63 ∧
  ∀ range, m.Range = some range → -(2 : Int) ^ 63 ≤ range.Offset ∧ range.Offset < 2 ^ 63

/-- A codec for a `chunk.DataRef` without content, for the sample messages. -/
def unitCodec : DataRefCodec Unit where
  fresh := ()
  Size := fun _ => 0
  MarshalToSizedBuffer := fun _ dAtA => Result.ok (dAtA, 0)
  Unmarshal := fun _ _ => Result.ok ()

/-- A sample range: offset -1 and last path `c`. -/
def sampleRange : Range Unit :=
  { Offset := -1, LastPath := [99], ChunkRef := none, XXX_unrecognized := [] }

/-- A sample file: datum `d`. -/
def sampleFile : File Unit :=
  { Datum := [100], DataRefs := [], XXX_unrecognized := [] }

/-- A sample message: path `ab`, the sample range and the sample file. -/
def sampleIndex : Index Unit :=
  { Path := [97, 98], Range := some sampleRange, File := some sampleFile,
    XXX_unrecognized := [] }

/-- Whether a call returns to its caller, with a value or with an error, rather than panic (or,
in the model, run out of rounds). -/
def Result.returns {α : Type} : Result α → Bool
  | Result.ok _ => true
  | Result.error _ => true
  | Result.panic => false
  | Result.unfinished => false

/-- The error by which `DataRefCodec.refusing` marks a `ChunkRef` payload. -/
def chunkRefPayload : Error := Error.dataRef "ChunkRef payload"

/-- The codec `C` with an `Unmarshal` that reads nothing and returns `chunkRefPayload`: a run
of `Range.Unmarshal` with it ends in this error exactly when it comes to the payload of a field
3 of wire type 2; it serves to say that an input has no such payload. -/
def DataRefCodec.refusing {D : Type} (C : DataRefCodec D) : DataRefCodec D :=
  { C with Unmarshal := fun _ _ => Result.error chunkRefPayload }

/-- The message `&Range{}`. -/
def Range.fresh {D : Type} : Range D := ⟨0, [], none, []⟩

/-- A field 2 (`LastPath`) that declares `2^63 - 1` bytes and has none. -/
def hugeString : Bytes := [0x12, 0xFF, 0xFF, 0xFF, 0xFF, 0xFF, 0xFF, 0xFF, 0xFF, 0x7F]

/-- A field 4, which `Range` does not know, that declares `2^63 - 1` bytes and has none. -/
def hugeUnknown : Bytes := [0x22, 0xFF, 0xFF, 0xFF, 0xFF, 0xFF, 0xFF, 0xFF, 0xFF, 0x7F]

/-- A field 2 (`LastPath`) that declares five bytes and has one. -/
def shortString : Bytes := [0x12, 0x05, 0x61]

/-- A field 4, which `Range` does not know, that declares five bytes and has one. -/
def shortUnknown : Bytes := [0x22, 0x05, 0x61]

/-- A field 1 (`Offset`) with the value 7 and then a field 4, which `Range` does not know, of
one byte. -/
def offsetAndUnknown : Bytes := [0x08, 0x07, 0x22, 0x01, 0x61]

end IndexPb

namespace Fsck

/-! # Theorems -/

/-! ## Pieces of the scan that run to their end -/

theorem Act.emits_skip : Act.Emits Act.skip [] := by
  intro log; simp [Act.skip]

theorem Act.emits_onError {cb : Sink} (hcb : cb.NeverErrs) (v : Violation) :
    Act.Emits (onError cb v) [v] := by
  intro log; simp [onError, hcb log v]

theorem Act.emits_seq {a b : Act} {vs ws : List Violation} (ha : Act.Emits a vs)
    (hb : Act.Emits b ws) : Act.Emits (Act.seq a b) (vs ++ ws) := by
  intro log; simp [Act.seq, ha log, hb (log ++ vs)]

theorem Act.emits_forEach {α : Type} {body : α → Act} {f : α → List Violation} :
    ∀ xs : List α, (∀ x ∈ xs, Act.Emits (body x) (f x)) →
      Act.Emits (forEach body xs) (xs.flatMap f)
  | [], _ => by simpa [forEach] using Act.emits_skip
  | x :: xs, h => by
    have hx := h x (List.mem_cons_self x xs)
    have hxs := Act.emits_forEach xs (fun y hy => h y (List.mem_cons_of_mem x hy))
    simpa [forEach] using Act.emits_seq hx hxs

theorem emits_checkProvenance (K : Keys) (s : Snapshot) {cb : Sink} (hcb : cb.NeverErrs)
    (bi : BranchInfo) : Act.Emits (checkProvenance K s cb bi) (provenanceViolations K s bi) := by
  unfold checkProvenance provenanceViolations
  by_cases h : equalBranches K (bi.Provenance ++ [bi.Branch]) (unionOf K s bi) = true
  · simpa [h] using Act.emits_skip
  · simpa [h] using Act.emits_onError hcb _

theorem emits_checkSubvenance (K : Keys) (s : Snapshot) {cb : Sink} (hcb : cb.NeverErrs)
    (bi : BranchInfo)
    (hrec : ∀ p ∈ bi.Provenance, GoMap.get? s.branchInfos (K.BranchKey p) ≠ none) :
    Act.Emits (checkSubvenance K s cb bi) (subvenanceViolations K s bi) := by
  unfold checkSubvenance subvenanceViolations
  apply Act.emits_forEach
  intro p hp
  cases hget : GoMap.get? s.branchInfos (K.BranchKey p) with
  | none => exact absurd hget (hrec p hp)
  | some info =>
    by_cases h : branchInSet bi.Branch info.Subvenance = true
    · simpa [h] using Act.emits_skip
    · simpa [h] using Act.emits_onError hcb _

theorem emits_checkHead (K : Keys) (s : Snapshot) {cb : Sink} (hcb : cb.NeverErrs)
    (bi : BranchInfo) : Act.Emits (checkHead K s cb bi) (headViolations K s bi) := by
  unfold checkHead headViolations
  cases bi.Head with
  | none => simpa using Act.emits_onError hcb _
  | some head =>
    simp only
    apply Act.emits_forEach
    intro p _
    cases GoMap.get? s.branchInfos (K.BranchKey p) with
    | none => simpa using Act.emits_onError hcb _
    | some info =>
      by_cases h : info.Head = none
      · simpa [h] using Act.emits_skip
      · cases GoMap.get? s.commitInfos (K.CommitKey head) with
        | none => simpa [h] using Act.emits_onError hcb _
        | some _ => simpa [h] using Act.emits_skip

theorem emits_checkBranch (K : Keys) (s : Snapshot) {cb : Sink} (hcb : cb.NeverErrs)
    (bi : BranchInfo)
    (hrec : ∀ p ∈ bi.Provenance, GoMap.get? s.branchInfos (K.BranchKey p) ≠ none) :
    Act.Emits (checkBranch K s cb bi) (branchViolations K s bi) :=
  Act.emits_seq (emits_checkProvenance K s hcb bi)
    (Act.emits_seq (emits_checkSubvenance K s hcb bi hrec) (emits_checkHead K s hcb bi))

theorem emits_checkParent (K : Keys) (s : Snapshot) {cb : Sink} (hcb : cb.NeverErrs)
    (ci : CommitInfo) : Act.Emits (checkParent K s cb ci) (parentViolations K s ci) := by
  unfold checkParent parentViolations
  cases ci.ParentCommit with
  | none => simpa using Act.emits_skip
  | some pr =>
    simp only
    cases GoMap.get? s.commitInfos (K.CommitKey pr) with
    | none => simpa using Act.emits_onError hcb _
    | some prInfo =>
      by_cases h : foundIn ci.Commit prInfo.ChildCommits = true
      · simpa [h] using Act.emits_skip
      · simpa [h] using Act.emits_onError hcb _

theorem emits_checkChildren (K : Keys) (s : Snapshot) {cb : Sink} (hcb : cb.NeverErrs)
    (ci : CommitInfo) : Act.Emits (checkChildren K s cb ci) (childViolations K s ci) := by
  unfold checkChildren childViolations
  apply Act.emits_forEach
  intro ch _
  cases GoMap.get? s.commitInfos (K.CommitKey ch) with
  | none => simpa using Act.emits_onError hcb _
  | some chInfo =>
    by_cases h : chInfo.ParentCommit = none ∨ chInfo.ParentCommit ≠ some ci.Commit
    · simpa [h] using Act.emits_onError hcb _
    · simpa [h] using Act.emits_skip

theorem emits_checkCommit (K : Keys) (s : Snapshot) {cb : Sink} (hcb : cb.NeverErrs)
    (ci : CommitInfo) : Act.Emits (checkCommit K s cb ci) (commitViolations K s ci) :=
  Act.emits_seq (emits_checkParent K s hcb ci) (emits_checkChildren K s hcb ci)

theorem emits_scan (K : Keys) (s : Snapshot) {cb : Sink} (hcb : cb.NeverErrs)
    (hrec : s.ProvenanceRecorded K) : Act.Emits (scan K s cb) (allViolations K s) := by
  unfold scan allViolations
  apply Act.emits_seq
  · exact Act.emits_forEach _ (fun e he => emits_checkBranch K s hcb e.2 (hrec e he))
  · exact Act.emits_forEach _ (fun e _ => emits_checkCommit K s hcb e.2)

/-- With a sink that never errs and every provenance entry recorded, `fsck` runs to its end and
hands the sink the violations of every branch and then of every commit. -/
theorem fsck_complete (K : Keys) (s : Snapshot) (fix : Bool) (txErr : Option String) {cb : Sink}
    (hcb : cb.NeverErrs) (hrec : s.ProvenanceRecorded K) :
    fsck K s fix txErr cb =
      ⟨allViolations K s, [], Outcome.returned (if fix then txErr else none)⟩ := by
  have h := emits_scan K s hcb hrec []
  unfold fsck
  rw [h]
  cases fix <;> simp

/-! ## Go maps and the helper predicates -/

theorem GoMap.mem_keys_set {V : Type} (m : GoMap V) (k : String) (v : V) (k' : String) :
    k' ∈ GoMap.keys (GoMap.set m k v) ↔ k' = k ∨ k' ∈ GoMap.keys m := by
  induction m with
  | nil => simp [GoMap.set, GoMap.keys]
  | cons e m ih =>
    obtain ⟨k0, v0⟩ := e
    by_cases h : k0 = k
    · subst h
      simp [GoMap.set, GoMap.keys]
    · have ih' : k' ∈ List.map Prod.fst (GoMap.set m k v) ↔ k' = k ∨ k' ∈ List.map Prod.fst m := ih
      simp only [GoMap.set, h, if_false, GoMap.keys, List.map_cons, List.mem_cons, ih']
      tauto

theorem GoMap.nodup_keys_set {V : Type} (m : GoMap V) (k : String) (v : V)
    (hm : (GoMap.keys m).Nodup) : (GoMap.keys (GoMap.set m k v)).Nodup := by
  induction m with
  | nil => simp [GoMap.set, GoMap.keys]
  | cons e m ih =>
    obtain ⟨k0, v0⟩ := e
    have hm' : k0 ∉ GoMap.keys m ∧ (GoMap.keys m).Nodup := by
      simpa [GoMap.keys] using hm
    by_cases h : k0 = k
    · subst h
      simpa [GoMap.set, GoMap.keys] using hm
    · have hk : k0 ∉ GoMap.keys (GoMap.set m k v) := by
        rw [GoMap.mem_keys_set]; tauto
      have := ih hm'.2
      simp only [GoMap.set, h, if_false]
      simpa [GoMap.keys] using And.intro hk this

theorem GoMap.values_set {V : Type} (m : GoMap V) (k : String) (v : V) (P : V → Prop)
    (hv : P v) (hm : ∀ e ∈ m, P e.2) : ∀ e ∈ GoMap.set m k v, P e.2 := by
  induction m with
  | nil => simpa [GoMap.set] using hv
  | cons e m ih =>
    obtain ⟨k0, v0⟩ := e
    have h0 : P v0 := hm (k0, v0) (List.mem_cons_self _ _)
    have hm' : ∀ e ∈ m, P e.2 := fun e he => hm e (List.mem_cons_of_mem _ he)
    by_cases h : k0 = k
    · subst h
      intro e he
      simp only [GoMap.set, if_true, List.mem_cons] at he
      rcases he with rfl | he
      · exact hv
      · exact hm' e he
    · intro e he
      simp only [GoMap.set, h, if_false, List.mem_cons] at he
      rcases he with rfl | he
      · exact h0
      · exact ih hm' e he

theorem GoMap.get?_eq_none_iff {V : Type} (m : GoMap V) (k : String) :
    GoMap.get? m k = none ↔ k ∉ GoMap.keys m := by
  induction m with
  | nil => simp [GoMap.get?, GoMap.keys]
  | cons e m ih =>
    obtain ⟨k0, v0⟩ := e
    by_cases h : k = k0
    · subst h
      simp [GoMap.get?, GoMap.keys, List.lookup]
    · have hb : (k == k0) = false := by simpa using h
      have ih' : List.lookup k m = none ↔ k ∉ List.map Prod.fst m := ih
      simp [GoMap.get?, GoMap.keys, List.lookup, hb, ih', h]

theorem GoMap.mem_of_get? {V : Type} (m : GoMap V) (k : String) (v : V)
    (h : GoMap.get? m k = some v) : (k, v) ∈ m := by
  induction m with
  | nil => simp [GoMap.get?] at h
  | cons e m ih =>
    obtain ⟨k0, v0⟩ := e
    by_cases hk : k = k0
    · subst hk
      simp [GoMap.get?, List.lookup] at h
      simp [h]
    · have hb : (k == k0) = false := by simpa using hk
      have h' : GoMap.get? m k = some v := by
        simpa [GoMap.get?, List.lookup, hb] using h
      exact List.mem_cons_of_mem _ (ih h')

theorem GoMap.get?_of_mem {V : Type} (m : GoMap V) (hm : (GoMap.keys m).Nodup) (k : String)
    (v : V) (h : (k, v) ∈ m) : GoMap.get? m k = some v := by
  induction m with
  | nil => simp at h
  | cons e m ih =>
    obtain ⟨k0, v0⟩ := e
    have hm' : k0 ∉ GoMap.keys m ∧ (GoMap.keys m).Nodup := by
      simpa [GoMap.keys] using hm
    rcases List.mem_cons.1 h with heq | hmem
    · cases heq
      simp [GoMap.get?, List.lookup]
    · have hne : k ≠ k0 := by
        rintro rfl
        exact hm'.1 (List.mem_map_of_mem Prod.fst hmem)
      have hb : (k == k0) = false := by simpa using hne
      have := ih hm'.2 hmem
      simpa [GoMap.get?, List.lookup, hb] using this

/-- The accumulating loop behind `keyMap`. -/
theorem keyMap_fold (K : Keys) (a : List Branch) (m : GoMap Bool)
    (hm : (GoMap.keys m).Nodup) (ht : ∀ e ∈ m, e.2 = true) :
    let r := a.foldl (fun m branch => GoMap.set m (K.BranchKey branch) true) m
    (GoMap.keys r).Nodup ∧ (∀ e ∈ r, e.2 = true) ∧
      ∀ k, k ∈ GoMap.keys r ↔ k ∈ GoMap.keys m ∨ k ∈ a.map K.BranchKey := by
  induction a generalizing m with
  | nil => exact ⟨hm, ht, fun k => by simp⟩
  | cons b a ih =>
    have h1 := GoMap.nodup_keys_set m (K.BranchKey b) true hm
    have h2 := GoMap.values_set m (K.BranchKey b) true (fun v => v = true) rfl ht
    obtain ⟨r1, r2, r3⟩ := ih (GoMap.set m (K.BranchKey b) true) h1 h2
    refine ⟨r1, r2, ?_⟩
    intro k
    have := r3 k
    simp only [List.foldl_cons, List.map_cons, List.mem_cons]
    rw [this, GoMap.mem_keys_set]
    tauto

theorem keyMap_spec (K : Keys) (a : List Branch) :
    (GoMap.keys (keyMap K a)).Nodup ∧ (∀ e ∈ keyMap K a, e.2 = true) ∧
      ∀ k, k ∈ GoMap.keys (keyMap K a) ↔ k ∈ a.map K.BranchKey := by
  have h := keyMap_fold K a [] (by simp [GoMap.keys]) (by simp)
  simpa [keyMap, GoMap.keys] using h

theorem keyMap_lookup (K : Keys) (a : List Branch) (k : String) :
    (GoMap.get? (keyMap K a) k).getD false = true ↔ k ∈ a.map K.BranchKey := by
  obtain ⟨_, ht, hk⟩ := keyMap_spec K a
  rw [← hk]
  cases hget : GoMap.get? (keyMap K a) k with
  | none =>
    have := (GoMap.get?_eq_none_iff (keyMap K a) k).1 hget
    simp [this]
  | some v =>
    have hmem := GoMap.mem_of_get? _ _ _ hget
    have hv : v = true := ht (k, v) hmem
    have hin : k ∈ GoMap.keys (keyMap K a) := List.mem_map_of_mem Prod.fst hmem
    simp [hv, hin]

/-- The function `equalBranches` decides equality of the two key sets. -/
theorem equalBranches_iff (K : Keys) (a b : List Branch) :
    equalBranches K a b = true ↔ SameKeys K a b := by
  obtain ⟨na, _, ka⟩ := keyMap_spec K a
  obtain ⟨nb, _, kb⟩ := keyMap_spec K b
  have hall : (keyMap K a).all (fun e => (GoMap.get? (keyMap K b) e.1).getD false) = true ↔
      ∀ k ∈ a.map K.BranchKey, k ∈ b.map K.BranchKey := by
    rw [List.all_eq_true]
    constructor
    · intro h k hk
      obtain ⟨e, he, rfl⟩ := List.mem_map.1 ((ka k).2 hk)
      exact (keyMap_lookup K b e.1).1 (h e he)
    · intro h e he
      exact (keyMap_lookup K b e.1).2 (h _ ((ka e.1).1 (List.mem_map_of_mem Prod.fst he)))
  unfold equalBranches SameKeys
  simp only [GoMap.len]
  constructor
  · intro h
    by_cases hl : (keyMap K a).length = (keyMap K b).length
    · simp only [hl, ne_eq, not_true_eq_false, if_false] at h
      have hsub := hall.1 h
      refine ⟨hsub, ?_⟩
      have hss : GoMap.keys (keyMap K a) ⊆ GoMap.keys (keyMap K b) := by
        intro k hk
        exact (kb k).2 (hsub k ((ka k).1 hk))
      have hsp := List.subperm_of_subset na hss
      have hlen : (GoMap.keys (keyMap K b)).length ≤ (GoMap.keys (keyMap K a)).length := by
        simp [GoMap.keys, hl]
      have hperm := hsp.perm_of_length_le hlen
      intro k hk
      exact (ka k).1 (hperm.mem_iff.2 ((kb k).2 hk))
    · simp [hl] at h
  · rintro ⟨h1, h2⟩
    have hperm : (GoMap.keys (keyMap K a)).Perm (GoMap.keys (keyMap K b)) := by
      rw [List.perm_ext_iff_of_nodup na nb]
      intro k
      rw [ka, kb]
      exact ⟨h1 k, h2 k⟩
    have hl : (keyMap K a).length = (keyMap K b).length := by
      simpa [GoMap.keys] using hperm.length_eq
    simp only [hl, ne_eq, not_true_eq_false, if_false]
    exact hall.2 h1

theorem branchInSet_iff (branch : Branch) (set : List Branch) :
    branchInSet branch set = true ↔ branch ∈ set := by
  induction set with
  | nil => simp [branchInSet]
  | cons b set ih =>
    by_cases h : branch = b
    · simp [branchInSet, h]
    · simp [branchInSet, h, ih]

theorem foundIn_iff (commit : Commit) (children : List Commit) :
    foundIn commit children = true ↔ commit ∈ children := by
  induction children with
  | nil => simp [foundIn]
  | cons c children ih =>
    by_cases h : c = commit
    · simp [foundIn, h]
    · have h' : ¬ commit = c := fun e => h e.symm
      simp [foundIn, h, h', ih]

/-- The loop of lines 166-174 builds the list the claims describe. -/
theorem unionOf_eq (K : Keys) (s : Snapshot) (bi : BranchInfo) :
    unionOf K s bi = oneStepProvenance K s bi := by
  have key : ∀ (ds : List Branch) (acc : List Branch),
      ds.foldl
        (fun union directProvenance =>
          let directProvenanceInfo := GoMap.get? s.branchInfos (K.BranchKey directProvenance)
          let union := union ++ [directProvenance]
          match directProvenanceInfo with
          | some info => union ++ info.Provenance
          | none => union) acc
        = acc ++ ds.flatMap (fun d => d :: recordedProvenance K s d) := by
    intro ds
    induction ds with
    | nil => intro acc; simp
    | cons d ds ih =>
      intro acc
      rw [List.foldl_cons, ih]
      cases hget : GoMap.get? s.branchInfos (K.BranchKey d) with
      | none => simp [recordedProvenance, hget]
      | some info => simp [recordedProvenance, hget]
  unfold unionOf oneStepProvenance
  rw [key]
  simp

/-! ## Which violations the lists contain -/

theorem mem_provenanceViolations (K : Keys) (s : Snapshot) (bi : BranchInfo) (v : Violation) :
    v ∈ provenanceViolations K s bi ↔
      ¬ SameKeys K (bi.Provenance ++ [bi.Branch]) (oneStepProvenance K s bi) ∧
        v = Violation.ErrBranchProvenanceTransitivity bi (oneStepProvenance K s bi) := by
  unfold provenanceViolations
  rw [← unionOf_eq, ← equalBranches_iff]
  by_cases h : equalBranches K (bi.Provenance ++ [bi.Branch]) (unionOf K s bi) = true
  · simp [h]
  · simp [h]

theorem mem_subvenanceViolations (K : Keys) (s : Snapshot) (bi : BranchInfo) (v : Violation) :
    v ∈ subvenanceViolations K s bi ↔
      ∃ p ∈ bi.Provenance, ∃ info, GoMap.get? s.branchInfos (K.BranchKey p) = some info ∧
        bi.Branch ∉ info.Subvenance ∧
        v = Violation.ErrBranchSubvenanceTransitivity info bi.Branch := by
  unfold subvenanceViolations
  simp only [List.mem_flatMap]
  constructor
  · rintro ⟨p, hp, hv⟩
    refine ⟨p, hp, ?_⟩
    cases hget : GoMap.get? s.branchInfos (K.BranchKey p) with
    | none => simp [hget] at hv
    | some info =>
      simp only [hget] at hv
      by_cases h : branchInSet bi.Branch info.Subvenance = true
      · simp [h] at hv
      · simp [h] at hv
        exact ⟨info, rfl, fun hm => h ((branchInSet_iff _ _).2 hm), hv⟩
  · rintro ⟨p, hp, info, hget, hsub, rfl⟩
    refine ⟨p, hp, ?_⟩
    have h : ¬ branchInSet bi.Branch info.Subvenance = true :=
      fun hb => hsub ((branchInSet_iff _ _).1 hb)
    simp [hget, h]

theorem mem_headViolations (K : Keys) (s : Snapshot) (bi : BranchInfo) (v : Violation) :
    v ∈ headViolations K s bi ↔
      (bi.Head = none ∧ v = Violation.ErrMissingBranchHead bi.Branch) ∨
      (∃ head, bi.Head = some head ∧ ∃ p ∈ bi.Provenance,
        (GoMap.get? s.branchInfos (K.BranchKey p) = none ∧
          v = Violation.ErrBranchInfoNotFound p) ∨
        (∃ info, GoMap.get? s.branchInfos (K.BranchKey p) = some info ∧ info.Head ≠ none ∧
          GoMap.get? s.commitInfos (K.CommitKey head) = none ∧
          v = Violation.ErrCommitInfoNotFound "head commit provenance (=>)" head)) := by
  unfold headViolations
  cases hh : bi.Head with
  | none => simp
  | some head =>
    simp only [List.mem_flatMap]
    constructor
    · rintro ⟨p, hp, hv⟩
      right
      refine ⟨head, rfl, p, hp, ?_⟩
      cases hget : GoMap.get? s.branchInfos (K.BranchKey p) with
      | none => simp [hget] at hv; exact Or.inl ⟨rfl, hv⟩
      | some info =>
        simp only [hget] at hv
        by_cases h : info.Head = none
        · simp [h] at hv
        · cases hc : GoMap.get? s.commitInfos (K.CommitKey head) with
          | none =>
            simp [h, hc] at hv
            exact Or.inr ⟨info, rfl, h, rfl, hv⟩
          | some _ => simp [h, hc] at hv
    · rintro (⟨h, _⟩ | ⟨head', hh', p, hp, hcase⟩)
      · cases h
      · cases hh'
        refine ⟨p, hp, ?_⟩
        rcases hcase with ⟨hget, rfl⟩ | ⟨info, hget, hhead, hc, rfl⟩
        · simp [hget]
        · simp [hget, hhead, hc]

theorem mem_parentViolations (K : Keys) (s : Snapshot) (ci : CommitInfo) (v : Violation) :
    v ∈ parentViolations K s ci ↔
      ∃ pr, ci.ParentCommit = some pr ∧
        ((GoMap.get? s.commitInfos (K.CommitKey pr) = none ∧
          v = Violation.ErrCommitInfoNotFound ("parent commit of " ++ K.CommitString ci.Commit) pr) ∨
        (∃ prInfo, GoMap.get? s.commitInfos (K.CommitKey pr) = some prInfo ∧
          ci.Commit ∉ prInfo.ChildCommits ∧
          v = Violation.ErrCommitAncestryBroken prInfo.Commit ci.Commit)) := by
  unfold parentViolations
  cases hp : ci.ParentCommit with
  | none => simp
  | some pr =>
    cases hget : GoMap.get? s.commitInfos (K.CommitKey pr) with
    | none => simp [hget]
    | some prInfo =>
      by_cases h : foundIn ci.Commit prInfo.ChildCommits = true
      · have hm := (foundIn_iff _ _).1 h
        simp [hget, h, hm]
      · have hm : ci.Commit ∉ prInfo.ChildCommits := fun hm => h ((foundIn_iff _ _).2 hm)
        simp [hget, h, hm]

theorem mem_childViolations (K : Keys) (s : Snapshot) (ci : CommitInfo) (v : Violation) :
    v ∈ childViolations K s ci ↔
      ∃ ch ∈ ci.ChildCommits,
        (GoMap.get? s.commitInfos (K.CommitKey ch) = none ∧
          v = Violation.ErrCommitInfoNotFound ("child commit of " ++ K.CommitString ci.Commit) ch) ∨
        (∃ chInfo, GoMap.get? s.commitInfos (K.CommitKey ch) = some chInfo ∧
          chInfo.ParentCommit ≠ some ci.Commit ∧
          v = Violation.ErrCommitAncestryBroken ci.Commit chInfo.Commit) := by
  unfold childViolations
  simp only [List.mem_flatMap]
  constructor
  · rintro ⟨ch, hch, hv⟩
    refine ⟨ch, hch, ?_⟩
    cases hget : GoMap.get? s.commitInfos (K.CommitKey ch) with
    | none => simp [hget] at hv; exact Or.inl ⟨rfl, hv⟩
    | some chInfo =>
      simp only [hget] at hv
      by_cases h : chInfo.ParentCommit = some ci.Commit
      · simp [h] at hv
      · have h' : chInfo.ParentCommit = none ∨ chInfo.ParentCommit ≠ some ci.Commit := Or.inr h
        simp [h'] at hv
        exact Or.inr ⟨chInfo, rfl, h, hv⟩
  · rintro ⟨ch, hch, hcase⟩
    refine ⟨ch, hch, ?_⟩
    rcases hcase with ⟨hget, rfl⟩ | ⟨chInfo, hget, hne, rfl⟩
    · simp [hget]
    · have h' : chInfo.ParentCommit = none ∨ chInfo.ParentCommit ≠ some ci.Commit := Or.inr hne
      simp [hget, h']

theorem mem_allViolations (K : Keys) (s : Snapshot) (v : Violation) :
    v ∈ allViolations K s ↔
      (∃ e ∈ s.branchInfos, v ∈ provenanceViolations K s e.2 ∨
        v ∈ subvenanceViolations K s e.2 ∨ v ∈ headViolations K s e.2) ∨
      (∃ e ∈ s.commitInfos, v ∈ parentViolations K s e.2 ∨ v ∈ childViolations K s e.2) := by
  simp [allViolations, branchViolations, commitViolations, List.mem_flatMap]

/-! ## `ErrBranchInfoNotFound` is never handed to the sink -/

theorem Act.avoids_onError {cb : Sink} {v w : Violation} (h : w ≠ v) :
    Act.Avoids (onError cb w) v := by
  intro log hlog
  simp only [onError, List.mem_append, List.mem_singleton, not_or]
  exact ⟨hlog, fun e => h e.symm⟩

theorem Act.avoids_skip (v : Violation) : Act.Avoids Act.skip v := fun _ h => h

theorem Act.avoids_crash (v : Violation) : Act.Avoids Act.crash v := fun _ h => h

theorem Act.avoids_seq_of_done {a b : Act} {v : Violation} (ha : Act.Avoids a v)
    (hb : ∀ log, (a log).2 = none → v ∉ (a log).1 → v ∉ (b (a log).1).1) :
    Act.Avoids (Act.seq a b) v := by
  intro log hlog
  have h1 := ha log hlog
  have h2 := hb log
  unfold Act.seq
  rcases hr : a log with ⟨log', stop⟩
  rw [hr] at h1 h2
  cases stop with
  | none => exact h2 rfl h1
  | some st => exact h1

theorem Act.avoids_seq {a b : Act} {v : Violation} (ha : Act.Avoids a v)
    (hb : Act.Avoids b v) : Act.Avoids (Act.seq a b) v :=
  Act.avoids_seq_of_done ha (fun log _ h => hb (a log).1 h)

theorem Act.avoids_forEach {α : Type} {body : α → Act} {v : Violation} :
    ∀ xs : List α, (∀ x ∈ xs, Act.Avoids (body x) v) → Act.Avoids (forEach body xs) v
  | [], _ => Act.avoids_skip v
  | x :: xs, h =>
    Act.avoids_seq (h x (List.mem_cons_self x xs))
      (Act.avoids_forEach xs (fun y hy => h y (List.mem_cons_of_mem x hy)))

/-- A loop that ran to its end ran every one of its bodies to its end. -/
theorem forEach_done {α : Type} {body : α → Act} :
    ∀ (xs : List α) (log : List Violation), (forEach body xs log).2 = none →
      ∀ x ∈ xs, ∃ log', (body x log').2 = none
  | [], _, _ => by simp
  | y :: ys, log, h => by
    intro x hx
    unfold forEach Act.seq at h
    rcases hr : body y log with ⟨log', stop⟩
    rw [hr] at h
    cases stop with
    | some st => simp at h
    | none =>
      rcases List.mem_cons.1 hx with rfl | hx'
      · exact ⟨log, by rw [hr]⟩
      · exact forEach_done ys log' h x hx'

/-- The subvenance loop runs to its end only if every provenance entry has a record. -/
theorem checkSubvenance_done (K : Keys) (s : Snapshot) (cb : Sink) (bi : BranchInfo)
    (log : List Violation) (h : (checkSubvenance K s cb bi log).2 = none) :
    ∀ p ∈ bi.Provenance, GoMap.get? s.branchInfos (K.BranchKey p) ≠ none := by
  intro p hp hget
  obtain ⟨log', hdone⟩ := forEach_done bi.Provenance log h p hp
  simp [hget, Act.crash] at hdone

theorem checkHead_avoids (K : Keys) (s : Snapshot) (cb : Sink) (bi : BranchInfo) (b : Branch)
    (hrec : ∀ p ∈ bi.Provenance, GoMap.get? s.branchInfos (K.BranchKey p) ≠ none) :
    Act.Avoids (checkHead K s cb bi) (Violation.ErrBranchInfoNotFound b) := by
  unfold checkHead
  cases bi.Head with
  | none => exact Act.avoids_onError (by simp)
  | some head =>
    apply Act.avoids_forEach
    intro p hp
    cases hget : GoMap.get? s.branchInfos (K.BranchKey p) with
    | none => exact absurd hget (hrec p hp)
    | some info =>
      by_cases h : info.Head = none
      · simpa [h] using Act.avoids_skip _
      · cases GoMap.get? s.commitInfos (K.CommitKey head) with
        | none => simpa [h] using Act.avoids_onError (by simp)
        | some _ => simpa [h] using Act.avoids_skip _

theorem checkBranch_avoids (K : Keys) (s : Snapshot) (cb : Sink) (bi : BranchInfo) (b : Branch) :
    Act.Avoids (checkBranch K s cb bi) (Violation.ErrBranchInfoNotFound b) := by
  unfold checkBranch
  apply Act.avoids_seq
  · unfold checkProvenance
    by_cases h : equalBranches K (bi.Provenance ++ [bi.Branch]) (unionOf K s bi) = true
    · simpa [h] using Act.avoids_skip _
    · simpa [h] using Act.avoids_onError (by simp)
  · apply Act.avoids_seq_of_done
    · unfold checkSubvenance
      apply Act.avoids_forEach
      intro p _
      cases GoMap.get? s.branchInfos (K.BranchKey p) with
      | none => exact Act.avoids_crash _
      | some info =>
        by_cases h : branchInSet bi.Branch info.Subvenance = true
        · simpa [h] using Act.avoids_skip _
        · simpa [h] using Act.avoids_onError (by simp)
    · intro log hdone hlog
      exact checkHead_avoids K s cb bi b (checkSubvenance_done K s cb bi log hdone) _ hlog

theorem checkCommit_avoids (K : Keys) (s : Snapshot) (cb : Sink) (ci : CommitInfo) (b : Branch) :
    Act.Avoids (checkCommit K s cb ci) (Violation.ErrBranchInfoNotFound b) := by
  unfold checkCommit
  apply Act.avoids_seq
  · unfold checkParent
    cases ci.ParentCommit with
    | none => exact Act.avoids_skip _
    | some pr =>
      simp only
      cases GoMap.get? s.commitInfos (K.CommitKey pr) with
      | none => exact Act.avoids_onError (by simp)
      | some prInfo =>
        by_cases h : foundIn ci.Commit prInfo.ChildCommits = true
        · simpa [h] using Act.avoids_skip _
        · simpa [h] using Act.avoids_onError (by simp)
  · unfold checkChildren
    apply Act.avoids_forEach
    intro ch _
    cases GoMap.get? s.commitInfos (K.CommitKey ch) with
    | none => exact Act.avoids_onError (by simp)
    | some chInfo =>
      by_cases h : chInfo.ParentCommit = none ∨ chInfo.ParentCommit ≠ some ci.Commit
      · simpa [h] using Act.avoids_onError (by simp)
      · simpa [h] using Act.avoids_skip _

/-- The calls of `fsck` are the log of the scan. -/
theorem fsck_calls (K : Keys) (s : Snapshot) (fix : Bool) (txErr : Option String) (cb : Sink) :
    (fsck K s fix txErr cb).calls = (scan K s cb []).1 := by
  unfold fsck
  rcases scan K s cb [] with ⟨log, stop⟩
  cases stop with
  | none => cases fix <;> rfl
  | some st => cases st <;> rfl

/-- Whatever the snapshot and the sink, `fsck` never hands an `ErrBranchInfoNotFound` to the sink:
the subvenance loop stops the scan at a provenance entry without a record before the head loop
can report it. -/
theorem errBranchInfoNotFound_never_emitted (K : Keys) (s : Snapshot) (fix : Bool)
    (txErr : Option String) (cb : Sink) (b : Branch) :
    Violation.ErrBranchInfoNotFound b ∉ (fsck K s fix txErr cb).calls := by
  rw [fsck_calls]
  have h : Act.Avoids (scan K s cb) (Violation.ErrBranchInfoNotFound b) := by
    unfold scan
    apply Act.avoids_seq
    · exact Act.avoids_forEach _ (fun e _ => checkBranch_avoids K s cb e.2 b)
    · exact Act.avoids_forEach _ (fun e _ => checkCommit_avoids K s cb e.2 b)
  exact h [] (by simp)

/-! ## The snapshot phase builds valid snapshots -/

theorem GoMap.keyed_fold {V : Type} (key : V → String) (xs : List V) (m : GoMap V)
    (hm : (GoMap.keys m).Nodup) (hk : ∀ e ∈ m, e.1 = key e.2) :
    let r := xs.foldl (fun m x => GoMap.set m (key x) x) m
    (GoMap.keys r).Nodup ∧ ∀ e ∈ r, e.1 = key e.2 := by
  induction xs generalizing m with
  | nil => exact ⟨hm, hk⟩
  | cons x xs ih =>
    have h1 := GoMap.nodup_keys_set m (key x) x hm
    have h2 : ∀ e ∈ GoMap.set m (key x) x, e.1 = key e.2 := by
      clear ih h1 hm
      induction m with
      | nil => simp [GoMap.set]
      | cons e m ihm =>
        obtain ⟨k0, v0⟩ := e
        have h0 : k0 = key v0 := hk (k0, v0) (List.mem_cons_self _ _)
        have hk' : ∀ e ∈ m, e.1 = key e.2 := fun e he => hk e (List.mem_cons_of_mem _ he)
        by_cases h : k0 = key x
        · intro e he
          simp only [GoMap.set, h, if_true, List.mem_cons] at he
          rcases he with rfl | he
          · rfl
          · exact hk' e he
        · intro e he
          simp only [GoMap.set, h, if_false, List.mem_cons] at he
          rcases he with rfl | he
          · exact h0
          · exact ihm hk' e he
    exact ih (GoMap.set m (key x) x) h1 h2

/-- The maps the snapshot phase builds satisfy `Snapshot.Valid`. -/
theorem collectSnapshot_valid (K : Keys) (repos : List RepoListing) :
    (collectSnapshot K repos).Valid K := by
  have key : ∀ (rs : List RepoListing) (s : Snapshot), s.Valid K →
      (rs.foldl
        (fun s repo =>
          { commitInfos :=
              repo.commits.foldl
                (fun m commitInfo => GoMap.set m (K.CommitKey commitInfo.Commit) commitInfo)
                s.commitInfos,
            branchInfos :=
              repo.branches.foldl
                (fun m branchInfo => GoMap.set m (K.BranchKey branchInfo.Branch) branchInfo)
                s.branchInfos })
        s).Valid K := by
    intro rs
    induction rs with
    | nil => intro s hs; exact hs
    | cons r rs ih =>
      intro s hs
      obtain ⟨hb, hc, hbk, hck⟩ := hs
      apply ih
      have b := GoMap.keyed_fold (fun bi : BranchInfo => K.BranchKey bi.Branch) r.branches
        s.branchInfos hb hbk
      have c := GoMap.keyed_fold (fun ci : CommitInfo => K.CommitKey ci.Commit) r.commits
        s.commitInfos hc hck
      exact ⟨b.1, c.1, b.2, c.2⟩
  apply key
  simp [Snapshot.Valid, GoMap.keys]

/-! ## Counting and valid snapshots -/

theorem count_flatMap_zero {α β : Type} [DecidableEq β] (l : List α) (f : α → List β) (v : β)
    (h : ∀ x ∈ l, v ∉ f x) : List.count v (l.flatMap f) = 0 := by
  rw [List.count_eq_zero, List.mem_flatMap]
  rintro ⟨x, hx, hv⟩
  exact h x hx hv

theorem count_flatMap_unique {α β : Type} [DecidableEq β] (f : α → List β) (v : β) (x : α) :
    ∀ l : List α, l.Nodup → x ∈ l → (∀ y ∈ l, y ≠ x → v ∉ f y) →
      List.count v (l.flatMap f) = List.count v (f x)
  | [], _, hx, _ => by simp at hx
  | y :: ys, hnd, hx, hother => by
    have hnd' : y ∉ ys ∧ ys.Nodup := List.nodup_cons.1 hnd
    rw [List.flatMap_cons, List.count_append]
    rcases List.mem_cons.1 hx with rfl | hxs
    · have hz : List.count v (ys.flatMap f) = 0 := by
        apply count_flatMap_zero
        intro z hz
        apply hother z (List.mem_cons_of_mem _ hz)
        rintro rfl
        exact hnd'.1 hz
      rw [hz, Nat.add_zero]
    · have hyx : y ≠ x := by
        rintro rfl
        exact hnd'.1 hxs
      have hy : List.count v (f y) = 0 :=
        List.count_eq_zero.2 (hother y (List.mem_cons_self _ _) hyx)
      rw [hy, Nat.zero_add]
      exact count_flatMap_unique f v x ys hnd'.2 hxs
        (fun z hz => hother z (List.mem_cons_of_mem _ hz))

theorem count_flatMap_keyed {α β : Type} [DecidableEq β] (g : α → List β) (v : β)
    (key : α → String) (k : String) :
    ∀ l : List α, (∀ p ∈ l, List.count v (g p) = if key p = k then 1 else 0) →
      List.count v (l.flatMap g) = List.count k (l.map key)
  | [], _ => by simp
  | p :: ps, h => by
    have hp := h p (List.mem_cons_self _ _)
    have ih := count_flatMap_keyed g v key k ps (fun q hq => h q (List.mem_cons_of_mem _ hq))
    rw [List.flatMap_cons, List.count_append, hp, ih, List.map_cons, List.count_cons]
    by_cases hk : key p = k
    · simp [hk, Nat.add_comm]
    · simp [hk]

theorem Snapshot.Valid.nodup_branches {K : Keys} {s : Snapshot} (hv : s.Valid K) :
    s.branchInfos.Nodup := List.Nodup.of_map Prod.fst hv.1

theorem Snapshot.Valid.nodup_commits {K : Keys} {s : Snapshot} (hv : s.Valid K) :
    s.commitInfos.Nodup := List.Nodup.of_map Prod.fst hv.2.1

theorem Snapshot.Valid.branch_lookup {K : Keys} {s : Snapshot} (hv : s.Valid K)
    {e : String × BranchInfo} (he : e ∈ s.branchInfos) :
    GoMap.get? s.branchInfos (K.BranchKey e.2.Branch) = some e.2 := by
  rw [← hv.2.2.1 e he]
  exact GoMap.get?_of_mem s.branchInfos hv.1 e.1 e.2 he

theorem Snapshot.Valid.commit_lookup {K : Keys} {s : Snapshot} (hv : s.Valid K)
    {e : String × CommitInfo} (he : e ∈ s.commitInfos) :
    GoMap.get? s.commitInfos (K.CommitKey e.2.Commit) = some e.2 := by
  rw [← hv.2.2.2 e he]
  exact GoMap.get?_of_mem s.commitInfos hv.2.1 e.1 e.2 he

theorem Snapshot.Valid.branch_entry {K : Keys} {s : Snapshot} (hv : s.Valid K)
    {e e' : String × BranchInfo} (he : e ∈ s.branchInfos) (he' : e' ∈ s.branchInfos)
    (h : e.2.Branch = e'.2.Branch) : e = e' := by
  have h1 := hv.branch_lookup he
  have h2 := hv.branch_lookup he'
  rw [h, h2] at h1
  have hk : e.1 = e'.1 := by rw [hv.2.2.1 e he, hv.2.2.1 e' he', h]
  exact Prod.ext hk (Option.some.inj h1).symm

theorem Snapshot.Valid.commit_entry {K : Keys} {s : Snapshot} (hv : s.Valid K)
    {e e' : String × CommitInfo} (he : e ∈ s.commitInfos) (he' : e' ∈ s.commitInfos)
    (h : e.2.Commit = e'.2.Commit) : e = e' := by
  have h1 := hv.commit_lookup he
  have h2 := hv.commit_lookup he'
  rw [h, h2] at h1
  have hk : e.1 = e'.1 := by rw [hv.2.2.2 e he, hv.2.2.2 e' he', h]
  exact Prod.ext hk (Option.some.inj h1).symm

theorem Snapshot.Valid.branch_of_lookup {K : Keys} {s : Snapshot} (hv : s.Valid K)
    {k : String} {info : BranchInfo} (h : GoMap.get? s.branchInfos k = some info) :
    (k, info) ∈ s.branchInfos ∧ k = K.BranchKey info.Branch :=
  ⟨GoMap.mem_of_get? _ _ _ h, hv.2.2.1 (k, info) (GoMap.mem_of_get? _ _ _ h)⟩

theorem Snapshot.Valid.commit_of_lookup {K : Keys} {s : Snapshot} (hv : s.Valid K)
    {k : String} {info : CommitInfo} (h : GoMap.get? s.commitInfos k = some info) :
    (k, info) ∈ s.commitInfos ∧ k = K.CommitKey info.Commit :=
  ⟨GoMap.mem_of_get? _ _ _ h, hv.2.2.2 (k, info) (GoMap.mem_of_get? _ _ _ h)⟩

/-! ## The three location strings -/

theorem parentLocation_injective (a b : String)
    (h : "parent commit of " ++ a = "parent commit of " ++ b) : a = b := by
  have := congrArg String.data h
  simp only [String.data_append] at this
  exact String.ext (List.append_cancel_left this)

theorem parentLocation_ne_child (a b : String) :
    "parent commit of " ++ a ≠ "child commit of " ++ b := by
  intro h
  have := congrArg String.data h
  simp [String.data_append] at this

theorem headLocation_ne_parent (a : String) :
    "head commit provenance (=>)" ≠ "parent commit of " ++ a := by
  intro h
  have := congrArg String.data h
  simp [String.data_append] at this

theorem headLocation_ne_child (a : String) :
    "head commit provenance (=>)" ≠ "child commit of " ++ a := by
  intro h
  have := congrArg String.data h
  simp [String.data_append] at this

/-! ## Which record hands which violation to the sink -/

theorem count_allViolations (K : Keys) (s : Snapshot) (v : Violation) :
    List.count v (allViolations K s) =
      List.count v (s.branchInfos.flatMap (fun e => branchViolations K s e.2)) +
        List.count v (s.commitInfos.flatMap (fun e => commitViolations K s e.2)) := by
  unfold allViolations
  rw [List.count_append]

theorem mem_branchViolations (K : Keys) (s : Snapshot) (bi : BranchInfo) (v : Violation) :
    v ∈ branchViolations K s bi ↔
      v ∈ provenanceViolations K s bi ∨ v ∈ subvenanceViolations K s bi ∨
        v ∈ headViolations K s bi := by
  simp [branchViolations]

theorem mem_commitViolations (K : Keys) (s : Snapshot) (ci : CommitInfo) (v : Violation) :
    v ∈ commitViolations K s ci ↔
      v ∈ parentViolations K s ci ∨ v ∈ childViolations K s ci := by
  simp [commitViolations]

/-- No commit check hands a branch violation to the sink. -/
theorem commitViolations_kind (K : Keys) (s : Snapshot) (ci : CommitInfo) (v : Violation)
    (h : v ∈ commitViolations K s ci) :
    (∃ loc c, v = Violation.ErrCommitInfoNotFound loc c ∧
        loc ≠ "head commit provenance (=>)") ∨
      ∃ p c, v = Violation.ErrCommitAncestryBroken p c := by
  rcases (mem_commitViolations K s ci v).1 h with h | h
  · obtain ⟨pr, _, hc⟩ := (mem_parentViolations K s ci v).1 h
    rcases hc with ⟨_, rfl⟩ | ⟨prInfo, _, _, rfl⟩
    · exact Or.inl ⟨_, _, rfl, fun e => headLocation_ne_parent _ e.symm⟩
    · exact Or.inr ⟨_, _, rfl⟩
  · obtain ⟨ch, _, hc⟩ := (mem_childViolations K s ci v).1 h
    rcases hc with ⟨_, rfl⟩ | ⟨chInfo, _, _, rfl⟩
    · exact Or.inl ⟨_, _, rfl, fun e => headLocation_ne_child _ e.symm⟩
    · exact Or.inr ⟨_, _, rfl⟩

/-- No branch check hands a commit-phase violation to the sink. -/
theorem branchViolations_kind (K : Keys) (s : Snapshot) (bi : BranchInfo) (v : Violation)
    (h : v ∈ branchViolations K s bi) :
    (∃ full, v = Violation.ErrBranchProvenanceTransitivity bi full) ∨
    (∃ info, v = Violation.ErrBranchSubvenanceTransitivity info bi.Branch) ∨
    v = Violation.ErrMissingBranchHead bi.Branch ∨
    (∃ b, v = Violation.ErrBranchInfoNotFound b) ∨
    (∃ c, v = Violation.ErrCommitInfoNotFound "head commit provenance (=>)" c) := by
  rcases (mem_branchViolations K s bi v).1 h with h | h | h
  · exact Or.inl ⟨_, ((mem_provenanceViolations K s bi v).1 h).2⟩
  · obtain ⟨_, _, info, _, _, rfl⟩ := (mem_subvenanceViolations K s bi v).1 h
    exact Or.inr (Or.inl ⟨info, rfl⟩)
  · rcases (mem_headViolations K s bi v).1 h with ⟨_, rfl⟩ | ⟨head, _, p, _, hc⟩
    · exact Or.inr (Or.inr (Or.inl rfl))
    · rcases hc with ⟨_, rfl⟩ | ⟨_, _, _, _, rfl⟩
      · exact Or.inr (Or.inr (Or.inr (Or.inl ⟨p, rfl⟩)))
      · exact Or.inr (Or.inr (Or.inr (Or.inr ⟨head, rfl⟩)))

theorem count_provenanceViolations_zero (K : Keys) (s : Snapshot) (bi : BranchInfo)
    (v : Violation) (h : ∀ full, v ≠ Violation.ErrBranchProvenanceTransitivity bi full) :
    List.count v (provenanceViolations K s bi) = 0 := by
  rw [List.count_eq_zero]
  intro hm
  exact h _ ((mem_provenanceViolations K s bi v).1 hm).2

theorem count_subvenanceViolations_zero (K : Keys) (s : Snapshot) (bi : BranchInfo)
    (v : Violation) (h : ∀ info, v ≠ Violation.ErrBranchSubvenanceTransitivity info bi.Branch) :
    List.count v (subvenanceViolations K s bi) = 0 := by
  rw [List.count_eq_zero]
  intro hm
  obtain ⟨_, _, info, _, _, heq⟩ := (mem_subvenanceViolations K s bi v).1 hm
  exact h info heq

theorem count_commit_part_zero (K : Keys) (s : Snapshot) (v : Violation)
    (h1 : ∀ loc c, loc ≠ "head commit provenance (=>)" →
      v ≠ Violation.ErrCommitInfoNotFound loc c)
    (h2 : ∀ p c, v ≠ Violation.ErrCommitAncestryBroken p c) :
    List.count v (s.commitInfos.flatMap (fun e => commitViolations K s e.2)) = 0 := by
  apply count_flatMap_zero
  intro e _ hm
  rcases commitViolations_kind K s e.2 v hm with ⟨loc, c, rfl, hloc⟩ | ⟨p, c, rfl⟩
  · exact h1 loc c hloc rfl
  · exact h2 p c rfl

theorem mem_allViolations_missingHead (K : Keys) (s : Snapshot) (b : Branch) :
    Violation.ErrMissingBranchHead b ∈ allViolations K s ↔
      ∃ e ∈ s.branchInfos, e.2.Branch = b ∧ e.2.Head = none := by
  rw [mem_allViolations]
  constructor
  · rintro (⟨e, he, h | h | h⟩ | ⟨e, _, h⟩)
    · cases ((mem_provenanceViolations K s e.2 _).1 h).2
    · obtain ⟨_, _, _, _, _, heq⟩ := (mem_subvenanceViolations K s e.2 _).1 h
      cases heq
    · rcases (mem_headViolations K s e.2 _).1 h with ⟨hh, heq⟩ | ⟨_, _, _, _, hc⟩
      · simp only [Violation.ErrMissingBranchHead.injEq] at heq
        exact ⟨e, he, heq.symm, hh⟩
      · rcases hc with ⟨_, heq⟩ | ⟨_, _, _, _, heq⟩ <;> cases heq
    · rcases commitViolations_kind K s e.2 _ ((mem_commitViolations K s e.2 _).2 h) with
        ⟨_, _, heq, _⟩ | ⟨_, _, heq⟩ <;> cases heq
  · rintro ⟨e, he, rfl, hh⟩
    exact Or.inl ⟨e, he, Or.inr (Or.inr ((mem_headViolations K s e.2 _).2 (Or.inl ⟨hh, rfl⟩)))⟩

theorem count_flatMap_filter {α β : Type} [DecidableEq β] (g : α → List β) (v : β)
    (P : α → Bool) :
    ∀ l : List α, (∀ q ∈ l, List.count v (g q) = if P q = true then 1 else 0) →
      List.count v (l.flatMap g) = (l.filter P).length
  | [], _ => by simp
  | q :: qs, h => by
    have hq := h q (List.mem_cons_self _ _)
    have ih := count_flatMap_filter g v P qs (fun r hr => h r (List.mem_cons_of_mem _ hr))
    rw [List.flatMap_cons, List.count_append, hq, ih]
    by_cases hP : P q = true
    · simp [hP, Nat.add_comm]
    · simp [hP]

theorem mem_allViolations_ancestry (K : Keys) (s : Snapshot) (parent child : Commit) :
    Violation.ErrCommitAncestryBroken parent child ∈ allViolations K s ↔
      ∃ y ∈ s.commitInfos,
        (∃ pr prInfo, y.2.ParentCommit = some pr ∧
          GoMap.get? s.commitInfos (K.CommitKey pr) = some prInfo ∧
          y.2.Commit ∉ prInfo.ChildCommits ∧ parent = prInfo.Commit ∧ child = y.2.Commit) ∨
        (∃ ch ∈ y.2.ChildCommits, ∃ chInfo,
          GoMap.get? s.commitInfos (K.CommitKey ch) = some chInfo ∧
          chInfo.ParentCommit ≠ some y.2.Commit ∧ parent = y.2.Commit ∧
          child = chInfo.Commit) := by
  rw [mem_allViolations]
  constructor
  · rintro (⟨y, _, h⟩ | ⟨y, hy, h | h⟩)
    · rcases branchViolations_kind K s y.2 _ ((mem_branchViolations K s y.2 _).2 h) with
        ⟨_, h⟩ | ⟨_, h⟩ | h | ⟨_, h⟩ | ⟨_, h⟩ <;> cases h
    · obtain ⟨pr, hpar, hc⟩ := (mem_parentViolations K s y.2 _).1 h
      rcases hc with ⟨_, heq⟩ | ⟨prInfo, hget, hnot, heq⟩
      · cases heq
      · simp only [Violation.ErrCommitAncestryBroken.injEq] at heq
        exact ⟨y, hy, Or.inl ⟨pr, prInfo, hpar, hget, hnot, heq.1, heq.2⟩⟩
    · obtain ⟨ch, hch, hc⟩ := (mem_childViolations K s y.2 _).1 h
      rcases hc with ⟨_, heq⟩ | ⟨chInfo, hget, hne, heq⟩
      · cases heq
      · simp only [Violation.ErrCommitAncestryBroken.injEq] at heq
        exact ⟨y, hy, Or.inr ⟨ch, hch, chInfo, hget, hne, heq.1, heq.2⟩⟩
  · rintro ⟨y, hy, ⟨pr, prInfo, hpar, hget, hnot, rfl, rfl⟩ |
      ⟨ch, hch, chInfo, hget, hne, rfl, rfl⟩⟩
    · exact Or.inr ⟨y, hy, Or.inl
        ((mem_parentViolations K s y.2 _).2 ⟨pr, hpar, Or.inr ⟨prInfo, hget, hnot, rfl⟩⟩)⟩
    · exact Or.inr ⟨y, hy, Or.inr
        ((mem_childViolations K s y.2 _).2 ⟨ch, hch, Or.inr ⟨chInfo, hget, hne, rfl⟩⟩)⟩

theorem mem_allViolations_parentNotFound (K : Keys) (s : Snapshot) (a : String) (x : Commit) :
    Violation.ErrCommitInfoNotFound ("parent commit of " ++ a) x ∈ allViolations K s ↔
      ∃ y ∈ s.commitInfos, K.CommitString y.2.Commit = a ∧ y.2.ParentCommit = some x ∧
        GoMap.get? s.commitInfos (K.CommitKey x) = none := by
  rw [mem_allViolations]
  constructor
  · rintro (⟨y, _, h⟩ | ⟨y, hy, h | h⟩)
    · rcases branchViolations_kind K s y.2 _ ((mem_branchViolations K s y.2 _).2 h) with
        ⟨_, h⟩ | ⟨_, h⟩ | h | ⟨_, h⟩ | ⟨_, h⟩
      · cases h
      · cases h
      · cases h
      · cases h
      · simp only [Violation.ErrCommitInfoNotFound.injEq] at h
        exact absurd h.1.symm (headLocation_ne_parent a)
    · obtain ⟨pr, hpar, hc⟩ := (mem_parentViolations K s y.2 _).1 h
      rcases hc with ⟨hget, heq⟩ | ⟨_, _, _, heq⟩
      · simp only [Violation.ErrCommitInfoNotFound.injEq] at heq
        have hstr := parentLocation_injective _ _ heq.1
        rw [← heq.2] at hpar hget
        exact ⟨y, hy, hstr.symm, hpar, hget⟩
      · cases heq
    · obtain ⟨ch, _, hc⟩ := (mem_childViolations K s y.2 _).1 h
      rcases hc with ⟨_, heq⟩ | ⟨_, _, _, heq⟩
      · simp only [Violation.ErrCommitInfoNotFound.injEq] at heq
        exact absurd heq.1 (parentLocation_ne_child _ _)
      · cases heq
  · rintro ⟨y, hy, rfl, hpar, hget⟩
    exact Or.inr ⟨y, hy, Or.inl
      ((mem_parentViolations K s y.2 _).2 ⟨x, hpar, Or.inl ⟨hget, rfl⟩⟩)⟩

theorem count_branch_part_zero (K : Keys) (s : Snapshot) (v : Violation)
    (h : ∀ e ∈ s.branchInfos, v ∉ branchViolations K s e.2) :
    List.count v (s.branchInfos.flatMap (fun e => branchViolations K s e.2)) = 0 :=
  count_flatMap_zero _ _ _ h

theorem Snapshot.mem_mentioned_commit {s : Snapshot} {e : String × CommitInfo}
    (he : e ∈ s.commitInfos) : e.2.Commit ∈ s.mentionedCommits := by
  unfold Snapshot.mentionedCommits
  rw [List.mem_flatMap]
  exact ⟨e, he, List.mem_cons_self _ _⟩

theorem Snapshot.mem_mentioned_parent {s : Snapshot} {e : String × CommitInfo}
    (he : e ∈ s.commitInfos) {pr : Commit} (h : e.2.ParentCommit = some pr) :
    pr ∈ s.mentionedCommits := by
  unfold Snapshot.mentionedCommits
  rw [List.mem_flatMap]
  exact ⟨e, he, by simp [h]⟩

theorem Snapshot.mem_mentioned_child {s : Snapshot} {e : String × CommitInfo}
    (he : e ∈ s.commitInfos) {ch : Commit} (h : ch ∈ e.2.ChildCommits) :
    ch ∈ s.mentionedCommits := by
  unfold Snapshot.mentionedCommits
  rw [List.mem_flatMap]
  exact ⟨e, he, by simp [h]⟩

/-- Where every provenance entry has a record and the sink never errs, the provenance check of a
branch of the snapshot is reported exactly when the key sets differ, at most once, and with the
one-step union as full provenance. -/
theorem provenance_violation_when_records_complete (K : Keys) (s : Snapshot) (fix : Bool)
    (txErr : Option String) (cb : Sink) (hv : s.Valid K) (hcb : cb.NeverErrs)
    (hrec : s.ProvenanceRecorded K) (e : String × BranchInfo) (he : e ∈ s.branchInfos) :
    ((∃ full, Violation.ErrBranchProvenanceTransitivity e.2 full ∈
          (fsck K s fix txErr cb).calls) ↔
        ¬ SameKeys K (e.2.Provenance ++ [e.2.Branch]) (oneStepProvenance K s e.2)) ∧
    (∀ full, Violation.ErrBranchProvenanceTransitivity e.2 full ∈
        (fsck K s fix txErr cb).calls → full = oneStepProvenance K s e.2) ∧
    (∀ full, List.count (Violation.ErrBranchProvenanceTransitivity e.2 full)
        (fsck K s fix txErr cb).calls ≤ 1) := by
  rw [fsck_complete K s fix txErr hcb hrec]
  simp only
  have origin : ∀ full, Violation.ErrBranchProvenanceTransitivity e.2 full ∈ allViolations K s →
      ¬ SameKeys K (e.2.Provenance ++ [e.2.Branch]) (oneStepProvenance K s e.2) ∧
        full = oneStepProvenance K s e.2 := by
    intro full hm
    rw [mem_allViolations] at hm
    rcases hm with ⟨y, _, h⟩ | ⟨y, _, h⟩
    · rcases h with h | h | h
      · obtain ⟨hne, heq⟩ := (mem_provenanceViolations K s y.2 _).1 h
        simp only [Violation.ErrBranchProvenanceTransitivity.injEq] at heq
        rw [← heq.1] at hne
        rw [← heq.1] at heq
        exact ⟨hne, heq.2⟩
      · obtain ⟨_, _, _, _, _, heq⟩ := (mem_subvenanceViolations K s y.2 _).1 h
        cases heq
      · rcases (mem_headViolations K s y.2 _).1 h with ⟨_, heq⟩ | ⟨_, _, _, _, hc⟩
        · cases heq
        · rcases hc with ⟨_, heq⟩ | ⟨_, _, _, _, heq⟩ <;> cases heq
    · rcases commitViolations_kind K s y.2 _ ((mem_commitViolations K s y.2 _).2 h) with
        ⟨_, _, heq, _⟩ | ⟨_, _, heq⟩ <;> cases heq
  refine ⟨⟨fun ⟨full, hm⟩ => (origin full hm).1, fun hne => ?_⟩,
    fun full hm => (origin full hm).2, fun full => ?_⟩
  · refine ⟨oneStepProvenance K s e.2, ?_⟩
    rw [mem_allViolations]
    exact Or.inl ⟨e, he, Or.inl ((mem_provenanceViolations K s e.2 _).2 ⟨hne, rfl⟩)⟩
  · rw [count_allViolations,
      count_commit_part_zero K s _ (fun _ _ _ => by simp) (fun _ _ => by simp), Nat.add_zero,
      count_flatMap_unique (fun y => branchViolations K s y.2) _ e s.branchInfos
        hv.nodup_branches he]
    · simp only [branchViolations, List.count_append]
      rw [count_subvenanceViolations_zero K s e.2 _ (fun _ => by simp)]
      have hhead : List.count (Violation.ErrBranchProvenanceTransitivity e.2 full)
          (headViolations K s e.2) = 0 := by
        rw [List.count_eq_zero]
        intro hm
        rcases (mem_headViolations K s e.2 _).1 hm with ⟨_, heq⟩ | ⟨_, _, _, _, hc⟩
        · cases heq
        · rcases hc with ⟨_, heq⟩ | ⟨_, _, _, _, heq⟩ <;> cases heq
      rw [hhead, Nat.add_zero]
      refine le_trans (List.count_le_length _ _) ?_
      unfold provenanceViolations
      split <;> simp
    · intro y hy hne hm
      apply hne
      rcases branchViolations_kind K s y.2 _ hm with
        ⟨_, h⟩ | ⟨_, h⟩ | h | ⟨_, h⟩ | ⟨_, h⟩
      · simp only [Violation.ErrBranchProvenanceTransitivity.injEq] at h
        exact hv.branch_entry hy he (by rw [h.1])
      · cases h
      · cases h
      · cases h
      · cases h

/-! ## The claims -/

/-- C1 (defect in the code): in the snapshot of two branches `a` and `b` that both store a
provenance entry `ghost` without a record, the key set of `Provenance` plus the branch differs
from the key set of the union for both branches, yet whichever branch is visited second gets no
`ErrBranchProvenanceTransitivity`: the scan ends in a nil dereference in the subvenance loop of
the branch visited first. -/
theorem C1_provenance_check_cut_short_by_nil_dereference :
    (fsck sampleKeys twoDanglingAB false none Sink.silent =
        ⟨[Violation.ErrBranchProvenanceTransitivity (branchRecord "a" (some "h") ["ghost"] [] [])
            [dataBranch "a"]], [], Outcome.nilDereference⟩ ∧
      ¬ SameKeys sampleKeys
          ((branchRecord "b" (some "h") ["ghost"] [] []).Provenance ++ [dataBranch "b"])
          (oneStepProvenance sampleKeys twoDanglingAB (branchRecord "b" (some "h") ["ghost"] [] []))) ∧
    (fsck sampleKeys twoDanglingBA false none Sink.silent =
        ⟨[Violation.ErrBranchProvenanceTransitivity (branchRecord "b" (some "h") ["ghost"] [] [])
            [dataBranch "b"]], [], Outcome.nilDereference⟩ ∧
      ¬ SameKeys sampleKeys
          ((branchRecord "a" (some "h") ["ghost"] [] []).Provenance ++ [dataBranch "a"])
          (oneStepProvenance sampleKeys twoDanglingBA (branchRecord "a" (some "h") ["ghost"] [] []))) := by
  decide

/-- C2 (counterexample): (1) in the chain `a` → `b` → `c` where `a` stores provenance `[b]` and
`b` stores none, `fsck` reports no `ErrBranchProvenanceTransitivity` for `a`, although the stored
provenance of `a` is not the transitive closure `{b, c}` of its direct provenance; (2) with a
sink that errs, and (3) with a provenance entry that has no record, `fsck` reports none for a
branch `b` whose stored provenance is not the closure, because the scan stops before `b`. -/
theorem C2_counterexample_stale_chain :
    ¬ ((∀ full, Violation.ErrBranchProvenanceTransitivity
            (branchRecord "a" (some "h") ["b"] [] ["b"]) full ∉
          (fsck sampleKeys staleChain false none Sink.silent).calls) ↔
        SameKeys sampleKeys (branchRecord "a" (some "h") ["b"] [] ["b"]).Provenance
          (directClosure sampleKeys staleChain (branchRecord "a" (some "h") ["b"] [] ["b"]))) ∧
    ¬ ((∀ full, Violation.ErrBranchProvenanceTransitivity
            (branchRecord "b" (some "h") ["ghost"] [] []) full ∉
          (fsck sampleKeys twoDanglingAB false none Sink.failing).calls) ↔
        SameKeys sampleKeys (branchRecord "b" (some "h") ["ghost"] [] []).Provenance
          (directClosure sampleKeys twoDanglingAB (branchRecord "b" (some "h") ["ghost"] [] []))) ∧
    ¬ ((∀ full, Violation.ErrBranchProvenanceTransitivity
            (branchRecord "b" (some "h") ["ghost"] [] []) full ∉
          (fsck sampleKeys twoDanglingAB false none Sink.silent).calls) ↔
        SameKeys sampleKeys (branchRecord "b" (some "h") ["ghost"] [] []).Provenance
          (directClosure sampleKeys twoDanglingAB (branchRecord "b" (some "h") ["ghost"] [] []))) := by
  have hchain : (fsck sampleKeys staleChain false none Sink.silent).calls =
      [Violation.ErrBranchProvenanceTransitivity (branchRecord "b" (some "h") [] ["a"] ["c"])
        [dataBranch "b", dataBranch "c"]] := by decide
  have hfail : (fsck sampleKeys twoDanglingAB false none Sink.failing).calls =
      [Violation.ErrBranchProvenanceTransitivity (branchRecord "a" (some "h") ["ghost"] [] [])
        [dataBranch "a"]] := by decide
  have hcrash : (fsck sampleKeys twoDanglingAB false none Sink.silent).calls =
      [Violation.ErrBranchProvenanceTransitivity (branchRecord "a" (some "h") ["ghost"] [] [])
        [dataBranch "a"]] := by decide
  have hne1 : branchRecord "a" (some "h") ["b"] [] ["b"] ≠
      branchRecord "b" (some "h") [] ["a"] ["c"] := by decide
  have hne2 : branchRecord "b" (some "h") ["ghost"] [] [] ≠
      branchRecord "a" (some "h") ["ghost"] [] [] := by decide
  have hclosure1 : ¬ SameKeys sampleKeys (branchRecord "a" (some "h") ["b"] [] ["b"]).Provenance
      (directClosure sampleKeys staleChain (branchRecord "a" (some "h") ["b"] [] ["b"])) := by
    decide
  have hclosure2 : ¬ SameKeys sampleKeys (branchRecord "b" (some "h") ["ghost"] [] []).Provenance
      (directClosure sampleKeys twoDanglingAB (branchRecord "b" (some "h") ["ghost"] [] [])) := by
    decide
  refine ⟨fun h => hclosure1 (h.1 ?_), fun h => hclosure2 (h.1 ?_), fun h => hclosure2 (h.1 ?_)⟩
  · intro full hmem
    rw [hchain] at hmem
    simp only [List.mem_singleton, Violation.ErrBranchProvenanceTransitivity.injEq] at hmem
    exact hne1 hmem.1
  · intro full hmem
    rw [hfail] at hmem
    simp only [List.mem_singleton, Violation.ErrBranchProvenanceTransitivity.injEq] at hmem
    exact hne2 hmem.1
  · intro full hmem
    rw [hcrash] at hmem
    simp only [List.mem_singleton, Violation.ErrBranchProvenanceTransitivity.injEq] at hmem
    exact hne2 hmem.1

/-- C2 (amended): with a sink that never errs, on a snapshot whose provenance entries all have a
record, `fsck` reports no `ErrBranchProvenanceTransitivity` for a branch of the snapshot exactly
when the key set of its stored `Provenance` plus the branch equals the key set of the one-step
union: the branch, its direct provenance, and the stored `Provenance` of each direct provenance
that has a record. -/
theorem C2_no_provenance_violation_iff_one_step_union (K : Keys) (s : Snapshot) (fix : Bool)
    (txErr : Option String) (cb : Sink) (hcb : cb.NeverErrs) (hrec : s.ProvenanceRecorded K)
    (e : String × BranchInfo) (he : e ∈ s.branchInfos) :
    (∀ full, Violation.ErrBranchProvenanceTransitivity e.2 full ∉
        (fsck K s fix txErr cb).calls) ↔
      SameKeys K (e.2.Provenance ++ [e.2.Branch]) (oneStepProvenance K s e.2) := by
  rw [fsck_complete K s fix txErr hcb hrec]
  simp only
  constructor
  · intro h
    by_contra hne
    apply h (oneStepProvenance K s e.2)
    rw [mem_allViolations]
    exact Or.inl ⟨e, he, Or.inl ((mem_provenanceViolations K s e.2 _).2 ⟨hne, rfl⟩)⟩
  · intro hsame full hmem
    rw [mem_allViolations] at hmem
    rcases hmem with ⟨e', _, h | h | h⟩ | ⟨e', _, h | h⟩
    · obtain ⟨hne, heq⟩ := (mem_provenanceViolations K s e'.2 _).1 h
      simp only [Violation.ErrBranchProvenanceTransitivity.injEq] at heq
      rw [← heq.1] at hne
      exact hne hsame
    · obtain ⟨_, _, _, _, _, heq⟩ := (mem_subvenanceViolations K s e'.2 _).1 h
      cases heq
    · rcases (mem_headViolations K s e'.2 _).1 h with ⟨_, heq⟩ | ⟨_, _, _, _, hc⟩
      · cases heq
      · rcases hc with ⟨_, heq⟩ | ⟨_, _, _, _, heq⟩ <;> cases heq
    · obtain ⟨_, _, hc⟩ := (mem_parentViolations K s e'.2 _).1 h
      rcases hc with ⟨_, heq⟩ | ⟨_, _, _, heq⟩ <;> cases heq
    · obtain ⟨_, _, hc⟩ := (mem_childViolations K s e'.2 _).1 h
      rcases hc with ⟨_, heq⟩ | ⟨_, _, _, heq⟩ <;> cases heq

/-- C2 (amended), applied to the branch `a` of the chain `a` → `b` → `c`. -/
theorem C2_no_provenance_violation_iff_one_step_union_witness :
    Sink.silent.NeverErrs ∧ staleChain.ProvenanceRecorded sampleKeys ∧
    ("data@a", branchRecord "a" (some "h") ["b"] [] ["b"]) ∈ staleChain.branchInfos ∧
    ((∀ full, Violation.ErrBranchProvenanceTransitivity
          (branchRecord "a" (some "h") ["b"] [] ["b"]) full ∉
        (fsck sampleKeys staleChain false none Sink.silent).calls) ↔
      SameKeys sampleKeys
        ((branchRecord "a" (some "h") ["b"] [] ["b"]).Provenance ++ [dataBranch "a"])
        (oneStepProvenance sampleKeys staleChain (branchRecord "a" (some "h") ["b"] [] ["b"]))) :=
  ⟨fun _ _ => rfl, by decide, by decide,
    C2_no_provenance_violation_iff_one_step_union sampleKeys staleChain false none Sink.silent
      (fun _ _ => rfl) (by decide) ("data@a", branchRecord "a" (some "h") ["b"] [] ["b"])
      (by decide)⟩

/-- C3 (counterexample): branch `b` lists `p` in its provenance and the subvenance of `p` omits
`b`; (1) with a sink that errs on the provenance violation of `b` the scan returns before the
subvenance loop, and (2) when `p` follows an entry without a record the scan ends in a nil
dereference at that entry, in either visiting order: no `ErrBranchSubvenanceTransitivity` is
emitted for the entry. -/
theorem C3_counterexample_scan_cut_short :
    ¬ (Violation.ErrBranchSubvenanceTransitivity (branchRecord "p" (some "h") [] [] [])
          (dataBranch "b") ∈ (fsck sampleKeys brokenSubvenance false none Sink.failing).calls ↔
        dataBranch "b" ∉ (branchRecord "p" (some "h") [] [] []).Subvenance) ∧
    ¬ (Violation.ErrBranchSubvenanceTransitivity (branchRecord "q" (some "h") [] [] [])
          (dataBranch "p") ∈ (fsck sampleKeys subvenanceAfterGhost false none Sink.silent).calls ↔
        dataBranch "p" ∉ (branchRecord "q" (some "h") [] [] []).Subvenance) ∧
    ¬ (Violation.ErrBranchSubvenanceTransitivity (branchRecord "q" (some "h") [] [] [])
          (dataBranch "p") ∈
            (fsck sampleKeys subvenanceAfterGhostQP false none Sink.silent).calls ↔
        dataBranch "p" ∉ (branchRecord "q" (some "h") [] [] []).Subvenance) ∧
    fsck sampleKeys subvenanceAfterGhost false none Sink.silent =
      ⟨[], [], Outcome.nilDereference⟩ := by
  decide

/-- C3 (amended): with a sink that never errs, on a valid snapshot whose provenance entries all
have a record, for a branch `B` of the snapshot and an entry `P` of its provenance with record
`info`, `fsck` emits `ErrBranchSubvenanceTransitivity` carrying `info` and `B` exactly when no
element of the subvenance of `info` equals `B`, and then as many times as the provenance of `B`
holds an entry with the key of `P` (once when `P` is listed once). -/
theorem C3_subvenance_violation_iff_omitted (K : Keys) (s : Snapshot) (fix : Bool)
    (txErr : Option String) (cb : Sink) (hv : s.Valid K) (hcb : cb.NeverErrs)
    (hrec : s.ProvenanceRecorded K) (e : String × BranchInfo) (he : e ∈ s.branchInfos)
    (p : Branch) (hp : p ∈ e.2.Provenance) (info : BranchInfo)
    (hget : GoMap.get? s.branchInfos (K.BranchKey p) = some info) :
    (Violation.ErrBranchSubvenanceTransitivity info e.2.Branch ∈ (fsck K s fix txErr cb).calls ↔
      e.2.Branch ∉ info.Subvenance) ∧
    (e.2.Branch ∉ info.Subvenance →
      List.count (Violation.ErrBranchSubvenanceTransitivity info e.2.Branch)
          (fsck K s fix txErr cb).calls =
        List.count (K.BranchKey p) (e.2.Provenance.map K.BranchKey)) := by
  rw [fsck_complete K s fix txErr hcb hrec]
  simp only
  constructor
  · constructor
    · intro hm
      rw [mem_allViolations] at hm
      rcases hm with ⟨y, _, h | h | h⟩ | ⟨y, _, h⟩
      · cases ((mem_provenanceViolations K s y.2 _).1 h).2
      · obtain ⟨_, _, info', _, hsub, heq⟩ := (mem_subvenanceViolations K s y.2 _).1 h
        simp only [Violation.ErrBranchSubvenanceTransitivity.injEq] at heq
        rw [heq.1, heq.2]
        exact hsub
      · rcases (mem_headViolations K s y.2 _).1 h with ⟨_, heq⟩ | ⟨_, _, _, _, hc⟩
        · cases heq
        · rcases hc with ⟨_, heq⟩ | ⟨_, _, _, _, heq⟩ <;> cases heq
      · rcases commitViolations_kind K s y.2 _ ((mem_commitViolations K s y.2 _).2 h) with
          ⟨_, _, heq, _⟩ | ⟨_, _, heq⟩ <;> cases heq
    · intro hsub
      rw [mem_allViolations]
      exact Or.inl ⟨e, he, Or.inr (Or.inl
        ((mem_subvenanceViolations K s e.2 _).2 ⟨p, hp, info, hget, hsub, rfl⟩))⟩
  · intro hsub
    rw [count_allViolations,
      count_commit_part_zero K s _ (fun _ _ _ => by simp) (fun _ _ => by simp), Nat.add_zero,
      count_flatMap_unique (fun y => branchViolations K s y.2) _ e s.branchInfos
        hv.nodup_branches he]
    · simp only [branchViolations, List.count_append]
      rw [count_provenanceViolations_zero K s e.2 _ (fun _ => by simp)]
      have hhead : List.count (Violation.ErrBranchSubvenanceTransitivity info e.2.Branch)
          (headViolations K s e.2) = 0 := by
        rw [List.count_eq_zero]
        intro hm
        rcases (mem_headViolations K s e.2 _).1 hm with ⟨_, heq⟩ | ⟨_, _, _, _, hc⟩
        · cases heq
        · rcases hc with ⟨_, heq⟩ | ⟨_, _, _, _, heq⟩ <;> cases heq
      rw [hhead, Nat.zero_add, Nat.add_zero]
      unfold subvenanceViolations
      apply count_flatMap_keyed
      intro q _
      have hinfo := hv.branch_of_lookup hget
      by_cases hk : K.BranchKey q = K.BranchKey p
      · have hb : ¬ branchInSet e.2.Branch info.Subvenance = true :=
          fun hb => hsub ((branchInSet_iff _ _).1 hb)
        simp [hk, hget, hb]
      · cases hq : GoMap.get? s.branchInfos (K.BranchKey q) with
        | none => simp [hk]
        | some i =>
          have hi := hv.branch_of_lookup hq
          have hne : i ≠ info := by
            rintro rfl
            exact hk (hi.2.trans hinfo.2.symm)
          by_cases hb : branchInSet e.2.Branch i.Subvenance = true
          · simp [hk, hb]
          · have hv' : Violation.ErrBranchSubvenanceTransitivity info e.2.Branch ∉
                [Violation.ErrBranchSubvenanceTransitivity i e.2.Branch] := by
              simp only [List.mem_singleton, Violation.ErrBranchSubvenanceTransitivity.injEq,
                and_true]
              exact fun h => hne h.symm
            simpa [hk, hb] using List.count_eq_zero.2 hv'
    · intro y hy hne hm
      apply hne
      apply hv.branch_entry hy he
      rcases branchViolations_kind K s y.2 _ hm with
        ⟨_, h⟩ | ⟨_, h⟩ | h | ⟨_, h⟩ | ⟨_, h⟩
      · cases h
      · simp only [Violation.ErrBranchSubvenanceTransitivity.injEq] at h
        exact h.2.symm
      · cases h
      · cases h
      · cases h

/-- C3 (amended), applied to the branch `b` that lists `p` once while the subvenance of `p`
omits `b`: exactly one violation, carrying the record of `p` and `b`. -/
theorem C3_subvenance_violation_iff_omitted_witness :
    brokenSubvenance.Valid sampleKeys ∧ Sink.silent.NeverErrs ∧
    brokenSubvenance.ProvenanceRecorded sampleKeys ∧
    ("data@b", branchRecord "b" (some "lost") ["p"] [] []) ∈ brokenSubvenance.branchInfos ∧
    dataBranch "p" ∈ (branchRecord "b" (some "lost") ["p"] [] []).Provenance ∧
    GoMap.get? brokenSubvenance.branchInfos (sampleKeys.BranchKey (dataBranch "p")) =
      some (branchRecord "p" (some "h") [] [] []) ∧
    dataBranch "b" ∉ (branchRecord "p" (some "h") [] [] []).Subvenance ∧
    List.count (Violation.ErrBranchSubvenanceTransitivity (branchRecord "p" (some "h") [] [] [])
        (dataBranch "b")) (fsck sampleKeys brokenSubvenance false none Sink.silent).calls = 1 :=
  ⟨by decide, fun _ _ => rfl, by decide, by decide, by decide, by decide, by decide,
    (C3_subvenance_violation_iff_omitted sampleKeys brokenSubvenance false none Sink.silent
      (by decide) (fun _ _ => rfl) (by decide)
      ("data@b", branchRecord "b" (some "lost") ["p"] [] []) (by decide)
      (dataBranch "p") (by decide) (branchRecord "p" (some "h") [] [] []) (by decide)).2
      (by decide)⟩

/-- C4 (counterexample): (1) branch `p` stores `b` in its subvenance while `b` stores an empty
provenance: `fsck` reports no `ErrBranchSubvenanceTransitivity`, yet membership in provenance and
membership in subvenance are not equivalent; (2) with a sink that errs, and (3) with a provenance
entry that has no record, `fsck` reports none although a branch is in a provenance whose owner is
not in its subvenance. -/
theorem C4_counterexample_one_way_subvenance :
    ¬ ((∀ info missing, Violation.ErrBranchSubvenanceTransitivity info missing ∉
          (fsck sampleKeys oneWaySubvenance false none Sink.silent).calls) →
        ∀ eB ∈ oneWaySubvenance.branchInfos, ∀ eP ∈ oneWaySubvenance.branchInfos,
          (eP.2.Branch ∈ eB.2.Provenance ↔ eB.2.Branch ∈ eP.2.Subvenance)) ∧
    ¬ ((∀ info missing, Violation.ErrBranchSubvenanceTransitivity info missing ∉
          (fsck sampleKeys brokenSubvenance false none Sink.failing).calls) →
        ∀ eB ∈ brokenSubvenance.branchInfos, ∀ eP ∈ brokenSubvenance.branchInfos,
          (eP.2.Branch ∈ eB.2.Provenance ↔ eB.2.Branch ∈ eP.2.Subvenance)) ∧
    ¬ ((∀ info missing, Violation.ErrBranchSubvenanceTransitivity info missing ∉
          (fsck sampleKeys subvenanceAfterGhost false none Sink.silent).calls) →
        ∀ eB ∈ subvenanceAfterGhost.branchInfos, ∀ eP ∈ subvenanceAfterGhost.branchInfos,
          (eP.2.Branch ∈ eB.2.Provenance ↔ eB.2.Branch ∈ eP.2.Subvenance)) := by
  have h1 : (fsck sampleKeys oneWaySubvenance false none Sink.silent).calls = [] := by decide
  have h2 : (fsck sampleKeys brokenSubvenance false none Sink.failing).calls =
      [Violation.ErrBranchProvenanceTransitivity (branchRecord "b" (some "lost") ["p"] [] [])
        [dataBranch "b"]] := by decide
  have h3 : (fsck sampleKeys subvenanceAfterGhost false none Sink.silent).calls = [] := by
    decide
  refine ⟨fun h => ?_, fun h => ?_, fun h => ?_⟩
  · have := h (by intro info missing; rw [h1]; simp)
      ("data@b", branchRecord "b" (some "h") [] [] []) (by decide)
      ("data@p", branchRecord "p" (some "h") [] ["b"] []) (by decide)
    revert this
    decide
  · have := h (by intro info missing; rw [h2]; simp)
      ("data@b", branchRecord "b" (some "lost") ["p"] [] []) (by decide)
      ("data@p", branchRecord "p" (some "h") [] [] []) (by decide)
    revert this
    decide
  · have := h (by intro info missing; rw [h3]; simp)
      ("data@p", branchRecord "p" (some "h") ["ghost", "q"] [] ["ghost", "q"]) (by decide)
      ("data@q", branchRecord "q" (some "h") [] [] []) (by decide)
    revert this
    decide

/-- C4 (amended): with a sink that never errs, on a valid snapshot whose provenance entries all
have a record and on which `fsck` reports no `ErrBranchSubvenanceTransitivity`, for all branches
`B` and `P` of the snapshot, if `P` is in `Provenance(B)` then `B` is in `Subvenance(P)`. -/
theorem C4_provenance_implies_subvenance (K : Keys) (s : Snapshot) (fix : Bool)
    (txErr : Option String) (cb : Sink) (hv : s.Valid K) (hcb : cb.NeverErrs)
    (hrec : s.ProvenanceRecorded K)
    (hzero : ∀ info missing, Violation.ErrBranchSubvenanceTransitivity info missing ∉
      (fsck K s fix txErr cb).calls)
    (eB : String × BranchInfo) (hB : eB ∈ s.branchInfos)
    (eP : String × BranchInfo) (hP : eP ∈ s.branchInfos)
    (hprov : eP.2.Branch ∈ eB.2.Provenance) : eB.2.Branch ∈ eP.2.Subvenance := by
  rw [fsck_complete K s fix txErr hcb hrec] at hzero
  simp only at hzero
  have hkey : eP.1 = K.BranchKey eP.2.Branch := hv.2.2.1 eP hP
  have hget : GoMap.get? s.branchInfos (K.BranchKey eP.2.Branch) = some eP.2 := by
    rw [← hkey]
    exact GoMap.get?_of_mem s.branchInfos hv.1 eP.1 eP.2 hP
  by_contra hsub
  apply hzero eP.2 eB.2.Branch
  rw [mem_allViolations]
  exact Or.inl ⟨eB, hB, Or.inr (Or.inl
    ((mem_subvenanceViolations K s eB.2 _).2 ⟨eP.2.Branch, hprov, eP.2, hget, hsub, rfl⟩))⟩

/-- C4 (amended), applied to the branches `out` and `in` of a snapshot in which `out` depends
on `in`. -/
theorem C4_provenance_implies_subvenance_witness :
    linkedPair.Valid sampleKeys ∧ Sink.silent.NeverErrs ∧
    linkedPair.ProvenanceRecorded sampleKeys ∧
    (∀ info missing, Violation.ErrBranchSubvenanceTransitivity info missing ∉
      (fsck sampleKeys linkedPair false none Sink.silent).calls) ∧
    ("data@out", branchRecord "out" (some "h") ["in"] [] ["in"]) ∈ linkedPair.branchInfos ∧
    ("data@in", branchRecord "in" (some "h") [] ["out"] []) ∈ linkedPair.branchInfos ∧
    dataBranch "in" ∈ (branchRecord "out" (some "h") ["in"] [] ["in"]).Provenance ∧
    dataBranch "out" ∈ (branchRecord "in" (some "h") [] ["out"] []).Subvenance :=
  have hcalls : (fsck sampleKeys linkedPair false none Sink.silent).calls = [] := by decide
  have hzero : ∀ info missing, Violation.ErrBranchSubvenanceTransitivity info missing ∉
      (fsck sampleKeys linkedPair false none Sink.silent).calls := by
    intro info missing; rw [hcalls]; simp
  ⟨by decide, fun _ _ => rfl, by decide, hzero, by decide, by decide, by decide,
    C4_provenance_implies_subvenance sampleKeys linkedPair false none Sink.silent (by decide)
      (fun _ _ => rfl) (by decide) hzero
      ("data@out", branchRecord "out" (some "h") ["in"] [] ["in"]) (by decide)
      ("data@in", branchRecord "in" (some "h") [] ["out"] []) (by decide) (by decide)⟩

/-- C5 (counterexample): commit `c2` names `c1` as its parent and `c1`, which has a record,
lists no child; (1) with a sink that errs on a branch violation, and (2) with a branch whose
provenance holds an entry without a record, the scan stops in the branch loop and the number of
`ErrCommitAncestryBroken` emitted for `c1` and `c2` is not one. -/
theorem C5_counterexample_scan_cut_short :
    List.count (Violation.ErrCommitAncestryBroken (dataCommit "c1") (dataCommit "c2"))
        (fsck sampleKeys brokenParentLink false none Sink.failing).calls ≠ 1 ∧
    List.count (Violation.ErrCommitAncestryBroken (dataCommit "c1") (dataCommit "c2"))
        (fsck sampleKeys brokenParentBehindGhost false none Sink.silent).calls ≠ 1 ∧
    fsck sampleKeys brokenParentBehindGhost false none Sink.silent =
      ⟨[], [], Outcome.nilDereference⟩ ∧
    GoMap.get? brokenParentBehindGhost.commitInfos (sampleKeys.CommitKey (dataCommit "c1")) =
      some (commitRecord "c1" none []) ∧
    ("data=c2", commitRecord "c2" (some "c1") []) ∈ brokenParentBehindGhost.commitInfos := by
  decide

/-- C5 (amended): with a sink that never errs, on a valid snapshot with collision-free commit keys
and renderings whose provenance entries all have a record, for every commit `C` of the snapshot:
if `C` names a parent without a record, `fsck` emits exactly one `ErrCommitInfoNotFound` with
location "parent commit of C" for that parent; if the parent has a record whose `ChildCommits`
has no element equal to `C`, exactly one `ErrCommitAncestryBroken` for the record's commit and
`C`; if some element is equal to `C`, neither; and if `C` has no parent, no
`ErrCommitInfoNotFound` with that location, and every `ErrCommitAncestryBroken` with child `C`
comes from a commit that lists `C` among its children. -/
theorem C5_parent_link_reported_once (K : Keys) (s : Snapshot) (fix : Bool)
    (txErr : Option String) (cb : Sink) (hv : s.Valid K) (hcb : cb.NeverErrs)
    (hrec : s.ProvenanceRecorded K) (hkey : s.CommitKeysDistinct K)
    (hstr : s.CommitStringsDistinct K)
    (e : String × CommitInfo) (he : e ∈ s.commitInfos) :
    (∀ pr, e.2.ParentCommit = some pr →
      (GoMap.get? s.commitInfos (K.CommitKey pr) = none →
        List.count (Violation.ErrCommitInfoNotFound
            ("parent commit of " ++ K.CommitString e.2.Commit) pr)
          (fsck K s fix txErr cb).calls = 1) ∧
      (∀ prInfo, GoMap.get? s.commitInfos (K.CommitKey pr) = some prInfo →
        (e.2.Commit ∉ prInfo.ChildCommits →
          List.count (Violation.ErrCommitAncestryBroken prInfo.Commit e.2.Commit)
            (fsck K s fix txErr cb).calls = 1) ∧
        (e.2.Commit ∈ prInfo.ChildCommits →
          Violation.ErrCommitAncestryBroken prInfo.Commit e.2.Commit ∉
              (fsck K s fix txErr cb).calls ∧
            ∀ x, Violation.ErrCommitInfoNotFound
                ("parent commit of " ++ K.CommitString e.2.Commit) x ∉
              (fsck K s fix txErr cb).calls))) ∧
    (e.2.ParentCommit = none →
      (∀ x, Violation.ErrCommitInfoNotFound
          ("parent commit of " ++ K.CommitString e.2.Commit) x ∉
        (fsck K s fix txErr cb).calls) ∧
      ∀ parent, Violation.ErrCommitAncestryBroken parent e.2.Commit ∈
          (fsck K s fix txErr cb).calls →
        ∃ e' ∈ s.commitInfos, e'.2.Commit = parent ∧ e.2.Commit ∈ e'.2.ChildCommits) := by
  rw [fsck_complete K s fix txErr hcb hrec]
  simp only
  -- a child-side report names the listed child itself
  have child_side : ∀ y ∈ s.commitInfos, ∀ ch ∈ y.2.ChildCommits, ∀ chInfo,
      GoMap.get? s.commitInfos (K.CommitKey ch) = some chInfo → chInfo.Commit = e.2.Commit →
      chInfo = e.2 ∧ ch = e.2.Commit := by
    intro y hy ch hch chInfo hget hc
    have hin := hv.commit_of_lookup hget
    have h1 : ((K.CommitKey ch, chInfo) : String × CommitInfo) = e := hv.commit_entry hin.1 he hc
    have h2 : chInfo = e.2 := by rw [← h1]
    refine ⟨h2, hkey ch (Snapshot.mem_mentioned_child hy hch) e.2.Commit
      (Snapshot.mem_mentioned_commit he) ?_⟩
    rw [hin.2, hc]
  -- no other record reports for the parent link of this commit
  have parent_side : ∀ y ∈ s.commitInfos, y.2.Commit = e.2.Commit → y = e :=
    fun y hy h => hv.commit_entry hy he h
  refine ⟨fun pr hpar => ⟨?_, fun prInfo hget => ⟨?_, ?_⟩⟩, ?_⟩
  · intro hget
    rw [count_allViolations, count_branch_part_zero, Nat.zero_add,
      count_flatMap_unique (fun y => commitViolations K s y.2) _ e s.commitInfos
        hv.nodup_commits he]
    · have hchild : List.count (Violation.ErrCommitInfoNotFound
          ("parent commit of " ++ K.CommitString e.2.Commit) pr) (childViolations K s e.2) = 0 := by
        rw [List.count_eq_zero]
        intro hm
        obtain ⟨_, _, hc⟩ := (mem_childViolations K s e.2 _).1 hm
        rcases hc with ⟨_, heq⟩ | ⟨_, _, _, heq⟩
        · simp only [Violation.ErrCommitInfoNotFound.injEq] at heq
          exact parentLocation_ne_child _ _ heq.1
        · cases heq
      simp only [commitViolations, List.count_append, hchild, Nat.add_zero]
      simp [parentViolations, hpar, hget]
    · intro y hy hne hm
      apply hne
      apply parent_side y hy
      rcases (mem_commitViolations K s y.2 _).1 hm with h | h
      · obtain ⟨_, _, hc⟩ := (mem_parentViolations K s y.2 _).1 h
        rcases hc with ⟨_, heq⟩ | ⟨_, _, _, heq⟩
        · simp only [Violation.ErrCommitInfoNotFound.injEq] at heq
          exact hstr y hy e he (parentLocation_injective _ _ heq.1).symm
        · cases heq
      · obtain ⟨_, _, hc⟩ := (mem_childViolations K s y.2 _).1 h
        rcases hc with ⟨_, heq⟩ | ⟨_, _, _, heq⟩
        · simp only [Violation.ErrCommitInfoNotFound.injEq] at heq
          exact absurd heq.1 (parentLocation_ne_child _ _)
        · cases heq
    · intro y _ hm
      rcases branchViolations_kind K s y.2 _ hm with
        ⟨_, h⟩ | ⟨_, h⟩ | h | ⟨_, h⟩ | ⟨_, h⟩
      · cases h
      · cases h
      · cases h
      · cases h
      · simp only [Violation.ErrCommitInfoNotFound.injEq] at h
        exact headLocation_ne_parent _ h.1.symm
  · intro hnot
    rw [count_allViolations, count_branch_part_zero, Nat.zero_add,
      count_flatMap_unique (fun y => commitViolations K s y.2) _ e s.commitInfos
        hv.nodup_commits he]
    · have hchild : List.count (Violation.ErrCommitAncestryBroken prInfo.Commit e.2.Commit)
          (childViolations K s e.2) = 0 := by
        rw [List.count_eq_zero]
        intro hm
        obtain ⟨ch, hch, hc⟩ := (mem_childViolations K s e.2 _).1 hm
        rcases hc with ⟨_, heq⟩ | ⟨chInfo, hgetc, hne, heq⟩
        · cases heq
        · simp only [Violation.ErrCommitAncestryBroken.injEq] at heq
          obtain ⟨h1, h2⟩ := child_side e he ch hch chInfo hgetc heq.2.symm
          -- the commit lists itself as a child and is its own parent record
          have hpe : ((K.CommitKey pr, prInfo) : String × CommitInfo) = e :=
            hv.commit_entry (hv.commit_of_lookup hget).1 he heq.1
          have : prInfo = e.2 := by rw [← hpe]
          rw [this] at hnot
          rw [h2] at hch
          exact hnot hch
      have hfound : ¬ foundIn e.2.Commit prInfo.ChildCommits = true :=
        fun h => hnot ((foundIn_iff _ _).1 h)
      simp only [commitViolations, List.count_append, hchild, Nat.add_zero]
      simp [parentViolations, hpar, hget, hfound]
    · intro y hy hne hm
      rcases (mem_commitViolations K s y.2 _).1 hm with h | h
      · obtain ⟨_, _, hc⟩ := (mem_parentViolations K s y.2 _).1 h
        rcases hc with ⟨_, heq⟩ | ⟨_, _, _, heq⟩
        · cases heq
        · simp only [Violation.ErrCommitAncestryBroken.injEq] at heq
          exact hne (parent_side y hy heq.2.symm)
      · obtain ⟨ch, hch, hc⟩ := (mem_childViolations K s y.2 _).1 h
        rcases hc with ⟨_, heq⟩ | ⟨chInfo, hgetc, _, heq⟩
        · cases heq
        · simp only [Violation.ErrCommitAncestryBroken.injEq] at heq
          obtain ⟨_, h2⟩ := child_side y hy ch hch chInfo hgetc heq.2.symm
          have hpe : ((K.CommitKey pr, prInfo) : String × CommitInfo) = y :=
            hv.commit_entry (hv.commit_of_lookup hget).1 hy heq.1
          have : prInfo = y.2 := by rw [← hpe]
          rw [this] at hnot
          rw [h2] at hch
          exact hnot hch
    · intro y _ hm
      rcases branchViolations_kind K s y.2 _ hm with
        ⟨_, h⟩ | ⟨_, h⟩ | h | ⟨_, h⟩ | ⟨_, h⟩ <;> cases h
  · intro hin
    constructor
    · intro hm
      obtain ⟨y, hy, hc⟩ := (mem_allViolations_ancestry K s _ _).1 hm
      rcases hc with ⟨pr', prInfo', hpar', hget', hnot', h1, h2⟩ |
        ⟨ch, hch, chInfo, hgetc, hne, h1, h2⟩
      · have hy' := parent_side y hy h2.symm
        subst hy'
        rw [hpar] at hpar'
        cases hpar'
        rw [hget] at hget'
        cases hget'
        exact hnot' hin
      · obtain ⟨hci, _⟩ := child_side y hy ch hch chInfo hgetc h2.symm
        apply hne
        rw [hci, hpar, ← h1]
        have hk := (hv.commit_of_lookup hget).2
        rw [hkey pr (Snapshot.mem_mentioned_parent he hpar) prInfo.Commit
          (Snapshot.mem_mentioned_commit (hv.commit_of_lookup hget).1) hk]
    · intro x hm
      obtain ⟨y, hy, hs, hpar', hget'⟩ := (mem_allViolations_parentNotFound K s _ x).1 hm
      have hy' := parent_side y hy (hstr y hy e he hs)
      subst hy'
      rw [hpar] at hpar'
      cases hpar'
      rw [hget] at hget'
      cases hget'
  · intro hnone
    constructor
    · intro x hm
      obtain ⟨y, hy, hs, hpar', _⟩ := (mem_allViolations_parentNotFound K s _ x).1 hm
      have hy' := parent_side y hy (hstr y hy e he hs)
      subst hy'
      rw [hnone] at hpar'
      cases hpar'
    · intro parent hm
      obtain ⟨y, hy, hc⟩ := (mem_allViolations_ancestry K s _ _).1 hm
      rcases hc with ⟨pr', prInfo', hpar', _, _, _, h2⟩ |
        ⟨ch, hch, chInfo, hgetc, _, h1, h2⟩
      · have hy' := parent_side y hy h2.symm
        subst hy'
        rw [hnone] at hpar'
        cases hpar'
      · obtain ⟨_, hch'⟩ := child_side y hy ch hch chInfo hgetc h2.symm
        rw [hch'] at hch
        exact ⟨y, hy, h1.symm, hch⟩

/-- C5 (amended), applied to the commit `c2` whose parent `c1` lists no child: exactly one
`ErrCommitAncestryBroken` for `c1` and `c2`. -/
theorem C5_parent_link_reported_once_witness :
    brokenParentLink.Valid sampleKeys ∧ Sink.silent.NeverErrs ∧
    brokenParentLink.ProvenanceRecorded sampleKeys ∧
    brokenParentLink.CommitKeysDistinct sampleKeys ∧
    brokenParentLink.CommitStringsDistinct sampleKeys ∧
    ("data=c2", commitRecord "c2" (some "c1") []) ∈ brokenParentLink.commitInfos ∧
    List.count (Violation.ErrCommitAncestryBroken (dataCommit "c1") (dataCommit "c2"))
      (fsck sampleKeys brokenParentLink false none Sink.silent).calls = 1 :=
  ⟨by decide, fun _ _ => rfl, by decide, by decide, by decide, by decide,
    ((((C5_parent_link_reported_once sampleKeys brokenParentLink false none Sink.silent
      (by decide) (fun _ _ => rfl) (by decide) (by decide) (by decide)
      ("data=c2", commitRecord "c2" (some "c1") []) (by decide)).1
      (dataCommit "c1") rfl).2 (commitRecord "c1" none []) (by decide)).1 (by decide))⟩

/-- C6 (counterexample): commit `c1` lists `c2` as a child and `c2`, which has a record, has a
nil `ParentCommit`; (1) with a sink that errs on a branch violation, and (2) with a branch whose
provenance holds an entry without a record, the scan stops in the branch loop and no
`ErrCommitAncestryBroken` is emitted for `c1` and `c2`. -/
theorem C6_counterexample_scan_cut_short :
    ¬ (Violation.ErrCommitAncestryBroken (dataCommit "c1") (dataCommit "c2") ∈
          (fsck sampleKeys brokenChildLink false none Sink.failing).calls ↔
        (commitRecord "c2" none []).ParentCommit = none ∨
          (commitRecord "c2" none []).ParentCommit ≠ some (dataCommit "c1")) ∧
    ¬ (Violation.ErrCommitAncestryBroken (dataCommit "c1") (dataCommit "c2") ∈
          (fsck sampleKeys brokenChildBehindGhost false none Sink.silent).calls ↔
        (commitRecord "c2" none []).ParentCommit = none ∨
          (commitRecord "c2" none []).ParentCommit ≠ some (dataCommit "c1")) ∧
    fsck sampleKeys brokenChildBehindGhost false none Sink.silent =
      ⟨[], [], Outcome.nilDereference⟩ ∧
    GoMap.get? brokenChildBehindGhost.commitInfos (sampleKeys.CommitKey (dataCommit "c2")) =
      some (commitRecord "c2" none []) ∧
    ("data=c1", commitRecord "c1" none ["c2"]) ∈ brokenChildBehindGhost.commitInfos := by
  decide

/-- C6 (amended): with a sink that never errs and collision-free commit keys, on a valid
snapshot whose provenance entries all have a record, for every commit `C` of the snapshot and
every entry `Ch` of its `ChildCommits`: if `Ch` has no record, `fsck` emits
`ErrCommitInfoNotFound` with location "child commit of C" for `Ch`; otherwise it emits
`ErrCommitAncestryBroken` for `C` and the commit of the record of `Ch` exactly when the
`ParentCommit` of that record is nil or not equal to `C`. -/
theorem C6_child_link_reported (K : Keys) (s : Snapshot) (fix : Bool)
    (txErr : Option String) (cb : Sink) (hv : s.Valid K) (hcb : cb.NeverErrs)
    (hrec : s.ProvenanceRecorded K) (hkey : s.CommitKeysDistinct K)
    (e : String × CommitInfo) (he : e ∈ s.commitInfos)
    (ch : Commit) (hch : ch ∈ e.2.ChildCommits) :
    (GoMap.get? s.commitInfos (K.CommitKey ch) = none →
      Violation.ErrCommitInfoNotFound ("child commit of " ++ K.CommitString e.2.Commit) ch ∈
        (fsck K s fix txErr cb).calls) ∧
    (∀ chInfo, GoMap.get? s.commitInfos (K.CommitKey ch) = some chInfo →
      (Violation.ErrCommitAncestryBroken e.2.Commit chInfo.Commit ∈
          (fsck K s fix txErr cb).calls ↔
        chInfo.ParentCommit = none ∨ chInfo.ParentCommit ≠ some e.2.Commit)) := by
  rw [fsck_complete K s fix txErr hcb hrec]
  simp only
  constructor
  · intro hget
    rw [mem_allViolations]
    exact Or.inr ⟨e, he, Or.inr
      ((mem_childViolations K s e.2 _).2 ⟨ch, hch, Or.inl ⟨hget, rfl⟩⟩)⟩
  · intro chInfo hget
    have hchInfo := hv.commit_of_lookup hget
    have hchEq : ch = chInfo.Commit :=
      hkey ch (Snapshot.mem_mentioned_child he hch) chInfo.Commit
        (Snapshot.mem_mentioned_commit hchInfo.1) hchInfo.2
    constructor
    · intro hm
      right
      intro hpar
      obtain ⟨y, hy, hc⟩ := (mem_allViolations_ancestry K s _ _).1 hm
      rcases hc with ⟨pr', prInfo', hpar', hget', hnot', h1, h2⟩ |
        ⟨ch', _, chInfo', hgetc, hne, h1, h2⟩
      · -- reported from the parent side of the child's own record
        have hy' : y = (K.CommitKey ch, chInfo) := hv.commit_entry hy hchInfo.1 h2.symm
        subst hy'
        rw [hpar] at hpar'
        cases hpar'
        rw [hv.commit_lookup he] at hget'
        cases hget'
        apply hnot'
        rw [← hchEq]
        exact hch
      · have hy' : y = e := hv.commit_entry hy he h1.symm
        subst hy'
        have hci : ((K.CommitKey ch', chInfo') : String × CommitInfo) =
            (K.CommitKey ch, chInfo) :=
          hv.commit_entry (hv.commit_of_lookup hgetc).1 hchInfo.1 h2.symm
        have : chInfo' = chInfo := by
          have := congrArg Prod.snd hci
          exact this
        rw [this] at hne
        exact hne hpar
    · intro hcond
      have hne : chInfo.ParentCommit ≠ some e.2.Commit := by
        rcases hcond with h | h
        · rw [h]; simp
        · exact h
      rw [mem_allViolations_ancestry]
      exact ⟨e, he, Or.inr ⟨ch, hch, chInfo, hget, hne, rfl, rfl⟩⟩

/-- C6 (amended), applied to the commit `c1` and its declared child `c2`, whose record has a nil
`ParentCommit`. -/
theorem C6_child_link_reported_witness :
    brokenChildLink.Valid sampleKeys ∧ Sink.silent.NeverErrs ∧
    brokenChildLink.ProvenanceRecorded sampleKeys ∧
    brokenChildLink.CommitKeysDistinct sampleKeys ∧
    ("data=c1", commitRecord "c1" none ["c2"]) ∈ brokenChildLink.commitInfos ∧
    dataCommit "c2" ∈ (commitRecord "c1" none ["c2"]).ChildCommits ∧
    GoMap.get? brokenChildLink.commitInfos (sampleKeys.CommitKey (dataCommit "c2")) =
      some (commitRecord "c2" none []) ∧
    (Violation.ErrCommitAncestryBroken (dataCommit "c1") (dataCommit "c2") ∈
        (fsck sampleKeys brokenChildLink false none Sink.silent).calls ↔
      (commitRecord "c2" none []).ParentCommit = none ∨
        (commitRecord "c2" none []).ParentCommit ≠ some (dataCommit "c1")) :=
  ⟨by decide, fun _ _ => rfl, by decide, by decide, by decide, by decide, by decide,
    (C6_child_link_reported sampleKeys brokenChildLink false none Sink.silent
      (by decide) (fun _ _ => rfl) (by decide) (by decide)
      ("data=c1", commitRecord "c1" none ["c2"]) (by decide)
      (dataCommit "c2") (by decide)).2 (commitRecord "c2" none []) (by decide)⟩

/-- C7 (counterexample): (1) commit `c2` names a parent `c1` that has no record: `fsck` reports
no `ErrCommitAncestryBroken` (it reports `ErrCommitInfoNotFound`), although no `ChildCommits`
list contains `c2`; (2) with a sink that errs, and (3) with a provenance entry that has no
record, `fsck` reports none although the parent `c1` of `c2` lists no child. -/
theorem C7_counterexample_orphan_commit :
    ¬ ((∀ parent child, Violation.ErrCommitAncestryBroken parent child ∉
          (fsck sampleKeys orphanCommit false none Sink.silent).calls) ↔
        AncestryDual sampleKeys orphanCommit) ∧
    ¬ ((∀ parent child, Violation.ErrCommitAncestryBroken parent child ∉
          (fsck sampleKeys brokenParentLink false none Sink.failing).calls) ↔
        AncestryDual sampleKeys brokenParentLink) ∧
    ¬ ((∀ parent child, Violation.ErrCommitAncestryBroken parent child ∉
          (fsck sampleKeys brokenParentBehindGhost false none Sink.silent).calls) ↔
        AncestryDual sampleKeys brokenParentBehindGhost) := by
  have h1 : (fsck sampleKeys orphanCommit false none Sink.silent).calls =
      [Violation.ErrCommitInfoNotFound "parent commit of data=c2" (dataCommit "c1")] := by
    decide
  have h2 : (fsck sampleKeys brokenParentLink false none Sink.failing).calls =
      [Violation.ErrMissingBranchHead (dataBranch "b")] := by decide
  have h3 : (fsck sampleKeys brokenParentBehindGhost false none Sink.silent).calls = [] := by
    decide
  refine ⟨fun h => ?_, fun h => ?_, fun h => ?_⟩
  · have hdual := h.1 (by intro parent child; rw [h1]; simp)
    obtain ⟨prInfo, hget, _⟩ :=
      (hdual ("data=c2", commitRecord "c2" (some "c1") []) (by decide)).1 (dataCommit "c1") rfl
    have hnone : GoMap.get? orphanCommit.commitInfos (sampleKeys.CommitKey (dataCommit "c1")) =
        none := by decide
    rw [hnone] at hget
    cases hget
  · have hdual := h.1 (by intro parent child; rw [h2]; simp)
    obtain ⟨prInfo, hget, hmem⟩ :=
      (hdual ("data=c2", commitRecord "c2" (some "c1") []) (by decide)).1 (dataCommit "c1") rfl
    have hsome : GoMap.get? brokenParentLink.commitInfos
        (sampleKeys.CommitKey (dataCommit "c1")) = some (commitRecord "c1" none []) := by decide
    rw [hsome] at hget
    cases hget
    revert hmem
    decide
  · have hdual := h.1 (by intro parent child; rw [h3]; simp)
    obtain ⟨prInfo, hget, hmem⟩ :=
      (hdual ("data=c2", commitRecord "c2" (some "c1") []) (by decide)).1 (dataCommit "c1") rfl
    have hsome : GoMap.get? brokenParentBehindGhost.commitInfos
        (sampleKeys.CommitKey (dataCommit "c1")) = some (commitRecord "c1" none []) := by decide
    rw [hsome] at hget
    cases hget
    revert hmem
    decide

/-- C7 (amended): with a sink that never errs, on a snapshot whose provenance entries all have a
record, `fsck` reports no `ErrCommitAncestryBroken` exactly when, for every commit `C` whose
parent has a record, that record's `ChildCommits` contains `C`, and for every declared child of
`C` that has a record, that record's `ParentCommit` is `C`. -/
theorem C7_no_ancestry_violation_iff_recorded_links_agree (K : Keys) (s : Snapshot) (fix : Bool)
    (txErr : Option String) (cb : Sink) (hcb : cb.NeverErrs) (hrec : s.ProvenanceRecorded K) :
    (∀ parent child, Violation.ErrCommitAncestryBroken parent child ∉
        (fsck K s fix txErr cb).calls) ↔
      AncestryDualWhereRecorded K s := by
  rw [fsck_complete K s fix txErr hcb hrec]
  simp only
  constructor
  · intro h e he
    constructor
    · intro pr prInfo hpar hget
      by_contra hnot
      apply h prInfo.Commit e.2.Commit
      rw [mem_allViolations]
      exact Or.inr ⟨e, he, Or.inl
        ((mem_parentViolations K s e.2 _).2 ⟨pr, hpar, Or.inr ⟨prInfo, hget, hnot, rfl⟩⟩)⟩
    · intro ch hch chInfo hget
      by_contra hnot
      apply h e.2.Commit chInfo.Commit
      rw [mem_allViolations]
      exact Or.inr ⟨e, he, Or.inr
        ((mem_childViolations K s e.2 _).2 ⟨ch, hch, Or.inr ⟨chInfo, hget, hnot, rfl⟩⟩)⟩
  · intro hdual parent child hmem
    rw [mem_allViolations] at hmem
    rcases hmem with ⟨e', _, h | h | h⟩ | ⟨e', he', h | h⟩
    · obtain ⟨_, heq⟩ := (mem_provenanceViolations K s e'.2 _).1 h
      cases heq
    · obtain ⟨_, _, _, _, _, heq⟩ := (mem_subvenanceViolations K s e'.2 _).1 h
      cases heq
    · rcases (mem_headViolations K s e'.2 _).1 h with ⟨_, heq⟩ | ⟨_, _, _, _, hc⟩
      · cases heq
      · rcases hc with ⟨_, heq⟩ | ⟨_, _, _, _, heq⟩ <;> cases heq
    · obtain ⟨pr, hpar, hc⟩ := (mem_parentViolations K s e'.2 _).1 h
      rcases hc with ⟨_, heq⟩ | ⟨prInfo, hget, hnot, _⟩
      · cases heq
      · exact hnot ((hdual e' he').1 pr prInfo hpar hget)
    · obtain ⟨ch, hch, hc⟩ := (mem_childViolations K s e'.2 _).1 h
      rcases hc with ⟨_, heq⟩ | ⟨chInfo, hget, hnot, _⟩
      · cases heq
      · exact hnot ((hdual e' he').2 ch hch chInfo hget)

/-- C7 (amended), applied to a commit `c1` and its child `c2`. -/
theorem C7_no_ancestry_violation_iff_recorded_links_agree_witness :
    Sink.silent.NeverErrs ∧ linkedCommits.ProvenanceRecorded sampleKeys ∧
    ((∀ parent child, Violation.ErrCommitAncestryBroken parent child ∉
        (fsck sampleKeys linkedCommits false none Sink.silent).calls) ↔
      AncestryDualWhereRecorded sampleKeys linkedCommits) :=
  ⟨fun _ _ => rfl, by decide,
    C7_no_ancestry_violation_iff_recorded_links_agree sampleKeys linkedCommits false none
      Sink.silent (fun _ _ => rfl) (by decide)⟩

/-- C8 (counterexample): branch `b` has a nil head; (1) with a sink that errs on the provenance
violation of `b` the scan returns before the head check, and (2) when `b` stores a provenance
entry without a record the scan ends in a nil dereference before the head check: the number of
`ErrMissingBranchHead` emitted for `b` is not one. -/
theorem C8_counterexample_scan_cut_short :
    List.count (Violation.ErrMissingBranchHead (dataBranch "b"))
        (fsck sampleKeys headlessBranch false none Sink.failing).calls ≠ 1 ∧
    List.count (Violation.ErrMissingBranchHead (dataBranch "b"))
        (fsck sampleKeys headlessGhost false none Sink.silent).calls ≠ 1 ∧
    fsck sampleKeys headlessGhost false none Sink.silent = ⟨[], [], Outcome.nilDereference⟩ ∧
    ("data@b", branchRecord "b" none [] [] ["in"]) ∈ headlessBranch.branchInfos ∧
    ("data@b", branchRecord "b" none ["ghost"] [] ["ghost"]) ∈ headlessGhost.branchInfos := by
  decide

/-- C8 (amended): with a sink that never errs, on a valid snapshot whose provenance entries all
have a record, `fsck` emits `ErrMissingBranchHead` for a branch of the snapshot exactly once if
its head is nil and never if its head is non-nil, and it emits none for a branch that is not in
the snapshot. -/
theorem C8_missing_head_reported_once (K : Keys) (s : Snapshot) (fix : Bool)
    (txErr : Option String) (cb : Sink) (hv : s.Valid K) (hcb : cb.NeverErrs)
    (hrec : s.ProvenanceRecorded K) (e : String × BranchInfo) (he : e ∈ s.branchInfos) :
    (e.2.Head = none →
      List.count (Violation.ErrMissingBranchHead e.2.Branch) (fsck K s fix txErr cb).calls = 1) ∧
    (e.2.Head ≠ none →
      Violation.ErrMissingBranchHead e.2.Branch ∉ (fsck K s fix txErr cb).calls) ∧
    (∀ b, (∀ e' ∈ s.branchInfos, e'.2.Branch ≠ b) →
      Violation.ErrMissingBranchHead b ∉ (fsck K s fix txErr cb).calls) := by
  rw [fsck_complete K s fix txErr hcb hrec]
  simp only
  refine ⟨?_, ?_, ?_⟩
  · intro hh
    rw [count_allViolations,
      count_commit_part_zero K s _ (fun _ _ _ => by simp) (fun _ _ => by simp), Nat.add_zero,
      count_flatMap_unique (fun y => branchViolations K s y.2) _ e s.branchInfos
        hv.nodup_branches he]
    · simp only [branchViolations, List.count_append]
      rw [count_provenanceViolations_zero K s e.2 _ (fun _ => by simp),
        count_subvenanceViolations_zero K s e.2 _ (fun _ => by simp)]
      simp [headViolations, hh]
    · intro y hy hne hm
      apply hne
      apply hv.branch_entry hy he
      rcases branchViolations_kind K s y.2 _ hm with
        ⟨_, h⟩ | ⟨_, h⟩ | h | ⟨_, h⟩ | ⟨_, h⟩
      · cases h
      · cases h
      · simp only [Violation.ErrMissingBranchHead.injEq] at h
        exact h.symm
      · cases h
      · cases h
  · intro hh hm
    obtain ⟨y, hy, hb, hnone⟩ := (mem_allViolations_missingHead K s _).1 hm
    have := hv.branch_entry hy he hb
    subst this
    exact hh hnone
  · intro b hb hm
    obtain ⟨y, hy, hyb, _⟩ := (mem_allViolations_missingHead K s _).1 hm
    exact hb y hy hyb

/-- C8 (amended), applied to the branch `b` without a head. -/
theorem C8_missing_head_reported_once_witness :
    headlessBranch.Valid sampleKeys ∧ Sink.silent.NeverErrs ∧
    headlessBranch.ProvenanceRecorded sampleKeys ∧
    ("data@b", branchRecord "b" none [] [] ["in"]) ∈ headlessBranch.branchInfos ∧
    List.count (Violation.ErrMissingBranchHead (dataBranch "b"))
      (fsck sampleKeys headlessBranch false none Sink.silent).calls = 1 :=
  ⟨by decide, fun _ _ => rfl, by decide, by decide,
    (C8_missing_head_reported_once sampleKeys headlessBranch false none Sink.silent (by decide)
      (fun _ _ => rfl) (by decide) ("data@b", branchRecord "b" none [] [] ["in"])
      (by decide)).1 (by decide)⟩

/-- C9 (defect in the code): branch `b` has a head and stores a provenance entry `ghost` without
a record; the subvenance loop dereferences the missing record before the head loop is reached:
the scan hands nothing to the sink, in particular no `ErrBranchInfoNotFound` for `ghost`, and
ends in a nil dereference. -/
theorem C9_missing_provenance_record_is_dereferenced :
    ("data@b", branchRecord "b" (some "h") ["ghost"] [] ["ghost"]) ∈
      ghostProvenance.branchInfos ∧
    (branchRecord "b" (some "h") ["ghost"] [] ["ghost"]).Head ≠ none ∧
    dataBranch "ghost" ∈ (branchRecord "b" (some "h") ["ghost"] [] ["ghost"]).Provenance ∧
    GoMap.get? ghostProvenance.branchInfos (sampleKeys.BranchKey (dataBranch "ghost")) = none ∧
    fsck sampleKeys ghostProvenance false none Sink.silent =
      ⟨[], [], Outcome.nilDereference⟩ := by
  decide

/-- C10 (counterexample): branch `b` has a head `lost` without a commit record and its
provenance holds `p`, whose record has a head; (1) with a sink that errs on the provenance
violation of `b` the scan returns before the head loop, and (2) when `p` follows an entry without
a record the scan ends in a nil dereference in the subvenance loop, in either visiting order:
no `ErrCommitInfoNotFound` about the head of `b` is emitted. -/
theorem C10_counterexample_scan_cut_short :
    List.count (Violation.ErrCommitInfoNotFound "head commit provenance (=>)" (dataCommit "lost"))
        (fsck sampleKeys brokenSubvenance false none Sink.failing).calls ≠ 1 ∧
    List.count (Violation.ErrCommitInfoNotFound "head commit provenance (=>)" (dataCommit "lost"))
        (fsck sampleKeys lostHeadGhost false none Sink.silent).calls ≠ 1 ∧
    List.count (Violation.ErrCommitInfoNotFound "head commit provenance (=>)" (dataCommit "lost"))
        (fsck sampleKeys lostHeadGhostPB false none Sink.silent).calls ≠ 1 ∧
    fsck sampleKeys lostHeadGhost false none Sink.silent = ⟨[], [], Outcome.nilDereference⟩ ∧
    GoMap.get? lostHeadGhost.commitInfos (sampleKeys.CommitKey (dataCommit "lost")) = none ∧
    GoMap.get? lostHeadGhost.branchInfos (sampleKeys.BranchKey (dataBranch "p")) =
      some (branchRecord "p" (some "h") [] ["b"] []) := by
  decide

/-- C10 (amended): with a sink that never errs, on a valid snapshot whose provenance entries all
have a record, for every branch `B` with a non-nil head: if the head has a commit record, `fsck`
emits no `ErrCommitInfoNotFound` with location "head commit provenance (=>)" for it; if it has
none, `fsck` emits one for each provenance entry, of each branch with that head, whose record has
a non-nil head, so that when `B` is the only branch with that head the number emitted is the
number of such entries of `B`. -/
theorem C10_head_commit_not_found_per_entry (K : Keys) (s : Snapshot) (fix : Bool)
    (txErr : Option String) (cb : Sink) (hv : s.Valid K) (hcb : cb.NeverErrs)
    (hrec : s.ProvenanceRecorded K) (e : String × BranchInfo) (he : e ∈ s.branchInfos)
    (head : Commit) (hhead : e.2.Head = some head) :
    (GoMap.get? s.commitInfos (K.CommitKey head) ≠ none →
      Violation.ErrCommitInfoNotFound "head commit provenance (=>)" head ∉
        (fsck K s fix txErr cb).calls) ∧
    (GoMap.get? s.commitInfos (K.CommitKey head) = none →
      List.count (Violation.ErrCommitInfoNotFound "head commit provenance (=>)" head)
          (fsck K s fix txErr cb).calls =
        (s.branchInfos.map (fun y =>
          if y.2.Head = some head then
            (y.2.Provenance.filter (hasRecordedHead K s)).length
          else 0)).sum ∧
      ((∀ y ∈ s.branchInfos, y ≠ e → y.2.Head ≠ some head) →
        List.count (Violation.ErrCommitInfoNotFound "head commit provenance (=>)" head)
            (fsck K s fix txErr cb).calls =
          (e.2.Provenance.filter (hasRecordedHead K s)).length)) := by
  rw [fsck_complete K s fix txErr hcb hrec]
  simp only
  -- what one branch contributes
  have per_branch : ∀ y : String × BranchInfo,
      GoMap.get? s.commitInfos (K.CommitKey head) = none →
      List.count (Violation.ErrCommitInfoNotFound "head commit provenance (=>)" head)
          (branchViolations K s y.2) =
        if y.2.Head = some head then (y.2.Provenance.filter (hasRecordedHead K s)).length
        else 0 := by
    intro y hnone
    simp only [branchViolations, List.count_append]
    rw [count_provenanceViolations_zero K s y.2 _ (fun _ => by simp),
      count_subvenanceViolations_zero K s y.2 _ (fun _ => by simp), Nat.zero_add, Nat.zero_add]
    unfold headViolations
    cases hy : y.2.Head with
    | none => simp
    | some h' =>
      by_cases hh : h' = head
      · subst hh
        simp only [if_true]
        apply count_flatMap_filter
        intro q _
        unfold hasRecordedHead
        cases GoMap.get? s.branchInfos (K.BranchKey q) with
        | none => simp
        | some info =>
          cases hi : info.Head with
          | none => simp [hi]
          | some c => simp [hnone, hi]
      · have hne : ¬ (some h' = some head) := fun h => hh (Option.some.inj h)
        simp only [hne, if_false]
        apply count_flatMap_zero
        intro q _ hm
        cases hq : GoMap.get? s.branchInfos (K.BranchKey q) with
        | none => simp [hq] at hm
        | some info =>
          simp only [hq] at hm
          by_cases hi : info.Head = none
          · simp [hi] at hm
          · cases hc : GoMap.get? s.commitInfos (K.CommitKey h') with
            | none =>
              simp [hi, hc] at hm
              exact hh hm.symm
            | some _ => simp [hi, hc] at hm
  have commit_zero : List.count (Violation.ErrCommitInfoNotFound "head commit provenance (=>)" head)
      (s.commitInfos.flatMap (fun y => commitViolations K s y.2)) = 0 :=
    count_commit_part_zero K s _
      (fun loc c hloc h => by
        simp only [Violation.ErrCommitInfoNotFound.injEq] at h
        exact hloc h.1.symm)
      (fun _ _ => by simp)
  refine ⟨?_, fun hnone => ⟨?_, ?_⟩⟩
  · intro hsome hm
    rw [mem_allViolations] at hm
    rcases hm with ⟨y, _, h | h | h⟩ | ⟨y, _, h⟩
    · cases ((mem_provenanceViolations K s y.2 _).1 h).2
    · obtain ⟨_, _, _, _, _, heq⟩ := (mem_subvenanceViolations K s y.2 _).1 h
      cases heq
    · rcases (mem_headViolations K s y.2 _).1 h with ⟨_, heq⟩ | ⟨h', _, _, _, hc⟩
      · cases heq
      · rcases hc with ⟨_, heq⟩ | ⟨_, _, _, hnone, heq⟩
        · cases heq
        · simp only [Violation.ErrCommitInfoNotFound.injEq, true_and] at heq
          rw [heq] at hsome
          exact hsome hnone
    · rcases commitViolations_kind K s y.2 _ ((mem_commitViolations K s y.2 _).2 h) with
        ⟨_, _, heq, hloc⟩ | ⟨_, _, heq⟩
      · simp only [Violation.ErrCommitInfoNotFound.injEq] at heq
        exact hloc heq.1.symm
      · cases heq
  · rw [count_allViolations, commit_zero, Nat.add_zero, List.count_flatMap]
    congr 1
    apply List.map_congr_left
    intro y _
    exact per_branch y hnone
  · intro honly
    rw [count_allViolations, commit_zero, Nat.add_zero,
      count_flatMap_unique (fun y => branchViolations K s y.2) _ e s.branchInfos
        hv.nodup_branches he]
    · rw [per_branch e hnone, hhead]
      simp
    · intro y hy hne hm
      have h0 := per_branch y hnone
      rw [if_neg (honly y hy hne)] at h0
      exact (List.count_eq_zero.1 h0) hm

/-- C10 (amended), applied to the branch `b`, whose head `lost` has no commit record and whose
one provenance entry `p` has a record with a head: exactly one violation. -/
theorem C10_head_commit_not_found_per_entry_witness :
    brokenSubvenance.Valid sampleKeys ∧ Sink.silent.NeverErrs ∧
    brokenSubvenance.ProvenanceRecorded sampleKeys ∧
    ("data@b", branchRecord "b" (some "lost") ["p"] [] []) ∈ brokenSubvenance.branchInfos ∧
    (branchRecord "b" (some "lost") ["p"] [] []).Head = some (dataCommit "lost") ∧
    GoMap.get? brokenSubvenance.commitInfos (sampleKeys.CommitKey (dataCommit "lost")) = none ∧
    List.count (Violation.ErrCommitInfoNotFound "head commit provenance (=>)" (dataCommit "lost"))
      (fsck sampleKeys brokenSubvenance false none Sink.silent).calls = 1 :=
  ⟨by decide, fun _ _ => rfl, by decide, by decide, by decide, by decide,
    ((C10_head_commit_not_found_per_entry sampleKeys brokenSubvenance false none Sink.silent
      (by decide) (fun _ _ => rfl) (by decide)
      ("data@b", branchRecord "b" (some "lost") ["p"] [] []) (by decide)
      (dataCommit "lost") (by decide)).2 (by decide)).2 (by decide)⟩

/-! ## The sink is called in sequence and obeyed at its first error -/

theorem Sink.quiet_nil (cb : Sink) : cb.Quiet [] := by
  intro pre v post h
  simp at h

theorem Sink.quiet_snoc {cb : Sink} {log : List Violation} {v : Violation}
    (hq : cb.Quiet log) (hv : cb log v = none) : cb.Quiet (log ++ [v]) := by
  intro pre w post h
  rcases List.eq_nil_or_concat post with rfl | ⟨q, x, rfl⟩
  · have h' : log ++ [v] = pre ++ [w] := h
    obtain ⟨h1, h2⟩ := List.append_inj' h' rfl
    simp only [List.cons.injEq, and_true] at h2
    rw [← h1, ← h2]
    exact hv
  · have h' : log ++ [v] = (pre ++ w :: q) ++ [x] := by simpa using h
    obtain ⟨h1, _⟩ := List.append_inj' h' rfl
    exact hq pre w q h1

theorem Sink.Quiet.prefix {cb : Sink} {pre rest : List Violation}
    (hq : cb.Quiet (pre ++ rest)) : cb.Quiet pre := by
  intro p w q h
  apply hq p w (q ++ rest)
  rw [h]
  simp

theorem Act.disciplined_skip (cb : Sink) : Act.Disciplined cb Act.skip :=
  fun _ hq => hq

theorem Act.disciplined_crash (cb : Sink) : Act.Disciplined cb Act.crash :=
  fun _ hq => hq

theorem Act.disciplined_onError (cb : Sink) (v : Violation) :
    Act.Disciplined cb (onError cb v) := by
  intro log hq
  unfold onError
  cases hv : cb log v with
  | none => exact Sink.quiet_snoc hq hv
  | some err => exact ⟨log, v, rfl, hq, hv⟩

theorem Act.disciplined_seq {cb : Sink} {a b : Act} (ha : Act.Disciplined cb a)
    (hb : Act.Disciplined cb b) : Act.Disciplined cb (Act.seq a b) := by
  intro log hq
  have h1 := ha log hq
  unfold Act.seq
  rcases hr : a log with ⟨log', stop⟩
  rw [hr] at h1
  cases stop with
  | none => exact hb log' h1
  | some st => exact h1

theorem Act.disciplined_forEach {α : Type} {cb : Sink} {body : α → Act} :
    ∀ xs : List α, (∀ x ∈ xs, Act.Disciplined cb (body x)) →
      Act.Disciplined cb (forEach body xs)
  | [], _ => Act.disciplined_skip cb
  | x :: xs, h =>
    Act.disciplined_seq (h x (List.mem_cons_self x xs))
      (Act.disciplined_forEach xs (fun y hy => h y (List.mem_cons_of_mem x hy)))

theorem disciplined_checkBranch (K : Keys) (s : Snapshot) (cb : Sink) (bi : BranchInfo) :
    Act.Disciplined cb (checkBranch K s cb bi) := by
  unfold checkBranch
  refine Act.disciplined_seq ?_ (Act.disciplined_seq ?_ ?_)
  · unfold checkProvenance
    by_cases h : equalBranches K (bi.Provenance ++ [bi.Branch]) (unionOf K s bi) = true
    · simpa [h] using Act.disciplined_skip cb
    · simpa [h] using Act.disciplined_onError cb _
  · unfold checkSubvenance
    apply Act.disciplined_forEach
    intro p _
    cases GoMap.get? s.branchInfos (K.BranchKey p) with
    | none => exact Act.disciplined_crash cb
    | some info =>
      by_cases h : branchInSet bi.Branch info.Subvenance = true
      · simpa [h] using Act.disciplined_skip cb
      · simpa [h] using Act.disciplined_onError cb _
  · unfold checkHead
    cases bi.Head with
    | none => exact Act.disciplined_onError cb _
    | some head =>
      apply Act.disciplined_forEach
      intro p _
      cases GoMap.get? s.branchInfos (K.BranchKey p) with
      | none => exact Act.disciplined_onError cb _
      | some info =>
        by_cases h : info.Head = none
        · simpa [h] using Act.disciplined_skip cb
        · cases GoMap.get? s.commitInfos (K.CommitKey head) with
          | none => simpa [h] using Act.disciplined_onError cb _
          | some _ => simpa [h] using Act.disciplined_skip cb

theorem disciplined_checkCommit (K : Keys) (s : Snapshot) (cb : Sink) (ci : CommitInfo) :
    Act.Disciplined cb (checkCommit K s cb ci) := by
  unfold checkCommit
  apply Act.disciplined_seq
  · unfold checkParent
    cases ci.ParentCommit with
    | none => exact Act.disciplined_skip cb
    | some pr =>
      simp only
      cases GoMap.get? s.commitInfos (K.CommitKey pr) with
      | none => exact Act.disciplined_onError cb _
      | some prInfo =>
        by_cases h : foundIn ci.Commit prInfo.ChildCommits = true
        · simpa [h] using Act.disciplined_skip cb
        · simpa [h] using Act.disciplined_onError cb _
  · unfold checkChildren
    apply Act.disciplined_forEach
    intro ch _
    cases GoMap.get? s.commitInfos (K.CommitKey ch) with
    | none => exact Act.disciplined_onError cb _
    | some chInfo =>
      by_cases h : chInfo.ParentCommit = none ∨ chInfo.ParentCommit ≠ some ci.Commit
      · simpa [h] using Act.disciplined_onError cb _
      · simpa [h] using Act.disciplined_skip cb

theorem disciplined_scan (K : Keys) (s : Snapshot) (cb : Sink) :
    Act.Disciplined cb (scan K s cb) := by
  unfold scan
  apply Act.disciplined_seq
  · exact Act.disciplined_forEach _ (fun e _ => disciplined_checkBranch K s cb e.2)
  · exact Act.disciplined_forEach _ (fun e _ => disciplined_checkCommit K s cb e.2)

/-- A call that got an error from the sink is the last entry of a log that fits the sink, and
the stop reason is that error. -/
theorem Sink.Ends.of_error {cb : Sink} {log : List Violation} {stop : Option Stop}
    (h : cb.Ends log stop) {pre post : List Violation} {v : Violation} {err : String}
    (hlog : log = pre ++ v :: post) (herr : cb pre v = some err) :
    post = [] ∧ stop = some (Stop.sinkError err) := by
  have notQuiet : ¬ cb.Quiet log := fun hq => by
    have := hq pre v post hlog
    rw [herr] at this
    cases this
  cases stop with
  | none => exact absurd h notQuiet
  | some st =>
    cases st with
    | nilDeref => exact absurd h notQuiet
    | sinkError err' =>
      obtain ⟨pre', v', hl, hq, hv⟩ := h
      rcases List.eq_nil_or_concat post with rfl | ⟨q, x, rfl⟩
      · have h' : pre' ++ [v'] = pre ++ [v] := by rw [← hl, hlog]
        obtain ⟨h1, h2⟩ := List.append_inj' h' rfl
        simp only [List.cons.injEq, and_true] at h2
        rw [h1, h2, herr] at hv
        cases hv
        exact ⟨rfl, rfl⟩
      · have h' : pre' ++ [v'] = (pre ++ v :: q) ++ [x] := by
          rw [← hl, hlog]; simp
        obtain ⟨h1, _⟩ := List.append_inj' h' rfl
        have := hq pre v q h1
        rw [herr] at this
        cases this

/-! ## With every provenance entry recorded, the scan delivers the violations found -/

theorem Act.seq_assoc (a b c : Act) (log : List Violation) :
    Act.seq (Act.seq a b) c log = Act.seq a (Act.seq b c) log := by
  unfold Act.seq
  rcases a log with ⟨l1, stop⟩
  cases stop with
  | none => rfl
  | some st => rfl

theorem deliver_append (cb : Sink) (vs ws : List Violation) (log : List Violation) :
    deliver cb (vs ++ ws) log = Act.seq (deliver cb vs) (deliver cb ws) log := by
  induction vs generalizing log with
  | nil => simp [deliver, forEach, Act.seq, Act.skip]
  | cons v vs ih =>
    have h1 : deliver cb (v :: vs ++ ws) = Act.seq (onError cb v) (deliver cb (vs ++ ws)) := rfl
    have h2 : deliver cb (v :: vs) = Act.seq (onError cb v) (deliver cb vs) := rfl
    rw [h1, h2, Act.seq_assoc]
    unfold Act.seq
    rcases onError cb v log with ⟨l1, stop⟩
    cases stop with
    | none => exact ih l1
    | some st => rfl

theorem Act.delivers_skip (cb : Sink) : Act.Delivers cb Act.skip [] :=
  fun _ => rfl

theorem Act.delivers_onError (cb : Sink) (v : Violation) : Act.Delivers cb (onError cb v) [v] := by
  intro log
  show onError cb v log = Act.seq (onError cb v) Act.skip log
  unfold Act.seq Act.skip
  rcases onError cb v log with ⟨l1, stop⟩
  cases stop <;> rfl

theorem Act.delivers_seq {cb : Sink} {a b : Act} {vs ws : List Violation}
    (ha : Act.Delivers cb a vs) (hb : Act.Delivers cb b ws) :
    Act.Delivers cb (Act.seq a b) (vs ++ ws) := by
  intro log
  rw [deliver_append]
  unfold Act.seq
  rw [ha log]
  rcases deliver cb vs log with ⟨l1, stop⟩
  cases stop with
  | none => exact hb l1
  | some st => rfl

theorem Act.delivers_forEach {α : Type} {cb : Sink} {body : α → Act} {f : α → List Violation} :
    ∀ xs : List α, (∀ x ∈ xs, Act.Delivers cb (body x) (f x)) →
      Act.Delivers cb (forEach body xs) (xs.flatMap f)
  | [], _ => by simpa [forEach] using Act.delivers_skip cb
  | x :: xs, h => by
    have hx := h x (List.mem_cons_self x xs)
    have hxs := Act.delivers_forEach xs (fun y hy => h y (List.mem_cons_of_mem x hy))
    simpa [forEach] using Act.delivers_seq hx hxs

theorem delivers_checkBranch (K : Keys) (s : Snapshot) (cb : Sink) (bi : BranchInfo)
    (hrec : ∀ p ∈ bi.Provenance, GoMap.get? s.branchInfos (K.BranchKey p) ≠ none) :
    Act.Delivers cb (checkBranch K s cb bi) (branchViolations K s bi) := by
  unfold checkBranch branchViolations
  refine Act.delivers_seq ?_ (Act.delivers_seq ?_ ?_)
  · unfold checkProvenance provenanceViolations
    by_cases h : equalBranches K (bi.Provenance ++ [bi.Branch]) (unionOf K s bi) = true
    · simpa [h] using Act.delivers_skip cb
    · simpa [h] using Act.delivers_onError cb _
  · unfold checkSubvenance subvenanceViolations
    apply Act.delivers_forEach
    intro p hp
    cases hget : GoMap.get? s.branchInfos (K.BranchKey p) with
    | none => exact absurd hget (hrec p hp)
    | some info =>
      by_cases h : branchInSet bi.Branch info.Subvenance = true
      · simpa [h] using Act.delivers_skip cb
      · simpa [h] using Act.delivers_onError cb _
  · unfold checkHead headViolations
    cases bi.Head with
    | none => simpa using Act.delivers_onError cb _
    | some head =>
      simp only
      apply Act.delivers_forEach
      intro p _
      cases GoMap.get? s.branchInfos (K.BranchKey p) with
      | none => simpa using Act.delivers_onError cb _
      | some info =>
        by_cases h : info.Head = none
        · simpa [h] using Act.delivers_skip cb
        · cases GoMap.get? s.commitInfos (K.CommitKey head) with
          | none => simpa [h] using Act.delivers_onError cb _
          | some _ => simpa [h] using Act.delivers_skip cb

theorem delivers_checkCommit (K : Keys) (s : Snapshot) (cb : Sink) (ci : CommitInfo) :
    Act.Delivers cb (checkCommit K s cb ci) (commitViolations K s ci) := by
  unfold checkCommit commitViolations
  apply Act.delivers_seq
  · unfold checkParent parentViolations
    cases ci.ParentCommit with
    | none => simpa using Act.delivers_skip cb
    | some pr =>
      simp only
      cases GoMap.get? s.commitInfos (K.CommitKey pr) with
      | none => simpa using Act.delivers_onError cb _
      | some prInfo =>
        by_cases h : foundIn ci.Commit prInfo.ChildCommits = true
        · simpa [h] using Act.delivers_skip cb
        · simpa [h] using Act.delivers_onError cb _
  · unfold checkChildren childViolations
    apply Act.delivers_forEach
    intro ch _
    cases GoMap.get? s.commitInfos (K.CommitKey ch) with
    | none => simpa using Act.delivers_onError cb _
    | some chInfo =>
      by_cases h : chInfo.ParentCommit = none ∨ chInfo.ParentCommit ≠ some ci.Commit
      · simpa [h] using Act.delivers_onError cb _
      · simpa [h] using Act.delivers_skip cb

/-- With every provenance entry recorded, the scan is the delivery of the violations of every
branch and then of every commit, whatever the sink. -/
theorem delivers_scan (K : Keys) (s : Snapshot) (cb : Sink) (hrec : s.ProvenanceRecorded K) :
    Act.Delivers cb (scan K s cb) (allViolations K s) := by
  unfold scan allViolations
  apply Act.delivers_seq
  · exact Act.delivers_forEach _ (fun e he => delivers_checkBranch K s cb e.2 (hrec e he))
  · exact Act.delivers_forEach _ (fun e _ => delivers_checkCommit K s cb e.2)

/-- As long as the sink returns nil, delivery goes on. -/
theorem deliver_quiet (cb : Sink) (ys : List Violation) :
    ∀ (xs log : List Violation), (∀ p w q, xs = p ++ w :: q → cb (log ++ p) w = none) →
      deliver cb (xs ++ ys) log = deliver cb ys (log ++ xs)
  | [], log, _ => by simp
  | x :: xs, log, h => by
    have hx : cb log x = none := by simpa using h [] x xs rfl
    have ih := deliver_quiet cb ys xs (log ++ [x]) (fun p w q hp => by
      have := h (x :: p) w q (by rw [hp]; rfl)
      simpa using this)
    have h1 : deliver cb (x :: xs ++ ys) log =
        Act.seq (onError cb x) (deliver cb (xs ++ ys)) log := rfl
    rw [h1]
    unfold Act.seq
    simp only [onError, hx, Option.map_none']
    rw [ih]
    simp

/-- A delivery never shortens the log. -/
theorem deliver_log_ne_nil (cb : Sink) :
    ∀ (vs log : List Violation), log ≠ [] → (deliver cb vs log).1 ≠ []
  | [], _, h => h
  | v :: vs, log, _ => by
    have h1 : deliver cb (v :: vs) log = Act.seq (onError cb v) (deliver cb vs) log := rfl
    rw [h1]
    unfold Act.seq
    cases hv : cb log v with
    | none =>
      simp only [onError, hv, Option.map_none']
      exact deliver_log_ne_nil cb vs (log ++ [v]) (by simp)
    | some err =>
      simp [onError, hv]

theorem deliver_calls_eq_nil (cb : Sink) (vs : List Violation) :
    (deliver cb vs []).1 = [] ↔ vs = [] := by
  constructor
  · intro h
    cases vs with
    | nil => rfl
    | cons v vs =>
      exfalso
      have h1 : deliver cb (v :: vs) [] = Act.seq (onError cb v) (deliver cb vs) [] := rfl
      rw [h1] at h
      unfold Act.seq at h
      cases hv : cb [] v with
      | none =>
        simp only [onError, hv, Option.map_none', List.nil_append] at h
        exact deliver_log_ne_nil cb vs [v] (by simp) h
      | some err =>
        simp [onError, hv] at h
  · rintro rfl
    rfl

/-! ## Clean snapshots -/

theorem hasRecordedHead_iff (K : Keys) (s : Snapshot) (p : Branch) :
    hasRecordedHead K s p = true ↔
      ∃ info, GoMap.get? s.branchInfos (K.BranchKey p) = some info ∧ info.Head ≠ none := by
  unfold hasRecordedHead
  cases GoMap.get? s.branchInfos (K.BranchKey p) with
  | none => simp
  | some info =>
    cases h : info.Head with
    | none => simp [h]
    | some c => simp [h]

/-- No violation is found exactly on the clean snapshots. -/
theorem allViolations_eq_nil_iff (K : Keys) (s : Snapshot) :
    allViolations K s = [] ↔ s.Clean K := by
  rw [List.eq_nil_iff_forall_not_mem]
  constructor
  · intro h
    have none_of : ∀ v, v ∈ allViolations K s → False := fun v hv => h v hv
    refine ⟨fun e he => ?_, fun e he => ⟨?_, ?_⟩⟩
    · have hhead : e.2.Head ≠ none := fun hh =>
        none_of _ ((mem_allViolations K s _).2 (Or.inl ⟨e, he, Or.inr (Or.inr
          ((mem_headViolations K s e.2 _).2 (Or.inl ⟨hh, rfl⟩)))⟩))
      obtain ⟨head, hsome⟩ := Option.ne_none_iff_exists'.1 hhead
      have hrecd : ∀ p ∈ e.2.Provenance, ∃ info,
          GoMap.get? s.branchInfos (K.BranchKey p) = some info := by
        intro p hp
        cases hget : GoMap.get? s.branchInfos (K.BranchKey p) with
        | some info => exact ⟨info, rfl⟩
        | none =>
          exact (none_of _ ((mem_allViolations K s _).2 (Or.inl ⟨e, he, Or.inr (Or.inr
            ((mem_headViolations K s e.2 _).2
              (Or.inr ⟨head, hsome, p, hp, Or.inl ⟨hget, rfl⟩⟩)))⟩))).elim
      refine ⟨hhead, ?_, ?_, ?_⟩
      · by_contra hne
        exact none_of _ ((mem_allViolations K s _).2 (Or.inl ⟨e, he, Or.inl
          ((mem_provenanceViolations K s e.2 _).2 ⟨hne, rfl⟩)⟩))
      · intro p hp
        obtain ⟨info, hget⟩ := hrecd p hp
        refine ⟨info, hget, ?_⟩
        by_contra hsub
        exact none_of _ ((mem_allViolations K s _).2 (Or.inl ⟨e, he, Or.inr (Or.inl
          ((mem_subvenanceViolations K s e.2 _).2 ⟨p, hp, info, hget, hsub, rfl⟩))⟩))
      · rintro ⟨p, hp, hhas⟩ head' hh' hnone
        obtain ⟨info, hget, hih⟩ := (hasRecordedHead_iff K s p).1 hhas
        exact none_of _ ((mem_allViolations K s _).2 (Or.inl ⟨e, he, Or.inr (Or.inr
          ((mem_headViolations K s e.2 _).2
            (Or.inr ⟨head', hh', p, hp, Or.inr ⟨info, hget, hih, hnone, rfl⟩⟩)))⟩))
    · intro pr hpar
      cases hget : GoMap.get? s.commitInfos (K.CommitKey pr) with
      | none =>
        exact (none_of _ ((mem_allViolations K s _).2 (Or.inr ⟨e, he, Or.inl
          ((mem_parentViolations K s e.2 _).2 ⟨pr, hpar, Or.inl ⟨hget, rfl⟩⟩)⟩))).elim
      | some prInfo =>
        refine ⟨prInfo, rfl, ?_⟩
        by_contra hnot
        exact none_of _ ((mem_allViolations K s _).2 (Or.inr ⟨e, he, Or.inl
          ((mem_parentViolations K s e.2 _).2 ⟨pr, hpar, Or.inr ⟨prInfo, hget, hnot, rfl⟩⟩)⟩))
    · intro ch hch
      cases hget : GoMap.get? s.commitInfos (K.CommitKey ch) with
      | none =>
        exact (none_of _ ((mem_allViolations K s _).2 (Or.inr ⟨e, he, Or.inr
          ((mem_childViolations K s e.2 _).2 ⟨ch, hch, Or.inl ⟨hget, rfl⟩⟩)⟩))).elim
      | some chInfo =>
        refine ⟨chInfo, rfl, ?_⟩
        by_contra hnot
        exact none_of _ ((mem_allViolations K s _).2 (Or.inr ⟨e, he, Or.inr
          ((mem_childViolations K s e.2 _).2 ⟨ch, hch, Or.inr ⟨chInfo, hget, hnot, rfl⟩⟩)⟩))
  · rintro ⟨hbranches, hdual⟩ v hv
    rw [mem_allViolations] at hv
    rcases hv with ⟨e, he, h | h | h⟩ | ⟨e, he, h | h⟩
    · exact ((mem_provenanceViolations K s e.2 _).1 h).1 (hbranches e he).2.1
    · obtain ⟨p, hp, info, hget, hsub, _⟩ := (mem_subvenanceViolations K s e.2 _).1 h
      obtain ⟨info', hget', hmem⟩ := (hbranches e he).2.2.1 p hp
      rw [hget] at hget'
      cases hget'
      exact hsub hmem
    · rcases (mem_headViolations K s e.2 _).1 h with ⟨hh, _⟩ | ⟨head, hh, p, hp, hc⟩
      · exact (hbranches e he).1 hh
      · rcases hc with ⟨hget, _⟩ | ⟨info, hget, hih, hnone, _⟩
        · obtain ⟨info', hget', _⟩ := (hbranches e he).2.2.1 p hp
          rw [hget] at hget'
          cases hget'
        · exact (hbranches e he).2.2.2
            ⟨p, hp, (hasRecordedHead_iff K s p).2 ⟨info, hget, hih⟩⟩ head hh hnone
    · obtain ⟨pr, hpar, hc⟩ := (mem_parentViolations K s e.2 _).1 h
      obtain ⟨prInfo', hget', hmem⟩ := (hdual e he).1 pr hpar
      rcases hc with ⟨hget, _⟩ | ⟨prInfo, hget, hnot, _⟩
      · rw [hget] at hget'
        cases hget'
      · rw [hget] at hget'
        cases hget'
        exact hnot hmem
    · obtain ⟨ch, hch, hc⟩ := (mem_childViolations K s e.2 _).1 h
      obtain ⟨chInfo', hget', hpar⟩ := (hdual e he).2 ch hch
      rcases hc with ⟨hget, _⟩ | ⟨chInfo, hget, hne, _⟩
      · rw [hget] at hget'
        cases hget'
      · rw [hget] at hget'
        cases hget'
        exact hne hpar

/-- With every provenance entry recorded, the sink is never called exactly on the clean
snapshots, and then the scan runs to its end. -/
theorem scan_silent_iff_clean (K : Keys) (s : Snapshot) (cb : Sink)
    (hrec : s.ProvenanceRecorded K) :
    ((scan K s cb []).1 = [] ↔ s.Clean K) ∧ (s.Clean K → scan K s cb [] = ([], none)) := by
  have hd := delivers_scan K s cb hrec []
  rw [hd, deliver_calls_eq_nil, allViolations_eq_nil_iff]
  refine ⟨Iff.rfl, fun hc => ?_⟩
  rw [(allViolations_eq_nil_iff K s).2 hc]
  rfl

/-! ## Order of iteration -/

theorem GoMap.get?_perm {V : Type} {m m' : GoMap V} (hp : m.Perm m')
    (hn : (GoMap.keys m).Nodup) (k : String) : GoMap.get? m k = GoMap.get? m' k := by
  have hp' : (GoMap.keys m).Perm (GoMap.keys m') := hp.map Prod.fst
  have hn' : (GoMap.keys m').Nodup := hp'.nodup_iff.1 hn
  cases hget : GoMap.get? m k with
  | none =>
    have h1 := (GoMap.get?_eq_none_iff m k).1 hget
    have h2 : k ∉ GoMap.keys m' := fun h => h1 (hp'.mem_iff.2 h)
    exact ((GoMap.get?_eq_none_iff m' k).2 h2).symm
  | some v =>
    have h1 := GoMap.mem_of_get? m k v hget
    exact (GoMap.get?_of_mem m' hn' k v (hp.mem_iff.1 h1)).symm

theorem branchViolations_congr (K : Keys) (s s' : Snapshot)
    (hb : ∀ k, GoMap.get? s.branchInfos k = GoMap.get? s'.branchInfos k)
    (hc : ∀ k, GoMap.get? s.commitInfos k = GoMap.get? s'.commitInfos k) (bi : BranchInfo) :
    branchViolations K s bi = branchViolations K s' bi := by
  simp only [branchViolations, provenanceViolations, subvenanceViolations, headViolations,
    unionOf, hb, hc]

theorem commitViolations_congr (K : Keys) (s s' : Snapshot)
    (hc : ∀ k, GoMap.get? s.commitInfos k = GoMap.get? s'.commitInfos k) (ci : CommitInfo) :
    commitViolations K s ci = commitViolations K s' ci := by
  simp only [commitViolations, parentViolations, childViolations, hc]

/-- The violations found do not depend, as a multiset, on the order in which the two maps are
visited. -/
theorem allViolations_perm (K : Keys) (s s' : Snapshot) (hv : s.Valid K)
    (hb : s.branchInfos.Perm s'.branchInfos) (hc : s.commitInfos.Perm s'.commitInfos) :
    (allViolations K s).Perm (allViolations K s') := by
  have hgb := GoMap.get?_perm hb hv.1
  have hgc := GoMap.get?_perm hc hv.2.1
  have e1 : (fun e : String × BranchInfo => branchViolations K s' e.2) =
      fun e => branchViolations K s e.2 :=
    funext fun e => (branchViolations_congr K s s' hgb hgc e.2).symm
  have e2 : (fun e : String × CommitInfo => commitViolations K s' e.2) =
      fun e => commitViolations K s e.2 :=
    funext fun e => (commitViolations_congr K s s' hgc e.2).symm
  unfold allViolations
  rw [e1, e2]
  exact (hb.flatMap_right _).append (hc.flatMap_right _)

/-- With sinks that never err and every provenance entry recorded, two runs over the same maps,
visited in different orders, hand the same multiset of violations to their sinks. -/
theorem calls_perm_when_records_complete (K : Keys) (s s' : Snapshot) (fix fix' : Bool)
    (txErr txErr' : Option String) (cb cb' : Sink) (hv : s.Valid K)
    (hb : s.branchInfos.Perm s'.branchInfos) (hc : s.commitInfos.Perm s'.commitInfos)
    (hcb : cb.NeverErrs) (hcb' : cb'.NeverErrs) (hrec : s.ProvenanceRecorded K) :
    (fsck K s fix txErr cb).calls.Perm (fsck K s' fix' txErr' cb').calls := by
  have hrec' : s'.ProvenanceRecorded K := by
    intro e he p hp
    rw [← GoMap.get?_perm hb hv.1]
    exact hrec e (hb.mem_iff.2 he) p hp
  rw [fsck_complete K s fix txErr hcb hrec, fsck_complete K s' fix' txErr' hcb' hrec']
  exact allViolations_perm K s s' hv hb hc

/-- Whatever the input, `fsck` creates no commit record. -/
theorem fsck_writes (K : Keys) (s : Snapshot) (fix : Bool) (txErr : Option String) (cb : Sink) :
    (fsck K s fix txErr cb).writes = [] := by
  unfold fsck
  rcases scan K s cb [] with ⟨log, stop⟩
  cases stop with
  | none => cases fix <;> rfl
  | some st => cases st <;> rfl

/-! ## The snapshot phase -/

theorem visitRepo_ok (K : Keys) (ensureStack : String → String) (repo : RepoScan) (s : Snapshot)
    (h : (visitRepo K ensureStack repo s).2 = none) :
    repo.commits.err = none ∧ repo.branches.err = none := by
  unfold visitRepo at h
  cases hc : repo.commits.err with
  | some err => simp [hc] at h
  | none =>
    simp only [hc] at h
    cases hb : repo.branches.err with
    | some err => simp [hb] at h
    | none => exact ⟨rfl, rfl⟩

/-- A failing listing makes the repo listing return an error. -/
theorem listRepos_fails (K : Keys) (ensureStack : String → String) :
    ∀ (repos : List RepoScan) (err : Option String) (s : Snapshot),
      (err ≠ none ∨ ∃ r ∈ repos, r.commits.err ≠ none ∨ r.branches.err ≠ none) →
      (listRepos K ensureStack repos err s).2 ≠ none
  | [], err, s, h => by
    rcases h with h | ⟨r, hr, _⟩
    · exact h
    · simp at hr
  | repo :: repos, err, s, h => by
    unfold listRepos
    rcases hv : visitRepo K ensureStack repo s with ⟨s', o⟩
    cases o with
    | some e => simp
    | none =>
      have hok := visitRepo_ok K ensureStack repo s (by rw [hv])
      apply listRepos_fails K ensureStack repos err s'
      rcases h with h | ⟨r, hr, hfail⟩
      · exact Or.inl h
      · rcases List.mem_cons.1 hr with rfl | hr'
        · rcases hfail with hf | hf
          · exact absurd hok.1 hf
          · exact absurd hok.2 hf
        · exact Or.inr ⟨r, hr', hfail⟩

/-- When no listing fails, the snapshot phase collects every listed record. -/
theorem listRepos_healthy (K : Keys) (ensureStack : String → String) :
    ∀ (repos : List RepoScan) (s : Snapshot),
      (∀ r ∈ repos, r.commits.err = none ∧ r.branches.err = none) →
      listRepos K ensureStack repos none s =
        ((repos.map (fun r => (⟨r.commits.items, r.branches.items⟩ : RepoListing))).foldl
          (fun s repo =>
            { commitInfos :=
                repo.commits.foldl
                  (fun m commitInfo => GoMap.set m (K.CommitKey commitInfo.Commit) commitInfo)
                  s.commitInfos,
              branchInfos :=
                repo.branches.foldl
                  (fun m branchInfo => GoMap.set m (K.BranchKey branchInfo.Branch) branchInfo)
                  s.branchInfos })
          s, none)
  | [], s, _ => rfl
  | r :: rs, s, h => by
    obtain ⟨hc, hb⟩ := h r (List.mem_cons_self _ _)
    have ih := listRepos_healthy K ensureStack rs
    unfold listRepos
    simp only [visitRepo, hc, hb, Option.map_none', List.map_cons, List.foldl_cons]
    exact ih _ (fun r' hr' => h r' (List.mem_cons_of_mem _ hr'))

/-- When no listing fails, `fsck` scans a valid snapshot: the one collected from the listed
records. -/
theorem driverFsck_healthy (K : Keys) (ensureStack : String → String) (repos : Listing RepoScan)
    (fix : Bool) (txErr : Option String) (cb : Sink) (herr : repos.err = none)
    (h : ∀ r ∈ repos.items, r.commits.err = none ∧ r.branches.err = none) :
    driverFsck K ensureStack repos fix txErr cb =
      fsck K (collectSnapshot K
        (repos.items.map (fun r => (⟨r.commits.items, r.branches.items⟩ : RepoListing))))
        fix txErr cb := by
  unfold driverFsck collectSnapshot
  rw [herr, listRepos_healthy K ensureStack repos.items _ h]

/-! ## The claims on the sink, on clean graphs and on the helper predicates -/

/-- C11: whatever the snapshot and the sink, if the sink returns an error `err` on some call,
that call is the last one, `fsck` returns exactly `err`, and it writes nothing, also when `fix`
is set: the run is the one with `fix` unset. -/
theorem C11_sink_error_stops_scan (K : Keys) (s : Snapshot) (fix : Bool)
    (txErr : Option String) (cb : Sink) (pre post : List Violation) (v : Violation)
    (err : String) (hcalls : (fsck K s fix txErr cb).calls = pre ++ v :: post)
    (herr : cb pre v = some err) :
    post = [] ∧ (fsck K s fix txErr cb).outcome = Outcome.returned (some err) ∧
      (fsck K s fix txErr cb).writes = [] ∧
      fsck K s fix txErr cb = fsck K s false none cb := by
  have hends := disciplined_scan K s cb [] (Sink.quiet_nil cb)
  rw [fsck_calls] at hcalls
  obtain ⟨hpost, hstop⟩ := hends.of_error hcalls herr
  unfold fsck
  rcases hr : scan K s cb [] with ⟨log, stop⟩
  rw [hr] at hstop
  simp only at hstop
  subst hstop
  exact ⟨hpost, rfl, rfl, rfl⟩

/-- C11, applied to the sink that errs on every call and a branch with three violations. -/
theorem C11_sink_error_stops_scan_witness :
    (fsck sampleKeys brokenSubvenance true (some "no database") Sink.failing).calls =
      [] ++ Violation.ErrBranchProvenanceTransitivity
        (branchRecord "b" (some "lost") ["p"] [] []) [dataBranch "b"] :: [] ∧
    Sink.failing [] (Violation.ErrBranchProvenanceTransitivity
        (branchRecord "b" (some "lost") ["p"] [] []) [dataBranch "b"]) = some "sink closed" ∧
    (fsck sampleKeys brokenSubvenance true (some "no database") Sink.failing).outcome =
      Outcome.returned (some "sink closed") :=
  ⟨by decide, rfl,
    (C11_sink_error_stops_scan sampleKeys brokenSubvenance true (some "no database")
      Sink.failing [] []
      (Violation.ErrBranchProvenanceTransitivity (branchRecord "b" (some "lost") ["p"] [] [])
        [dataBranch "b"])
      "sink closed" (by decide) rfl).2.1⟩

/-! ## The scan does the same for every sink, up to the sink's first error -/

theorem Act.seq_skip (a : Act) (log : List Violation) : Act.seq a Act.skip log = a log := by
  unfold Act.seq Act.skip
  rcases a log with ⟨l, stop⟩
  cases stop <;> rfl

theorem Act.Uniform.congr {a b : Sink → Act} (h : ∀ cb, a cb = b cb) (hb : Act.Uniform b) :
    Act.Uniform a := by
  obtain ⟨vs, crash, hvs⟩ := hb
  exact ⟨vs, crash, fun cb log => by rw [h cb, hvs cb log]⟩

theorem Act.uniform_skip : Act.Uniform (fun _ => Act.skip) :=
  ⟨[], false, fun _ _ => rfl⟩

theorem Act.uniform_crash : Act.Uniform (fun _ => Act.crash) :=
  ⟨[], true, fun _ _ => rfl⟩

theorem Act.uniform_onError (v : Violation) : Act.Uniform (fun cb => onError cb v) := by
  refine ⟨[v], false, fun cb log => ?_⟩
  rw [if_neg (by simp), Act.seq_skip]
  exact Act.delivers_onError cb v log

theorem Act.uniform_seq {a b : Sink → Act} (ha : Act.Uniform a) (hb : Act.Uniform b) :
    Act.Uniform (fun cb => Act.seq (a cb) (b cb)) := by
  obtain ⟨vs, c, hvs⟩ := ha
  obtain ⟨ws, d, hws⟩ := hb
  cases c with
  | true =>
    refine ⟨vs, true, fun cb log => ?_⟩
    simp only [if_true] at hvs ⊢
    show Act.seq (a cb) (b cb) log = _
    unfold Act.seq at hvs ⊢
    rw [hvs cb log]
    rcases deliver cb vs log with ⟨l, stop⟩
    cases stop <;> rfl
  | false =>
    refine ⟨vs ++ ws, d, fun cb log => ?_⟩
    have hvs' : ∀ log, a cb log = deliver cb vs log := by
      intro log
      rw [hvs cb log, if_neg (by simp), Act.seq_skip]
    show Act.seq (a cb) (b cb) log = _
    have h1 : Act.seq (deliver cb (vs ++ ws)) (if d = true then Act.crash else Act.skip) log =
        Act.seq (deliver cb vs)
          (Act.seq (deliver cb ws) (if d = true then Act.crash else Act.skip)) log := by
      rw [← Act.seq_assoc]
      unfold Act.seq
      rw [deliver_append]
      rfl
    rw [h1]
    unfold Act.seq
    rw [hvs' log]
    rcases deliver cb vs log with ⟨l, stop⟩
    cases stop with
    | none => exact hws cb l
    | some st => rfl

theorem Act.uniform_forEach {α : Type} {body : Sink → α → Act} :
    ∀ xs : List α, (∀ x ∈ xs, Act.Uniform (fun cb => body cb x)) →
      Act.Uniform (fun cb => forEach (body cb) xs)
  | [], _ => Act.uniform_skip
  | x :: xs, h =>
    Act.uniform_seq (h x (List.mem_cons_self x xs))
      (Act.uniform_forEach xs (fun y hy => h y (List.mem_cons_of_mem x hy)))

theorem uniform_checkBranch (K : Keys) (s : Snapshot) (bi : BranchInfo) :
    Act.Uniform (fun cb => checkBranch K s cb bi) := by
  unfold checkBranch
  refine Act.uniform_seq ?_ (Act.uniform_seq ?_ ?_)
  · unfold checkProvenance
    by_cases h : equalBranches K (bi.Provenance ++ [bi.Branch]) (unionOf K s bi) = true
    · simpa [h] using Act.uniform_skip
    · simpa [h] using Act.uniform_onError _
  · unfold checkSubvenance
    apply Act.uniform_forEach
    intro p _
    cases hget : GoMap.get? s.branchInfos (K.BranchKey p) with
    | none => exact Act.uniform_crash
    | some info =>
      by_cases h : branchInSet bi.Branch info.Subvenance = true
      · simpa [h] using Act.uniform_skip
      · simpa [h] using Act.uniform_onError _
  · unfold checkHead
    cases hhead : bi.Head with
    | none => exact Act.uniform_onError _
    | some head =>
      apply Act.uniform_forEach
      intro p _
      cases hget : GoMap.get? s.branchInfos (K.BranchKey p) with
      | none => exact Act.uniform_onError _
      | some info =>
        by_cases h : info.Head = none
        · simpa [h] using Act.uniform_skip
        · cases hc : GoMap.get? s.commitInfos (K.CommitKey head) with
          | none => simpa [h] using Act.uniform_onError _
          | some _ => simpa [h] using Act.uniform_skip

theorem uniform_checkCommit (K : Keys) (s : Snapshot) (commitInfo : CommitInfo) :
    Act.Uniform (fun cb => checkCommit K s cb commitInfo) := by
  unfold checkCommit
  refine Act.uniform_seq ?_ ?_
  · unfold checkParent
    cases hp : commitInfo.ParentCommit with
    | none => exact Act.uniform_skip
    | some parentCommit =>
      dsimp only
      cases hget : GoMap.get? s.commitInfos (K.CommitKey parentCommit) with
      | none => exact Act.uniform_onError _
      | some parentCommitInfo =>
        by_cases h : foundIn commitInfo.Commit parentCommitInfo.ChildCommits = true
        · simpa [h] using Act.uniform_skip
        · simpa [h] using Act.uniform_onError _
  · unfold checkChildren
    apply Act.uniform_forEach
    intro child _
    cases hget : GoMap.get? s.commitInfos (K.CommitKey child) with
    | none => exact Act.uniform_onError _
    | some childCommitInfo =>
      by_cases h : childCommitInfo.ParentCommit = none ∨
          childCommitInfo.ParentCommit ≠ some commitInfo.Commit
      · simp only [if_pos h]
        exact Act.uniform_onError _
      · simp only [if_neg h]
        exact Act.uniform_skip

theorem uniform_scan (K : Keys) (s : Snapshot) : Act.Uniform (fun cb => scan K s cb) := by
  unfold scan
  exact Act.uniform_seq
    (Act.uniform_forEach s.branchInfos (fun e _ => uniform_checkBranch K s e.2))
    (Act.uniform_forEach s.commitInfos (fun e _ => uniform_checkCommit K s e.2))

theorem deliver_silent (vs log : List Violation) :
    deliver Sink.silent vs log = (log ++ vs, none) := by
  have h := deliver_quiet Sink.silent [] vs log (fun _ _ _ _ => rfl)
  rw [List.append_nil] at h
  rw [h]
  rfl

/-- C12 (counterexample): branch `b` has three violations (provenance, subvenance, head commit)
and commit `c` has two (parent and child without a record); with a sink that errs on every call
`fsck` delivers the first violation of the record and returns the error: the remaining
violations of the same branch or commit are not delivered. -/
theorem C12_counterexample_stops_mid_record :
    (fsck sampleKeys brokenSubvenance false none Sink.silent).calls =
      branchViolations sampleKeys brokenSubvenance (branchRecord "b" (some "lost") ["p"] [] []) ∧
    branchViolations sampleKeys brokenSubvenance (branchRecord "b" (some "lost") ["p"] [] []) =
      [Violation.ErrBranchProvenanceTransitivity (branchRecord "b" (some "lost") ["p"] [] [])
          [dataBranch "b"],
        Violation.ErrBranchSubvenanceTransitivity (branchRecord "p" (some "h") [] [] [])
          (dataBranch "b"),
        Violation.ErrCommitInfoNotFound "head commit provenance (=>)" (dataCommit "lost")] ∧
    fsck sampleKeys brokenSubvenance false none Sink.failing =
      ⟨[Violation.ErrBranchProvenanceTransitivity (branchRecord "b" (some "lost") ["p"] [] [])
          [dataBranch "b"]], [], Outcome.returned (some "sink closed")⟩ ∧
    (fsck sampleKeys twoFaultsCommit false none Sink.silent).calls =
      [Violation.ErrCommitInfoNotFound "parent commit of data=c" (dataCommit "gone"),
        Violation.ErrCommitInfoNotFound "child commit of data=c" (dataCommit "lost")] ∧
    fsck sampleKeys twoFaultsCommit false none Sink.failing =
      ⟨[Violation.ErrCommitInfoNotFound "parent commit of data=c" (dataCommit "gone")], [],
        Outcome.returned (some "sink closed")⟩ := by
  decide

/-- C12 (amended): a non-nil return from the sink takes effect at once, also in the middle of a
record: if the violations found by a run whose sink never errs are `pre`, then `v`, then `post`,
and the sink returns nil on the calls for `pre` and an error on the call for `v`, the calls of
`fsck` are `pre` and `v`, none of `post` is delivered, and `fsck` returns that error. -/
theorem C12_sink_error_takes_effect_at_once (K : Keys) (s : Snapshot) (fix : Bool)
    (txErr : Option String) (cb : Sink)
    (pre post : List Violation) (v : Violation) (err : String)
    (hfound : (fsck K s false none Sink.silent).calls = pre ++ v :: post)
    (hquiet : cb.Quiet pre) (herr : cb pre v = some err) :
    fsck K s fix txErr cb = ⟨pre ++ [v], [], Outcome.returned (some err)⟩ := by
  obtain ⟨vs, crash, huniform⟩ := uniform_scan K s
  have hvs : ∀ cb log, scan K s cb log =
      Act.seq (deliver cb vs) (if crash = true then Act.crash else Act.skip) log := huniform
  rw [fsck_calls, hvs Sink.silent []] at hfound
  have hsilent : (Act.seq (deliver Sink.silent vs)
      (if crash = true then Act.crash else Act.skip) []).1 = vs := by
    unfold Act.seq
    rw [deliver_silent]
    cases crash <;> rfl
  rw [hsilent] at hfound
  have hscan : scan K s cb [] = (pre ++ [v], some (Stop.sinkError err)) := by
    rw [hvs cb [], hfound]
    unfold Act.seq
    rw [deliver_quiet cb (v :: post) pre [] (fun p w q hp => by simpa using hquiet p w q hp)]
    have h1 : deliver cb (v :: post) ([] ++ pre) =
        Act.seq (onError cb v) (deliver cb post) ([] ++ pre) := rfl
    rw [h1]
    simp [Act.seq, onError, herr]
  unfold fsck
  rw [hscan]

/-- C12 (amended), applied to a sink that returns nil on the provenance violation of branch `b`
and an error on its subvenance violation: the head violation of `b` is not delivered. -/
theorem C12_sink_error_takes_effect_at_once_witness :
    (fsck sampleKeys brokenSubvenance false none Sink.silent).calls =
      [Violation.ErrBranchProvenanceTransitivity (branchRecord "b" (some "lost") ["p"] [] [])
          [dataBranch "b"]] ++
        Violation.ErrBranchSubvenanceTransitivity (branchRecord "p" (some "h") [] [] [])
          (dataBranch "b") ::
        [Violation.ErrCommitInfoNotFound "head commit provenance (=>)" (dataCommit "lost")] ∧
    fsck sampleKeys brokenSubvenance true none Sink.failsOnSubvenance =
      ⟨[Violation.ErrBranchProvenanceTransitivity (branchRecord "b" (some "lost") ["p"] [] [])
          [dataBranch "b"]] ++
        [Violation.ErrBranchSubvenanceTransitivity (branchRecord "p" (some "h") [] [] [])
          (dataBranch "b")], [], Outcome.returned (some "sink closed")⟩ :=
  ⟨by decide,
    C12_sink_error_takes_effect_at_once sampleKeys brokenSubvenance true none
      Sink.failsOnSubvenance
      [Violation.ErrBranchProvenanceTransitivity (branchRecord "b" (some "lost") ["p"] [] [])
        [dataBranch "b"]]
      [Violation.ErrCommitInfoNotFound "head commit provenance (=>)" (dataCommit "lost")]
      (Violation.ErrBranchSubvenanceTransitivity (branchRecord "p" (some "h") [] [] [])
        (dataBranch "b"))
      "sink closed" (by decide)
      (by
        intro p w q h
        rcases p with _ | ⟨x, p⟩
        · simp only [List.nil_append, List.cons.injEq] at h
          rw [← h.1]
          rfl
        · simp at h)
      rfl⟩

/-- C13 (defect in the code): branch `b` has a nil head and stores a provenance entry without a
record; with a sink that never errs and `fix` unset, `fsck` does not run to completion: it ends
in a nil dereference, and the missing head of `b`, the one violation the checks of `b` find, is
never handed to the sink. -/
theorem C13_run_ends_in_nil_dereference :
    fsck sampleKeys headlessGhost false none Sink.silent = ⟨[], [], Outcome.nilDereference⟩ ∧
    (fsck sampleKeys headlessGhost false none Sink.silent).outcome ≠ Outcome.returned none ∧
    branchViolations sampleKeys headlessGhost (branchRecord "b" none ["ghost"] [] ["ghost"]) =
      [Violation.ErrMissingBranchHead (dataBranch "b")] := by
  decide

/-- C14 (counterexample): the clean snapshot of repo `data` with branch `master` (empty
provenance, head `c1`): with `fix` set and a repair transaction that fails, `fsck` calls the sink
zero times but returns the error of the transaction. -/
theorem C14_counterexample_failed_transaction :
    cleanMaster.ProvenanceRecorded sampleKeys ∧ cleanMaster.Clean sampleKeys ∧
    fsck sampleKeys cleanMaster true (some "no database") Sink.silent =
      ⟨[], [], Outcome.returned (some "no database")⟩ ∧
    ¬ (((fsck sampleKeys cleanMaster true (some "no database") Sink.silent).calls = [] ∧
          (fsck sampleKeys cleanMaster true (some "no database") Sink.silent).outcome =
            Outcome.returned none) ↔
        cleanMaster.Clean sampleKeys) := by
  have hclean : cleanMaster.Clean sampleKeys :=
    (allViolations_eq_nil_iff sampleKeys cleanMaster).1 (by decide)
  refine ⟨by decide, hclean, by decide, fun h => ?_⟩
  have := (h.2 hclean).2
  revert this
  decide

/-- C14 (amended): on a snapshot whose provenance entries all have a record, with `fix` unset or
a repair transaction that succeeds, and whatever the sink, `fsck` calls the sink zero times and
returns nil exactly when the snapshot is clean: every branch has a head, the key set of its
provenance plus itself is that of the computed union, every provenance branch has it in its
subvenance, its head has a commit record whenever some provenance branch has a head, every
parent has a record whose `ChildCommits` contains the commit, and every declared child has a
record whose `ParentCommit` is the commit. -/
theorem C14_silent_and_nil_iff_clean (K : Keys) (s : Snapshot) (fix : Bool)
    (txErr : Option String) (cb : Sink) (hrec : s.ProvenanceRecorded K)
    (hfix : fix = false ∨ txErr = none) :
    ((fsck K s fix txErr cb).calls = [] ∧
        (fsck K s fix txErr cb).outcome = Outcome.returned none) ↔
      s.Clean K := by
  obtain ⟨h1, h2⟩ := scan_silent_iff_clean K s cb hrec
  constructor
  · rintro ⟨hc, _⟩
    rw [fsck_calls] at hc
    exact h1.1 hc
  · intro hclean
    unfold fsck
    rw [h2 hclean]
    rcases hfix with rfl | rfl
    · exact ⟨rfl, rfl⟩
    · cases fix <;> exact ⟨rfl, rfl⟩

/-- C14 (amended), applied to the clean snapshot of repo `data` with branch `master`. -/
theorem C14_silent_and_nil_iff_clean_witness :
    cleanMaster.ProvenanceRecorded sampleKeys ∧
    (((fsck sampleKeys cleanMaster false none Sink.failing).calls = [] ∧
        (fsck sampleKeys cleanMaster false none Sink.failing).outcome =
          Outcome.returned none) ↔
      cleanMaster.Clean sampleKeys) :=
  ⟨by decide,
    C14_silent_and_nil_iff_clean sampleKeys cleanMaster false none Sink.failing (by decide)
      (Or.inl rfl)⟩

/-- C15 (defect in the code): the two snapshots hold the same two branch records, visited in
opposite orders, and the same commit records; both branches store a provenance entry without a
record. With sinks that never err the two runs deliver different violations: each run delivers
the provenance violation of the branch it visits first and ends in a nil dereference. -/
theorem C15_multiset_depends_on_order_after_nil_dereference :
    twoDanglingAB.branchInfos.Perm twoDanglingBA.branchInfos ∧
    twoDanglingAB.commitInfos = twoDanglingBA.commitInfos ∧
    ¬ (fsck sampleKeys twoDanglingAB false none Sink.silent).calls.Perm
        (fsck sampleKeys twoDanglingBA false none Sink.silent).calls ∧
    (fsck sampleKeys twoDanglingAB false none Sink.silent).outcome = Outcome.nilDereference ∧
    (fsck sampleKeys twoDanglingBA false none Sink.silent).outcome = Outcome.nilDereference := by
  decide

/-- C16 (defect in the code): branch `b` stores a provenance entry without a record; with `fix`
set, a sink that never errs and a repair transaction that would succeed, `fsck` writes nothing
but does not return: it ends in a nil dereference before the transaction is reached. -/
theorem C16_fix_run_ends_in_nil_dereference :
    fsck sampleKeys ghostProvenance true none Sink.silent = ⟨[], [], Outcome.nilDereference⟩ ∧
    (fsck sampleKeys ghostProvenance true none Sink.silent).outcome ≠ Outcome.returned none := by
  decide

/-- C17: if the repo listing fails, or the listing of the commits or of the branches of some
repo fails, `fsck` returns an error without a call to the sink and without a write. -/
theorem C17_listing_failure_aborts (K : Keys) (ensureStack : String → String)
    (repos : Listing RepoScan) (fix : Bool) (txErr : Option String) (cb : Sink)
    (hfail : repos.err ≠ none ∨
      ∃ r ∈ repos.items, r.commits.err ≠ none ∨ r.branches.err ≠ none) :
    ∃ err, driverFsck K ensureStack repos fix txErr cb =
      ⟨[], [], Outcome.returned (some err)⟩ := by
  have h := listRepos_fails K ensureStack repos.items repos.err
    { branchInfos := [], commitInfos := [] } hfail
  unfold driverFsck
  rcases hr : listRepos K ensureStack repos.items repos.err
    { branchInfos := [], commitInfos := [] } with ⟨s, o⟩
  rw [hr] at h
  cases o with
  | none => exact absurd rfl h
  | some err => exact ⟨ensureStack err, rfl⟩

/-- C17, applied to a store whose second repo fails while listing its branches, after records
with violations were collected. -/
theorem C17_listing_failure_aborts_witness :
    (failingStore.err ≠ none ∨
      ∃ r ∈ failingStore.items, r.commits.err ≠ none ∨ r.branches.err ≠ none) ∧
    ∃ err, driverFsck sampleKeys id failingStore true none Sink.silent =
      ⟨[], [], Outcome.returned (some err)⟩ :=
  have hfail : failingStore.err ≠ none ∨
      ∃ r ∈ failingStore.items, r.commits.err ≠ none ∨ r.branches.err ≠ none :=
    Or.inr ⟨_, List.mem_cons_of_mem _ (List.mem_cons_self _ _), Or.inr (by simp)⟩
  ⟨hfail, C17_listing_failure_aborts sampleKeys id failingStore true none Sink.silent hfail⟩

/-- C18: `equalBranches a b` is true exactly when the canonical keys of the elements of `a` and
the canonical keys of the elements of `b` form the same set. -/
theorem C18_equalBranches_iff_same_key_set (K : Keys) (a b : List Branch) :
    equalBranches K a b = true ↔
      ∀ k, k ∈ a.map K.BranchKey ↔ k ∈ b.map K.BranchKey := by
  rw [equalBranches_iff]
  constructor
  · rintro ⟨h1, h2⟩ k
    exact ⟨h1 k, h2 k⟩
  · intro h
    exact ⟨fun k hk => (h k).1 hk, fun k hk => (h k).2 hk⟩

/-- C19: `equalBranches` ignores order and duplicates: a permutation of `a`, or any list with the
same elements as `a` (such as `a` with elements repeated), compares to `b` as `a` does;
`equalBranches (a ++ a) a` is true, and `equalBranches [] a` is true only for the empty `a`. -/
theorem C19_equalBranches_ignores_order_and_duplicates (K : Keys) (a b a' : List Branch) :
    (a.Perm a' → equalBranches K a' b = equalBranches K a b) ∧
    ((∀ x, x ∈ a' ↔ x ∈ a) → equalBranches K a' b = equalBranches K a b) ∧
    equalBranches K (a ++ a) a = true ∧
    (equalBranches K [] a = true ↔ a = []) := by
  have same_elements : (∀ x, x ∈ a' ↔ x ∈ a) →
      equalBranches K a' b = equalBranches K a b := by
    intro h
    have hk : ∀ k, k ∈ a'.map K.BranchKey ↔ k ∈ a.map K.BranchKey := by
      intro k
      simp only [List.mem_map]
      constructor
      · rintro ⟨x, hx, rfl⟩
        exact ⟨x, (h x).1 hx, rfl⟩
      · rintro ⟨x, hx, rfl⟩
        exact ⟨x, (h x).2 hx, rfl⟩
    rw [Bool.eq_iff_iff, equalBranches_iff, equalBranches_iff]
    unfold SameKeys
    constructor
    · rintro ⟨h1, h2⟩
      exact ⟨fun k hk' => h1 k ((hk k).2 hk'), fun k hk' => (hk k).1 (h2 k hk')⟩
    · rintro ⟨h1, h2⟩
      exact ⟨fun k hk' => h1 k ((hk k).1 hk'), fun k hk' => (hk k).2 (h2 k hk')⟩
  refine ⟨fun hp => same_elements (fun x => hp.mem_iff.symm), same_elements, ?_, ?_⟩
  · rw [equalBranches_iff]
    unfold SameKeys
    simp
  · rw [equalBranches_iff]
    unfold SameKeys
    constructor
    · rintro ⟨_, h2⟩
      cases a with
      | nil => rfl
      | cons x xs =>
        have := h2 (K.BranchKey x) (by simp)
        simp at this
    · rintro rfl
      simp

/-- C19, applied to a list of two branches, its reversal and the list with its first element
repeated. -/
theorem C19_equalBranches_ignores_order_and_duplicates_witness :
    [dataBranch "a", dataBranch "b"].Perm [dataBranch "b", dataBranch "a"] ∧
    equalBranches sampleKeys [dataBranch "b", dataBranch "a"] [dataBranch "a", dataBranch "b"] =
      equalBranches sampleKeys [dataBranch "a", dataBranch "b"]
        [dataBranch "a", dataBranch "b"] ∧
    equalBranches sampleKeys [dataBranch "a", dataBranch "b"] [dataBranch "a", dataBranch "b"] =
      true :=
  ⟨by decide,
    (C19_equalBranches_ignores_order_and_duplicates sampleKeys
      [dataBranch "a", dataBranch "b"] [dataBranch "a", dataBranch "b"]
      [dataBranch "b", dataBranch "a"]).1 (by decide),
    by decide⟩

/-- C20: `branchInSet b s` is true exactly when some element of `s` is equal to `b`; it is false
for the empty list, and it does not depend on the order of `s`. -/
theorem C20_branchInSet_iff_some_element_equal (branch : Branch) (set set' : List Branch) :
    (branchInSet branch set = true ↔ ∃ b ∈ set, b = branch) ∧
    branchInSet branch [] = false ∧
    (set.Perm set' → branchInSet branch set' = branchInSet branch set) := by
  refine ⟨?_, rfl, fun hp => ?_⟩
  · rw [branchInSet_iff]
    constructor
    · intro h
      exact ⟨branch, h, rfl⟩
    · rintro ⟨b, hb, rfl⟩
      exact hb
  · rw [Bool.eq_iff_iff, branchInSet_iff, branchInSet_iff]
    exact hp.mem_iff.symm

/-- C20, applied to a list of two branches and its reversal. -/
theorem C20_branchInSet_iff_some_element_equal_witness :
    [dataBranch "a", dataBranch "b"].Perm [dataBranch "b", dataBranch "a"] ∧
    branchInSet (dataBranch "b") [dataBranch "b", dataBranch "a"] =
      branchInSet (dataBranch "b") [dataBranch "a", dataBranch "b"] ∧
    branchInSet (dataBranch "b") [dataBranch "a", dataBranch "b"] = true :=
  ⟨by decide,
    (C20_branchInSet_iff_some_element_equal (dataBranch "b")
      [dataBranch "a", dataBranch "b"] [dataBranch "b", dataBranch "a"]).2.2 (by decide),
    by decide⟩

/-! ## Every run hands the sink a prefix of the violations of the snapshot -/

theorem Act.within_skip : Act.Within Act.skip [] :=
  fun log => ⟨[], List.prefix_refl _, by simp [Act.skip], fun _ => rfl⟩

theorem Act.within_onError (cb : Sink) (v : Violation) : Act.Within (onError cb v) [v] :=
  fun log => ⟨[v], List.prefix_refl _, by simp [onError], fun _ => rfl⟩

theorem Act.within_crash (vs : List Violation) : Act.Within Act.crash vs :=
  fun log => ⟨[], List.nil_prefix, by simp [Act.crash], by simp [Act.crash]⟩

theorem Act.within_seq {a b : Act} {vs ws : List Violation} (ha : Act.Within a vs)
    (hb : Act.Within b ws) : Act.Within (Act.seq a b) (vs ++ ws) := by
  intro log
  obtain ⟨pre, hpre, hlog, hdone⟩ := ha log
  unfold Act.seq
  rcases hr : a log with ⟨log', stop⟩
  rw [hr] at hlog hdone
  cases stop with
  | some st =>
    exact ⟨pre, hpre.trans (List.prefix_append _ _), hlog, by simp⟩
  | none =>
    have hfull : pre = vs := hdone rfl
    subst hfull
    obtain ⟨pre', hpre', hlog', hdone'⟩ := hb log'
    simp only at hlog
    subst hlog
    refine ⟨pre ++ pre', (List.prefix_append_right_inj pre).2 hpre', ?_, ?_⟩
    · rw [hlog', List.append_assoc]
    · intro h
      rw [hdone' h]

theorem Act.within_forEach {α : Type} {body : α → Act} {f : α → List Violation} :
    ∀ xs : List α, (∀ x ∈ xs, Act.Within (body x) (f x)) →
      Act.Within (forEach body xs) (xs.flatMap f)
  | [], _ => by simpa [forEach] using Act.within_skip
  | x :: xs, h => by
    have hx := h x (List.mem_cons_self x xs)
    have hxs := Act.within_forEach xs (fun y hy => h y (List.mem_cons_of_mem x hy))
    simpa [forEach] using Act.within_seq hx hxs

theorem within_checkBranch (K : Keys) (s : Snapshot) (cb : Sink) (bi : BranchInfo) :
    Act.Within (checkBranch K s cb bi) (branchViolations K s bi) := by
  unfold checkBranch branchViolations
  refine Act.within_seq ?_ (Act.within_seq ?_ ?_)
  · unfold checkProvenance provenanceViolations
    by_cases h : equalBranches K (bi.Provenance ++ [bi.Branch]) (unionOf K s bi) = true
    · simpa [h] using Act.within_skip
    · simpa [h] using Act.within_onError cb _
  · unfold checkSubvenance subvenanceViolations
    apply Act.within_forEach
    intro p _
    cases GoMap.get? s.branchInfos (K.BranchKey p) with
    | none => exact Act.within_crash _
    | some info =>
      by_cases h : branchInSet bi.Branch info.Subvenance = true
      · simpa [h] using Act.within_skip
      · simpa [h] using Act.within_onError cb _
  · unfold checkHead headViolations
    cases bi.Head with
    | none => simpa using Act.within_onError cb _
    | some head =>
      simp only
      apply Act.within_forEach
      intro p _
      cases GoMap.get? s.branchInfos (K.BranchKey p) with
      | none => simpa using Act.within_onError cb _
      | some info =>
        by_cases h : info.Head = none
        · simpa [h] using Act.within_skip
        · cases GoMap.get? s.commitInfos (K.CommitKey head) with
          | none => simpa [h] using Act.within_onError cb _
          | some _ => simpa [h] using Act.within_skip

theorem within_checkCommit (K : Keys) (s : Snapshot) (cb : Sink) (ci : CommitInfo) :
    Act.Within (checkCommit K s cb ci) (commitViolations K s ci) := by
  unfold checkCommit commitViolations
  apply Act.within_seq
  · unfold checkParent parentViolations
    cases ci.ParentCommit with
    | none => simpa using Act.within_skip
    | some pr =>
      simp only
      cases GoMap.get? s.commitInfos (K.CommitKey pr) with
      | none => simpa using Act.within_onError cb _
      | some prInfo =>
        by_cases h : foundIn ci.Commit prInfo.ChildCommits = true
        · simpa [h] using Act.within_skip
        · simpa [h] using Act.within_onError cb _
  · unfold checkChildren childViolations
    apply Act.within_forEach
    intro ch _
    cases GoMap.get? s.commitInfos (K.CommitKey ch) with
    | none => simpa using Act.within_onError cb _
    | some chInfo =>
      by_cases h : chInfo.ParentCommit = none ∨ chInfo.ParentCommit ≠ some ci.Commit
      · simpa [h] using Act.within_onError cb _
      · simpa [h] using Act.within_skip

/-- Whatever the snapshot and the sink, the scan hands the sink a prefix of the violations of
every branch and then of every commit. -/
theorem within_scan (K : Keys) (s : Snapshot) (cb : Sink) :
    Act.Within (scan K s cb) (allViolations K s) := by
  unfold scan allViolations
  apply Act.within_seq
  · exact Act.within_forEach _ (fun e _ => within_checkBranch K s cb e.2)
  · exact Act.within_forEach _ (fun e _ => within_checkCommit K s cb e.2)

/-- Whatever the snapshot, the sink and the flag, the calls of a run are a prefix of the
violations of the snapshot. -/
theorem calls_prefix_allViolations (K : Keys) (s : Snapshot) (fix : Bool)
    (txErr : Option String) (cb : Sink) :
    (fsck K s fix txErr cb).calls <+: allViolations K s := by
  rw [fsck_calls]
  obtain ⟨pre, hpre, hlog, _⟩ := within_scan K s cb []
  rw [hlog]
  simpa using hpre

/-- Delivery never ends in a nil dereference. -/
theorem deliver_no_nilDeref (cb : Sink) :
    ∀ (vs log : List Violation), (deliver cb vs log).2 ≠ some Stop.nilDeref
  | [], log => by simp [deliver, forEach, Act.skip]
  | v :: vs, log => by
    have h1 : deliver cb (v :: vs) log = Act.seq (onError cb v) (deliver cb vs) log := rfl
    rw [h1]
    unfold Act.seq
    cases hv : cb log v with
    | none =>
      simp only [onError, hv, Option.map_none']
      exact deliver_no_nilDeref cb vs (log ++ [v])
    | some err =>
      simp [onError, hv]

/-! ## Reachability -/

/-- A set of keys closed under `DirectProvenance` steps contains everything reachable from its
members. -/
theorem Reaches.closed {K : Keys} {s : Snapshot} (S : String → Prop)
    (hS : ∀ a b, DirectStep K s a b → S a → S b) {k k' : String} (h : Reaches K s k k')
    (hk : S k) : S k' := by
  unfold Reaches at h
  induction h with
  | refl => exact hk
  | tail _ hstep ih => exact hS _ _ hstep ih

/-- A ranking of the keys that decreases along every `DirectProvenance` step rules out cycles. -/
theorem Snapshot.directAcyclic_of_rank {K : Keys} {s : Snapshot} (rank : String → Nat)
    (hr : ∀ a b, DirectStep K s a b → rank b < rank a) : s.DirectAcyclic K := by
  have hlt : ∀ a b, Relation.TransGen (DirectStep K s) a b → rank b < rank a := by
    intro a b h
    induction h with
    | single h1 => exact hr _ _ h1
    | tail _ h1 ih => exact lt_trans (hr _ _ h1) ih
  intro k hk
  exact lt_irrefl _ (hlt k k hk)

/-! ## The claims on the head check, on cycles, on nil dereferences and on the fix flag -/

/-- C21 (code bug): on a snapshot in which branch `out` has head `co` and its provenance branch
`in` has head `ci`, both commits recorded, `fsck` reports no violation and returns nil; it reads
no provenance of a commit at all, so it does so also when the provenance recorded for `co` is
empty and does not contain `ci`. -/
theorem C21_head_commit_provenance_is_never_compared :
    headsApart.Valid sampleKeys ∧
    fsck sampleKeys headsApart false none Sink.silent = ⟨[], [], Outcome.returned none⟩ ∧
    ¬ HeadProvenanceLinked sampleKeys headsApart (fun _ => []) := by
  refine ⟨by decide, by decide, ?_⟩
  intro h
  have h1 := h ("data@out", branchRecord "out" (some "co") ["in"] [] ["in"]) (by decide)
    (dataCommit "co") rfl (dataBranch "in") (by decide)
    (branchRecord "in" (some "ci") [] ["out"] []) (by decide) (dataCommit "ci") rfl
  simp at h1

/-- C26: in the snapshot `cyclicPair`, where `a` and `b` list each other as direct provenance
and both store the provenance `[a, b, x]`, no run of `fsck` hands the sink a provenance
transitivity violation (the run with the collecting sink reports nothing and returns nil),
although `x` is in the stored provenance of `a` and is not reachable from `a` through
`DirectProvenance`. -/
theorem C26_cycle_hides_unreachable_provenance :
    cyclicPair.Valid sampleKeys ∧
    Relation.TransGen (DirectStep sampleKeys cyclicPair) "data@a" "data@a" ∧
    (∀ (fix : Bool) (txErr : Option String) (cb : Sink) (bi : BranchInfo) (full : List Branch),
      Violation.ErrBranchProvenanceTransitivity bi full ∉
        (fsck sampleKeys cyclicPair fix txErr cb).calls) ∧
    fsck sampleKeys cyclicPair false none Sink.silent = ⟨[], [], Outcome.returned none⟩ ∧
    ("data@a", branchRecord "a" (some "h") ["a", "b", "x"] ["a", "b"] ["b"]) ∈
      cyclicPair.branchInfos ∧
    dataBranch "x" ∈ (branchRecord "a" (some "h") ["a", "b", "x"] ["a", "b"] ["b"]).Provenance ∧
    ¬ Reaches sampleKeys cyclicPair (sampleKeys.BranchKey (dataBranch "a"))
        (sampleKeys.BranchKey (dataBranch "x")) := by
  have ha : GoMap.get? cyclicPair.branchInfos "data@a" =
      some (branchRecord "a" (some "h") ["a", "b", "x"] ["a", "b"] ["b"]) := by decide
  have hb : GoMap.get? cyclicPair.branchInfos "data@b" =
      some (branchRecord "b" (some "h") ["a", "b", "x"] ["a", "b"] ["a"]) := by decide
  have hda : (branchRecord "a" (some "h") ["a", "b", "x"] ["a", "b"] ["b"]).DirectProvenance.map
      sampleKeys.BranchKey = ["data@b"] := by decide
  have hdb : (branchRecord "b" (some "h") ["a", "b", "x"] ["a", "b"] ["a"]).DirectProvenance.map
      sampleKeys.BranchKey = ["data@a"] := by decide
  refine ⟨by decide, ?_, ?_, by decide, by decide, by decide, ?_⟩
  · exact Relation.TransGen.tail (Relation.TransGen.single ⟨_, ha, by rw [hda]; simp⟩)
      ⟨_, hb, by rw [hdb]; simp⟩
  · intro fix txErr cb bi full hmem
    have hp := calls_prefix_allViolations sampleKeys cyclicPair fix txErr cb
    have hall : allViolations sampleKeys cyclicPair = [] := by decide
    rw [hall] at hp
    rw [List.prefix_nil.1 hp] at hmem
    simp at hmem
  · intro hreach
    have hx : sampleKeys.BranchKey (dataBranch "x") = "data@x" := by decide
    have hka : sampleKeys.BranchKey (dataBranch "a") = "data@a" := by decide
    rw [hx, hka] at hreach
    have hclosed := Reaches.closed (fun k => k = "data@a" ∨ k = "data@b") (by
      rintro a b ⟨info, hget, hmem⟩ (rfl | rfl)
      · rw [ha] at hget
        cases hget
        rw [hda] at hmem
        right
        simpa using hmem
      · rw [hb] at hget
        cases hget
        rw [hdb] at hmem
        left
        simpa using hmem) hreach (Or.inl rfl)
    rcases hclosed with h | h
    · exact absurd h (by decide)
    · exact absurd h (by decide)

/-- C27: when every entry of every branch's `Provenance` has a branch record (the identities of
the records are values, never nil), the scan dereferences no missing record, whatever the sink,
the heads, the parents, the children and the direct provenance entries: it does not stop on a
nil pointer, the call returns, and with a sink that never errs the scan runs through every
record. -/
theorem C27_no_nil_dereference_when_provenance_recorded (K : Keys) (s : Snapshot) (fix : Bool)
    (txErr : Option String) (cb : Sink) (hrec : s.ProvenanceRecorded K) :
    (scan K s cb []).2 ≠ some Stop.nilDeref ∧
    (fsck K s fix txErr cb).outcome ≠ Outcome.nilDereference ∧
    (∃ err, (fsck K s fix txErr cb).outcome = Outcome.returned err) ∧
    (cb.NeverErrs → scan K s cb [] = (allViolations K s, none)) := by
  have hscan : (scan K s cb []).2 ≠ some Stop.nilDeref := by
    rw [delivers_scan K s cb hrec []]
    exact deliver_no_nilDeref cb _ _
  refine ⟨hscan, ?_, ?_, ?_⟩
  · unfold fsck
    rcases hr : scan K s cb [] with ⟨log, stop⟩
    rw [hr] at hscan
    cases stop with
    | none => cases fix <;> simp
    | some st =>
      cases st with
      | sinkError err => simp
      | nilDeref => exact absurd rfl hscan
  · unfold fsck
    rcases hr : scan K s cb [] with ⟨log, stop⟩
    rw [hr] at hscan
    cases stop with
    | none => cases fix <;> simp
    | some st =>
      cases st with
      | sinkError err => simp
      | nilDeref => exact absurd rfl hscan
  · intro hcb
    simpa using emits_scan K s hcb hrec []

/-- Witness for C27: a snapshot with a dangling direct provenance entry, a dangling head, a
dangling parent and a dangling child, whose provenance entries all have a record. -/
theorem C27_no_nil_dereference_when_provenance_recorded_witness :
    danglingElsewhere.ProvenanceRecorded sampleKeys ∧
    GoMap.get? danglingElsewhere.branchInfos (sampleKeys.BranchKey (dataBranch "nowhere")) = none ∧
    GoMap.get? danglingElsewhere.commitInfos (sampleKeys.CommitKey (dataCommit "lost")) = none ∧
    GoMap.get? danglingElsewhere.commitInfos (sampleKeys.CommitKey (dataCommit "gone")) = none ∧
    GoMap.get? danglingElsewhere.commitInfos (sampleKeys.CommitKey (dataCommit "missing")) = none ∧
    (fsck sampleKeys danglingElsewhere false none Sink.silent).outcome ≠ Outcome.nilDereference :=
  ⟨by decide, by decide, by decide, by decide, by decide,
    (C27_no_nil_dereference_when_provenance_recorded sampleKeys danglingElsewhere false none
      Sink.silent (by decide)).2.1⟩

/-- C28: whatever the snapshot and the sink, the calls made to the sink are the same for
`fix = true` and `fix = false`, whatever the repair transaction returns; they are the calls of
the scan, which precedes the transaction, and a run whose scan stops early is the same run for
both values of the flag (the transaction is not opened). -/
theorem C28_sink_calls_do_not_depend_on_fix (K : Keys) (s : Snapshot) (txErr txErr' : Option String)
    (cb : Sink) :
    (fsck K s true txErr cb).calls = (fsck K s false txErr' cb).calls ∧
    (fsck K s true txErr cb).calls = (scan K s cb []).1 ∧
    ((scan K s cb []).2 = none ∨ fsck K s true txErr cb = fsck K s false txErr' cb) := by
  refine ⟨by rw [fsck_calls, fsck_calls], fsck_calls K s true txErr cb, ?_⟩
  unfold fsck
  rcases scan K s cb [] with ⟨log, stop⟩
  cases stop with
  | none => exact Or.inl rfl
  | some st => cases st <;> exact Or.inr rfl

/-- C30 (counterexample): a branch with an empty provenance whose head `lost` has no commit
record, and a `CommitInfoNotFound` about `lost` all the same: in `danglingHeadNamedAsParent` it
comes from the commit that names `lost` as its parent, in `sharedDanglingHead` from another
branch with the same head. -/
theorem C30_counterexample_dangling_head_noticed_elsewhere :
    (("data@b", branchRecord "b" (some "lost") [] [] []) ∈ danglingHeadNamedAsParent.branchInfos ∧
      (branchRecord "b" (some "lost") [] [] []).Provenance = [] ∧
      (branchRecord "b" (some "lost") [] [] []).Head = some (dataCommit "lost") ∧
      Violation.ErrCommitInfoNotFound "parent commit of data=c2" (dataCommit "lost") ∈
        (fsck sampleKeys danglingHeadNamedAsParent false none Sink.silent).calls) ∧
    (("data@b", branchRecord "b" (some "lost") [] [] []) ∈ sharedDanglingHead.branchInfos ∧
      Violation.ErrCommitInfoNotFound "head commit provenance (=>)" (dataCommit "lost") ∈
        (fsck sampleKeys sharedDanglingHead false none Sink.silent).calls) := by
  decide

/-- C30 (amended): whatever the snapshot, the sink and the flag, when every branch whose head is
the commit `head` has only provenance entries without a record or with a nil head (none at all
included), `fsck` hands the sink no `CommitInfoNotFound` with the location of the head check
about `head`, even when `head` has no commit record. -/
theorem C30_head_check_silent_without_provenance_heads (K : Keys) (s : Snapshot) (fix : Bool)
    (txErr : Option String) (cb : Sink) (head : Commit)
    (h : ∀ e ∈ s.branchInfos, e.2.Head = some head →
      ∀ p ∈ e.2.Provenance, hasRecordedHead K s p = false) :
    Violation.ErrCommitInfoNotFound "head commit provenance (=>)" head ∉
      (fsck K s fix txErr cb).calls := by
  intro hmem
  have hall := (calls_prefix_allViolations K s fix txErr cb).subset hmem
  rcases (mem_allViolations K s _).1 hall with ⟨e, he, hv⟩ | ⟨e, he, hv⟩
  · rcases hv with hv | hv | hv
    · have := ((mem_provenanceViolations K s e.2 _).1 hv).2
      simp at this
    · obtain ⟨p, _, info, _, _, hv'⟩ := (mem_subvenanceViolations K s e.2 _).1 hv
      simp at hv'
    · rcases (mem_headViolations K s e.2 _).1 hv with ⟨_, hv'⟩ | ⟨head', hhead, p, hp, hcase⟩
      · simp at hv'
      · rcases hcase with ⟨_, hv'⟩ | ⟨info, hget, hne, _, hv'⟩
        · simp at hv'
        · have heq : head = head' := by simpa using hv'
          subst heq
          have hfalse := h e he hhead p hp
          have htrue := (hasRecordedHead_iff K s p).2 ⟨info, hget, hne⟩
          rw [hfalse] at htrue
          exact absurd htrue (by simp)
  · rcases commitViolations_kind K s e.2 _ ((mem_commitViolations K s e.2 _).2 hv) with
      ⟨loc, c, hv', hloc⟩ | ⟨p, c, hv'⟩
    · have : "head commit provenance (=>)" = loc := by
        have := hv'
        simp only [Violation.ErrCommitInfoNotFound.injEq] at this
        exact this.1
      exact hloc this.symm
    · simp at hv'

/-- Witness for C30 (amended): the only branch of `danglingHeadAlone` has an empty provenance
and a head without a commit record, and no call is about that head. -/
theorem C30_head_check_silent_without_provenance_heads_witness :
    (∀ e ∈ danglingHeadAlone.branchInfos, e.2.Head = some (dataCommit "lost") →
      ∀ p ∈ e.2.Provenance, hasRecordedHead sampleKeys danglingHeadAlone p = false) ∧
    GoMap.get? danglingHeadAlone.commitInfos (sampleKeys.CommitKey (dataCommit "lost")) = none ∧
    Violation.ErrCommitInfoNotFound "head commit provenance (=>)" (dataCommit "lost") ∉
      (fsck sampleKeys danglingHeadAlone false none Sink.silent).calls :=
  ⟨by decide, by decide,
    C30_head_check_silent_without_provenance_heads sampleKeys danglingHeadAlone false none
      Sink.silent (dataCommit "lost") (by decide)⟩

/-! ## The local provenance check and the closure of direct provenance -/

/-- A `DirectProvenance` step starts at an entry of the map. -/
theorem DirectStep.entry {K : Keys} {s : Snapshot} {a b : String} (h : DirectStep K s a b) :
    ∃ e ∈ s.branchInfos, e.1 = a ∧ b ∈ e.2.DirectProvenance.map K.BranchKey := by
  obtain ⟨info, hget, hmem⟩ := h
  exact ⟨(a, info), GoMap.mem_of_get? _ _ _ hget, rfl, hmem⟩

/-- A ranking of the keys that decreases along the direct provenance of every record rules out
cycles. -/
theorem Snapshot.directAcyclic_of_entries {K : Keys} {s : Snapshot} (rank : String → Nat)
    (hr : ∀ e ∈ s.branchInfos, ∀ b ∈ e.2.DirectProvenance.map K.BranchKey, rank b < rank e.1) :
    s.DirectAcyclic K := by
  apply Snapshot.directAcyclic_of_rank rank
  intro a b h
  obtain ⟨e, he, rfl, hb⟩ := h.entry
  exact hr e he b hb

/-- A set of keys closed under the direct provenance of every record contains everything
reachable from its members. -/
theorem Reaches.closed_of_entries {K : Keys} {s : Snapshot} (S : String → Prop)
    (hS : ∀ e ∈ s.branchInfos, S e.1 → ∀ b ∈ e.2.DirectProvenance.map K.BranchKey, S b)
    {k k' : String} (h : Reaches K s k k') (hk : S k) : S k' := by
  refine Reaches.closed S ?_ h hk
  intro a b hstep ha
  obtain ⟨e, he, rfl, hb⟩ := hstep.entry
  exact hS e he ha b hb

/-- Without a cycle, the relation "is reached by one or more steps from" is well founded on the
keys of the map. -/
theorem Snapshot.DirectAcyclic.wf {K : Keys} {s : Snapshot} (hac : s.DirectAcyclic K) :
    WellFounded (fun a b : {k // k ∈ GoMap.keys s.branchInfos} =>
      Relation.TransGen (DirectStep K s) b.1 a.1) := by
  haveI : IsTrans {k // k ∈ GoMap.keys s.branchInfos}
      (fun a b => Relation.TransGen (DirectStep K s) b.1 a.1) :=
    ⟨fun _ _ _ hab hbc => Relation.TransGen.trans hbc hab⟩
  haveI : IsIrrefl {k // k ∈ GoMap.keys s.branchInfos}
      (fun a b => Relation.TransGen (DirectStep K s) b.1 a.1) :=
    ⟨fun a h => hac a.1 h⟩
  exact Finite.wellFounded_of_trans_of_irrefl _

theorem mem_keys_oneStepProvenance (K : Keys) (s : Snapshot) (bi : BranchInfo) (k : String) :
    k ∈ (oneStepProvenance K s bi).map K.BranchKey ↔
      k = K.BranchKey bi.Branch ∨ ∃ d ∈ bi.DirectProvenance,
        k = K.BranchKey d ∨ k ∈ (recordedProvenance K s d).map K.BranchKey := by
  unfold oneStepProvenance
  simp only [List.map_cons, List.mem_cons, List.mem_map, List.mem_flatMap]
  constructor
  · rintro (h | ⟨b, ⟨d, hd, hb⟩, rfl⟩)
    · exact Or.inl h
    · rcases hb with rfl | hb
      · exact Or.inr ⟨b, hd, Or.inl rfl⟩
      · exact Or.inr ⟨d, hd, Or.inr ⟨b, hb, rfl⟩⟩
  · rintro (h | ⟨d, hd, h | ⟨b, hb, rfl⟩⟩)
    · exact Or.inl h
    · exact Or.inr ⟨d, ⟨d, hd, Or.inl rfl⟩, h.symm⟩
    · exact Or.inr ⟨b, ⟨d, hd, Or.inr hb⟩, rfl⟩

/-- When every record passes the one-step check, every direct provenance entry has a record and
direct provenance has no cycle, the keys of a record's provenance plus itself are the keys
reachable from it. -/
theorem closure_of_local_check (K : Keys) (s : Snapshot) (hv : s.Valid K)
    (hdr : s.DirectRecorded K) (hac : s.DirectAcyclic K)
    (hlocal : ∀ e ∈ s.branchInfos,
      SameKeys K (e.2.Provenance ++ [e.2.Branch]) (oneStepProvenance K s e.2)) :
    ∀ (t : {k // k ∈ GoMap.keys s.branchInfos}) (info : BranchInfo),
      GoMap.get? s.branchInfos t.1 = some info →
      ∀ k, k ∈ (info.Provenance ++ [info.Branch]).map K.BranchKey ↔ Reaches K s t.1 k := by
  intro t
  refine @WellFounded.induction _ _ hac.wf
    (fun t => ∀ (info : BranchInfo), GoMap.get? s.branchInfos t.1 = some info →
      ∀ k, k ∈ (info.Provenance ++ [info.Branch]).map K.BranchKey ↔ Reaches K s t.1 k) t ?_
  intro t ih info hget k
  have hmem := hv.branch_of_lookup hget
  have hloc := hlocal (t.1, info) hmem.1
  have hsub : ∀ d ∈ info.DirectProvenance, ∃ dinfo,
      GoMap.get? s.branchInfos (K.BranchKey d) = some dinfo ∧
      K.BranchKey dinfo.Branch = K.BranchKey d ∧
      recordedProvenance K s d = dinfo.Provenance ∧
      ∀ k', k' ∈ (dinfo.Provenance ++ [dinfo.Branch]).map K.BranchKey ↔
        Reaches K s (K.BranchKey d) k' := by
    intro d hd
    have hne := hdr (t.1, info) hmem.1 d hd
    cases hgd : GoMap.get? s.branchInfos (K.BranchKey d) with
    | none => exact absurd hgd hne
    | some dinfo =>
      have hkey : K.BranchKey d ∈ GoMap.keys s.branchInfos := by
        by_contra hnot
        have := (GoMap.get?_eq_none_iff s.branchInfos (K.BranchKey d)).2 hnot
        rw [hgd] at this
        exact absurd this (by simp)
      refine ⟨dinfo, rfl, (hv.branch_of_lookup hgd).2.symm, ?_, ?_⟩
      · unfold recordedProvenance
        rw [hgd]
      · exact ih ⟨K.BranchKey d, hkey⟩
          (Relation.TransGen.single ⟨info, hget, List.mem_map_of_mem _ hd⟩) dinfo hgd
  constructor
  · intro hk
    have h1 := hloc.1 k hk
    rcases (mem_keys_oneStepProvenance K s info k).1 h1 with h | ⟨d, hd, h⟩
    · rw [h, ← hmem.2]
      exact Relation.ReflTransGen.refl
    · obtain ⟨dinfo, hgd, hkd, hrp, hiff⟩ := hsub d hd
      have hstep : DirectStep K s t.1 (K.BranchKey d) := ⟨info, hget, List.mem_map_of_mem _ hd⟩
      rcases h with h | h
      · rw [h]
        exact Relation.ReflTransGen.single hstep
      · rw [hrp] at h
        have : k ∈ (dinfo.Provenance ++ [dinfo.Branch]).map K.BranchKey := by
          rw [List.map_append]
          exact List.mem_append_left _ h
        exact Relation.ReflTransGen.head hstep ((hiff k).1 this)
  · intro hreach
    apply hloc.2 k
    rw [mem_keys_oneStepProvenance]
    unfold Reaches at hreach
    rcases Relation.ReflTransGen.cases_head hreach with h | ⟨d', ⟨info', hget', hd'⟩, hrest⟩
    · left
      rw [← h, hmem.2]
    · rw [hget] at hget'
      cases hget'
      obtain ⟨d, hd, rfl⟩ := List.mem_map.1 hd'
      obtain ⟨dinfo, hgd, hkd, hrp, hiff⟩ := hsub d hd
      have h2 := (hiff k).2 hrest
      rw [List.map_append, List.mem_append] at h2
      right
      refine ⟨d, hd, ?_⟩
      rcases h2 with h2 | h2
      · right
        rw [hrp]
        exact h2
      · left
        have : k = K.BranchKey dinfo.Branch := by simpa using h2
        rw [this, hkd]

/-! ## At most one ancestry violation for a pair -/

/-- The parent check of one record and the child check of another cannot report the same
pair. -/
theorem ancestry_sides_exclusive (K : Keys) (s : Snapshot) (hv : s.Valid K)
    (hk : s.CommitKeysDistinct K) (parent child : Commit)
    (e : String × CommitInfo) (he : e ∈ s.commitInfos)
    (e' : String × CommitInfo) (he' : e' ∈ s.commitInfos) :
    ¬ (Violation.ErrCommitAncestryBroken parent child ∈ parentViolations K s e.2 ∧
        Violation.ErrCommitAncestryBroken parent child ∈ childViolations K s e'.2) := by
  rintro ⟨hp, hc⟩
  obtain ⟨pr, _, hcase⟩ := (mem_parentViolations K s e.2 _).1 hp
  rcases hcase with ⟨_, hbad⟩ | ⟨prInfo, hgetp, hnot, hvp⟩
  · simp at hbad
  obtain ⟨ch, hch, hcase'⟩ := (mem_childViolations K s e'.2 _).1 hc
  rcases hcase' with ⟨_, hbad⟩ | ⟨chInfo, hgetc, _, hvc⟩
  · simp at hbad
  have h1 : parent = prInfo.Commit ∧ child = e.2.Commit := by simpa using hvp
  have h2 : parent = e'.2.Commit ∧ child = chInfo.Commit := by simpa using hvc
  have hpe := hv.commit_of_lookup hgetp
  have hce := hv.commit_of_lookup hgetc
  have heq : (K.CommitKey pr, prInfo) = e' :=
    hv.commit_entry hpe.1 he' (by simpa using h1.1.symm.trans h2.1)
  have hpr : prInfo = e'.2 := by rw [← heq]
  have hchc : ch = child := by
    apply hk ch (Snapshot.mem_mentioned_child he' hch) child
      (by rw [h1.2]; exact Snapshot.mem_mentioned_commit he)
    rw [hce.2, h2.2]
  rw [hpr, ← h1.2, ← hchc] at hnot
  exact hnot hch

theorem count_parentViolations_le_one (K : Keys) (s : Snapshot) (ci : CommitInfo)
    (v : Violation) : List.count v (parentViolations K s ci) ≤ 1 := by
  refine le_trans (List.count_le_length _ _) ?_
  unfold parentViolations
  cases ci.ParentCommit with
  | none => simp
  | some pr =>
    simp only
    cases GoMap.get? s.commitInfos (K.CommitKey pr) with
    | none => simp
    | some prInfo =>
      by_cases h : foundIn ci.Commit prInfo.ChildCommits = true
      · simp [h]
      · simp [h]

theorem count_childViolations_le_one (K : Keys) (s : Snapshot) (hv : s.Valid K)
    (hk : s.CommitKeysDistinct K) (e : String × CommitInfo) (he : e ∈ s.commitInfos)
    (hnd : e.2.ChildCommits.Nodup) (parent child : Commit) :
    List.count (Violation.ErrCommitAncestryBroken parent child) (childViolations K s e.2) ≤ 1 := by
  have honly : ∀ y ∈ e.2.ChildCommits, y ≠ child →
      Violation.ErrCommitAncestryBroken parent child ∉
        (match GoMap.get? s.commitInfos (K.CommitKey y) with
          | none =>
            [Violation.ErrCommitInfoNotFound
              ("child commit of " ++ K.CommitString e.2.Commit) y]
          | some childCommitInfo =>
            if childCommitInfo.ParentCommit = none ∨
                childCommitInfo.ParentCommit ≠ some e.2.Commit then
              [Violation.ErrCommitAncestryBroken e.2.Commit childCommitInfo.Commit]
            else []) := by
    intro y hy hne hmem
    cases hget : GoMap.get? s.commitInfos (K.CommitKey y) with
    | none => simp [hget] at hmem
    | some chInfo =>
      rw [hget] at hmem
      dsimp only at hmem
      by_cases hc : chInfo.ParentCommit = none ∨ chInfo.ParentCommit ≠ some e.2.Commit
      · rw [if_pos hc] at hmem
        have h2 : parent = e.2.Commit ∧ child = chInfo.Commit := by simpa using hmem
        have hce := hv.commit_of_lookup hget
        apply hne
        apply hk y (Snapshot.mem_mentioned_child he hy) child
          (by rw [h2.2]; exact Snapshot.mem_mentioned_commit hce.1)
        rw [hce.2, h2.2]
      · rw [if_neg hc] at hmem
        simp at hmem
  unfold childViolations
  by_cases hin : child ∈ e.2.ChildCommits
  · rw [count_flatMap_unique _ _ child e.2.ChildCommits hnd hin honly]
    refine le_trans (List.count_le_length _ _) ?_
    cases GoMap.get? s.commitInfos (K.CommitKey child) with
    | none => simp
    | some chInfo =>
      by_cases hc : chInfo.ParentCommit = none ∨ chInfo.ParentCommit ≠ some e.2.Commit
      · simp only [if_pos hc, List.length_singleton, le_refl]
      · simp only [if_neg hc, List.length_nil, Nat.zero_le]
  · rw [count_flatMap_zero]
    · exact Nat.zero_le _
    · intro y hy
      exact honly y hy (fun h => hin (h ▸ hy))

/-- In a snapshot with distinct commit keys and duplicate-free child lists, the violations of
the snapshot contain an ancestry violation for a given pair at most once. -/
theorem count_ancestry_allViolations_le_one (K : Keys) (s : Snapshot) (hv : s.Valid K)
    (hk : s.CommitKeysDistinct K) (hnd : ∀ e ∈ s.commitInfos, e.2.ChildCommits.Nodup)
    (parent child : Commit) :
    List.count (Violation.ErrCommitAncestryBroken parent child) (allViolations K s) ≤ 1 := by
  rw [count_allViolations, count_branch_part_zero, Nat.zero_add]
  · have hentry : ∀ e ∈ s.commitInfos,
        List.count (Violation.ErrCommitAncestryBroken parent child)
          (commitViolations K s e.2) ≤ 1 := by
      intro e he
      unfold commitViolations
      rw [List.count_append]
      by_cases hp : Violation.ErrCommitAncestryBroken parent child ∈ parentViolations K s e.2
      · have hc : Violation.ErrCommitAncestryBroken parent child ∉ childViolations K s e.2 :=
          fun hc => ancestry_sides_exclusive K s hv hk parent child e he e he ⟨hp, hc⟩
        rw [List.count_eq_zero.2 hc, Nat.add_zero]
        exact count_parentViolations_le_one K s e.2 _
      · rw [List.count_eq_zero.2 hp, Nat.zero_add]
        exact count_childViolations_le_one K s hv hk e he (hnd e he) parent child
    by_cases hex : ∃ e ∈ s.commitInfos,
        Violation.ErrCommitAncestryBroken parent child ∈ commitViolations K s e.2
    · obtain ⟨e, he, hmem⟩ := hex
      rw [count_flatMap_unique (fun e => commitViolations K s e.2) _ e s.commitInfos
        hv.nodup_commits he]
      · exact hentry e he
      · intro y hy hne hmy
        apply hne
        rcases (mem_commitViolations K s e.2 _).1 hmem with h1 | h1 <;>
          rcases (mem_commitViolations K s y.2 _).1 hmy with h2 | h2
        · obtain ⟨pr, _, hcase⟩ := (mem_parentViolations K s e.2 _).1 h1
          obtain ⟨pr', _, hcase'⟩ := (mem_parentViolations K s y.2 _).1 h2
          rcases hcase with ⟨_, hbad⟩ | ⟨_, _, _, hv1⟩
          · simp at hbad
          rcases hcase' with ⟨_, hbad⟩ | ⟨_, _, _, hv2⟩
          · simp at hbad
          have e1 : child = e.2.Commit := by
            have := hv1
            simp only [Violation.ErrCommitAncestryBroken.injEq] at this
            exact this.2
          have e2 : child = y.2.Commit := by
            have := hv2
            simp only [Violation.ErrCommitAncestryBroken.injEq] at this
            exact this.2
          exact hv.commit_entry hy he (e2.symm.trans e1)
        · exact absurd ⟨h1, h2⟩ (ancestry_sides_exclusive K s hv hk parent child e he y hy)
        · exact absurd ⟨h2, h1⟩ (ancestry_sides_exclusive K s hv hk parent child y hy e he)
        · obtain ⟨ch, _, hcase⟩ := (mem_childViolations K s e.2 _).1 h1
          obtain ⟨ch', _, hcase'⟩ := (mem_childViolations K s y.2 _).1 h2
          rcases hcase with ⟨_, hbad⟩ | ⟨_, _, _, hv1⟩
          · simp at hbad
          rcases hcase' with ⟨_, hbad⟩ | ⟨_, _, _, hv2⟩
          · simp at hbad
          have e1 : parent = e.2.Commit := by
            have := hv1
            simp only [Violation.ErrCommitAncestryBroken.injEq] at this
            exact this.1
          have e2 : parent = y.2.Commit := by
            have := hv2
            simp only [Violation.ErrCommitAncestryBroken.injEq] at this
            exact this.1
          exact hv.commit_entry hy he (e2.symm.trans e1)
    · rw [count_flatMap_zero]
      · exact Nat.zero_le _
      · intro e he hmem
        exact hex ⟨e, he, hmem⟩
  · intro e _ hmem
    rcases branchViolations_kind K s e.2 _ hmem with ⟨_, h⟩ | ⟨_, h⟩ | h | ⟨_, h⟩ | ⟨_, h⟩ <;>
      simp at h

/-! ## The claims on the closure of direct provenance and on ancestry reports -/

/-- C25 (counterexample): two snapshots in which every `DirectProvenance` entry has a record
and direct provenance has no cycle, and two runs that hand the sink no provenance transitivity
violation, while a stored provenance plus the branch is not what is reachable. In
`staleChainBehindHeadless` the sink returns an error on the first call (a missing head), before
the stale chain is visited: `c` is reachable from `a` and is not in its provenance. In
`ghostBehindDirect` the scan ends in a nil dereference at the provenance entry `ghost`, which
is in the provenance of `g` and is not reachable from it. -/
theorem C25_counterexample_scan_cut_short :
    (staleChainBehindHeadless.Valid sampleKeys ∧
      staleChainBehindHeadless.DirectRecorded sampleKeys ∧
      staleChainBehindHeadless.DirectAcyclic sampleKeys ∧
      (∀ bi full, Violation.ErrBranchProvenanceTransitivity bi full ∉
        (fsck sampleKeys staleChainBehindHeadless false none Sink.failing).calls) ∧
      ("data@a", branchRecord "a" (some "h") ["b"] [] ["b"]) ∈
        staleChainBehindHeadless.branchInfos ∧
      Reaches sampleKeys staleChainBehindHeadless (sampleKeys.BranchKey (dataBranch "a"))
        (sampleKeys.BranchKey (dataBranch "c")) ∧
      sampleKeys.BranchKey (dataBranch "c") ∉
        ((branchRecord "a" (some "h") ["b"] [] ["b"]).Provenance ++ [dataBranch "a"]).map
          sampleKeys.BranchKey) ∧
    (ghostBehindDirect.Valid sampleKeys ∧
      ghostBehindDirect.DirectRecorded sampleKeys ∧
      ghostBehindDirect.DirectAcyclic sampleKeys ∧
      fsck sampleKeys ghostBehindDirect false none Sink.silent =
        ⟨[], [], Outcome.nilDereference⟩ ∧
      ("data@g", branchRecord "g" (some "h") ["d", "ghost"] [] ["d"]) ∈
        ghostBehindDirect.branchInfos ∧
      sampleKeys.BranchKey (dataBranch "ghost") ∈
        ((branchRecord "g" (some "h") ["d", "ghost"] [] ["d"]).Provenance ++
          [dataBranch "g"]).map sampleKeys.BranchKey ∧
      ¬ Reaches sampleKeys ghostBehindDirect (sampleKeys.BranchKey (dataBranch "g"))
        (sampleKeys.BranchKey (dataBranch "ghost"))) := by
  refine ⟨⟨by decide, by decide, ?_, ?_, by decide, ?_, by decide⟩,
    ⟨by decide, by decide, ?_, by decide, by decide, by decide, ?_⟩⟩
  · exact Snapshot.directAcyclic_of_entries
      (fun k => if k = "data@a" then 2 else if k = "data@b" then 1 else 0) (by decide)
  · intro bi full hmem
    have hc : (fsck sampleKeys staleChainBehindHeadless false none Sink.failing).calls =
        [Violation.ErrMissingBranchHead (dataBranch "z")] := by decide
    rw [hc] at hmem
    simp at hmem
  · have hab : DirectStep sampleKeys staleChainBehindHeadless
        (sampleKeys.BranchKey (dataBranch "a")) (sampleKeys.BranchKey (dataBranch "b")) :=
      ⟨branchRecord "a" (some "h") ["b"] [] ["b"], by decide, by decide⟩
    have hbc : DirectStep sampleKeys staleChainBehindHeadless
        (sampleKeys.BranchKey (dataBranch "b")) (sampleKeys.BranchKey (dataBranch "c")) :=
      ⟨branchRecord "b" (some "h") [] ["a"] ["c"], by decide, by decide⟩
    exact Relation.ReflTransGen.head hab (Relation.ReflTransGen.single hbc)
  · exact Snapshot.directAcyclic_of_entries
      (fun k => if k = "data@g" then 1 else 0) (by decide)
  · intro hreach
    have hclosed := Reaches.closed_of_entries (fun k => k = "data@g" ∨ k = "data@d")
      (by decide) hreach (by decide)
    revert hclosed
    decide

/-- C25 (amended): with a sink that never errs and a record for every provenance entry, in a
snapshot in which every `DirectProvenance` entry has a record and direct provenance has no
cycle, a run that hands the sink no provenance transitivity violation shows that, for every
branch, the keys of its provenance plus itself are exactly the keys reachable from it by zero
or more `DirectProvenance` steps. -/
theorem C25_local_check_gives_closure_when_acyclic (K : Keys) (s : Snapshot) (fix : Bool)
    (txErr : Option String) (cb : Sink) (hv : s.Valid K) (hcb : cb.NeverErrs)
    (hrec : s.ProvenanceRecorded K) (hdr : s.DirectRecorded K) (hac : s.DirectAcyclic K)
    (hzero : ∀ bi full, Violation.ErrBranchProvenanceTransitivity bi full ∉
      (fsck K s fix txErr cb).calls)
    (e : String × BranchInfo) (he : e ∈ s.branchInfos) (k : String) :
    k ∈ (e.2.Provenance ++ [e.2.Branch]).map K.BranchKey ↔
      Reaches K s (K.BranchKey e.2.Branch) k := by
  have hlocal : ∀ e ∈ s.branchInfos,
      SameKeys K (e.2.Provenance ++ [e.2.Branch]) (oneStepProvenance K s e.2) := by
    intro e' he'
    by_contra hns
    have hex := (provenance_violation_when_records_complete K s fix txErr cb hv hcb hrec
      e' he').1.2 hns
    obtain ⟨full, hfull⟩ := hex
    exact hzero e'.2 full hfull
  have hget := hv.branch_lookup he
  have hkey : K.BranchKey e.2.Branch ∈ GoMap.keys s.branchInfos := by
    by_contra hnot
    have := (GoMap.get?_eq_none_iff s.branchInfos (K.BranchKey e.2.Branch)).2 hnot
    rw [hget] at this
    exact absurd this (by simp)
  exact closure_of_local_check K s hv hdr hac hlocal ⟨K.BranchKey e.2.Branch, hkey⟩ e.2 hget k

/-- Witness for C25 (amended): the snapshot `linkedPair` and its branch `out`, whose provenance
`[in]` plus itself is what is reachable from it. -/
theorem C25_local_check_gives_closure_when_acyclic_witness :
    linkedPair.Valid sampleKeys ∧ Sink.silent.NeverErrs ∧
    linkedPair.ProvenanceRecorded sampleKeys ∧ linkedPair.DirectRecorded sampleKeys ∧
    linkedPair.DirectAcyclic sampleKeys ∧
    (∀ bi full, Violation.ErrBranchProvenanceTransitivity bi full ∉
      (fsck sampleKeys linkedPair false none Sink.silent).calls) ∧
    ("data@out", branchRecord "out" (some "h") ["in"] [] ["in"]) ∈ linkedPair.branchInfos ∧
    (sampleKeys.BranchKey (dataBranch "in") ∈
        ((branchRecord "out" (some "h") ["in"] [] ["in"]).Provenance ++ [dataBranch "out"]).map
          sampleKeys.BranchKey ↔
      Reaches sampleKeys linkedPair (sampleKeys.BranchKey (dataBranch "out"))
        (sampleKeys.BranchKey (dataBranch "in"))) :=
  have hac : linkedPair.DirectAcyclic sampleKeys :=
    Snapshot.directAcyclic_of_entries (fun k => if k = "data@out" then 1 else 0) (by decide)
  have hzero : ∀ bi full, Violation.ErrBranchProvenanceTransitivity bi full ∉
      (fsck sampleKeys linkedPair false none Sink.silent).calls := by
    intro bi full hmem
    have hc : (fsck sampleKeys linkedPair false none Sink.silent).calls = [] := by decide
    rw [hc] at hmem
    simp at hmem
  ⟨by decide, fun _ _ => rfl, by decide, by decide, hac, hzero, by decide,
    C25_local_check_gives_closure_when_acyclic sampleKeys linkedPair false none Sink.silent
      (by decide) (fun _ _ => rfl) (by decide) (by decide) hac hzero
      ("data@out", branchRecord "out" (some "h") ["in"] [] ["in"]) (by decide)
      (sampleKeys.BranchKey (dataBranch "in"))⟩

/-- C29: in a snapshot as the snapshot phase builds it, whose commit keys are distinct for
unequal commits and whose `ChildCommits` lists have no duplicate, whatever the sink and the
flag, a pair (parent, child) is in at most one `ErrCommitAncestryBroken` handed to the sink;
the parent check of a record and the child check of a record never report the same pair. -/
theorem C29_ancestry_break_reported_at_most_once (K : Keys) (s : Snapshot) (fix : Bool)
    (txErr : Option String) (cb : Sink) (hv : s.Valid K) (hk : s.CommitKeysDistinct K)
    (hnd : ∀ e ∈ s.commitInfos, e.2.ChildCommits.Nodup) (parent child : Commit) :
    List.count (Violation.ErrCommitAncestryBroken parent child) (fsck K s fix txErr cb).calls ≤ 1 ∧
    ∀ e ∈ s.commitInfos, ∀ e' ∈ s.commitInfos,
      ¬ (Violation.ErrCommitAncestryBroken parent child ∈ parentViolations K s e.2 ∧
          Violation.ErrCommitAncestryBroken parent child ∈ childViolations K s e'.2) := by
  refine ⟨?_, fun e he e' he' => ancestry_sides_exclusive K s hv hk parent child e he e' he'⟩
  exact le_trans ((calls_prefix_allViolations K s fix txErr cb).sublist.count_le _)
    (count_ancestry_allViolations_le_one K s hv hk hnd parent child)

/-- Witness for C29: in `brokenParentLink`, where `c2` names the parent `c1` and `c1` lists no
child, the pair is reported, once. -/
theorem C29_ancestry_break_reported_at_most_once_witness :
    brokenParentLink.Valid sampleKeys ∧ brokenParentLink.CommitKeysDistinct sampleKeys ∧
    (∀ e ∈ brokenParentLink.commitInfos, e.2.ChildCommits.Nodup) ∧
    Violation.ErrCommitAncestryBroken (dataCommit "c1") (dataCommit "c2") ∈
      (fsck sampleKeys brokenParentLink false none Sink.silent).calls ∧
    List.count (Violation.ErrCommitAncestryBroken (dataCommit "c1") (dataCommit "c2"))
      (fsck sampleKeys brokenParentLink false none Sink.silent).calls ≤ 1 :=
  ⟨by decide, by decide, by decide, by decide,
    (C29_ancestry_break_reported_at_most_once sampleKeys brokenParentLink false none Sink.silent
      (by decide) (by decide) (by decide) (dataCommit "c1") (dataCommit "c2")).1⟩

/-! ## The message of a provenance transitivity violation -/

theorem GoMap.keys_fold {V : Type} (key : V → String) (xs : List V) (m : GoMap V) (k : String) :
    k ∈ GoMap.keys (xs.foldl (fun m x => GoMap.set m (key x) x) m) ↔
      k ∈ GoMap.keys m ∨ k ∈ xs.map key := by
  induction xs generalizing m with
  | nil => simp
  | cons x xs ih =>
    simp only [List.foldl_cons, List.map_cons, List.mem_cons]
    rw [ih, GoMap.mem_keys_set]
    tauto

theorem GoMap.values_fold {V : Type} (key : V → String) (P : V → Prop) (xs : List V)
    (m : GoMap V) (hx : ∀ x ∈ xs, P x) (hm : ∀ e ∈ m, P e.2) :
    ∀ e ∈ xs.foldl (fun m x => GoMap.set m (key x) x) m, P e.2 := by
  induction xs generalizing m with
  | nil => exact hm
  | cons x xs ih =>
    exact ih (GoMap.set m (key x) x) (fun y hy => hx y (List.mem_cons_of_mem _ hy))
      (GoMap.values_set m (key x) x P (hx x (List.mem_cons_self _ _)) hm)

theorem fullMap_spec (K : Keys) (full : List Branch) :
    (GoMap.keys (ErrBranchProvenanceTransitivity.fullMap K full)).Nodup ∧
    (∀ e ∈ ErrBranchProvenanceTransitivity.fullMap K full,
      e.1 = K.BranchKey e.2 ∧ e.2 ∈ full) ∧
    ∀ k, k ∈ GoMap.keys (ErrBranchProvenanceTransitivity.fullMap K full) ↔
      k ∈ full.map K.BranchKey := by
  unfold ErrBranchProvenanceTransitivity.fullMap
  have h1 := GoMap.keyed_fold K.BranchKey full [] (by simp [GoMap.keys]) (by simp)
  have h2 := GoMap.values_fold K.BranchKey (fun b => b ∈ full) full [] (fun x hx => hx)
    (by simp)
  refine ⟨h1.1, fun e he => ⟨h1.2 e he, h2 e he⟩, fun k => ?_⟩
  rw [GoMap.keys_fold]
  simp [GoMap.keys]

theorem provMap_lookup (K : Keys) (bi : BranchInfo) (k : String) :
    GoMap.get? (ErrBranchProvenanceTransitivity.provMap K bi) k = none ↔
      k ≠ K.BranchKey bi.Branch ∧ k ∉ bi.Provenance.map K.BranchKey := by
  unfold ErrBranchProvenanceTransitivity.provMap
  rw [GoMap.get?_eq_none_iff, GoMap.keys_fold]
  simp [GoMap.keys, GoMap.set]

theorem writeLines_eq (S : Stringers) (provMap : GoMap Branch) :
    ∀ (visited : GoMap Branch) (msg : String),
      visited.foldl
        (fun msg e =>
          match GoMap.get? provMap e.1 with
          | none => msg ++ (e.2.Name ++ " in repo " ++ S.RepoString e.2.Repo ++ "\n")
          | some _ => msg)
        msg =
      msg ++ ((visited.filter (fun e => (GoMap.get? provMap e.1).isNone)).map
          (fun e => e.2.Name ++ " in repo " ++ S.RepoString e.2.Repo ++ "\n")).foldr
        (fun line rest => line ++ rest) ""
  | [], msg => by simp
  | e :: visited, msg => by
    rw [List.foldl_cons, writeLines_eq S provMap visited]
    cases h : GoMap.get? provMap e.1 with
    | none =>
      simp only [List.filter_cons, h, Option.isNone_none, if_true, List.map_cons,
        List.foldr_cons]
      rw [String.append_assoc]
    | some b =>
      simp [List.filter_cons, h]

theorem error_text_starts (K : Keys) (S : Stringers) (visit : GoMap Branch → GoMap Branch)
    (v : Violation) : ∃ rest, v.Error K S visit = "consistency error: " ++ rest := by
  cases v with
  | ErrBranchProvenanceTransitivity bi full =>
    have h : "consistency error: branch provenance was not transitive\n" =
        "consistency error: " ++ "branch provenance was not transitive\n" := by decide
    refine ⟨"branch provenance was not transitive\n" ++
      (("on branch " ++ S.BranchString bi.Branch ++ "\n") ++
        ("the following branches are missing from the provenance:\n" ++
          (((visit (ErrBranchProvenanceTransitivity.fullMap K full)).filter
            (fun e => (GoMap.get? (ErrBranchProvenanceTransitivity.provMap K bi) e.1).isNone)).map
            (fun e => e.2.Name ++ " in repo " ++ S.RepoString e.2.Repo ++ "\n")).foldr
          (fun line rest => line ++ rest) "")), ?_⟩
    simp only [Violation.Error, ErrBranchProvenanceTransitivity.Error]
    rw [writeLines_eq, String.empty_append, h]
    simp only [String.append_assoc]
  | ErrBranchSubvenanceTransitivity bi missing =>
    have h : "consistency error: branch " = "consistency error: " ++ "branch " := by decide
    refine ⟨"branch " ++ (S.BranchString bi.Branch ++ (" is missing branch " ++
      (S.BranchString missing ++ " in its subvenance\n"))), ?_⟩
    simp only [Violation.Error]
    rw [h]
    simp only [String.append_assoc]
  | ErrBranchInfoNotFound b =>
    have h : "consistency error: the branch " = "consistency error: " ++ "the branch " := by
      decide
    refine ⟨"the branch " ++ (b.Name ++ (" on repo " ++
      (S.RepoString b.Repo ++ " could not be found\n"))), ?_⟩
    simp only [Violation.Error]
    rw [h]
    simp only [String.append_assoc]
  | ErrCommitInfoNotFound loc c =>
    have h : "consistency error: the commit " = "consistency error: " ++ "the commit " := by
      decide
    refine ⟨"the commit " ++ (K.CommitString c ++
      (" could not be found while checking " ++ loc)), ?_⟩
    simp only [Violation.Error]
    rw [h]
    simp only [String.append_assoc]
  | ErrCommitAncestryBroken p c =>
    have h : "consistency error: parent commit " = "consistency error: " ++ "parent commit " := by
      decide
    refine ⟨"parent commit " ++ (K.CommitString p ++ (" and child commit " ++
      (K.CommitString c ++ " disagree about their parent/child relationship"))), ?_⟩
    simp only [Violation.Error]
    rw [h]
    simp only [String.append_assoc]
  | ErrMissingBranchHead b =>
    have h : "consistency error: branch " = "consistency error: " ++ "branch " := by decide
    refine ⟨"branch " ++ (S.BranchString b ++ " does not have a head commit"), ?_⟩
    simp only [Violation.Error]
    rw [h]
    simp only [String.append_assoc]

/-! ## The claims on the messages -/

/-- C31: whatever the order in which the `range` loop visits `fullMap`, the message of
`ErrBranchProvenanceTransitivity` is the three header lines followed by one line
`<name> in repo <repo>` for each entry of a list `missing` and nothing else; the keys of
`missing` are distinct and are exactly the keys of `FullProvenance` that are neither the key of
`BranchInfo.Branch` nor the key of an element of `BranchInfo.Provenance`, every line is that of
a branch of `FullProvenance` with this key, and when every key of `FullProvenance` is the key of
the branch or of an element of its provenance the list is empty. -/
theorem C31_message_lists_the_missing_keys (K : Keys) (S : Stringers) (BranchInfo : BranchInfo)
    (FullProvenance : List Branch) (visited : GoMap Branch)
    (hvisit : visited.Perm (ErrBranchProvenanceTransitivity.fullMap K FullProvenance)) :
    ∃ missing : List (String × Branch),
      ErrBranchProvenanceTransitivity.Error K S BranchInfo visited =
        "consistency error: branch provenance was not transitive\n" ++
          (("on branch " ++ S.BranchString BranchInfo.Branch ++ "\n") ++
            ("the following branches are missing from the provenance:\n" ++
              (missing.map (fun e => e.2.Name ++ " in repo " ++ S.RepoString e.2.Repo ++
                "\n")).foldr (fun line rest => line ++ rest) "")) ∧
      (missing.map Prod.fst).Nodup ∧
      (∀ k, k ∈ missing.map Prod.fst ↔
        (k ∈ FullProvenance.map K.BranchKey ∧ k ≠ K.BranchKey BranchInfo.Branch ∧
          k ∉ BranchInfo.Provenance.map K.BranchKey)) ∧
      (∀ e ∈ missing, e.2 ∈ FullProvenance ∧ K.BranchKey e.2 = e.1) ∧
      ((∀ k ∈ FullProvenance.map K.BranchKey,
          k = K.BranchKey BranchInfo.Branch ∨ k ∈ BranchInfo.Provenance.map K.BranchKey) →
        missing = []) := by
  obtain ⟨hnd, hentries, hkeys⟩ := fullMap_spec K FullProvenance
  have hmem : ∀ k, k ∈ (visited.filter (fun e =>
      (GoMap.get? (ErrBranchProvenanceTransitivity.provMap K BranchInfo) e.1).isNone)).map
        Prod.fst ↔
      (k ∈ FullProvenance.map K.BranchKey ∧ k ≠ K.BranchKey BranchInfo.Branch ∧
        k ∉ BranchInfo.Provenance.map K.BranchKey) := by
    intro k
    simp only [List.mem_map, List.mem_filter, Option.isNone_iff_eq_none]
    constructor
    · rintro ⟨e, ⟨he, hnone⟩, rfl⟩
      have hk : e.1 ∈ GoMap.keys (ErrBranchProvenanceTransitivity.fullMap K FullProvenance) :=
        List.mem_map_of_mem Prod.fst (hvisit.mem_iff.1 he)
      have h1 := (hkeys e.1).1 hk
      have h2 := (provMap_lookup K BranchInfo e.1).1 hnone
      simp only [List.mem_map] at h1 h2
      exact ⟨h1, h2⟩
    · rintro ⟨h1, h2, h3⟩
      have hk := (hkeys k).2 (by simpa [List.mem_map] using h1)
      obtain ⟨e, he, rfl⟩ := List.mem_map.1 hk
      refine ⟨e, ⟨hvisit.mem_iff.2 he, ?_⟩, rfl⟩
      exact (provMap_lookup K BranchInfo e.1).2 ⟨h2, by simpa [List.mem_map] using h3⟩
  refine ⟨visited.filter (fun e =>
    (GoMap.get? (ErrBranchProvenanceTransitivity.provMap K BranchInfo) e.1).isNone),
    ?_, ?_, hmem, ?_, ?_⟩
  · simp only [ErrBranchProvenanceTransitivity.Error]
    rw [writeLines_eq, String.empty_append]
    simp only [String.append_assoc]
  · have hv : (visited.map Prod.fst).Nodup := (hvisit.map Prod.fst).nodup_iff.2 hnd
    exact hv.sublist ((List.filter_sublist _).map Prod.fst)
  · intro e he
    have he' := hvisit.mem_iff.1 (List.mem_of_mem_filter he)
    exact ⟨(hentries e he').2, (hentries e he').1.symm⟩
  · intro hall
    apply List.eq_nil_iff_forall_not_mem.2
    intro e he
    have hk := (hmem e.1).1 (List.mem_map_of_mem Prod.fst he)
    rcases hall e.1 hk.1 with h | h
    · exact hk.2.1 h
    · exact hk.2.2 h

/-- Witness for C31: branch `b` stores the provenance `[extra]` and the computed provenance is
`[b, in]`; the message lists `in`, and with the computed provenance `[b]` it lists nothing. -/
theorem C31_message_lists_the_missing_keys_witness :
    (ErrBranchProvenanceTransitivity.fullMap sampleKeys [dataBranch "b", dataBranch "in"]).Perm
      (ErrBranchProvenanceTransitivity.fullMap sampleKeys [dataBranch "b", dataBranch "in"]) ∧
    ErrBranchProvenanceTransitivity.Error sampleKeys sampleStringers
        (branchRecord "b" (some "h") ["extra"] [] ["in"])
        (ErrBranchProvenanceTransitivity.fullMap sampleKeys [dataBranch "b", dataBranch "in"]) =
      "consistency error: branch provenance was not transitive\non branch data@b\nthe following branches are missing from the provenance:\nin in repo data\n" ∧
    ErrBranchProvenanceTransitivity.Error sampleKeys sampleStringers
        (branchRecord "b" (some "h") ["extra"] [] [])
        (ErrBranchProvenanceTransitivity.fullMap sampleKeys [dataBranch "b"]) =
      "consistency error: branch provenance was not transitive\non branch data@b\nthe following branches are missing from the provenance:\n" ∧
    ∃ missing : List (String × Branch),
      ErrBranchProvenanceTransitivity.Error sampleKeys sampleStringers
          (branchRecord "b" (some "h") ["extra"] [] ["in"])
          (ErrBranchProvenanceTransitivity.fullMap sampleKeys
            [dataBranch "b", dataBranch "in"]) =
        "consistency error: branch provenance was not transitive\n" ++
          (("on branch " ++ sampleStringers.BranchString
              (branchRecord "b" (some "h") ["extra"] [] ["in"]).Branch ++ "\n") ++
            ("the following branches are missing from the provenance:\n" ++
              (missing.map (fun e => e.2.Name ++ " in repo " ++
                sampleStringers.RepoString e.2.Repo ++ "\n")).foldr
                (fun line rest => line ++ rest) "")) ∧
      (missing.map Prod.fst).Nodup ∧
      (∀ k, k ∈ missing.map Prod.fst ↔
        (k ∈ [dataBranch "b", dataBranch "in"].map sampleKeys.BranchKey ∧
          k ≠ sampleKeys.BranchKey (branchRecord "b" (some "h") ["extra"] [] ["in"]).Branch ∧
          k ∉ (branchRecord "b" (some "h") ["extra"] [] ["in"]).Provenance.map
            sampleKeys.BranchKey)) ∧
      (∀ e ∈ missing, e.2 ∈ [dataBranch "b", dataBranch "in"] ∧
        sampleKeys.BranchKey e.2 = e.1) ∧
      ((∀ k ∈ [dataBranch "b", dataBranch "in"].map sampleKeys.BranchKey,
          k = sampleKeys.BranchKey (branchRecord "b" (some "h") ["extra"] [] ["in"]).Branch ∨
            k ∈ (branchRecord "b" (some "h") ["extra"] [] ["in"]).Provenance.map
              sampleKeys.BranchKey) →
        missing = []) :=
  ⟨List.Perm.refl _, by decide, by decide,
    C31_message_lists_the_missing_keys sampleKeys sampleStringers
      (branchRecord "b" (some "h") ["extra"] [] ["in"]) [dataBranch "b", dataBranch "in"]
      (ErrBranchProvenanceTransitivity.fullMap sampleKeys [dataBranch "b", dataBranch "in"])
      (List.Perm.refl _)⟩

/-- C32: whatever the snapshot, the callback and the flag, every response the callback gets
from `fsck` is the one `onError` builds for a violation of the run: its `Error` field is the
`Error()` text of that violation, which begins with `consistency error: `, and its `Fix` field
is empty; the callback of the run is called through `onError` only. -/
theorem C32_every_call_carries_the_error_text_and_no_fix (K : Keys) (S : Stringers)
    (visit : GoMap Branch → GoMap Branch) (s : Snapshot) (fix : Bool) (txErr : Option String)
    (cb : Callback) (r : FsckResponse)
    (hr : r ∈ (fsck K s fix txErr (cb.sink K S visit)).calls.map (onErrorResponse K S visit)) :
    (∃ err ∈ (fsck K s fix txErr (cb.sink K S visit)).calls, r.Error = err.Error K S visit) ∧
    (∃ rest, r.Error = "consistency error: " ++ rest) ∧
    r.Fix = "" ∧
    (∀ log err, cb.sink K S visit log err =
      cb (log.map (onErrorResponse K S visit)) ⟨"", err.Error K S visit⟩) := by
  obtain ⟨err, herr, rfl⟩ := List.mem_map.1 hr
  exact ⟨⟨err, herr, rfl⟩, error_text_starts K S visit err, rfl, fun _ _ => rfl⟩

/-- Witness for C32: the run on `brokenParentLink` with a callback that collects; the response
for the missing head of branch `b`. -/
theorem C32_every_call_carries_the_error_text_and_no_fix_witness :
    (fsck sampleKeys brokenParentLink false none
        (Callback.silent.sink sampleKeys sampleStringers id)).calls.map
        (onErrorResponse sampleKeys sampleStringers id) =
      [⟨"", "consistency error: branch data@b does not have a head commit"⟩,
        ⟨"", "consistency error: parent commit data=c1 and child commit data=c2 disagree about their parent/child relationship"⟩] ∧
    (∃ rest, (⟨"", "consistency error: branch data@b does not have a head commit"⟩ :
      FsckResponse).Error = "consistency error: " ++ rest) :=
  ⟨by decide,
    (C32_every_call_carries_the_error_text_and_no_fix sampleKeys sampleStringers id
      brokenParentLink false none Callback.silent
      ⟨"", "consistency error: branch data@b does not have a head commit"⟩ (by decide)).2.1⟩

end Fsck

namespace Serviceenv

/-! ## The claims on the logging transport -/

/-- C22 (code bug): when the underlying transport returns a nil response with an error, the
deferred logging of `RoundTrip` dereferences the nil response and the call panics after one call
of the underlying transport, instead of returning the nil response and the error; a 404 answer
with a readable body panics as well, at `err.Error()` on a nil error; a 200 answer is returned
as it is. -/
theorem C22_nil_response_is_dereferenced :
    refusing listPods = ⟨none, some "connection refused"⟩ ∧
    (wrapWithLoggingTransport refusing).RoundTrip 7 listPods =
      ⟨[⟨"kube/APIServer request",
          [("method", FieldValue.text "GET"),
            ("url", FieldValue.text "https://kube/api/v1/pods")]⟩],
        [listPods], Ending.nilDereference⟩ ∧
    ((wrapWithLoggingTransport notFound).RoundTrip 7 listPods).ending = Ending.nilDereference ∧
    ((wrapWithLoggingTransport healthy).RoundTrip 7 listPods).ending =
      Ending.returned (healthy listPods).res (healthy listPods).err := by
  decide

/-- C33 (code bug): the test `err != nil` of line 36 is the wrong way round. For a 404 answer
whose body reads without error, `RoundTrip` logs no response entry at all and panics at
`err.Error()` on a nil error, instead of logging the body's text; for a 500 answer whose body
fails to read with `connection reset` after `upstream`, the logged `body` field is the text
read so far, `upstream`, not `error reading body: connection reset`; for a 200 answer the
response entry has no `body` field. -/
theorem C33_body_field_branches_are_swapped :
    (notFound listPods).res = some ⟨"404 Not Found", 404, ⟨"no such pod", none⟩⟩ ∧
    ((wrapWithLoggingTransport notFound).RoundTrip 7 listPods).responses = [] ∧
    ((wrapWithLoggingTransport notFound).RoundTrip 7 listPods).ending = Ending.nilDereference ∧
    (resetMidBody listPods).res =
      some ⟨"500 Internal Server Error", 500, ⟨"upstream", some "connection reset"⟩⟩ ∧
    ((wrapWithLoggingTransport resetMidBody).RoundTrip 7 listPods).responses.map
        (fun e => e.field "body") = [some (FieldValue.text "upstream")] ∧
    ((wrapWithLoggingTransport resetMidBody).RoundTrip 7 listPods).responses.map
        (fun e => e.field "body") ≠
      [some (FieldValue.text ("error reading body: " ++ "connection reset"))] ∧
    ((wrapWithLoggingTransport healthy).RoundTrip 7 listPods).responses.map
        (fun e => e.field "body") = [none] := by
  decide

end Serviceenv

namespace IndexPb

/-! ## Sequencing -/

@[simp] theorem Result.ok_bind {α β : Type} (a : α) (f : α → Result β) :
    (Result.ok a).bind f = f a := rfl

/-! ## Bits -/

theorem and_7f (b : Nat) : b &&& 0x7F = b % 128 :=
  Nat.and_pow_two_sub_one_eq_mod b 7

theorem and_7 (b : Nat) : b &&& 0x7 = b % 8 :=
  Nat.and_pow_two_sub_one_eq_mod b 3

theorem or_80 (x : Nat) (h : x < 128) : x ||| 0x80 = x + 128 := by
  have h1 := @Nat.mul_add_lt_is_or 7 x h 1
  rw [Nat.lor_comm]
  simpa [Nat.add_comm] using h1.symm

theorem continuation_byte (v : Nat) : (v &&& 0x7f ||| 0x80) % 256 = v % 128 + 128 := by
  rw [and_7f, or_80 _ (Nat.mod_lt _ (by norm_num))]
  have := Nat.mod_lt v (show 128 > 0 by norm_num)
  omega

theorem or_shifted (acc g s : Nat) (hacc : acc < 2 ^ s) :
    acc ||| (g <<< s) = acc + g * 2 ^ s := by
  rw [Nat.lor_comm, Nat.shiftLeft_eq, Nat.mul_comm g, ← Nat.mul_add_lt_is_or hacc g,
    Nat.add_comm]

theorem or_one (v : Nat) : v ||| 1 = 2 * (v / 2) + 1 := by
  have h := @Nat.mul_add_lt_is_or 1 1 (by norm_num) (v / 2)
  rw [pow_one] at h
  rcases Nat.mod_two_eq_zero_or_one v with h0 | h1
  · have hv : v = 2 * (v / 2) := by omega
    rw [h]
    exact congrArg (· ||| 1) hv
  · have hv : v = 2 * (v / 2) ||| 1 := by
      rw [← h]
      omega
    calc v ||| 1 = (2 * (v / 2) ||| 1) ||| 1 := congrArg (· ||| 1) hv
      _ = 2 * (v / 2) ||| 1 := by rw [Nat.lor_assoc, Nat.or_self]
      _ = 2 * (v / 2) + 1 := h.symm

/-! ## The varint of a number -/

theorem varint_small (v : Nat) (h : v < 128) : varint v = [v] := by
  rw [varint]
  simp [Nat.not_le.2 h]

theorem varint_big (v : Nat) (h : 128 ≤ v) : varint v = (v % 128 + 128) :: varint (v / 128) := by
  rw [varint]
  simp [h]

theorem varint_length_pos (v : Nat) : 1 ≤ (varint v).length := by
  by_cases h : v < 128
  · simp [varint_small v h]
  · simp [varint_big v (Nat.not_lt.1 h)]

theorem varint_length_le : ∀ (n : Nat) (v : Nat), (varint v).length ≤ n + 1 ↔ v < 128 ^ (n + 1)
  | 0, v => by
    by_cases h : v < 128
    · simp [varint_small v h, h]
    · have := varint_length_pos (v / 128)
      simp only [varint_big v (Nat.not_lt.1 h), List.length_cons, zero_add, pow_one]
      omega
  | n + 1, v => by
    by_cases h : v < 128
    · have hp : (128 : Nat) ≤ 128 ^ (n + 1 + 1) := by
        calc (128 : Nat) = 128 ^ 1 := by norm_num
          _ ≤ 128 ^ (n + 1 + 1) := Nat.pow_le_pow_right (by norm_num) (by omega)
      simp only [varint_small v h, List.length_singleton]
      constructor
      · intro _
        omega
      · intro _
        omega
    · have ih := varint_length_le n (v / 128)
      simp only [varint_big v (Nat.not_lt.1 h), List.length_cons]
      rw [Nat.add_le_add_iff_right, ih, Nat.div_lt_iff_lt_mul (by norm_num), ← pow_succ]

theorem lenBits_le : ∀ (fuel x k : Nat), x < 2 ^ fuel → (lenBits fuel x ≤ k ↔ x < 2 ^ k)
  | 0, x, k, h => by
    have hx : x = 0 := by simpa using h
    subst hx
    simp [lenBits]
  | fuel + 1, x, k, h => by
    unfold lenBits
    by_cases hx : x = 0
    · subst hx
      simp
    · rw [if_neg hx]
      have hhalf : x / 2 < 2 ^ fuel := by
        rw [Nat.div_lt_iff_lt_mul (by norm_num), ← pow_succ]
        exact h
      cases k with
      | zero =>
        simp only [pow_zero, Nat.lt_one_iff]
        constructor
        · intro h0
          omega
        · intro h0
          exact absurd h0 hx
      | succ k =>
        rw [Nat.add_le_add_iff_right, lenBits_le fuel (x / 2) k hhalf,
          Nat.div_lt_iff_lt_mul (by norm_num), ← pow_succ]

theorem or_one_lt (v k : Nat) : v ||| 1 < 2 ^ (k + 1) ↔ v < 2 ^ (k + 1) := by
  rw [or_one, pow_succ]
  omega

theorem sovIndex_le (v : Nat) (hv : v < 2 ^ 64) (n : Nat) :
    sovIndex v ≤ n + 1 ↔ v < 128 ^ (n + 1) := by
  unfold sovIndex Len64
  have hor : v ||| 1 < 2 ^ 64 := (or_one_lt v 63).2 hv
  rw [Nat.mod_eq_of_lt hor]
  have h7 : (128 : Nat) ^ (n + 1) = 2 ^ (7 * n + 6 + 1) := by
    rw [show (128 : Nat) = 2 ^ 7 by norm_num, ← pow_mul]
    congr 1
  rw [h7, ← or_one_lt v (7 * n + 6), ← lenBits_le 64 (v ||| 1) (7 * n + 6 + 1) hor]
  omega

/-- The function `sovIndex` counts the bytes of the varint. -/
theorem sovIndex_eq (v : Nat) (hv : v < 2 ^ 64) : sovIndex v = (varint v).length := by
  have h1 : ∀ n, sovIndex v ≤ n + 1 ↔ (varint v).length ≤ n + 1 := fun n => by
    rw [sovIndex_le v hv n, varint_length_le n v]
  have hpos := varint_length_pos v
  have hspos : 1 ≤ sovIndex v := by
    by_contra hlt
    have h0 : sovIndex v = 0 := by omega
    have := (sovIndex_le v hv 0).1 (by omega)
    unfold sovIndex Len64 at h0
    have hor : v ||| 1 < 2 ^ 64 := (or_one_lt v 63).2 hv
    rw [Nat.mod_eq_of_lt hor] at h0
    have hl : lenBits 64 (v ||| 1) ≤ 0 := by omega
    have := (lenBits_le 64 (v ||| 1) 0 hor).1 hl
    have hge : 1 ≤ v ||| 1 := by
      rw [or_one]
      omega
    omega
  obtain ⟨a, ha⟩ : ∃ a, sovIndex v = a + 1 := ⟨sovIndex v - 1, by omega⟩
  obtain ⟨b, hb⟩ : ∃ b, (varint v).length = b + 1 := ⟨(varint v).length - 1, by omega⟩
  have hab := (h1 a).1 (by omega)
  have hba := (h1 b).2 (by omega)
  omega

theorem varint_length_le_ten (v : Nat) (hv : v < 2 ^ 64) : (varint v).length ≤ 10 := by
  apply (varint_length_le 9 v).2
  calc v < 2 ^ 64 := hv
    _ ≤ 128 ^ (9 + 1) := by norm_num

theorem uint64_lt (x : Int) : uint64 x < 2 ^ 64 := by
  unfold uint64
  have h := Int.emod_lt_of_pos x (show (0 : Int) < 2 ^ 64 by norm_num)
  have h0 := Int.emod_nonneg x (show (2 : Int) ^ 64 ≠ 0 by norm_num)
  omega

theorem uint64_natCast (n : Nat) (h : n < 2 ^ 64) : uint64 (n : Int) = n := by
  unfold uint64
  have : ((n : Int) % 2 ^ 64) = n := Int.emod_eq_of_lt (by omega) (by exact_mod_cast h)
  rw [this]
  simp

theorem int64_uint64 (x : Int) (h1 : -(2 : Int) ^ 63 ≤ x) (h2 : x < 2 ^ 63) :
    int64 (uint64 x) = x := by
  unfold int64 uint64
  have hlt := Int.emod_lt_of_pos x (show (0 : Int) < 2 ^ 64 by norm_num)
  have h0 := Int.emod_nonneg x (show (2 : Int) ^ 64 ≠ 0 by norm_num)
  have hmod : ((x % 2 ^ 64).toNat % 2 ^ 64) = (x % 2 ^ 64).toNat := by
    apply Nat.mod_eq_of_lt
    omega
  rw [hmod]
  have hcast : (((x % 2 ^ 64).toNat : Nat) : Int) = x % 2 ^ 64 := Int.toNat_of_nonneg h0
  by_cases hx : 0 ≤ x
  · have hm : x % 2 ^ 64 = x := Int.emod_eq_of_lt hx (by omega)
    rw [hcast, hm]
    have : x.toNat < 2 ^ 63 := by omega
    rw [if_pos this]
  · have hm : x % 2 ^ 64 = x + 2 ^ 64 := by
      rw [← Int.add_emod_self]
      exact Int.emod_eq_of_lt (by omega) (by omega)
    rw [hcast, hm]
    have : ¬ (x + 2 ^ 64).toNat < 2 ^ 63 := by omega
    rw [if_neg this]
    omega

theorem int64_of_lt (n : Nat) (h : n < 2 ^ 63) : int64 n = n := by
  unfold int64
  have : n % 2 ^ 64 = n := Nat.mod_eq_of_lt (by omega)
  rw [this, if_pos h]

/-! ## Writing backwards into the buffer -/

theorem setAt_mid (X Z : Bytes) (y b : Nat) :
    setAt (X ++ y :: Z) (X.length : Int) b = Result.ok (X ++ b :: Z) := by
  unfold setAt
  have h : (0 : Int) ≤ X.length ∧ (X.length : Int) < ((X ++ y :: Z).length : Nat) := by
    constructor
    · omega
    · simp
  rw [if_pos h]
  simp

theorem encodeVarintLoop_spec : ∀ (fuel v : Nat) (X Y Z : Bytes), v < 128 ^ (fuel + 1) →
    Y.length = (varint v).length →
    encodeVarintLoop (fuel + 1) (X ++ (Y ++ Z)) (X.length : Int) v =
      Result.ok (X ++ (varint v ++ Z))
  | fuel, v, X, Y, Z, hv, hY => by
    unfold encodeVarintLoop
    have h128 : (1 <<< 7 : Nat) = 128 := by decide
    rw [h128]
    by_cases hbig : v ≥ 128
    · rw [if_pos hbig, varint_big v hbig]
      rw [varint_big v hbig] at hY
      cases Y with
      | nil => simp at hY
      | cons y Y' =>
        cases fuel with
        | zero => omega
        | succ f =>
          have hlen : Y'.length = (varint (v / 128)).length := by simpa using hY
          have hdiv : v / 128 < 128 ^ (f + 1) := by
            rw [Nat.div_lt_iff_lt_mul (by norm_num), ← pow_succ]
            exact hv
          have hset := setAt_mid X (Y' ++ Z) y ((v &&& 0x7f ||| 0x80) % 256)
          rw [List.cons_append, hset, Result.ok_bind, continuation_byte]
          have ih := encodeVarintLoop_spec f (v / 128) (X ++ [v % 128 + 128]) Y' Z hdiv hlen
          have hshift : v >>> 7 = v / 128 := by
            rw [Nat.shiftRight_eq_div_pow]
          rw [hshift]
          have hcast : ((X.length : Int) + 1) = ((X ++ [v % 128 + 128]).length : Nat) := by simp
          rw [hcast]
          simpa using ih
    · rw [if_neg hbig]
      have hsmall : v < 128 := Nat.not_le.1 hbig
      rw [varint_small v hsmall] at hY ⊢
      cases Y with
      | nil => simp at hY
      | cons y Y' =>
        have hnil : Y' = [] := by
          apply List.eq_nil_of_length_eq_zero
          simpa using hY
        subst hnil
        have hmod : v % 256 = v := Nat.mod_eq_of_lt (by omega)
        rw [hmod]
        simpa using setAt_mid X Z y v

theorem take_split (B : Bytes) (k n : Nat) (h : k + n ≤ B.length) :
    ∃ Y, Y.length = n ∧ B.take (k + n) = B.take k ++ Y := by
  refine ⟨(B.drop k).take n, ?_, ?_⟩
  · rw [List.length_take, List.length_drop]
    omega
  · rw [List.take_add]

theorem putVarint_after (B out : Bytes) (v : Nat) (hv : v < 2 ^ 64)
    (h : (varint v).length + out.length ≤ B.length) :
    putVarint v (Cursor.after B out) = Result.ok (Cursor.after B (varint v ++ out)) := by
  unfold putVarint encodeVarintIndex Cursor.after
  simp only
  rw [sovIndex_eq v hv]
  obtain ⟨Y, hY, hsplit⟩ := take_split B (B.length - (varint v ++ out).length) (varint v).length
    (by rw [List.length_append]; omega)
  have hk : B.length - (varint v ++ out).length + (varint v).length = B.length - out.length := by
    rw [List.length_append]
    omega
  rw [hk] at hsplit
  have hlenX : (B.take (B.length - (varint v ++ out).length)).length =
      B.length - (varint v ++ out).length := by
    rw [List.length_take]
    omega
  have hoff : ((B.length - out.length : Nat) : Int) - ((varint v).length : Nat) =
      ((B.take (B.length - (varint v ++ out).length)).length : Nat) := by
    rw [hlenX, List.length_append]
    omega
  rw [hoff, hsplit, List.append_assoc]
  have h10 : v < 128 ^ (9 + 1) := lt_of_lt_of_le hv (by norm_num)
  rw [encodeVarintLoop_spec 9 v _ Y out h10 hY]
  simp only [Result.ok_bind, List.append_assoc]
  rw [hlenX]

theorem putByte_after (B out : Bytes) (b : Nat) (h : out.length + 1 ≤ B.length) :
    putByte b (Cursor.after B out) = Result.ok (Cursor.after B (b :: out)) := by
  unfold putByte Cursor.after
  simp only
  obtain ⟨Y, hY, hsplit⟩ := take_split B (B.length - (b :: out).length) 1
    (by rw [List.length_cons]; omega)
  have hk : B.length - (b :: out).length + 1 = B.length - out.length := by
    rw [List.length_cons]
    omega
  rw [hk] at hsplit
  have hlenX : (B.take (B.length - (b :: out).length)).length =
      B.length - (b :: out).length := by
    rw [List.length_take]
    omega
  have hoff : ((B.length - out.length : Nat) : Int) - 1 =
      ((B.take (B.length - (b :: out).length)).length : Nat) := by
    rw [hlenX, List.length_cons]
    omega
  cases Y with
  | nil => simp at hY
  | cons y Y' =>
    have hnil : Y' = [] := by
      apply List.eq_nil_of_length_eq_zero
      simpa using hY
    subst hnil
    rw [hoff, hsplit, List.append_assoc, List.singleton_append, setAt_mid]
    simp only [Result.ok_bind]
    rw [hlenX]

theorem putBytes_after (B out src : Bytes) (h : src.length + out.length ≤ B.length) :
    putBytes src (Cursor.after B out) = Result.ok (Cursor.after B (src ++ out)) := by
  unfold putBytes Cursor.after copyAt
  simp only
  have hlen : (B.take (B.length - out.length) ++ out).length = B.length := by
    rw [List.length_append, List.length_take]
    omega
  have hidx : ((B.length - out.length : Nat) : Int) - (src.length : Nat) =
      ((B.length - (src ++ out).length : Nat) : Int) := by
    rw [List.length_append]
    omega
  rw [hidx, hlen]
  have hcond : (0 : Int) ≤ ((B.length - (src ++ out).length : Nat) : Int) ∧
      ((B.length - (src ++ out).length : Nat) : Int) ≤ (B.length : Nat) := by
    constructor <;> omega
  rw [if_pos hcond]
  simp only [Result.ok_bind, Int.toNat_ofNat]
  have h1 : List.take (B.length - (src ++ out).length) (B.take (B.length - out.length) ++ out) =
      B.take (B.length - (src ++ out).length) := by
    rw [List.take_append_of_le_length, List.take_take]
    · congr 1
      rw [List.length_append]
      omega
    · rw [List.length_take, List.length_append]
      omega
  have h2 : List.take (B.length - (B.length - (src ++ out).length)) src = src := by
    apply List.take_of_length_le
    rw [List.length_append]
    omega
  have h3 : List.drop (B.length - (src ++ out).length + src.length)
      (B.take (B.length - out.length) ++ out) = out := by
    apply List.drop_left'
    rw [List.length_take, List.length_append]
    omega
  rw [h1, h2, h3]

/-- What a `MarshalToSizedBuffer` method does on every buffer that is large enough: it writes
the bytes `w` at the end of the buffer, leaves the bytes before them as they were, and returns
the number of bytes written. -/
theorem putMessage_after (sub : Bytes → Result (Bytes × Int)) (w : Bytes)
    (hsub : ∀ B' : Bytes, w.length ≤ B'.length →
      sub B' = Result.ok (B'.take (B'.length - w.length) ++ w, (w.length : Int)))
    (B out : Bytes)
    (h : (varint (uint64 (w.length : Int))).length + w.length + out.length ≤ B.length) :
    putMessage sub (Cursor.after B out) =
      Result.ok (Cursor.after B (varint (uint64 (w.length : Int)) ++ (w ++ out))) := by
  have hstate : (Cursor.after B out) = (B.take (B.length - out.length) ++ out,
      ((B.length - out.length : Nat) : Int)) := rfl
  unfold putMessage
  rw [hstate]
  simp only
  have hlen : (B.take (B.length - out.length) ++ out).length = B.length := by
    rw [List.length_append, List.length_take]
    omega
  have hcond : (0 : Int) ≤ ((B.length - out.length : Nat) : Int) ∧
      ((B.length - out.length : Nat) : Int) ≤
        ((B.take (B.length - out.length) ++ out).length : Nat) := by
    rw [hlen]
    constructor <;> omega
  rw [if_pos hcond]
  simp only [Int.toNat_ofNat]
  have htake : List.take (B.length - out.length) (B.take (B.length - out.length) ++ out) =
      B.take (B.length - out.length) := by
    rw [List.take_append_of_le_length, List.take_take]
    · simp
    · rw [List.length_take]
      omega
  have hdrop : List.drop (B.length - out.length) (B.take (B.length - out.length) ++ out) =
      out := by
    apply List.drop_left'
    rw [List.length_take]
    omega
  rw [htake, hdrop, hsub _ (by rw [List.length_take]; omega)]
  simp only [Result.ok_bind]
  have hbuf : List.take ((B.take (B.length - out.length)).length - w.length)
      (B.take (B.length - out.length)) ++ w ++ out =
      (Cursor.after B (w ++ out)).1 := by
    unfold Cursor.after
    simp only
    rw [List.length_take, List.take_take, List.append_assoc]
    congr 2
    rw [List.length_append]
    omega
  have hidx : ((B.length - out.length : Nat) : Int) - (w.length : Nat) =
      (Cursor.after B (w ++ out)).2 := by
    unfold Cursor.after
    simp only
    rw [List.length_append]
    omega
  rw [hbuf, hidx]
  have := putVarint_after B (w ++ out) (uint64 (w.length : Int)) (uint64_lt _)
    (by rw [List.length_append]; omega)
  unfold putVarint at this
  exact this

theorem Cursor.after_nil (B : Bytes) : ((B, (B.length : Int)) : Cursor) = Cursor.after B [] := by
  unfold Cursor.after
  simp

/-! ## The three `MarshalToSizedBuffer` methods write the wire format -/

theorem stage_bytes (B out src : Bytes) (h : src.length + out.length ≤ B.length) :
    (if src ≠ [] then putBytes src (Cursor.after B out) else Result.ok (Cursor.after B out)) =
      Result.ok (Cursor.after B (src ++ out)) := by
  by_cases hs : src = []
  · subst hs
    simp
  · rw [if_pos hs, putBytes_after B out src h]

theorem stage_delimited (B out P : Bytes) (tag : Nat)
    (h : ((if P.length > 0 then delimited tag P else []) ++ out).length ≤ B.length) :
    (if P.length > 0 then
        (putBytes P (Cursor.after B out)).bind fun st =>
          (putVarint (uint64 (P.length : Int)) st).bind fun st => putByte tag st
      else Result.ok (Cursor.after B out)) =
      Result.ok (Cursor.after B ((if P.length > 0 then delimited tag P else []) ++ out)) := by
  by_cases hP : P.length > 0
  · rw [if_pos hP] at h ⊢
    rw [if_pos hP]
    unfold delimited at h ⊢
    simp only [List.length_cons, List.length_append, List.cons_append] at h
    rw [putBytes_after B out P (by omega), Result.ok_bind,
      putVarint_after B (P ++ out) _ (uint64_lt _) (by rw [List.length_append]; omega),
      Result.ok_bind, putByte_after B _ tag (by simp only [List.length_append]; omega)]
    simp
  · rw [if_neg hP, if_neg hP]
    simp

theorem stage_varint (B out : Bytes) (x : Int) (tag : Nat)
    (h : ((if x ≠ 0 then tag :: varint (uint64 x) else []) ++ out).length ≤ B.length) :
    (if x ≠ 0 then
        (putVarint (uint64 x) (Cursor.after B out)).bind fun st => putByte tag st
      else Result.ok (Cursor.after B out)) =
      Result.ok (Cursor.after B ((if x ≠ 0 then tag :: varint (uint64 x) else []) ++ out)) := by
  by_cases hx : x ≠ 0
  · rw [if_pos hx] at h ⊢
    rw [if_pos hx]
    simp only [List.length_cons, List.length_append, List.cons_append] at h
    rw [putVarint_after B out _ (uint64_lt _) (by omega), Result.ok_bind,
      putByte_after B _ tag (by simp only [List.length_append]; omega)]
    simp
  · rw [if_neg hx, if_neg hx]
    simp

theorem stage_message (sub : Bytes → Result (Bytes × Int)) (w : Bytes)
    (hsub : ∀ B' : Bytes, w.length ≤ B'.length →
      sub B' = Result.ok (B'.take (B'.length - w.length) ++ w, (w.length : Int)))
    (B out : Bytes) (tag : Nat) (h : (delimited tag w ++ out).length ≤ B.length) :
    ((putMessage sub (Cursor.after B out)).bind fun st => putByte tag st) =
      Result.ok (Cursor.after B (delimited tag w ++ out)) := by
  unfold delimited at h ⊢
  simp only [List.length_cons, List.length_append, List.cons_append] at h
  rw [putMessage_after sub w hsub B out (by omega), Result.ok_bind,
    putByte_after B _ tag (by simp only [List.length_append]; omega)]
  simp

theorem finish_after (B out : Bytes) (h : out.length ≤ B.length) :
    ((Cursor.after B out).1, (B.length : Int) - (Cursor.after B out).2) =
      (B.take (B.length - out.length) ++ out, (out.length : Int)) := by
  unfold Cursor.after
  simp only [Prod.mk.injEq, true_and]
  omega

theorem range_marshalToSizedBuffer_spec {D : Type} (C : DataRefCodec D) (m : Range D)
    (hm : m.ChunkRef = none) (B : Bytes) (h : (Range.wire m).length ≤ B.length) :
    Range.MarshalToSizedBuffer C m B =
      Result.ok (B.take (B.length - (Range.wire m).length) ++ Range.wire m,
        ((Range.wire m).length : Int)) := by
  unfold Range.MarshalToSizedBuffer
  unfold Range.wire at h
  simp only [List.length_append] at h
  simp only [hm, Cursor.after_nil]
  have h1 := stage_bytes B [] m.XXX_unrecognized (by simp only [List.length_nil]; omega)
  rw [h1]
  simp only [Result.ok_bind]
  have h2 := stage_delimited B (m.XXX_unrecognized ++ []) m.LastPath 0x12
    (by simp only [List.length_append, List.length_nil]; omega)
  rw [h2]
  simp only [Result.ok_bind]
  have h3 := stage_varint B ((if m.LastPath.length > 0 then delimited 0x12 m.LastPath else []) ++
    (m.XXX_unrecognized ++ [])) m.Offset 0x8
    (by simp only [List.length_append, List.length_nil]; omega)
  rw [h3]
  simp only [Result.ok_bind]
  have hw : (if m.Offset ≠ 0 then 0x8 :: varint (uint64 m.Offset) else []) ++
      ((if m.LastPath.length > 0 then delimited 0x12 m.LastPath else []) ++
        (m.XXX_unrecognized ++ [])) = Range.wire m := by
    unfold Range.wire
    simp
  rw [hw]
  exact congrArg Result.ok (finish_after B (Range.wire m) (by
    unfold Range.wire
    simp only [List.length_append]
    omega))

theorem file_marshalToSizedBuffer_spec {D : Type} (C : DataRefCodec D) (m : File D)
    (hm : m.DataRefs = []) (B : Bytes) (h : (File.wire m).length ≤ B.length) :
    File.MarshalToSizedBuffer C m B =
      Result.ok (B.take (B.length - (File.wire m).length) ++ File.wire m,
        ((File.wire m).length : Int)) := by
  unfold File.MarshalToSizedBuffer
  unfold File.wire at h
  simp only [List.length_append] at h
  simp only [hm, Cursor.after_nil, List.reverse_nil, putDataRefs]
  have h1 := stage_bytes B [] m.XXX_unrecognized (by simp only [List.length_nil]; omega)
  rw [h1]
  simp only [Result.ok_bind]
  have h2 := stage_delimited B (m.XXX_unrecognized ++ []) m.Datum 0xa
    (by simp only [List.length_append, List.length_nil]; omega)
  rw [h2]
  simp only [Result.ok_bind]
  have hw : (if m.Datum.length > 0 then delimited 0xa m.Datum else []) ++
      (m.XXX_unrecognized ++ []) = File.wire m := by
    unfold File.wire
    simp
  rw [hw]
  exact congrArg Result.ok (finish_after B (File.wire m) (by
    unfold File.wire
    simp only [List.length_append]
    omega))

theorem index_marshalToSizedBuffer_spec {D : Type} (C : DataRefCodec D) (m : Index D)
    (hm : m.NoRefs) (B : Bytes) (h : (Index.wire m).length ≤ B.length) :
    Index.MarshalToSizedBuffer C m B =
      Result.ok (B.take (B.length - (Index.wire m).length) ++ Index.wire m,
        ((Index.wire m).length : Int)) := by
  rcases m with ⟨path, range, file, unrec⟩
  have hwire : (Index.wire (⟨path, range, file, unrec⟩ : Index D)).length ≤ B.length := h
  have hfin := finish_after B (Index.wire (⟨path, range, file, unrec⟩ : Index D)) h
  unfold Index.MarshalToSizedBuffer
  unfold Index.wire at h hfin ⊢
  simp only [Cursor.after_nil] at h hfin ⊢
  have h1 := stage_bytes B [] unrec
  cases file with
  | none =>
    cases range with
    | none =>
      simp only [List.length_append, List.length_nil, List.nil_append] at h hfin ⊢
      rw [h1 (by simp only [List.length_nil]; omega)]
      simp only [Result.ok_bind]
      rw [stage_delimited B (unrec ++ []) path 0xa
        (by simp only [List.length_append, List.length_nil]; omega)]
      simp only [Result.ok_bind, List.append_nil]
      exact congrArg Result.ok hfin
    | some r =>
      have hr := range_marshalToSizedBuffer_spec C r (hm.1 r rfl)
      simp only [List.length_append, List.length_nil, List.nil_append] at h hfin ⊢
      rw [h1 (by simp only [List.length_nil]; omega)]
      simp only [Result.ok_bind]
      rw [stage_message (Range.MarshalToSizedBuffer C r) (Range.wire r) hr B (unrec ++ []) 0x12
        (by simp only [List.length_append, List.length_nil]; omega)]
      simp only [Result.ok_bind]
      rw [stage_delimited B (delimited 0x12 (Range.wire r) ++ (unrec ++ [])) path 0xa
        (by simp only [List.length_append, List.length_nil]; omega)]
      simp only [Result.ok_bind, List.append_nil]
      exact congrArg Result.ok hfin
  | some f =>
    have hf := file_marshalToSizedBuffer_spec C f (hm.2 f rfl)
    cases range with
    | none =>
      simp only [List.length_append, List.length_nil, List.nil_append] at h hfin ⊢
      rw [h1 (by simp only [List.length_nil]; omega)]
      simp only [Result.ok_bind]
      rw [stage_message (File.MarshalToSizedBuffer C f) (File.wire f) hf B (unrec ++ []) 0x1a
        (by simp only [List.length_append, List.length_nil]; omega)]
      simp only [Result.ok_bind]
      rw [stage_delimited B (delimited 0x1a (File.wire f) ++ (unrec ++ [])) path 0xa
        (by simp only [List.length_append, List.length_nil]; omega)]
      simp only [Result.ok_bind, List.append_nil]
      exact congrArg Result.ok hfin
    | some r =>
      have hr := range_marshalToSizedBuffer_spec C r (hm.1 r rfl)
      simp only [List.length_append, List.length_nil, List.nil_append] at h hfin ⊢
      rw [h1 (by simp only [List.length_nil]; omega)]
      simp only [Result.ok_bind]
      rw [stage_message (File.MarshalToSizedBuffer C f) (File.wire f) hf B (unrec ++ []) 0x1a
        (by simp only [List.length_append, List.length_nil]; omega)]
      simp only [Result.ok_bind]
      rw [stage_message (Range.MarshalToSizedBuffer C r) (Range.wire r) hr B
        (delimited 0x1a (File.wire f) ++ (unrec ++ [])) 0x12
        (by simp only [List.length_append, List.length_nil]; omega)]
      simp only [Result.ok_bind]
      rw [stage_delimited B
        (delimited 0x12 (Range.wire r) ++ (delimited 0x1a (File.wire f) ++ (unrec ++ []))) path 0xa
        (by simp only [List.length_append, List.length_nil]; omega)]
      simp only [Result.ok_bind, List.append_nil]
      exact congrArg Result.ok hfin

/-! ## `Size` is the length of the wire format -/

theorem length_delimited (tag : Nat) (P : Bytes) :
    (delimited tag P).length = 1 + P.length + sovIndex (uint64 (P.length : Int)) := by
  unfold delimited
  rw [sovIndex_eq _ (uint64_lt _)]
  simp only [List.length_cons, List.length_append]
  omega

theorem unrecognized_length (u : Bytes) : (if u ≠ [] then u.length else 0) = u.length := by
  by_cases h : u = []
  · simp [h]
  · simp [h]

theorem range_size_eq {D : Type} (C : DataRefCodec D) (m : Range D) (hm : m.ChunkRef = none) :
    Range.Size C m = (Range.wire m).length := by
  unfold Range.Size Range.wire
  simp only [hm, List.length_append, unrecognized_length]
  have h1 : (if m.Offset ≠ 0 then 0x8 :: varint (uint64 m.Offset) else []).length =
      if m.Offset ≠ 0 then 1 + sovIndex (uint64 m.Offset) else 0 := by
    by_cases h : m.Offset ≠ 0
    · rw [if_pos h, if_pos h, sovIndex_eq _ (uint64_lt _), List.length_cons]
      omega
    · rw [if_neg h, if_neg h]
      rfl
  have h2 : (if m.LastPath.length > 0 then delimited 0x12 m.LastPath else []).length =
      if m.LastPath.length > 0 then
        1 + m.LastPath.length + sovIndex (uint64 (m.LastPath.length : Int)) else 0 := by
    by_cases h : m.LastPath.length > 0
    · rw [if_pos h, if_pos h, length_delimited]
    · rw [if_neg h, if_neg h]
      rfl
  rw [h1, h2]
  omega

theorem file_size_eq {D : Type} (C : DataRefCodec D) (m : File D) (hm : m.DataRefs = []) :
    File.Size C m = (File.wire m).length := by
  unfold File.Size File.wire
  simp only [hm, List.length_append, unrecognized_length, List.foldl_nil]
  have h2 : (if m.Datum.length > 0 then delimited 0xa m.Datum else []).length =
      if m.Datum.length > 0 then
        1 + m.Datum.length + sovIndex (uint64 (m.Datum.length : Int)) else 0 := by
    by_cases h : m.Datum.length > 0
    · rw [if_pos h, if_pos h, length_delimited]
    · rw [if_neg h, if_neg h]
      rfl
  rw [h2]
  omega

theorem index_size_eq {D : Type} (C : DataRefCodec D) (m : Index D) (hm : m.NoRefs) :
    Index.Size C m = (Index.wire m).length := by
  unfold Index.Size Index.wire
  simp only [List.length_append, unrecognized_length]
  have h1 : (if m.Path.length > 0 then delimited 0xa m.Path else []).length =
      if m.Path.length > 0 then
        1 + m.Path.length + sovIndex (uint64 (m.Path.length : Int)) else 0 := by
    by_cases h : m.Path.length > 0
    · rw [if_pos h, if_pos h, length_delimited]
    · rw [if_neg h, if_neg h]
      rfl
  have h2 : (match m.Range with
      | some range => delimited 0x12 (Range.wire range)
      | none => []).length =
      match m.Range with
      | some range => 1 + Range.Size C range + sovIndex (uint64 (Range.Size C range : Int))
      | none => 0 := by
    cases hr : m.Range with
    | none => rfl
    | some r =>
      simp only
      rw [length_delimited, range_size_eq C r (hm.1 r hr)]
  have h3 : (match m.File with
      | some file => delimited 0x1a (File.wire file)
      | none => []).length =
      match m.File with
      | some file => 1 + File.Size C file + sovIndex (uint64 (File.Size C file : Int))
      | none => 0 := by
    cases hf : m.File with
    | none => rfl
    | some f =>
      simp only
      rw [length_delimited, file_size_eq C f (hm.2 f hf)]
  rw [h1, h2, h3]
  omega

/-- A `Marshal` method whose `MarshalToSizedBuffer` writes `w` and whose `Size` is the length of
`w` returns `w`. -/
theorem marshalWith_spec (size : Nat) (sub : Bytes → Result (Bytes × Int)) (w : Bytes)
    (hsize : size = w.length)
    (hsub : ∀ B' : Bytes, w.length ≤ B'.length →
      sub B' = Result.ok (B'.take (B'.length - w.length) ++ w, (w.length : Int))) :
    marshalWith size sub = Result.ok w := by
  unfold marshalWith
  have hlen : ((List.replicate size 0).take size).length = w.length := by
    simp [hsize]
  rw [hsub _ (by omega), hlen]
  simp only [Result.ok_bind, Nat.sub_self, List.take_zero, List.nil_append]
  unfold sliceTo
  have hc : (0 : Int) ≤ (w.length : Nat) ∧ ((w.length : Nat) : Int) ≤ (w.length : Nat) := by
    constructor <;> omega
  rw [if_pos hc]
  simp

/-! ## Reading back what was written -/

theorem getElem?_mid (X R : Bytes) (b : Nat) : (X ++ b :: R)[X.length]? = some b := by
  rw [List.getElem?_append_right (le_refl _)]
  simp

theorem readVarint_scan : ∀ (fuel s acc v : Nat) (X Z : Bytes), s < 64 → v * 2 ^ s < 2 ^ 64 →
    acc < 2 ^ s → 64 ≤ s + 7 * fuel →
    readVarint (X ++ (varint v ++ Z)) fuel s X.length acc =
      Result.ok (acc + v * 2 ^ s, X.length + (varint v).length)
  | 0, s, acc, v, X, Z, hs, _, _, hfuel => by omega
  | fuel + 1, s, acc, v, X, Z, hs, hv, hacc, hfuel => by
    unfold readVarint
    rw [if_neg (by omega)]
    have hpos := varint_length_pos v
    rw [if_neg (by simp only [List.length_append]; omega)]
    by_cases hbig : 128 ≤ v
    · rw [varint_big v hbig, List.cons_append, getElem?_mid]
      simp only
      have hg : (v % 128 + 128) &&& 0x7F = v % 128 := by
        rw [and_7f]
        omega
      rw [hg, if_neg (by omega)]
      have hglt : v % 128 < 128 := Nat.mod_lt _ (by norm_num)
      have hgle : v % 128 * 2 ^ s ≤ v * 2 ^ s := Nat.mul_le_mul_right _ (Nat.mod_le _ _)
      have hmod : (v % 128) <<< s % 2 ^ 64 = v % 128 * 2 ^ s := by
        rw [Nat.shiftLeft_eq]
        exact Nat.mod_eq_of_lt (lt_of_le_of_lt hgle hv)
      have hor : acc ||| v % 128 * 2 ^ s = acc + v % 128 * 2 ^ s := by
        have := or_shifted acc (v % 128) s hacc
        rwa [Nat.shiftLeft_eq] at this
      rw [hmod, hor]
      have hp7 : 2 ^ (s + 7) = 2 ^ s * 128 := by rw [pow_add]; norm_num
      have hs7 : s + 7 < 64 := by
        have h1 : 2 ^ (s + 7) ≤ v * 2 ^ s := by
          rw [hp7, Nat.mul_comm]
          exact Nat.mul_le_mul_right _ hbig
        exact (Nat.pow_lt_pow_iff_right (by norm_num)).1 (lt_of_le_of_lt h1 hv)
      have hdecomp : v = 128 * (v / 128) + v % 128 := (Nat.div_add_mod v 128).symm
      have hv' : v / 128 * 2 ^ (s + 7) < 2 ^ 64 := by
        refine lt_of_le_of_lt ?_ hv
        rw [hp7, ← Nat.mul_assoc, Nat.mul_comm (v / 128) (2 ^ s), Nat.mul_assoc,
          Nat.mul_comm (2 ^ s)]
        exact Nat.mul_le_mul_right _ (Nat.div_mul_le_self v 128)
      have hacc' : acc + v % 128 * 2 ^ s < 2 ^ (s + 7) := by
        rw [hp7]
        have : v % 128 * 2 ^ s ≤ 127 * 2 ^ s := Nat.mul_le_mul_right _ (by omega)
        omega
      have ih := readVarint_scan fuel (s + 7) (acc + v % 128 * 2 ^ s) (v / 128)
        (X ++ [v % 128 + 128]) Z hs7 hv' hacc' (by omega)
      have hd : X ++ (v % 128 + 128) :: (varint (v / 128) ++ Z) =
          (X ++ [v % 128 + 128]) ++ (varint (v / 128) ++ Z) := by simp
      have hl : X.length + 1 = (X ++ [v % 128 + 128]).length := by simp
      rw [hd, hl, ih]
      congr 2
      · rw [hp7]
        calc acc + v % 128 * 2 ^ s + v / 128 * (2 ^ s * 128)
            = acc + (128 * (v / 128) + v % 128) * 2 ^ s := by ring
          _ = acc + v * 2 ^ s := by rw [← hdecomp]
      · simp only [List.length_append, List.length_cons, List.length_nil]
        omega
    · have hsmall : v < 128 := Nat.not_le.1 hbig
      rw [varint_small v hsmall, List.singleton_append, getElem?_mid]
      simp only
      have hg : v &&& 0x7F = v := by
        rw [and_7f]
        exact Nat.mod_eq_of_lt hsmall
      rw [hg, if_pos (by omega)]
      have hmod : v <<< s % 2 ^ 64 = v * 2 ^ s := by
        rw [Nat.shiftLeft_eq]
        exact Nat.mod_eq_of_lt hv
      have hor : acc ||| v * 2 ^ s = acc + v * 2 ^ s := by
        have := or_shifted acc v s hacc
        rwa [Nat.shiftLeft_eq] at this
      rw [hmod, hor]
      simp

/-- Reading the varint of a `uint64` gives the number back and stops after it. -/
theorem readVarint_spec (dAtA X Z : Bytes) (v : Nat) (hv : v < 2 ^ 64)
    (hd : dAtA = X ++ (varint v ++ Z)) :
    readVarint dAtA 11 0 X.length 0 = Result.ok (v, X.length + (varint v).length) := by
  subst hd
  have h := readVarint_scan 11 0 0 v X Z (by norm_num) (by simpa using hv) (by norm_num)
    (by norm_num)
  simpa using h

theorem readTag_spec (dAtA X R : Bytes) (tag : Nat) (htag : tag < 128)
    (hd : dAtA = X ++ tag :: R) :
    readVarint dAtA 11 0 X.length 0 = Result.ok (tag, X.length + 1) := by
  have h := readVarint_spec dAtA X R tag (by omega)
    (by rw [hd, varint_small tag htag]; simp)
  rw [varint_small tag htag] at h
  simpa using h

theorem slice_spec (dAtA A P Z : Bytes) (hd : dAtA = A ++ (P ++ Z)) :
    slice dAtA A.length (A.length + P.length) = Result.ok P := by
  subst hd
  unfold slice
  rw [if_pos (by simp only [List.length_append]; omega)]
  congr 1
  have h1 : List.take (A.length + P.length) (A ++ (P ++ Z)) = A ++ P := by
    rw [← List.append_assoc]
    have : A.length + P.length = (A ++ P).length := by simp
    rw [this, List.take_left]
  rw [h1, List.drop_left]

/-- Reading the length and the bounds of a string or an embedded message that is there. -/
theorem lengthDelimited_spec (dAtA X P Z : Bytes) (hl : dAtA.length < 2 ^ 63)
    (hd : dAtA = X ++ (varint (uint64 (P.length : Int)) ++ (P ++ Z))) :
    lengthDelimited dAtA X.length =
      Result.ok (X.length + (varint (uint64 (P.length : Int))).length,
        X.length + (varint (uint64 (P.length : Int))).length + P.length) := by
  have hP : P.length ≤ dAtA.length := by
    rw [hd]
    simp only [List.length_append]
    omega
  have hu : uint64 (P.length : Int) = P.length := uint64_natCast _ (by omega)
  have htot : X.length + (varint (uint64 (P.length : Int))).length + P.length ≤ dAtA.length := by
    rw [hd]
    simp only [List.length_append]
    omega
  unfold lengthDelimited
  rw [readVarint_spec dAtA X (P ++ Z) (uint64 (P.length : Int)) (uint64_lt _) hd]
  simp only [Result.ok_bind]
  rw [hu] at htot ⊢
  rw [int64_of_lt P.length (by omega), int64_of_lt _ (by omega)]
  rw [if_neg (by omega), if_neg (by omega), if_neg (by omega)]
  simp only [Result.ok.injEq, Prod.mk.injEq, true_and]
  omega

/-- Reading a length-delimited field that is there: the tag, the bounds and the payload. -/
theorem delimited_read (dAtA X P Z : Bytes) (tag : Nat) (htag : tag < 128)
    (hl : dAtA.length < 2 ^ 63) (hd : dAtA = X ++ (delimited tag P ++ Z)) :
    readVarint dAtA 11 0 X.length 0 = Result.ok (tag, X.length + 1) ∧
    lengthDelimited dAtA (X.length + 1) =
      Result.ok (X.length + 1 + (varint (uint64 (P.length : Int))).length,
        X.length + (delimited tag P).length) ∧
    slice dAtA (X.length + 1 + (varint (uint64 (P.length : Int))).length)
      (X.length + (delimited tag P).length) = Result.ok P := by
  unfold delimited at hd
  have hlen : X.length + (delimited tag P).length =
      X.length + 1 + (varint (uint64 (P.length : Int))).length + P.length := by
    unfold delimited
    simp only [List.length_cons, List.length_append]
    omega
  refine ⟨readTag_spec dAtA X (varint (uint64 (P.length : Int)) ++ (P ++ Z)) tag htag
    (by rw [hd]; simp), ?_, ?_⟩
  · have h := lengthDelimited_spec dAtA (X ++ [tag]) P Z hl (by rw [hd]; simp)
    simp only [List.length_append, List.length_singleton] at h
    rw [hlen]
    exact h
  · have h := slice_spec dAtA (X ++ tag :: varint (uint64 (P.length : Int))) P Z
      (by rw [hd]; simp)
    simp only [List.length_append, List.length_cons] at h
    rw [hlen]
    have e1 : X.length + ((varint (uint64 (P.length : Int))).length + 1) =
        X.length + 1 + (varint (uint64 (P.length : Int))).length := by omega
    rw [e1] at h
    exact h

theorem unmarshalLoop_step {M : Type} (field : Nat → M → Result (M × Nat)) (l fuel i : Nat)
    (m m' : M) (i' : Nat) (hi : i < l) (hf : field i m = Result.ok (m', i')) :
    unmarshalLoop field l (fuel + 1) i m = unmarshalLoop field l fuel i' m' := by
  rw [unmarshalLoop, if_pos hi, hf]
  rfl

theorem unmarshalLoop_end {M : Type} (field : Nat → M → Result (M × Nat)) (l fuel : Nat)
    (m : M) : unmarshalLoop field l (fuel + 1) l m = Result.ok m := by
  rw [unmarshalLoop, if_neg (lt_irrefl l), if_neg (lt_irrefl l)]

theorem tag_8 : (8 &&& 0x7 : Nat) = 0 ∧ int32 (8 >>> 3) = 1 := by decide

theorem tag_a : (0xa &&& 0x7 : Nat) = 2 ∧ int32 (0xa >>> 3) = 1 := by decide

theorem tag_12 : (0x12 &&& 0x7 : Nat) = 2 ∧ int32 (0x12 >>> 3) = 2 := by decide

theorem tag_1a : (0x1a &&& 0x7 : Nat) = 2 ∧ int32 (0x1a >>> 3) = 3 := by decide

/-! ## One round of each `Unmarshal` loop on a field that was written -/

theorem File.unmarshalField_datum {D : Type} (C : DataRefCodec D) (dAtA X P Z : Bytes)
    (m : File D) (hl : dAtA.length < 2 ^ 63) (hd : dAtA = X ++ (delimited 0xa P ++ Z)) :
    File.unmarshalField C dAtA X.length m =
      Result.ok ({ m with Datum := P }, X.length + (delimited 0xa P).length) := by
  obtain ⟨h1, h2, h3⟩ := delimited_read dAtA X P Z 0xa (by norm_num) hl hd
  unfold File.unmarshalField
  rw [h1]
  simp only [Result.ok_bind, tag_a.1, tag_a.2]
  norm_num
  rw [h2]
  simp only [Result.ok_bind]
  rw [h3]
  rfl

theorem Range.unmarshalField_lastPath {D : Type} (C : DataRefCodec D) (dAtA X P Z : Bytes)
    (m : Range D) (hl : dAtA.length < 2 ^ 63) (hd : dAtA = X ++ (delimited 0x12 P ++ Z)) :
    Range.unmarshalField C dAtA X.length m =
      Result.ok ({ m with LastPath := P }, X.length + (delimited 0x12 P).length) := by
  obtain ⟨h1, h2, h3⟩ := delimited_read dAtA X P Z 0x12 (by norm_num) hl hd
  unfold Range.unmarshalField
  rw [h1]
  simp only [Result.ok_bind, tag_12.1, tag_12.2]
  norm_num
  rw [h2]
  simp only [Result.ok_bind]
  rw [h3]
  rfl

theorem Range.unmarshalField_offset {D : Type} (C : DataRefCodec D) (dAtA X Z : Bytes)
    (m : Range D) (v : Nat) (hv : v < 2 ^ 64) (hd : dAtA = X ++ ((0x8 :: varint v) ++ Z)) :
    Range.unmarshalField C dAtA X.length m =
      Result.ok ({ m with Offset := int64 v }, X.length + (0x8 :: varint v).length) := by
  have h1 := readTag_spec dAtA X (varint v ++ Z) 0x8 (by norm_num) (by rw [hd]; simp)
  have h2 := readVarint_spec dAtA (X ++ [0x8]) Z v hv (by rw [hd]; simp)
  simp only [List.length_append, List.length_singleton] at h2
  unfold Range.unmarshalField
  rw [h1]
  simp only [Result.ok_bind, tag_8.1, tag_8.2]
  norm_num
  rw [h2]
  simp only [Result.ok_bind, List.length_cons]
  congr 2
  omega

theorem Index.unmarshalField_path {D : Type} (C : DataRefCodec D) (dAtA X P Z : Bytes)
    (m : Index D) (hl : dAtA.length < 2 ^ 63) (hd : dAtA = X ++ (delimited 0xa P ++ Z)) :
    Index.unmarshalField C dAtA X.length m =
      Result.ok ({ m with Path := P }, X.length + (delimited 0xa P).length) := by
  obtain ⟨h1, h2, h3⟩ := delimited_read dAtA X P Z 0xa (by norm_num) hl hd
  unfold Index.unmarshalField
  rw [h1]
  simp only [Result.ok_bind, tag_a.1, tag_a.2]
  norm_num
  rw [h2]
  simp only [Result.ok_bind]
  rw [h3]
  rfl

theorem Index.unmarshalField_range {D : Type} (C : DataRefCodec D) (dAtA X W Z : Bytes)
    (m : Index D) (range : IndexPb.Range D) (hl : dAtA.length < 2 ^ 63)
    (hd : dAtA = X ++ (delimited 0x12 W ++ Z)) (hm : m.Range = none)
    (hsub : Range.Unmarshal C ⟨0, [], none, []⟩ W = Result.ok range) :
    Index.unmarshalField C dAtA X.length m =
      Result.ok ({ m with Range := some range }, X.length + (delimited 0x12 W).length) := by
  obtain ⟨h1, h2, h3⟩ := delimited_read dAtA X W Z 0x12 (by norm_num) hl hd
  unfold Index.unmarshalField
  rw [h1]
  simp only [Result.ok_bind, tag_12.1, tag_12.2]
  norm_num
  rw [h2]
  simp only [Result.ok_bind]
  rw [h3]
  simp only [Result.ok_bind, hm, Option.getD_none]
  rw [hsub]
  rfl

theorem Index.unmarshalField_file {D : Type} (C : DataRefCodec D) (dAtA X W Z : Bytes)
    (m : Index D) (file : IndexPb.File D) (hl : dAtA.length < 2 ^ 63)
    (hd : dAtA = X ++ (delimited 0x1a W ++ Z)) (hm : m.File = none)
    (hsub : File.Unmarshal C ⟨[], [], []⟩ W = Result.ok file) :
    Index.unmarshalField C dAtA X.length m =
      Result.ok ({ m with File := some file }, X.length + (delimited 0x1a W).length) := by
  obtain ⟨h1, h2, h3⟩ := delimited_read dAtA X W Z 0x1a (by norm_num) hl hd
  unfold Index.unmarshalField
  rw [h1]
  simp only [Result.ok_bind, tag_1a.1, tag_1a.2]
  norm_num
  rw [h2]
  simp only [Result.ok_bind]
  rw [h3]
  simp only [Result.ok_bind, hm, Option.getD_none]
  rw [hsub]
  rfl

theorem delimited_length_pos (tag : Nat) (P : Bytes) : 2 ≤ (delimited tag P).length := by
  unfold delimited
  have := varint_length_pos (uint64 (P.length : Int))
  simp only [List.length_cons, List.length_append]
  omega

/-! ## `Unmarshal` reads the wire format back -/

theorem unmarshalLoop_next {M : Type} (field : Nat → M → Result (M × Nat)) (l fuel i : Nat)
    (m m' : M) (i' : Nat) (hfuel : 1 ≤ fuel) (hi : i < l)
    (hf : field i m = Result.ok (m', i')) :
    unmarshalLoop field l fuel i m = unmarshalLoop field l (fuel - 1) i' m' := by
  obtain ⟨k, rfl⟩ : ∃ k, fuel = k + 1 := ⟨fuel - 1, by omega⟩
  exact unmarshalLoop_step field l k i m m' i' hi hf

theorem unmarshalLoop_done {M : Type} (field : Nat → M → Result (M × Nat)) (l fuel : Nat)
    (m : M) (hfuel : 1 ≤ fuel) : unmarshalLoop field l fuel l m = Result.ok m := by
  obtain ⟨k, rfl⟩ : ∃ k, fuel = k + 1 := ⟨fuel - 1, by omega⟩
  exact unmarshalLoop_end field l k m

theorem file_unmarshal_wire {D : Type} (C : DataRefCodec D) (f : File D)
    (hrefs : f.DataRefs = []) (hun : f.XXX_unrecognized = [])
    (hl : (File.wire f).length < 2 ^ 63) :
    File.Unmarshal C ⟨[], [], []⟩ (File.wire f) = Result.ok f := by
  rcases f with ⟨datum, refs, unrec⟩
  simp only at hrefs hun
  subst hrefs hun
  unfold File.Unmarshal
  by_cases hP : datum.length > 0
  · have hw : File.wire (⟨datum, [], []⟩ : File D) = [] ++ (delimited 0xa datum ++ []) := by
      unfold File.wire
      simp [hP]
    have hlen : (File.wire (⟨datum, [], []⟩ : File D)).length = (delimited 0xa datum).length := by
      rw [hw]
      simp
    have h2 := delimited_length_pos 0xa datum
    have hstep := File.unmarshalField_datum C _ [] datum [] (⟨[], [], []⟩ : File D) hl hw
    simp only [List.length_nil, Nat.zero_add] at hstep
    rw [unmarshalLoop_next _ _ _ 0 _ _ _ (by omega) (by omega) hstep, ← hlen]
    exact unmarshalLoop_done _ _ _ _ (by omega)
  · have hnil : datum = [] := List.eq_nil_of_length_eq_zero (by omega)
    subst hnil
    have hw : File.wire (⟨[], [], []⟩ : File D) = [] := by
      unfold File.wire
      simp
    rw [hw]
    exact unmarshalLoop_done _ _ _ _ (by simp)

theorem range_unmarshal_wire {D : Type} (C : DataRefCodec D) (r : Range D)
    (hrefs : r.ChunkRef = none) (hun : r.XXX_unrecognized = [])
    (hoff : -(2 : Int) ^ 63 ≤ r.Offset ∧ r.Offset < 2 ^ 63)
    (hl : (Range.wire r).length < 2 ^ 63) :
    Range.Unmarshal C ⟨0, [], none, []⟩ (Range.wire r) = Result.ok r := by
  rcases r with ⟨offset, lastPath, ref, unrec⟩
  simp only at hrefs hun hoff
  subst hrefs hun
  unfold Range.Unmarshal
  generalize hA : (if offset ≠ 0 then 0x8 :: varint (uint64 offset) else []) = A
  generalize hB : (if lastPath.length > 0 then delimited 0x12 lastPath else []) = Bp
  have hw : Range.wire (⟨offset, lastPath, none, []⟩ : Range D) = A ++ (Bp ++ []) := by
    unfold Range.wire
    rw [hA, hB]
  have hlen : (Range.wire (⟨offset, lastPath, none, []⟩ : Range D)).length =
      A.length + Bp.length := by
    rw [hw]
    simp
  generalize hdA : Range.wire (⟨offset, lastPath, none, []⟩ : Range D) = dAtA at hw hlen hl ⊢
  have c2 : ∀ fuel, 1 ≤ fuel →
      unmarshalLoop (Range.unmarshalField C dAtA) dAtA.length fuel dAtA.length
        (⟨offset, lastPath, none, []⟩ : Range D) = Result.ok ⟨offset, lastPath, none, []⟩ :=
    fun fuel hfuel => unmarshalLoop_done _ _ _ _ hfuel
  have c1 : ∀ fuel, Bp.length + 1 ≤ fuel →
      unmarshalLoop (Range.unmarshalField C dAtA) dAtA.length fuel A.length
        (⟨offset, [], none, []⟩ : Range D) = Result.ok ⟨offset, lastPath, none, []⟩ := by
    intro fuel hfuel
    by_cases hP : lastPath.length > 0
    · rw [if_pos hP] at hB
      subst hB
      have h2 := delimited_length_pos 0x12 lastPath
      have hstep := Range.unmarshalField_lastPath C dAtA A lastPath []
        (⟨offset, [], none, []⟩ : Range D) hl hw
      rw [unmarshalLoop_next _ _ _ _ _ _ _ (by omega) (by omega) hstep, ← hlen]
      exact c2 _ (by omega)
    · rw [if_neg hP] at hB
      subst hB
      have hnil : lastPath = [] := List.eq_nil_of_length_eq_zero (by omega)
      subst hnil
      have hA' : A.length = dAtA.length := by simpa using hlen.symm
      rw [hA']
      exact c2 _ (by omega)
  have c0 : ∀ fuel, A.length + Bp.length + 1 ≤ fuel →
      unmarshalLoop (Range.unmarshalField C dAtA) dAtA.length fuel 0
        (⟨0, [], none, []⟩ : Range D) = Result.ok ⟨offset, lastPath, none, []⟩ := by
    intro fuel hfuel
    by_cases hO : offset ≠ 0
    · rw [if_pos hO] at hA
      subst hA
      have hstep := Range.unmarshalField_offset C dAtA [] (Bp ++ [])
        (⟨0, [], none, []⟩ : Range D) (uint64 offset) (uint64_lt _) (by rw [hw]; simp)
      simp only [List.length_nil, Nat.zero_add] at hstep
      rw [int64_uint64 offset hoff.1 hoff.2] at hstep
      rw [unmarshalLoop_next _ _ _ 0 _ _ _ (by omega)
        (by rw [hlen]; simp only [List.length_cons]; omega) hstep]
      exact c1 _ (by simp only [List.length_cons] at hfuel ⊢; omega)
    · rw [if_neg hO] at hA
      subst hA
      have h0 : offset = 0 := not_not.1 hO
      subst h0
      exact c1 _ (by simpa using hfuel)
  exact c0 _ (by omega)

theorem delimited_length_gt (tag : Nat) (P : Bytes) : P.length < (delimited tag P).length := by
  unfold delimited
  simp only [List.length_cons, List.length_append]
  omega

theorem index_wire_parts {D : Type} (path : Bytes) (range : Option (IndexPb.Range D))
    (file : Option (IndexPb.File D)) :
    ∃ Bp Cp : Bytes,
      Index.wire (⟨path, range, file, []⟩ : Index D) =
        (if path.length > 0 then delimited 0xa path else []) ++ (Bp ++ (Cp ++ [])) ∧
      (range = none → Bp = []) ∧
      (∀ r, range = some r → Bp = delimited 0x12 (Range.wire r)) ∧
      (file = none → Cp = []) ∧
      (∀ f, file = some f → Cp = delimited 0x1a (File.wire f)) := by
  cases range with
  | none =>
    cases file with
    | none => exact ⟨[], [], rfl, fun _ => rfl, fun _ h => by simp at h, fun _ => rfl,
        fun _ h => by simp at h⟩
    | some f => exact ⟨[], delimited 0x1a (File.wire f), rfl, fun _ => rfl,
        fun _ h => by simp at h, fun h => by simp at h, fun _ h => by
          simp only [Option.some.injEq] at h
          rw [h]⟩
  | some r =>
    cases file with
    | none => exact ⟨delimited 0x12 (Range.wire r), [], rfl, fun h => by simp at h,
        fun _ h => by
          simp only [Option.some.injEq] at h
          rw [h], fun _ => rfl, fun _ h => by simp at h⟩
    | some f => exact ⟨delimited 0x12 (Range.wire r), delimited 0x1a (File.wire f), rfl,
        fun h => by simp at h,
        fun _ h => by
          simp only [Option.some.injEq] at h
          rw [h],
        fun h => by simp at h,
        fun _ h => by
          simp only [Option.some.injEq] at h
          rw [h]⟩

theorem index_unmarshal_wire {D : Type} (C : DataRefCodec D) (m : Index D)
    (hrefs : m.NoRefs) (hun : m.NoUnrecognized)
    (hoff : ∀ range, m.Range = some range →
      -(2 : Int) ^ 63 ≤ range.Offset ∧ range.Offset < 2 ^ 63)
    (hl : (Index.wire m).length < 2 ^ 63) :
    Index.Unmarshal C Index.fresh (Index.wire m) = Result.ok m := by
  rcases m with ⟨path, range, file, unrec⟩
  obtain ⟨hu0, hu1, hu2⟩ := hun
  simp only at hu0 hu1 hu2 hoff
  subst hu0
  have hr1 := hrefs.1
  have hr2 := hrefs.2
  simp only at hr1 hr2
  unfold Index.Unmarshal Index.fresh
  obtain ⟨Bp, Cp, hw, hBn, hBs, hCn, hCs⟩ := index_wire_parts path range file
  generalize hA : (if path.length > 0 then delimited 0xa path else []) = A at hw
  have hlen : (Index.wire (⟨path, range, file, []⟩ : Index D)).length =
      A.length + (Bp.length + Cp.length) := by
    rw [hw]
    simp
  generalize hdA : Index.wire (⟨path, range, file, []⟩ : Index D) = dAtA at hw hlen hl ⊢
  have c3 : ∀ fuel, 1 ≤ fuel →
      unmarshalLoop (Index.unmarshalField C dAtA) dAtA.length fuel dAtA.length
        (⟨path, range, file, []⟩ : Index D) = Result.ok ⟨path, range, file, []⟩ :=
    fun fuel hfuel => unmarshalLoop_done _ _ _ _ hfuel
  have c2 : ∀ fuel, Cp.length + 1 ≤ fuel →
      unmarshalLoop (Index.unmarshalField C dAtA) dAtA.length fuel (A.length + Bp.length)
        (⟨path, range, none, []⟩ : Index D) = Result.ok ⟨path, range, file, []⟩ := by
    intro fuel hfuel
    cases hf : file with
    | none =>
      have hC := hCn hf
      subst hC
      have hidx : A.length + Bp.length = dAtA.length := by simpa using hlen.symm
      rw [hidx, ← hf]
      exact c3 _ (by omega)
    | some f =>
      have hC := hCs f hf
      subst hC
      have hsub := file_unmarshal_wire C f (hr2 f hf) (hu2 f hf)
        (by have := delimited_length_gt 0x1a (File.wire f); omega)
      have h2 := delimited_length_pos 0x1a (File.wire f)
      have hstep := Index.unmarshalField_file C dAtA (A ++ Bp) (File.wire f) []
        (⟨path, range, none, []⟩ : Index D) f hl (by rw [hw]; simp) rfl hsub
      simp only [List.length_append] at hstep
      rw [unmarshalLoop_next _ _ _ _ _ _ _ (by omega) (by omega) hstep]
      have hidx : A.length + Bp.length + (delimited 0x1a (File.wire f)).length =
          dAtA.length := by omega
      rw [hidx]
      have := c3 (fuel - 1) (by omega)
      rw [hf] at this
      exact this
  have c1 : ∀ fuel, Bp.length + Cp.length + 1 ≤ fuel →
      unmarshalLoop (Index.unmarshalField C dAtA) dAtA.length fuel A.length
        (⟨path, none, none, []⟩ : Index D) = Result.ok ⟨path, range, file, []⟩ := by
    intro fuel hfuel
    cases hr : range with
    | none =>
      have hB := hBn hr
      subst hB
      have := c2 fuel (by simp only [List.length_nil] at hfuel; omega)
      rw [hr] at this
      simpa using this
    | some r =>
      have hB := hBs r hr
      subst hB
      have hsub := range_unmarshal_wire C r (hr1 r hr) (hu1 r hr) (hoff r hr)
        (by have := delimited_length_gt 0x12 (Range.wire r); omega)
      have h2 := delimited_length_pos 0x12 (Range.wire r)
      have hstep := Index.unmarshalField_range C dAtA A (Range.wire r) (Cp ++ [])
        (⟨path, none, none, []⟩ : Index D) r hl hw rfl hsub
      rw [unmarshalLoop_next _ _ _ _ _ _ _ (by omega) (by omega) hstep]
      have := c2 (fuel - 1) (by omega)
      rw [hr] at this
      exact this
  have c0 : ∀ fuel, A.length + (Bp.length + Cp.length) + 1 ≤ fuel →
      unmarshalLoop (Index.unmarshalField C dAtA) dAtA.length fuel 0
        (⟨[], none, none, []⟩ : Index D) = Result.ok ⟨path, range, file, []⟩ := by
    intro fuel hfuel
    by_cases hP : path.length > 0
    · rw [if_pos hP] at hA
      subst hA
      have h2 := delimited_length_pos 0xa path
      have hstep := Index.unmarshalField_path C dAtA [] path (Bp ++ (Cp ++ []))
        (⟨[], none, none, []⟩ : Index D) hl (by rw [hw]; simp)
      simp only [List.length_nil, Nat.zero_add] at hstep
      rw [unmarshalLoop_next _ _ _ 0 _ _ _ (by omega) (by omega) hstep]
      exact c1 _ (by omega)
    · rw [if_neg hP] at hA
      subst hA
      have hnil : path = [] := List.eq_nil_of_length_eq_zero (by omega)
      subst hnil
      exact c1 _ (by simpa using hfuel)
  exact c0 _ (by omega)

/-! ## The claims on the file-index messages -/

/-- C23: for every `Index` whose `Range`, if present, has no `ChunkRef`, whose `File`, if
present, has no `DataRefs`, with no unrecognized bytes at any level, and whose values fit their
Go types, `Marshal` returns bytes, and `Unmarshal` of these bytes into a fresh `Index` succeeds
and yields the message itself: the path, the range with its offset, negative ones included, and
its last path, the file with its datum, and the absence of a range or file. -/
theorem C23_unmarshal_undoes_marshal {D : Type} (C : DataRefCodec D) (m : Index D)
    (hrefs : m.NoRefs) (hun : m.NoUnrecognized) (hrep : m.Representable C) :
    ∃ dAtA, Index.Marshal C m = Result.ok dAtA ∧
      Index.Unmarshal C Index.fresh dAtA = Result.ok m := by
  refine ⟨Index.wire m, ?_, ?_⟩
  · exact marshalWith_spec _ _ _ (index_size_eq C m hrefs)
      (fun B' hB' => index_marshalToSizedBuffer_spec C m hrefs B' hB')
  · exact index_unmarshal_wire C m hrefs hun hrep.2
      (by rw [← index_size_eq C m hrefs]; exact hrep.1)

/-- Witness for C23: the sample message, with a negative offset; its bytes are those the methods
compute. -/
theorem C23_unmarshal_undoes_marshal_witness :
    sampleIndex.NoRefs ∧ sampleIndex.NoUnrecognized ∧ sampleIndex.Representable unitCodec ∧
    Index.Marshal unitCodec sampleIndex =
      Result.ok [10, 2, 97, 98, 18, 14, 8, 255, 255, 255, 255, 255, 255, 255, 255, 255, 1,
        18, 1, 99, 26, 3, 10, 1, 100] ∧
    ∃ dAtA, Index.Marshal unitCodec sampleIndex = Result.ok dAtA ∧
      Index.Unmarshal unitCodec Index.fresh dAtA = Result.ok sampleIndex :=
  have hrefs : sampleIndex.NoRefs := by
    constructor
    · intro r hr
      have : r = sampleRange := by
        have h : sampleIndex.Range = some sampleRange := rfl
        rw [h] at hr
        exact (Option.some.inj hr).symm
      rw [this]
      rfl
    · intro f hf
      have : f = sampleFile := by
        have h : sampleIndex.File = some sampleFile := rfl
        rw [h] at hf
        exact (Option.some.inj hf).symm
      rw [this]
      rfl
  have hun : sampleIndex.NoUnrecognized := by
    refine ⟨rfl, ?_, ?_⟩
    · intro r hr
      have : r = sampleRange := by
        have h : sampleIndex.Range = some sampleRange := rfl
        rw [h] at hr
        exact (Option.some.inj hr).symm
      rw [this]
      rfl
    · intro f hf
      have : f = sampleFile := by
        have h : sampleIndex.File = some sampleFile := rfl
        rw [h] at hf
        exact (Option.some.inj hf).symm
      rw [this]
      rfl
  have hrep : sampleIndex.Representable unitCodec := by
    constructor
    · have h : Index.Size unitCodec sampleIndex = 25 := by decide
      rw [h]
      norm_num
    · intro r hr
      have : r = sampleRange := by
        have h : sampleIndex.Range = some sampleRange := rfl
        rw [h] at hr
        exact (Option.some.inj hr).symm
      rw [this]
      constructor <;> decide
  ⟨hrefs, hun, hrep, by decide, C23_unmarshal_undoes_marshal unitCodec sampleIndex hrefs hun hrep⟩

/-- C24: for every `Range` without a `ChunkRef`, every `File` without `DataRefs` and every
`Index` whose `Range` and `File` are such, `Marshal` returns bytes (no error, no panic), their
number is `Size()`, and `MarshalToSizedBuffer` on any buffer of exactly `Size()` bytes returns
`Size()` and leaves in the buffer exactly these bytes, whatever the buffer held: every byte of
the buffer is written and no write falls outside it. -/
theorem C24_marshal_fills_buffer_of_size {D : Type} (C : DataRefCodec D) (range : Range D)
    (file : File D) (m : Index D) (hrange : range.ChunkRef = none) (hfile : file.DataRefs = [])
    (hm : m.NoRefs) :
    (∃ bytes, Range.Marshal C range = Result.ok bytes ∧ bytes.length = Range.Size C range ∧
      ∀ dAtA : Bytes, dAtA.length = Range.Size C range →
        Range.MarshalToSizedBuffer C range dAtA = Result.ok (bytes, (Range.Size C range : Int))) ∧
    (∃ bytes, File.Marshal C file = Result.ok bytes ∧ bytes.length = File.Size C file ∧
      ∀ dAtA : Bytes, dAtA.length = File.Size C file →
        File.MarshalToSizedBuffer C file dAtA = Result.ok (bytes, (File.Size C file : Int))) ∧
    (∃ bytes, Index.Marshal C m = Result.ok bytes ∧ bytes.length = Index.Size C m ∧
      ∀ dAtA : Bytes, dAtA.length = Index.Size C m →
        Index.MarshalToSizedBuffer C m dAtA = Result.ok (bytes, (Index.Size C m : Int))) := by
  refine ⟨⟨Range.wire range, ?_, (range_size_eq C range hrange).symm, ?_⟩,
    ⟨File.wire file, ?_, (file_size_eq C file hfile).symm, ?_⟩,
    ⟨Index.wire m, ?_, (index_size_eq C m hm).symm, ?_⟩⟩
  · exact marshalWith_spec _ _ _ (range_size_eq C range hrange)
      (fun B' hB' => range_marshalToSizedBuffer_spec C range hrange B' hB')
  · intro dAtA hd
    rw [range_size_eq C range hrange] at hd ⊢
    rw [range_marshalToSizedBuffer_spec C range hrange dAtA (by omega), hd]
    simp
  · exact marshalWith_spec _ _ _ (file_size_eq C file hfile)
      (fun B' hB' => file_marshalToSizedBuffer_spec C file hfile B' hB')
  · intro dAtA hd
    rw [file_size_eq C file hfile] at hd ⊢
    rw [file_marshalToSizedBuffer_spec C file hfile dAtA (by omega), hd]
    simp
  · exact marshalWith_spec _ _ _ (index_size_eq C m hm)
      (fun B' hB' => index_marshalToSizedBuffer_spec C m hm B' hB')
  · intro dAtA hd
    rw [index_size_eq C m hm] at hd ⊢
    rw [index_marshalToSizedBuffer_spec C m hm dAtA (by omega), hd]
    simp

/-- Witness for C24: the sample range, the sample file and the sample message built from them;
the bytes of the message are those the methods compute. -/
theorem C24_marshal_fills_buffer_of_size_witness :
    sampleRange.ChunkRef = none ∧ sampleFile.DataRefs = [] ∧ sampleIndex.NoRefs ∧
    Index.MarshalToSizedBuffer unitCodec sampleIndex (List.replicate 25 7) =
      Result.ok ([10, 2, 97, 98, 18, 14, 8, 255, 255, 255, 255, 255, 255, 255, 255, 255, 1,
        18, 1, 99, 26, 3, 10, 1, 100], 25) ∧
    ∃ bytes, Index.Marshal unitCodec sampleIndex = Result.ok bytes ∧
      bytes.length = Index.Size unitCodec sampleIndex ∧
      ∀ dAtA : Bytes, dAtA.length = Index.Size unitCodec sampleIndex →
        Index.MarshalToSizedBuffer unitCodec sampleIndex dAtA =
          Result.ok (bytes, (Index.Size unitCodec sampleIndex : Int)) :=
  have hrefs : sampleIndex.NoRefs := by
    constructor
    · intro r hr
      have : r = sampleRange := by
        have h : sampleIndex.Range = some sampleRange := rfl
        rw [h] at hr
        exact (Option.some.inj hr).symm
      rw [this]
      rfl
    · intro f hf
      have : f = sampleFile := by
        have h : sampleIndex.File = some sampleFile := rfl
        rw [h] at hf
        exact (Option.some.inj hf).symm
      rw [this]
      rfl
  ⟨rfl, rfl, hrefs, by decide,
    (C24_marshal_fills_buffer_of_size unitCodec sampleRange sampleFile sampleIndex rfl rfl
      hrefs).2.2⟩

/-! ## Every loop of the reading returns -/

theorem readVarint_returns (dAtA : Bytes) : ∀ (fuel shift iNdEx x : Nat), 64 ≤ shift + 7 * fuel →
    x < 2 ^ 64 →
    (∃ e, readVarint dAtA (fuel + 1) shift iNdEx x = Result.error e) ∨
      ∃ v i, readVarint dAtA (fuel + 1) shift iNdEx x = Result.ok (v, i) ∧ iNdEx < i ∧
        i ≤ dAtA.length ∧ v < 2 ^ 64
  | 0, shift, iNdEx, x, hf, _ => by
    left
    rw [readVarint, if_pos (by omega)]
    exact ⟨_, rfl⟩
  | fuel + 1, shift, iNdEx, x, hf, hx => by
    rw [readVarint]
    by_cases hs : shift ≥ 64
    · rw [if_pos hs]
      exact Or.inl ⟨_, rfl⟩
    rw [if_neg hs]
    by_cases hi : iNdEx ≥ dAtA.length
    · rw [if_pos hi]
      exact Or.inl ⟨_, rfl⟩
    rw [if_neg hi]
    have hlt : iNdEx < dAtA.length := by omega
    rw [List.getElem?_eq_getElem hlt]
    have hx' : x ||| (((dAtA[iNdEx] &&& 0x7F) <<< shift) % 2 ^ 64) < 2 ^ 64 :=
      Nat.or_lt_two_pow hx (Nat.mod_lt _ (by norm_num))
    dsimp only
    by_cases hb : dAtA[iNdEx] < 0x80
    · rw [if_pos hb]
      exact Or.inr ⟨_, _, rfl, by omega, by omega, hx'⟩
    · rw [if_neg hb]
      rcases readVarint_returns dAtA fuel (shift + 7) (iNdEx + 1) _ (by omega) hx' with
        ⟨e, he⟩ | ⟨v, i, hr, h1, h2, h3⟩
      · exact Or.inl ⟨e, he⟩
      · exact Or.inr ⟨v, i, hr, by omega, h2, h3⟩

theorem skipVarint_returns (dAtA : Bytes) : ∀ (fuel shift iNdEx : Nat), 64 ≤ shift + 7 * fuel →
    (∃ e, skipVarint dAtA (fuel + 1) shift iNdEx = Result.error e) ∨
      ∃ i, skipVarint dAtA (fuel + 1) shift iNdEx = Result.ok i ∧ iNdEx < i ∧ i ≤ dAtA.length
  | 0, shift, iNdEx, hf => by
    left
    rw [skipVarint, if_pos (by omega)]
    exact ⟨_, rfl⟩
  | fuel + 1, shift, iNdEx, hf => by
    rw [skipVarint]
    by_cases hs : shift ≥ 64
    · rw [if_pos hs]
      exact Or.inl ⟨_, rfl⟩
    rw [if_neg hs]
    by_cases hi : iNdEx ≥ dAtA.length
    · rw [if_pos hi]
      exact Or.inl ⟨_, rfl⟩
    rw [if_neg hi]
    have hlt : iNdEx < dAtA.length := by omega
    rw [List.getElem?_eq_getElem hlt]
    dsimp only
    by_cases hb : dAtA[iNdEx] < 0x80
    · rw [if_pos hb]
      exact Or.inr ⟨_, rfl, by omega, by omega⟩
    · rw [if_neg hb]
      rcases skipVarint_returns dAtA fuel (shift + 7) (iNdEx + 1) (by omega) with
        ⟨e, he⟩ | ⟨i, hr, h1, h2⟩
      · exact Or.inl ⟨e, he⟩
      · exact Or.inr ⟨i, hr, by omega, h2⟩

theorem int64_nonneg (x : Nat) (hx : x < 2 ^ 64) (h : ¬ int64 x < 0) : x < 2 ^ 63 := by
  unfold int64 at h
  rw [Nat.mod_eq_of_lt hx] at h
  by_contra hc
  rw [if_neg hc] at h
  omega

theorem lengthDelimited_returns (dAtA : Bytes) (iNdEx : Nat) (hl : dAtA.length < 2 ^ 63) :
    (∃ e, lengthDelimited dAtA iNdEx = Result.error e) ∨
      ∃ a post, lengthDelimited dAtA iNdEx = Result.ok (a, post) ∧ iNdEx < a ∧ a ≤ post ∧
        post ≤ dAtA.length := by
  unfold lengthDelimited
  rcases readVarint_returns dAtA 10 0 iNdEx 0 (by norm_num) (by norm_num) with
    ⟨e, he⟩ | ⟨v, i, hr, h1, h2, h3⟩
  · rw [he]
    exact Or.inl ⟨e, rfl⟩
  · rw [hr, Result.ok_bind]
    dsimp only
    by_cases hneg : int64 v < 0
    · rw [if_pos hneg]
      exact Or.inl ⟨_, rfl⟩
    rw [if_neg hneg]
    have hv := int64_nonneg v h3 hneg
    by_cases hneg2 : int64 (i + v) < 0
    · rw [if_pos hneg2]
      exact Or.inl ⟨_, rfl⟩
    rw [if_neg hneg2]
    have hiv := int64_nonneg (i + v) (by omega) hneg2
    rw [int64_of_lt _ hiv]
    by_cases hgt : ((i + v : Nat) : Int) > (dAtA.length : Int)
    · rw [if_pos hgt]
      exact Or.inl ⟨_, rfl⟩
    rw [if_neg hgt]
    refine Or.inr ⟨i, i + v, ?_, h1, by omega, by omega⟩
    simp only [Result.ok.injEq, Prod.mk.injEq, true_and]
    omega

theorem skipLoop_returns (dAtA : Bytes) (hl : dAtA.length < 2 ^ 63) :
    ∀ (fuel iNdEx depth : Nat), dAtA.length ≤ fuel + iNdEx →
      (∃ e, skipLoop dAtA (fuel + 1) iNdEx depth = Result.error e) ∨
        ∃ n, skipLoop dAtA (fuel + 1) iNdEx depth = Result.ok n ∧ iNdEx < n ∧ n < 2 ^ 63
  | fuel, iNdEx, depth, hf => by
    rw [skipLoop]
    by_cases hi : iNdEx < dAtA.length
    swap
    · rw [if_neg hi]
      exact Or.inl ⟨_, rfl⟩
    rw [if_pos hi]
    rcases readVarint_returns dAtA 10 0 iNdEx 0 (by norm_num) (by norm_num) with
      ⟨e, he⟩ | ⟨wire, i, hr, h1, h2, h3⟩
    · rw [he]
      exact Or.inl ⟨e, rfl⟩
    rw [hr, Result.ok_bind]
    dsimp only
    -- what one round leaves: an error, or a greater index and a depth
    have hnext : ∀ (next : Result (Nat × Nat)),
        ((∃ e, next = Result.error e) ∨ ∃ j d, next = Result.ok (j, d) ∧ i ≤ j ∧ j < 2 ^ 64) →
        ((∃ e, (next.bind fun s =>
            if int64 s.1 < 0 then Result.error Error.ErrInvalidLengthIndex
            else if s.2 = 0 then Result.ok s.1
            else skipLoop dAtA fuel s.1 s.2) = Result.error e) ∨
          ∃ n, (next.bind fun s =>
            if int64 s.1 < 0 then Result.error Error.ErrInvalidLengthIndex
            else if s.2 = 0 then Result.ok s.1
            else skipLoop dAtA fuel s.1 s.2) = Result.ok n ∧ iNdEx < n ∧ n < 2 ^ 63) := by
      intro next hnext
      rcases hnext with ⟨e, he⟩ | ⟨j, d, hj, hij, hj64⟩
      · rw [he]
        exact Or.inl ⟨e, rfl⟩
      rw [hj, Result.ok_bind]
      dsimp only
      by_cases hneg : int64 j < 0
      · rw [if_pos hneg]
        exact Or.inl ⟨_, rfl⟩
      rw [if_neg hneg]
      have hj63 := int64_nonneg j hj64 hneg
      by_cases hd : d = 0
      · rw [if_pos hd]
        exact Or.inr ⟨j, rfl, by omega, hj63⟩
      rw [if_neg hd]
      cases fuel with
      | zero => omega
      | succ fuel =>
        rcases skipLoop_returns dAtA hl fuel j d (by omega) with ⟨e, he⟩ | ⟨n, hn, h4, h5⟩
        · exact Or.inl ⟨e, he⟩
        · exact Or.inr ⟨n, hn, by omega, h5⟩
    apply hnext
    by_cases h0 : wire &&& 0x7 = 0
    · rw [if_pos h0]
      rcases skipVarint_returns dAtA 10 0 i (by norm_num) with ⟨e, he⟩ | ⟨j, hj, h4, h5⟩
      · rw [he]
        exact Or.inl ⟨e, rfl⟩
      · rw [hj]
        exact Or.inr ⟨j, depth, rfl, by omega, by omega⟩
    rw [if_neg h0]
    by_cases h1 : wire &&& 0x7 = 1
    · rw [if_pos h1]
      exact Or.inr ⟨_, _, rfl, by omega, by omega⟩
    rw [if_neg h1]
    by_cases h2 : wire &&& 0x7 = 2
    · rw [if_pos h2]
      rcases readVarint_returns dAtA 10 0 i 0 (by norm_num) (by norm_num) with
        ⟨e, he⟩ | ⟨len, j, hj, h4, h5, h6⟩
      · rw [he]
        exact Or.inl ⟨e, rfl⟩
      rw [hj, Result.ok_bind]
      dsimp only
      by_cases hneg : int64 len < 0
      · rw [if_pos hneg]
        exact Or.inl ⟨_, rfl⟩
      rw [if_neg hneg]
      have hlen := int64_nonneg len h6 hneg
      exact Or.inr ⟨_, _, rfl, by omega, by omega⟩
    rw [if_neg h2]
    by_cases h3 : wire &&& 0x7 = 3
    · rw [if_pos h3]
      exact Or.inr ⟨_, _, rfl, by omega, by omega⟩
    rw [if_neg h3]
    by_cases h4 : wire &&& 0x7 = 4
    · rw [if_pos h4]
      by_cases hd : depth = 0
      · rw [if_pos hd]
        exact Or.inl ⟨_, rfl⟩
      · rw [if_neg hd]
        exact Or.inr ⟨_, _, rfl, by omega, by omega⟩
    rw [if_neg h4]
    by_cases h5 : wire &&& 0x7 = 5
    · rw [if_pos h5]
      exact Or.inr ⟨_, _, rfl, by omega, by omega⟩
    rw [if_neg h5]
    exact Or.inl ⟨_, rfl⟩
termination_by fuel => fuel

theorem skipIndex_returns (dAtA : Bytes) (hl : dAtA.length < 2 ^ 63) :
    (∃ e, skipIndex dAtA = Result.error e) ∨
      ∃ n, skipIndex dAtA = Result.ok n ∧ 0 < n ∧ n < 2 ^ 63 :=
  skipLoop_returns dAtA hl dAtA.length 0 0 (by omega)

theorem slice_sublist (dAtA : Bytes) (i post : Nat) (h1 : i ≤ post) (h2 : post ≤ dAtA.length) :
    slice dAtA i post = Result.ok ((dAtA.take post).drop i) := by
  unfold slice
  rw [if_pos ⟨h1, h2⟩]

theorem skipUnknown_returns (dAtA : Bytes) (preIndex : Nat) (hl : dAtA.length < 2 ^ 63) :
    (∃ e, skipUnknown dAtA preIndex = Result.error e) ∨
      ∃ i, skipUnknown dAtA preIndex = Result.ok ((dAtA.take i).drop preIndex, i) ∧
        preIndex < i ∧ i ≤ dAtA.length := by
  unfold skipUnknown
  rcases skipIndex_returns (dAtA.drop preIndex) (by rw [List.length_drop]; omega) with
    ⟨e, he⟩ | ⟨n, hn, h1, h2⟩
  · rw [he]
    exact Or.inl ⟨e, rfl⟩
  rw [hn, Result.ok_bind]
  by_cases hneg : int64 (preIndex + n) < 0
  · rw [if_pos hneg]
    exact Or.inl ⟨_, rfl⟩
  rw [if_neg hneg]
  by_cases hgt : preIndex + n > dAtA.length
  · rw [if_pos hgt]
    exact Or.inl ⟨_, rfl⟩
  rw [if_neg hgt, slice_sublist dAtA preIndex (preIndex + n) (by omega) (by omega),
    Result.ok_bind]
  exact Or.inr ⟨preIndex + n, rfl, by omega, by omega⟩

theorem Range.unmarshalField_returns {D : Type} (C : DataRefCodec D)
    (hC : ∀ d s, (∃ e, C.Unmarshal d s = Result.error e) ∨ ∃ r, C.Unmarshal d s = Result.ok r)
    (dAtA : Bytes) (hl : dAtA.length < 2 ^ 63) (preIndex : Nat) (m : IndexPb.Range D) :
    (∃ e, Range.unmarshalField C dAtA preIndex m = Result.error e) ∨
      ∃ m' i, Range.unmarshalField C dAtA preIndex m = Result.ok (m', i) ∧ preIndex < i ∧
        i ≤ dAtA.length ∧
        ∃ extra, m'.XXX_unrecognized = m.XXX_unrecognized ++ extra ∧
          extra.Sublist ((dAtA.take i).drop preIndex) := by
  unfold Range.unmarshalField
  rcases readVarint_returns dAtA 10 0 preIndex 0 (by norm_num) (by norm_num) with
    ⟨e, he⟩ | ⟨wire, i, hr, h1, h2, h3⟩
  · rw [he]
    exact Or.inl ⟨e, rfl⟩
  rw [hr, Result.ok_bind]
  dsimp only
  by_cases h4 : wire &&& 0x7 = 4
  · rw [if_pos h4]
    exact Or.inl ⟨_, rfl⟩
  rw [if_neg h4]
  by_cases hz : int32 (wire >>> 3) ≤ 0
  · rw [if_pos hz]
    exact Or.inl ⟨_, rfl⟩
  rw [if_neg hz]
  by_cases hf1 : int32 (wire >>> 3) = 1
  · rw [if_pos hf1]
    by_cases hw : wire &&& 0x7 ≠ 0
    · rw [if_pos hw]
      exact Or.inl ⟨_, rfl⟩
    rw [if_neg hw]
    rcases readVarint_returns dAtA 10 0 i 0 (by norm_num) (by norm_num) with
      ⟨e, he⟩ | ⟨v, j, hv, h5, h6, _⟩
    · rw [he]
      exact Or.inl ⟨e, rfl⟩
    rw [hv, Result.ok_bind]
    exact Or.inr ⟨_, _, rfl, by omega, h6, [], by simp, List.nil_sublist _⟩
  rw [if_neg hf1]
  by_cases hf2 : int32 (wire >>> 3) = 2
  · rw [if_pos hf2]
    by_cases hw : wire &&& 0x7 ≠ 2
    · rw [if_pos hw]
      exact Or.inl ⟨_, rfl⟩
    rw [if_neg hw]
    rcases lengthDelimited_returns dAtA i hl with ⟨e, he⟩ | ⟨a, post, hp, h5, h6, h7⟩
    · rw [he]
      exact Or.inl ⟨e, rfl⟩
    rw [hp, Result.ok_bind]
    dsimp only
    rw [slice_sublist dAtA a post h6 h7, Result.ok_bind]
    exact Or.inr ⟨_, _, rfl, by omega, h7, [], by simp, List.nil_sublist _⟩
  rw [if_neg hf2]
  by_cases hf3 : int32 (wire >>> 3) = 3
  · rw [if_pos hf3]
    by_cases hw : wire &&& 0x7 ≠ 2
    · rw [if_pos hw]
      exact Or.inl ⟨_, rfl⟩
    rw [if_neg hw]
    rcases lengthDelimited_returns dAtA i hl with ⟨e, he⟩ | ⟨a, post, hp, h5, h6, h7⟩
    · rw [he]
      exact Or.inl ⟨e, rfl⟩
    rw [hp, Result.ok_bind]
    dsimp only
    rw [slice_sublist dAtA a post h6 h7, Result.ok_bind]
    rcases hC (m.ChunkRef.getD C.fresh) ((dAtA.take post).drop a) with ⟨e, he⟩ | ⟨r, hr⟩
    · rw [he]
      exact Or.inl ⟨e, rfl⟩
    rw [hr, Result.ok_bind]
    exact Or.inr ⟨_, _, rfl, by omega, h7, [], by simp, List.nil_sublist _⟩
  rw [if_neg hf3]
  rcases skipUnknown_returns dAtA preIndex hl with ⟨e, he⟩ | ⟨j, hj, h5, h6⟩
  · rw [he]
    exact Or.inl ⟨e, rfl⟩
  rw [hj, Result.ok_bind]
  exact Or.inr ⟨_, _, rfl, h5, h6, _, rfl, List.Sublist.refl _⟩

theorem drop_split (dAtA : Bytes) (i j : Nat) (hij : i ≤ j) (hj : j ≤ dAtA.length) :
    dAtA.drop i = (dAtA.take j).drop i ++ dAtA.drop j := by
  have h : i ≤ (dAtA.take j).length := by
    rw [List.length_take]
    omega
  rw [← List.drop_append_of_le_length h, List.take_append_drop]

theorem unmarshalLoop_returns {M : Type} (field : Nat → M → Result (M × Nat)) (dAtA : Bytes)
    (unrecognized : M → Bytes)
    (hstep : ∀ i m, (∃ e, field i m = Result.error e) ∨
      ∃ m' j, field i m = Result.ok (m', j) ∧ i < j ∧ j ≤ dAtA.length ∧
        ∃ extra, unrecognized m' = unrecognized m ++ extra ∧
          extra.Sublist ((dAtA.take j).drop i)) :
    ∀ (fuel i : Nat) (m : M), i ≤ dAtA.length → dAtA.length ≤ fuel + i →
      (∃ e, unmarshalLoop field dAtA.length (fuel + 1) i m = Result.error e) ∨
        ∃ m', unmarshalLoop field dAtA.length (fuel + 1) i m = Result.ok m' ∧
          ∃ extra, unrecognized m' = unrecognized m ++ extra ∧ extra.Sublist (dAtA.drop i) := by
  intro fuel
  induction fuel with
  | zero =>
    intro i m hi hf
    have : i = dAtA.length := by omega
    subst this
    rw [unmarshalLoop_end]
    exact Or.inr ⟨m, rfl, [], by simp, List.nil_sublist _⟩
  | succ fuel ih =>
    intro i m hi hf
    by_cases hlt : i < dAtA.length
    swap
    · have : i = dAtA.length := by omega
      subst this
      rw [unmarshalLoop_end]
      exact Or.inr ⟨m, rfl, [], by simp, List.nil_sublist _⟩
    rcases hstep i m with ⟨e, he⟩ | ⟨m', j, hj, h1, h2, extra, hx, hsub⟩
    · rw [unmarshalLoop, if_pos hlt, he]
      exact Or.inl ⟨e, rfl⟩
    rw [unmarshalLoop_step field dAtA.length (fuel + 1) i m m' j hlt hj]
    rcases ih j m' h2 (by omega) with ⟨e, he⟩ | ⟨m'', hm, extra', hx', hsub'⟩
    · exact Or.inl ⟨e, he⟩
    refine Or.inr ⟨m'', hm, extra ++ extra', ?_, ?_⟩
    · rw [hx', hx, List.append_assoc]
    · rw [drop_split dAtA i j (by omega) h2]
      exact hsub.append hsub'

theorem range_unmarshal_returns {D : Type} (C : DataRefCodec D)
    (hC : ∀ d s, (∃ e, C.Unmarshal d s = Result.error e) ∨ ∃ r, C.Unmarshal d s = Result.ok r)
    (m : IndexPb.Range D) (dAtA : Bytes) (hl : dAtA.length < 2 ^ 63) :
    (∃ e, Range.Unmarshal C m dAtA = Result.error e) ∨
      ∃ m', Range.Unmarshal C m dAtA = Result.ok m' ∧
        ∃ extra, m'.XXX_unrecognized = m.XXX_unrecognized ++ extra ∧ extra.Sublist dAtA := by
  have h := unmarshalLoop_returns (Range.unmarshalField C dAtA) dAtA
    (fun m => m.XXX_unrecognized)
    (fun i m => Range.unmarshalField_returns C hC dAtA hl i m) dAtA.length 0 m (by omega)
    (by omega)
  simpa [Range.Unmarshal] using h

/-! ## A run that meets no `ChunkRef` payload does not depend on the codec -/

theorem unmarshalLoop_until {M : Type} (field field' : Nat → M → Result (M × Nat)) (l : Nat)
    (e0 : Error) (h : ∀ i m, field' i m = Result.error e0 ∨ field i m = field' i m) :
    ∀ (fuel i : Nat) (m : M), unmarshalLoop field' l fuel i m ≠ Result.error e0 →
      unmarshalLoop field l fuel i m = unmarshalLoop field' l fuel i m := by
  intro fuel
  induction fuel with
  | zero =>
    intro i m _
    rfl
  | succ fuel ih =>
    intro i m hne
    rw [unmarshalLoop] at hne
    rw [unmarshalLoop, unmarshalLoop]
    by_cases hlt : i < l
    · simp only [if_pos hlt] at hne ⊢
      rcases h i m with h' | h'
      · rw [h'] at hne
        exact absurd rfl hne
      · rw [h']
        cases hf : field' i m with
        | ok r =>
          rw [hf] at hne
          exact ih r.2 r.1 hne
        | error e => rfl
        | panic => rfl
        | unfinished => rfl
    · simp only [if_neg hlt]

theorem Range.unmarshalField_refusing {D : Type} (C : DataRefCodec D) (dAtA : Bytes)
    (preIndex : Nat) (m : IndexPb.Range D) :
    Range.unmarshalField C.refusing dAtA preIndex m = Result.error chunkRefPayload ∨
      Range.unmarshalField C dAtA preIndex m =
        Range.unmarshalField C.refusing dAtA preIndex m := by
  unfold Range.unmarshalField
  cases hr : readVarint dAtA 11 0 preIndex 0 with
  | ok r =>
    simp only [Result.ok_bind]
    by_cases hf3 : int32 (r.1 >>> 3) = 3 ∧ ¬ r.1 &&& 0x7 = 4 ∧ r.1 &&& 0x7 = 2
    · obtain ⟨h3, h4, h2⟩ := hf3
      rw [if_neg h4, if_neg (by omega), if_neg (by omega), if_neg (by omega), if_pos h3,
        if_neg (by simpa using h2)]
      rw [if_neg h4, if_neg (by omega), if_neg (by omega), if_neg (by omega), if_pos h3,
        if_neg (by simpa using h2)]
      cases hp : lengthDelimited dAtA r.2 with
      | ok p =>
        simp only [Result.ok_bind]
        cases hs : slice dAtA p.1 p.2 with
        | ok s =>
          left
          rfl
        | error e => right; rfl
        | panic => right; rfl
        | unfinished => right; rfl
      | error e => right; rfl
      | panic => right; rfl
      | unfinished => right; rfl
    · right
      by_cases h3 : int32 (r.1 >>> 3) = 3
      · by_cases h4 : r.1 &&& 0x7 = 4
        · rw [if_pos h4, if_pos h4]
        · have h2 : r.1 &&& 0x7 ≠ 2 := fun h2 => hf3 ⟨h3, h4, h2⟩
          rw [if_neg h4, if_neg (by omega), if_neg (by omega), if_neg (by omega), if_pos h3,
            if_pos h2]
          rw [if_neg h4, if_neg (by omega), if_neg (by omega), if_neg (by omega), if_pos h3,
            if_pos h2]
      · simp only [if_neg h3]
  | error e => right; rfl
  | panic => right; rfl
  | unfinished => right; rfl

theorem range_unmarshal_refusing {D : Type} (C : DataRefCodec D) (m : IndexPb.Range D)
    (dAtA : Bytes) (h : Range.Unmarshal C.refusing m dAtA ≠ Result.error chunkRefPayload) :
    Range.Unmarshal C m dAtA = Range.Unmarshal C.refusing m dAtA :=
  unmarshalLoop_until (Range.unmarshalField C dAtA) (Range.unmarshalField C.refusing dAtA)
    dAtA.length chunkRefPayload (Range.unmarshalField_refusing C dAtA) (dAtA.length + 1) 0 m h

theorem refusing_returns {D : Type} (C : DataRefCodec D) (d : D) (s : Bytes) :
    (∃ e, C.refusing.Unmarshal d s = Result.error e) ∨
      ∃ r, C.refusing.Unmarshal d s = Result.ok r :=
  Or.inl ⟨chunkRefPayload, rfl⟩

/-! ## The errors of a field that is too long, of a varint that is too long, of a bad tag -/

theorem int64_neg (x : Nat) (h1 : 2 ^ 63 ≤ x) (h2 : x < 2 ^ 64) : int64 x < 0 := by
  unfold int64
  rw [Nat.mod_eq_of_lt h2, if_neg (by omega)]
  omega

theorem readVarint_overflow (dAtA : Bytes) : ∀ (k fuel shift iNdEx x : Nat), k ≤ fuel →
    64 ≤ shift + 7 * k → (∀ j < k, ∃ b, dAtA[iNdEx + j]? = some b ∧ 0x80 ≤ b) →
    readVarint dAtA (fuel + 1) shift iNdEx x = Result.error Error.ErrIntOverflowIndex
  | 0, fuel, shift, iNdEx, x, _, hs, _ => by
    rw [readVarint, if_pos (by omega)]
  | k + 1, 0, shift, iNdEx, x, hk, _, _ => by omega
  | k + 1, fuel + 1, shift, iNdEx, x, hk, hs, hb => by
    rw [readVarint]
    by_cases h64 : shift ≥ 64
    · rw [if_pos h64]
    rw [if_neg h64]
    obtain ⟨b, hget, hge⟩ := hb 0 (by omega)
    rw [Nat.add_zero] at hget
    have hlt : iNdEx < dAtA.length := by
      by_contra hc
      rw [List.getElem?_eq_none (by omega)] at hget
      exact Option.noConfusion hget
    rw [if_neg (by omega), hget]
    dsimp only
    rw [if_neg (by omega)]
    apply readVarint_overflow dAtA k fuel (shift + 7) (iNdEx + 1) _ (by omega) (by omega)
    intro j hj
    have := hb (j + 1) (by omega)
    rwa [show iNdEx + (j + 1) = iNdEx + 1 + j by omega] at this

theorem skipVarint_overflow (dAtA : Bytes) : ∀ (k fuel shift iNdEx : Nat), k ≤ fuel →
    64 ≤ shift + 7 * k → (∀ j < k, ∃ b, dAtA[iNdEx + j]? = some b ∧ 0x80 ≤ b) →
    skipVarint dAtA (fuel + 1) shift iNdEx = Result.error Error.ErrIntOverflowIndex
  | 0, fuel, shift, iNdEx, _, hs, _ => by
    rw [skipVarint, if_pos (by omega)]
  | k + 1, 0, shift, iNdEx, hk, _, _ => by omega
  | k + 1, fuel + 1, shift, iNdEx, hk, hs, hb => by
    rw [skipVarint]
    by_cases h64 : shift ≥ 64
    · rw [if_pos h64]
    rw [if_neg h64]
    obtain ⟨b, hget, hge⟩ := hb 0 (by omega)
    rw [Nat.add_zero] at hget
    have hlt : iNdEx < dAtA.length := by
      by_contra hc
      rw [List.getElem?_eq_none (by omega)] at hget
      exact Option.noConfusion hget
    rw [if_neg (by omega), hget]
    dsimp only
    rw [if_neg (by omega)]
    apply skipVarint_overflow dAtA k fuel (shift + 7) (iNdEx + 1) (by omega) (by omega)
    intro j hj
    have := hb (j + 1) (by omega)
    rwa [show iNdEx + (j + 1) = iNdEx + 1 + j by omega] at this

theorem readVarint_bounds (dAtA : Bytes) (iNdEx v i : Nat)
    (h : readVarint dAtA 11 0 iNdEx 0 = Result.ok (v, i)) :
    iNdEx < i ∧ i ≤ dAtA.length ∧ v < 2 ^ 64 := by
  rcases readVarint_returns dAtA 10 0 iNdEx 0 (by norm_num) (by norm_num) with
    ⟨e, he⟩ | ⟨v', i', hr, h1, h2, h3⟩
  · rw [h] at he
    exact Result.noConfusion he
  · rw [h] at hr
    injection hr with hr
    injection hr with hv hi
    subst hv
    subst hi
    exact ⟨h1, h2, h3⟩

theorem unmarshalLoop_error {M : Type} (field : Nat → M → Result (M × Nat)) (l fuel i : Nat)
    (m : M) (e : Error) (hi : i < l) (hf : field i m = Result.error e) :
    unmarshalLoop field l (fuel + 1) i m = Result.error e := by
  rw [unmarshalLoop, if_pos hi, hf]
  rfl

theorem lengthDelimited_long (dAtA X rest : Bytes) (n : Nat) (hn : n < 2 ^ 64)
    (hd : dAtA = X ++ (varint n ++ rest)) (hrest : rest.length < n) :
    (X.length + (varint n).length + n < 2 ^ 63 →
      lengthDelimited dAtA X.length = Result.error Error.ErrUnexpectedEOF) ∧
    (2 ^ 63 ≤ X.length + (varint n).length + n → dAtA.length < 2 ^ 63 →
      lengthDelimited dAtA X.length = Result.error Error.ErrInvalidLengthIndex) := by
  have hr := readVarint_spec dAtA X rest n hn hd
  have hlen : dAtA.length = X.length + (varint n).length + rest.length := by
    rw [hd]
    simp only [List.length_append]
    omega
  unfold lengthDelimited
  rw [hr, Result.ok_bind]
  dsimp only
  constructor
  · intro hend
    rw [int64_of_lt n (by omega), if_neg (by omega), int64_of_lt _ hend, if_neg (by omega),
      if_pos (by omega)]
  · intro hend hl
    by_cases hbig : 2 ^ 63 ≤ n
    · rw [if_pos (int64_neg n hbig hn)]
    · rw [int64_of_lt n (by omega), if_neg (by omega),
        if_pos (int64_neg _ hend (by omega))]

theorem Range.unmarshalField_string_long {D : Type} (C : DataRefCodec D) (dAtA X rest : Bytes)
    (n : Nat) (m : IndexPb.Range D) (hn : n < 2 ^ 64)
    (hd : dAtA = X ++ 0x12 :: (varint n ++ rest)) (hrest : rest.length < n) :
    (X.length + 1 + (varint n).length + n < 2 ^ 63 →
      Range.unmarshalField C dAtA X.length m = Result.error Error.ErrUnexpectedEOF) ∧
    (2 ^ 63 ≤ X.length + 1 + (varint n).length + n → dAtA.length < 2 ^ 63 →
      Range.unmarshalField C dAtA X.length m = Result.error Error.ErrInvalidLengthIndex) := by
  have htag := readTag_spec dAtA X (varint n ++ rest) 0x12 (by norm_num) hd
  have hd' : dAtA = (X ++ [0x12]) ++ (varint n ++ rest) := by
    rw [hd]
    simp
  have hlong := lengthDelimited_long dAtA (X ++ [0x12]) rest n hn hd' hrest
  simp only [List.length_append, List.length_singleton] at hlong
  unfold Range.unmarshalField
  rw [htag, Result.ok_bind]
  dsimp only
  rw [if_neg (by rw [tag_12.1]; omega), if_neg (by rw [tag_12.2]; omega),
    if_neg (by rw [tag_12.2]; omega), if_pos tag_12.2, if_neg (by rw [tag_12.1]; simp)]
  constructor
  · intro hend
    rw [hlong.1 hend]
    rfl
  · intro hend hl
    rw [hlong.2 hend hl]
    rfl

theorem skipIndex_delimited (E rest : Bytes) (tag n : Nat) (htag : tag < 2 ^ 64)
    (hw : tag &&& 0x7 = 2) (hn : n < 2 ^ 64) (hE : E = varint tag ++ (varint n ++ rest)) :
    ((varint tag).length + (varint n).length + n < 2 ^ 63 →
      skipIndex E = Result.ok ((varint tag).length + (varint n).length + n)) ∧
    (2 ^ 63 ≤ (varint tag).length + (varint n).length + n → E.length < 2 ^ 63 →
      skipIndex E = Result.error Error.ErrInvalidLengthIndex) := by
  have h1 : readVarint E 11 0 0 0 = Result.ok (tag, (varint tag).length) := by
    have h := readVarint_spec E [] (varint n ++ rest) tag htag (by rw [hE]; rfl)
    simpa using h
  have h2 : readVarint E 11 0 (varint tag).length 0 =
      Result.ok (n, (varint tag).length + (varint n).length) :=
    readVarint_spec E (varint tag) rest n hn hE
  have hpos := varint_length_pos tag
  have hlen : E.length = (varint tag).length + (varint n).length + rest.length := by
    rw [hE]
    simp only [List.length_append]
    omega
  unfold skipIndex
  rw [skipLoop, if_pos (by omega), h1, Result.ok_bind]
  dsimp only
  rw [if_neg (by omega), if_neg (by omega), if_pos hw, h2, Result.ok_bind]
  dsimp only
  constructor
  · intro hend
    rw [int64_of_lt n (by omega), if_neg (by omega), Result.ok_bind]
    dsimp only
    rw [int64_of_lt _ hend, if_neg (by omega), if_pos rfl]
  · intro hend hl
    by_cases hbig : 2 ^ 63 ≤ n
    · rw [if_pos (int64_neg n hbig hn)]
      rfl
    · rw [int64_of_lt n (by omega), if_neg (by omega), Result.ok_bind]
      dsimp only
      rw [if_pos (int64_neg _ hend (by omega))]

theorem skipUnknown_long (dAtA X rest : Bytes) (tag n : Nat) (htag : tag < 2 ^ 64)
    (hw : tag &&& 0x7 = 2) (hn : n < 2 ^ 64)
    (hd : dAtA = X ++ (varint tag ++ (varint n ++ rest))) (hrest : rest.length < n) :
    (X.length + (varint tag).length + (varint n).length + n < 2 ^ 63 →
      skipUnknown dAtA X.length = Result.error Error.ErrUnexpectedEOF) ∧
    (2 ^ 63 ≤ X.length + (varint tag).length + (varint n).length + n →
      dAtA.length < 2 ^ 63 →
      skipUnknown dAtA X.length = Result.error Error.ErrInvalidLengthIndex) := by
  have hdrop : dAtA.drop X.length = varint tag ++ (varint n ++ rest) := by
    rw [hd]
    exact List.drop_left' rfl
  have hlen : dAtA.length = X.length + (varint tag).length + (varint n).length +
      rest.length := by
    rw [hd]
    simp only [List.length_append]
    omega
  have hskip := skipIndex_delimited (dAtA.drop X.length) rest tag n htag hw hn hdrop
  unfold skipUnknown
  constructor
  · intro hend
    rw [hskip.1 (by omega), Result.ok_bind, int64_of_lt _ (by omega), if_neg (by omega),
      if_pos (by omega)]
  · intro hend hl
    by_cases hfield : 2 ^ 63 ≤ (varint tag).length + (varint n).length + n
    · rw [hskip.2 hfield (by rw [List.length_drop]; omega)]
      rfl
    · rw [hskip.1 (by omega), Result.ok_bind, if_pos (int64_neg _ (by omega) (by omega))]

theorem Range.unmarshalField_unknown_long {D : Type} (C : DataRefCodec D)
    (dAtA X rest : Bytes) (tag n : Nat) (m : IndexPb.Range D) (htag : tag < 2 ^ 64)
    (hw : tag &&& 0x7 = 2) (hfield : 3 < int32 (tag >>> 3)) (hn : n < 2 ^ 64)
    (hd : dAtA = X ++ (varint tag ++ (varint n ++ rest))) (hrest : rest.length < n) :
    (X.length + (varint tag).length + (varint n).length + n < 2 ^ 63 →
      Range.unmarshalField C dAtA X.length m = Result.error Error.ErrUnexpectedEOF) ∧
    (2 ^ 63 ≤ X.length + (varint tag).length + (varint n).length + n →
      dAtA.length < 2 ^ 63 →
      Range.unmarshalField C dAtA X.length m = Result.error Error.ErrInvalidLengthIndex) := by
  have hread := readVarint_spec dAtA X (varint n ++ rest) tag htag hd
  have hlong := skipUnknown_long dAtA X rest tag n htag hw hn hd hrest
  unfold Range.unmarshalField
  rw [hread, Result.ok_bind]
  dsimp only
  rw [if_neg (by omega), if_neg (by omega), if_neg (by omega), if_neg (by omega),
    if_neg (by omega)]
  constructor
  · intro hend
    rw [hlong.1 hend]
    rfl
  · intro hend hl
    rw [hlong.2 hend hl]
    rfl

theorem Range.unmarshalField_tag {D : Type} (C : DataRefCodec D) (dAtA : Bytes)
    (preIndex wire i : Nat) (m : IndexPb.Range D)
    (h : readVarint dAtA 11 0 preIndex 0 = Result.ok (wire, i)) :
    (wire &&& 0x7 = 4 →
      Range.unmarshalField C dAtA preIndex m =
        Result.error (Error.endGroupForNonGroup "Range")) ∧
    (wire &&& 0x7 ≠ 4 → int32 (wire >>> 3) ≤ 0 →
      Range.unmarshalField C dAtA preIndex m =
        Result.error (Error.illegalTag "Range" (int32 (wire >>> 3)) wire)) := by
  unfold Range.unmarshalField
  rw [h, Result.ok_bind]
  dsimp only
  constructor
  · intro h4
    rw [if_pos h4]
  · intro h4 hz
    rw [if_neg h4, if_pos hz]

/-- C34 (counterexample): the field 2 of `hugeString` declares `2^63 - 1` bytes, more than the
none that remain, and `Range.Unmarshal` returns `ErrInvalidLengthIndex`, not
`io.ErrUnexpectedEOF`, because the index where the field would end overflows; the same for the
unknown field of `hugeUnknown`; and `skipIndex` itself returns 7 without an error for the
three bytes of `shortUnknown`, whose field declares five bytes and has one. -/
theorem C34_counterexample_length_near_overflow :
    hugeString.length = 10 ∧
    readVarint hugeString 11 0 1 0 = Result.ok (2 ^ 63 - 1, 10) ∧
    Range.Unmarshal unitCodec.refusing Range.fresh hugeString ≠
      Result.error chunkRefPayload ∧
    Range.Unmarshal unitCodec Range.fresh hugeString =
      Result.error Error.ErrInvalidLengthIndex ∧
    Range.Unmarshal unitCodec Range.fresh hugeString ≠ Result.error Error.ErrUnexpectedEOF ∧
    Range.Unmarshal unitCodec Range.fresh hugeUnknown =
      Result.error Error.ErrInvalidLengthIndex ∧
    shortUnknown.length = 3 ∧
    skipIndex shortUnknown = Result.ok 7 := by
  decide

/-- C34 (amended): on every input shorter than `2^63` bytes on which `Range.Unmarshal` meets no
`ChunkRef` payload, `Range.Unmarshal` returns, with a value or with an error, and so does
`skipIndex`: no index outside the input is read and no slice past its end is taken (either
would be a panic); what a successful `Range.Unmarshal` appends to `XXX_unrecognized` is a
subsequence of the input. Whenever the loop of `Range.Unmarshal` comes to a field 2 of wire
type 2, or to a field above 3 of wire type 2, that declares more bytes than remain, the method
returns `io.ErrUnexpectedEOF` if the index where the field would end is below `2^63`, and
`ErrInvalidLengthIndex` if it is not. Ten bytes of `0x80` or more in a row where a varint
starts make the varint loops, `Range.Unmarshal` at a tag and `skipIndex` at its first tag
return `ErrIntOverflowIndex`. A tag of wire type 4, and otherwise a tag with a field number of
zero or less, makes `Range.Unmarshal` return its error for it. -/
theorem C34_unmarshal_and_skip_return {D : Type} (C : DataRefCodec D) (m : IndexPb.Range D)
    (dAtA : Bytes) (hl : dAtA.length < 2 ^ 63)
    (hno : Range.Unmarshal C.refusing m dAtA ≠ Result.error chunkRefPayload) :
    (Range.Unmarshal C m dAtA).returns = true ∧
    (skipIndex dAtA).returns = true ∧
    (∀ m', Range.Unmarshal C m dAtA = Result.ok m' →
      ∃ extra, m'.XXX_unrecognized = m.XXX_unrecognized ++ extra ∧ extra.Sublist dAtA) ∧
    (∀ (X rest : Bytes) (n fuel : Nat) (m0 : IndexPb.Range D),
      dAtA = X ++ 0x12 :: (varint n ++ rest) → n < 2 ^ 64 → rest.length < n →
      (X.length + 1 + (varint n).length + n < 2 ^ 63 →
        unmarshalLoop (Range.unmarshalField C dAtA) dAtA.length (fuel + 1) X.length m0 =
          Result.error Error.ErrUnexpectedEOF) ∧
      (2 ^ 63 ≤ X.length + 1 + (varint n).length + n →
        unmarshalLoop (Range.unmarshalField C dAtA) dAtA.length (fuel + 1) X.length m0 =
          Result.error Error.ErrInvalidLengthIndex)) ∧
    (∀ (X rest : Bytes) (tag n fuel : Nat) (m0 : IndexPb.Range D),
      dAtA = X ++ (varint tag ++ (varint n ++ rest)) → tag < 2 ^ 64 → tag &&& 0x7 = 2 →
      3 < int32 (tag >>> 3) → n < 2 ^ 64 → rest.length < n →
      (X.length + (varint tag).length + (varint n).length + n < 2 ^ 63 →
        unmarshalLoop (Range.unmarshalField C dAtA) dAtA.length (fuel + 1) X.length m0 =
          Result.error Error.ErrUnexpectedEOF) ∧
      (2 ^ 63 ≤ X.length + (varint tag).length + (varint n).length + n →
        unmarshalLoop (Range.unmarshalField C dAtA) dAtA.length (fuel + 1) X.length m0 =
          Result.error Error.ErrInvalidLengthIndex)) ∧
    (∀ i : Nat, (∀ j < 10, ∃ b, dAtA[i + j]? = some b ∧ 0x80 ≤ b) →
      readVarint dAtA 11 0 i 0 = Result.error Error.ErrIntOverflowIndex ∧
      skipVarint dAtA 11 0 i = Result.error Error.ErrIntOverflowIndex ∧
      ∀ (fuel : Nat) (m0 : IndexPb.Range D),
        unmarshalLoop (Range.unmarshalField C dAtA) dAtA.length (fuel + 1) i m0 =
          Result.error Error.ErrIntOverflowIndex) ∧
    ((∀ j < 10, ∃ b, dAtA[j]? = some b ∧ 0x80 ≤ b) →
      skipIndex dAtA = Result.error Error.ErrIntOverflowIndex) ∧
    (∀ (i wire j fuel : Nat) (m0 : IndexPb.Range D),
      readVarint dAtA 11 0 i 0 = Result.ok (wire, j) →
      (wire &&& 0x7 = 4 →
        unmarshalLoop (Range.unmarshalField C dAtA) dAtA.length (fuel + 1) i m0 =
          Result.error (Error.endGroupForNonGroup "Range")) ∧
      (wire &&& 0x7 ≠ 4 → int32 (wire >>> 3) ≤ 0 →
        unmarshalLoop (Range.unmarshalField C dAtA) dAtA.length (fuel + 1) i m0 =
          Result.error (Error.illegalTag "Range" (int32 (wire >>> 3)) wire))) := by
  have hsame := range_unmarshal_refusing C m dAtA hno
  have hret := range_unmarshal_returns C.refusing (refusing_returns C) m dAtA hl
  have hfirst : ∀ i : Nat, (∀ j < 10, ∃ b, dAtA[i + j]? = some b ∧ 0x80 ≤ b) →
      i < dAtA.length := by
    intro i hb
    obtain ⟨b, hget, _⟩ := hb 0 (by norm_num)
    by_contra hc
    rw [List.getElem?_eq_none (by omega)] at hget
    exact Option.noConfusion hget
  refine ⟨?_, ?_, ?_, ?_, ?_, ?_, ?_, ?_⟩
  · rw [hsame]
    rcases hret with ⟨e, he⟩ | ⟨m', hm, _⟩
    · rw [he]
      rfl
    · rw [hm]
      rfl
  · rcases skipIndex_returns dAtA hl with ⟨e, he⟩ | ⟨n, hn, _⟩
    · rw [he]
      rfl
    · rw [hn]
      rfl
  · intro m' hm'
    rw [hsame] at hm'
    rcases hret with ⟨e, he⟩ | ⟨m'', hm, hx⟩
    · rw [hm'] at he
      exact Result.noConfusion he
    · rw [hm'] at hm
      injection hm with hm
      subst hm
      exact hx
  · intro X rest n fuel m0 hd hn hrest
    have hi : X.length < dAtA.length := by
      rw [hd]
      simp only [List.length_append, List.length_cons]
      omega
    have h := Range.unmarshalField_string_long C dAtA X rest n m0 hn hd hrest
    exact ⟨fun hend => unmarshalLoop_error _ _ _ _ _ _ hi (h.1 hend),
      fun hend => unmarshalLoop_error _ _ _ _ _ _ hi (h.2 hend hl)⟩
  · intro X rest tag n fuel m0 hd htag hw hfield hn hrest
    have hi : X.length < dAtA.length := by
      have := varint_length_pos tag
      rw [hd]
      simp only [List.length_append]
      omega
    have h := Range.unmarshalField_unknown_long C dAtA X rest tag n m0 htag hw hfield hn hd
      hrest
    exact ⟨fun hend => unmarshalLoop_error _ _ _ _ _ _ hi (h.1 hend),
      fun hend => unmarshalLoop_error _ _ _ _ _ _ hi (h.2 hend hl)⟩
  · intro i hb
    have hread := readVarint_overflow dAtA 10 10 0 i 0 (le_refl _) (by norm_num) hb
    refine ⟨hread, skipVarint_overflow dAtA 10 10 0 i (le_refl _) (by norm_num) hb, ?_⟩
    intro fuel m0
    apply unmarshalLoop_error _ _ _ _ _ _ (hfirst i hb)
    unfold Range.unmarshalField
    rw [hread]
    rfl
  · intro hb
    have hb' : ∀ j < 10, ∃ b, dAtA[0 + j]? = some b ∧ 0x80 ≤ b := by
      intro j hj
      rw [Nat.zero_add]
      exact hb j hj
    have hread := readVarint_overflow dAtA 10 10 0 0 0 (le_refl _) (by norm_num) hb'
    unfold skipIndex
    rw [skipLoop, if_pos (hfirst 0 hb'), hread]
    rfl
  · intro i wire j fuel m0 hread
    have hi : i < dAtA.length := by
      have := readVarint_bounds dAtA i wire j hread
      omega
    have h := Range.unmarshalField_tag C dAtA i wire j m0 hread
    exact ⟨fun h4 => unmarshalLoop_error _ _ _ _ _ _ hi (h.1 h4),
      fun h4 hz => unmarshalLoop_error _ _ _ _ _ _ hi (h.2 h4 hz)⟩

/-- Witness for C34: the five bytes of `offsetAndUnknown` are read to the end, and the unknown
field is appended to `XXX_unrecognized`; on the three bytes of `shortString`, whose field
declares five bytes, `Range.Unmarshal` returns `io.ErrUnexpectedEOF`. -/
theorem C34_unmarshal_and_skip_return_witness :
    offsetAndUnknown.length < 2 ^ 63 ∧
    Range.Unmarshal unitCodec.refusing Range.fresh offsetAndUnknown ≠
      Result.error chunkRefPayload ∧
    Range.Unmarshal unitCodec Range.fresh offsetAndUnknown =
      Result.ok ⟨7, [], none, [0x22, 0x01, 0x61]⟩ ∧
    (Range.Unmarshal unitCodec Range.fresh offsetAndUnknown).returns = true ∧
    (skipIndex offsetAndUnknown).returns = true ∧
    shortString.length < 2 ^ 63 ∧
    Range.Unmarshal unitCodec.refusing Range.fresh shortString ≠
      Result.error chunkRefPayload ∧
    Range.Unmarshal unitCodec Range.fresh shortString =
      Result.error Error.ErrUnexpectedEOF :=
  ⟨by decide, by decide, by decide,
    (C34_unmarshal_and_skip_return unitCodec Range.fresh offsetAndUnknown (by decide)
      (by decide)).1,
    (C34_unmarshal_and_skip_return unitCodec Range.fresh offsetAndUnknown (by decide)
      (by decide)).2.1,
    by decide, by decide,
    ((C34_unmarshal_and_skip_return unitCodec Range.fresh shortString (by decide)
      (by decide)).2.2.2.1 [] [0x61] 5 3 Range.fresh
        (by simp [shortString, varint_small]) (by decide) (by decide)).1
      (by simp [varint_small])⟩

end IndexPb
